import Mathlib

/-!
# WaykiChain persistence cache: `src/persistence/dbcache.h`

A shallow embedding of the keyed layered cache `CCompositeKVCache` and of the
scalar cache `CSimpleKVCache`, together with the collaborators they call
(`db_util`, `CDBAccess`, `CLevelDBBatch`, `CDBOpLogMap`), followed by theorems
about them.

After the cache come smaller embeddings of `entities/asset.h` (the order on
trading pairs), `tx/tx.cpp` (`CBaseTx::IsValidHeight`), `tx/coinutxotx.cpp` (the
password-hash lock of a UTXO output) and `persistence/pricefeeddb.cpp` (the
price point cache and its median), each in a namespace of its own.

Conventions of the embedding.

* A cache object and everything reachable through its `pBase` pointer is one
  value of type `CCompositeKVCache K V`: the layer itself and, below it, the
  chain of its ancestors.  A member function that mutates (all of them do,
  `GetDataIt` is `const` over `mutable` members) returns the new chain.
* `ASSERT`, `assert` and `throw` are the `error` results of `Except`.
* `uint32_t` arithmetic is arithmetic on `Nat` modulo `2 ^ 32`.
* An iterator is the entry it points to, `none` being `mapData.end()`.
-/

namespace dbcache

/-! ## Collaborators that are not part of `dbcache.h` -/

/-- The two ways a member function can fail: a failed `ASSERT` / `assert`, or the
`runtime_error` thrown by `AddDataToMap` ("alloc new cache item failed"). -/
inductive CacheError
  | assertion
  | alloc_failed
  deriving DecidableEq, Repr

/-- Modelled from the spec: `db_util::IsEmpty`, `db_util::SetEmpty` and
`::GetSerializeSize` live in `dbconf.h` / `serialize.h`, which are not among the
sources.  The spec speaks of a "domain-defined empty sentinel" and of the
"serialized byte-length" of keys and values; they are parameters here. -/
class DbUtil (α : Type) where
  IsEmpty : α → Bool
  SetEmpty : α → α
  GetSerializeSize : α → Nat

/-- Modelled from the spec: the empty sentinel is what `SetEmpty` produces and what
a default-constructed value (`ValueType()`) is. -/
class LawfulDbUtil (α : Type) [Inhabited α] [DbUtil α] : Prop where
  isEmpty_default : DbUtil.IsEmpty (default : α) = true
  isEmpty_setEmpty : ∀ a : α, DbUtil.IsEmpty (DbUtil.SetEmpty a) = true

/-- The type `dbk::PrefixType`: the domain tag of a cache. -/
abbrev PrefixType := Nat

/-- Modelled from the spec: `dbk::GenDbKey(PREFIX_TYPE, key)`, the domain-tagged key
("a stable byte prefix identifying the domain, concatenated with the serialized
key").  The pair stands for that concatenation. -/
def GenDbKey {K : Type} (tag : PrefixType) (key : K) : PrefixType × K := (tag, key)

/-- One operation accumulated in a `CLevelDBBatch`. -/
inductive BatchOp (K V : Type)
  | Write (key : PrefixType × K) (value : V)
  | Erase (key : PrefixType × K)
  deriving DecidableEq, Repr

/-- Modelled from the spec: `CLevelDBBatch`, the operations added by `batch.Write`
and `batch.Erase`, in the order they were added. -/
abbrev CLevelDBBatch (K V : Type) := List (BatchOp K V)

/-- Modelled from the spec: the backing store behind `CDBAccess` ("durable engine
exposing get(domain, key) / batched put-or-delete").  `data` is its content,
`batches` the history of the batches submitted through `WriteBatch`. -/
structure CDBAccess (K V : Type) where
  data : PrefixType × K → Option V
  batches : List (CLevelDBBatch K V)

/-- The effect of one batch operation on the store content. -/
def BatchOp.apply {K V : Type} [DecidableEq K] (d : PrefixType × K → Option V) :
    BatchOp K V → PrefixType × K → Option V
  | .Write key value => Function.update d key (some value)
  | .Erase key => Function.update d key none

/-- Modelled from the spec: `CDBAccess::GetData(PREFIX_TYPE, key, value)`, a point
lookup by domain-tagged key; `none` is the `false` result. -/
def CDBAccess.GetData {K V : Type} (db : CDBAccess K V) (tag : PrefixType) (key : K) :
    Option V :=
  db.data (GenDbKey tag key)

/-- Modelled from the spec: `CDBAccess::WriteBatch(batch)`, which applies the
operations of the batch in order, as one unit. -/
def CDBAccess.WriteBatch {K V : Type} [DecidableEq K] (db : CDBAccess K V)
    (batch : CLevelDBBatch K V) : CDBAccess K V :=
  { data := batch.foldl BatchOp.apply db.data, batches := db.batches ++ [batch] }

/-- Modelled from the spec: `CDbOpLog`, an op-log entry.  `Set(key, oldValue)` stores
the pair and `Get(key, value)` reads it back (`DB_OP_LOG_NEW_VALUE` not defined,
the configuration in which `UndoData` reads a plain `ValueType`). -/
structure CDbOpLog (K V : Type) where
  key : K
  value : V
  deriving DecidableEq, Repr

/-- The type `CDbOpLogs`: the entries of one domain, oldest first. -/
abbrev CDbOpLogs (K V : Type) := List (CDbOpLog K V)

/-- Modelled from the spec: `CDBOpLogMap`, "ordered-by-domain collection of sequences
of Op Log Entries". -/
abbrev CDBOpLogMap (K V : Type) := PrefixType → CDbOpLogs K V

/-- Modelled from the spec: `CDBOpLogMap::AddOpLog(prefixType, dbOpLog)`, which
"appends to the domain's sequence". -/
def CDBOpLogMap.AddOpLog {K V : Type} (m : CDBOpLogMap K V) (tag : PrefixType)
    (dbOpLog : CDbOpLog K V) : CDBOpLogMap K V :=
  Function.update m tag (m tag ++ [dbOpLog])

/-! ## `CCompositeKVCache` -/

/-- The struct `CacheValue`.  The `shared_ptr` is never shared between two map slots
(every copy into a map goes through `make_shared` or `*value = val`), so the
pointee is stored by value. -/
structure CacheValue (V : Type) where
  value : V
  is_modified : Bool
  deriving DecidableEq, Repr

/-- The type `Map` (`std::map<KeyType, CacheValue>`) as the list of its entries in
iteration order, which for a `std::map` is ascending key order. -/
abbrev Map (K V : Type) := List (K × CacheValue V)

/-- The type `Iterator`: the entry pointed to, or `none` for `mapData.end()`. -/
abbrev Iterator (K V : Type) := Option (K × CacheValue V)

/-- The data members of one cache object, `pBase` apart. -/
structure Layer (K V : Type) where
  mapData : Map K V
  pDbAccess : Option (CDBAccess K V)
  pDbOpLogMap : Option (CDBOpLogMap K V)
  is_calc_size : Bool
  size : Nat

/-- A cache object together with the objects its `pBase` chain leads to:
`root` has `pBase == nullptr`, `child` has `pBase` pointing to the rest. -/
inductive CCompositeKVCache (K V : Type)
  | root (self : Layer K V)
  | child (self : Layer K V) (pBase : CCompositeKVCache K V)

section Defs

variable {K V : Type}

/-- The member `find` of `std::map`. -/
def Map.find [DecidableEq K] : Map K V → K → Iterator K V
  | [], _ => none
  | (k, cv) :: m, key => if k = key then some (k, cv) else Map.find m key

/-- The member `count` of `std::map`. -/
def Map.count [DecidableEq K] (m : Map K V) (key : K) : Nat :=
  if (Map.find m key).isSome then 1 else 0

/-- The member `emplace` of `std::map`: the new map and whether the insertion took
place (it does not when the key is already there). -/
def Map.emplace [LinearOrder K] : Map K V → K → CacheValue V → Map K V × Bool
  | [], key, cv => ([(key, cv)], true)
  | (k, c) :: m, key, cv =>
    if key < k then ((key, cv) :: (k, c) :: m, true)
    else if key = k then ((k, c) :: m, false)
    else ((k, c) :: (Map.emplace m key cv).1, (Map.emplace m key cv).2)

/-- Writing through an iterator: `it->second.Set(val, isModified)` and
`it->second.SetValueEmpty(isModified)` replace the `CacheValue` of the entry
with key `key`. -/
def Map.assign [DecidableEq K] : Map K V → K → CacheValue V → Map K V
  | [], _, _ => []
  | (k, c) :: m, key, cv =>
    if k = key then (k, cv) :: m else (k, c) :: Map.assign m key cv

/-- A `std::map` holds its keys in strictly ascending order. -/
def Map.WF [LinearOrder K] (m : Map K V) : Prop :=
  (m.map Prod.fst).Sorted (· < ·)

/-- The layer of the cache object itself. -/
def CCompositeKVCache.self : CCompositeKVCache K V → Layer K V
  | .root l => l
  | .child l _ => l

/-- The same chain with the data members of the object itself replaced. -/
def CCompositeKVCache.withSelf : CCompositeKVCache K V → Layer K V → CCompositeKVCache K V
  | .root _, l => .root l
  | .child _ b, l => .child l b

/-- The member `GetBasePtr`: the chain `pBase` points to. -/
def CCompositeKVCache.GetBasePtr : CCompositeKVCache K V → Option (CCompositeKVCache K V)
  | .root _ => none
  | .child _ b => some b

/-- The member `CalcDataSize`, a `uint32_t`. -/
def CalcDataSize {α : Type} [DbUtil α] (d : α) : Nat :=
  DbUtil.GetSerializeSize d % 2 ^ 32

/-- The two-argument `IncDataSize(key, valueIn)`. -/
def IncDataSize [DbUtil K] [DbUtil V] (l : Layer K V) (key : K) (valueIn : V) : Layer K V :=
  if l.is_calc_size then
    { l with size := ((l.size + CalcDataSize key) % 2 ^ 32 + CalcDataSize valueIn) % 2 ^ 32 }
  else l

/-- The one-argument `IncDataSize(valueIn)`. -/
def IncDataSizeValue [DbUtil V] (l : Layer K V) (valueIn : V) : Layer K V :=
  if l.is_calc_size then { l with size := (l.size + CalcDataSize valueIn) % 2 ^ 32 } else l

/-- The member `DecDataSize`. -/
def DecDataSize [DbUtil V] (l : Layer K V) (valueIn : V) : Layer K V :=
  if l.is_calc_size then
    { l with size := if l.size > CalcDataSize valueIn then l.size - CalcDataSize valueIn else 0 }
  else l

/-- The member `UpdateDataSize`. -/
def UpdateDataSize [DbUtil V] (l : Layer K V) (oldValue newVvalue : V) : Layer K V :=
  if l.is_calc_size then
    { l with size :=
        if (l.size + CalcDataSize newVvalue) % 2 ^ 32 > CalcDataSize oldValue
        then (l.size + CalcDataSize newVvalue) % 2 ^ 32 - CalcDataSize oldValue else 0 }
  else l

/-- The member `AddOpLog` (`DB_OP_LOG_NEW_VALUE` not defined): with a sink attached
the entry `(key, oldValue)` is appended to the log of this domain. -/
def AddOpLog (tag : PrefixType) (l : Layer K V) (key : K) (oldValue : V)
    (_pNewValue : Option V) : Layer K V :=
  match l.pDbOpLogMap with
  | some m => { l with pDbOpLogMap := some (m.AddOpLog tag ⟨key, oldValue⟩) }
  | none => l

/-- The member `AddDataToMap(key, cacheValue)`: asserts that the key is new, emplaces
the entry, throws when the emplace did not insert, accounts for the size. -/
def AddDataToMap [LinearOrder K] [DbUtil K] [DbUtil V] (l : Layer K V) (key : K)
    (cacheValue : CacheValue V) : Except CacheError (Layer K V) :=
  if Map.count l.mapData key ≠ 0 then .error .assertion
  else if (Map.emplace l.mapData key cacheValue).2 = false then .error .alloc_failed
  else .ok (IncDataSize { l with mapData := (Map.emplace l.mapData key cacheValue).1 }
          key cacheValue.value)

/-- The member `ValueIsEmpty`. -/
def ValueIsEmpty [DbUtil V] : Iterator K V → Bool
  | none => true
  | some e => DbUtil.IsEmpty e.2.value

/-- The member `GetDataIt`: the local map first, then the parent (whose hit is copied
into this layer, not modified), else the store (whose hit is copied, not
modified).  Returns the iterator and the chain with the entries it added. -/
def GetDataIt [LinearOrder K] [DbUtil K] [DbUtil V] (tag : PrefixType) :
    CCompositeKVCache K V → K → Except CacheError (Iterator K V × CCompositeKVCache K V)
  | .root l, key =>
    match Map.find l.mapData key with
    | some e => .ok (some e, .root l)
    | none =>
      match l.pDbAccess with
      | some db =>
        match db.GetData tag key with
        | some v =>
          match AddDataToMap l key ⟨v, false⟩ with
          | .ok l1 => .ok (some (key, ⟨v, false⟩), .root l1)
          | .error err => .error err
        | none => .ok (none, .root l)
      | none => .ok (none, .root l)
  | .child l b, key =>
    match Map.find l.mapData key with
    | some e => .ok (some e, .child l b)
    | none =>
      match GetDataIt tag b key with
      | .ok (some baseIt, b1) =>
        match AddDataToMap l key ⟨baseIt.2.value, false⟩ with
        | .ok l1 => .ok (some (key, ⟨baseIt.2.value, false⟩), .child l1 b1)
        | .error err => .error err
      | .ok (none, b1) => .ok (none, .child l b1)
      | .error err => .error err

/-- The member `GetData(key, value)`: `some v` is `true` with `value = v`, `none` is
`false`. -/
def GetData [LinearOrder K] [DbUtil K] [DbUtil V] (tag : PrefixType)
    (c : CCompositeKVCache K V) (key : K) :
    Except CacheError (Option V × CCompositeKVCache K V) :=
  if DbUtil.IsEmpty key then .error .assertion
  else
    match GetDataIt tag c key with
    | .ok (it, c1) =>
      match it with
      | some e => if !DbUtil.IsEmpty e.2.value then .ok (some e.2.value, c1) else .ok (none, c1)
      | none => .ok (none, c1)
    | .error err => .error err

/-- The member `HasData`. -/
def HasData [LinearOrder K] [DbUtil K] [DbUtil V] (tag : PrefixType)
    (c : CCompositeKVCache K V) (key : K) :
    Except CacheError (Bool × CCompositeKVCache K V) :=
  if DbUtil.IsEmpty key then .error .assertion
  else
    match GetDataIt tag c key with
    | .ok (it, c1) => .ok (!ValueIsEmpty it, c1)
    | .error err => .error err

/-- The member `SetData`. -/
def SetData [LinearOrder K] [DbUtil K] [DbUtil V] [Inhabited V] (tag : PrefixType)
    (c : CCompositeKVCache K V) (key : K) (value : V) :
    Except CacheError (Bool × CCompositeKVCache K V) :=
  if DbUtil.IsEmpty key then .error .assertion
  else
    match GetDataIt tag c key with
    | .ok (none, c1) =>
      match AddDataToMap (AddOpLog tag c1.self key default (some value)) key ⟨value, true⟩ with
      | .ok l1 => .ok (true, c1.withSelf l1)
      | .error err => .error err
    | .ok (some e, c1) =>
      let l1 := UpdateDataSize (AddOpLog tag c1.self key e.2.value (some value)) e.2.value value
      .ok (true, c1.withSelf { l1 with mapData := Map.assign l1.mapData e.1 ⟨value, true⟩ })
    | .error err => .error err

/-- The member `EraseData`: a tombstone is written only over a value that is there
and not empty. -/
def EraseData [LinearOrder K] [DbUtil K] [DbUtil V] (tag : PrefixType)
    (c : CCompositeKVCache K V) (key : K) :
    Except CacheError (Bool × CCompositeKVCache K V) :=
  if DbUtil.IsEmpty key then .error .assertion
  else
    match GetDataIt tag c key with
    | .ok (some e, c1) =>
      if !DbUtil.IsEmpty e.2.value then
        let l1 := AddOpLog tag (DecDataSize c1.self e.2.value) key e.2.value none
        let l2 : Layer K V :=
          { l1 with mapData := Map.assign l1.mapData e.1 ⟨DbUtil.SetEmpty e.2.value, true⟩ }
        .ok (true, c1.withSelf (IncDataSizeValue l2 (DbUtil.SetEmpty e.2.value)))
      else .ok (true, c1)
    | .ok (none, c1) => .ok (true, c1)
    | .error err => .error err

/-- The member `Clear`, on the data members. -/
def Layer.Clear (l : Layer K V) : Layer K V :=
  { l with mapData := [], size := 0 }

/-- The member `Clear`. -/
def Clear (c : CCompositeKVCache K V) : CCompositeKVCache K V :=
  c.withSelf c.self.Clear

/-- The member `SetDataToCache`, on the data members ("set data to cache only"). -/
def Layer.SetDataToCache [LinearOrder K] [DbUtil K] [DbUtil V] (l : Layer K V) (key : K)
    (value : V) : Except CacheError (Layer K V) :=
  match Map.find l.mapData key with
  | some e =>
    .ok { UpdateDataSize l e.2.value value with
          mapData := Map.assign l.mapData e.1 ⟨value, true⟩ }
  | none => AddDataToMap l key ⟨value, true⟩

/-- The member `SetDataToCache`. -/
def SetDataToCache [LinearOrder K] [DbUtil K] [DbUtil V] (c : CCompositeKVCache K V)
    (key : K) (value : V) : Except CacheError (CCompositeKVCache K V) :=
  match c.self.SetDataToCache key value with
  | .ok l1 => .ok (c.withSelf l1)
  | .error err => .error err

/-- The loop of the `pBase` branch of `Flush`: every modified entry, in map order,
goes to `pBase->SetDataToCache`. -/
def FlushToBase [LinearOrder K] [DbUtil K] [DbUtil V] :
    Map K V → CCompositeKVCache K V → Except CacheError (CCompositeKVCache K V)
  | [], b => .ok b
  | item :: rest, b =>
    if item.2.is_modified then
      match SetDataToCache b item.1 item.2.value with
      | .ok b1 => FlushToBase rest b1
      | .error err => .error err
    else FlushToBase rest b

/-- The loop of the `pDbAccess` branch of `Flush`: every modified entry, in map
order, adds an `Erase` (empty value) or a `Write` to the batch. -/
def FlushBatch [DbUtil V] (tag : PrefixType) : Map K V → CLevelDBBatch K V
  | [] => []
  | item :: rest =>
    if item.2.is_modified then
      (if DbUtil.IsEmpty item.2.value then BatchOp.Erase (GenDbKey tag item.1)
       else BatchOp.Write (GenDbKey tag item.1) item.2.value) :: FlushBatch tag rest
    else FlushBatch tag rest

/-- The member `Flush`. -/
def Flush [LinearOrder K] [DbUtil K] [DbUtil V] (tag : PrefixType) :
    CCompositeKVCache K V → Except CacheError (CCompositeKVCache K V)
  | .child l b =>
    if l.pDbAccess.isSome then .error .assertion
    else
      match FlushToBase l.mapData b with
      | .ok b1 => .ok (.child l.Clear b1)
      | .error err => .error err
  | .root l =>
    match l.pDbAccess with
    | none => .error .assertion
    | some db =>
      .ok (.root { l with pDbAccess := some (db.WriteBatch (FlushBatch tag l.mapData)) }.Clear)

/-- The member `UndoData`. -/
def UndoData [LinearOrder K] [DbUtil K] [DbUtil V] (c : CCompositeKVCache K V)
    (dbOpLog : CDbOpLog K V) : Except CacheError (CCompositeKVCache K V) :=
  SetDataToCache c dbOpLog.key dbOpLog.value

/-- The member `UndoDataList`: from `rbegin()` to `rend()`, the last entry first. -/
def UndoDataList [LinearOrder K] [DbUtil K] [DbUtil V] (c : CCompositeKVCache K V) :
    CDbOpLogs K V → Except CacheError (CCompositeKVCache K V)
  | [] => .ok c
  | dbOpLog :: rest =>
    match UndoDataList c rest with
    | .ok c1 => UndoData c1 dbOpLog
    | .error err => .error err

/-- The value the read-through lookup finds below the local map: in the store for a
root, through the parent chain for a child. Pure counterpart of `GetDataIt`,
used to state what a lookup finds without its memoisation. -/
def lookupBelow [DecidableEq K] (tag : PrefixType) : CCompositeKVCache K V → K → Option V
  | .root l, key =>
    match l.pDbAccess with
    | some db => db.GetData tag key
    | none => none
  | .child _ b, key =>
    match Map.find b.self.mapData key with
    | some e => some e.2.value
    | none => lookupBelow tag b key

/-- The value the read-through lookup finds: the local entry, else what is below. -/
def lookup [DecidableEq K] (tag : PrefixType) (c : CCompositeKVCache K V) (key : K) :
    Option V :=
  match Map.find c.self.mapData key with
  | some e => some e.2.value
  | none => lookupBelow tag c key

/-- The iterator `GetDataIt` returns, as a pure function of the chain. -/
def lookupIt [DecidableEq K] (tag : PrefixType) (c : CCompositeKVCache K V) (key : K) :
    Iterator K V :=
  match Map.find c.self.mapData key with
  | some e => some e
  | none => (lookupBelow tag c key).map (fun v => (key, ⟨v, false⟩))

/-- The data members after a hit below was copied into the local map. -/
def Layer.memoised [LinearOrder K] [DbUtil K] [DbUtil V] (l : Layer K V) (key : K) (v : V) :
    Layer K V :=
  IncDataSize { l with mapData := (Map.emplace l.mapData key ⟨v, false⟩).1 } key v

/-- The chain `GetDataIt` leaves behind, as a pure function of the chain: every layer
that missed the key locally and found it below holds an unmodified copy. -/
def memo [LinearOrder K] [DbUtil K] [DbUtil V] (tag : PrefixType) :
    CCompositeKVCache K V → K → CCompositeKVCache K V
  | .root l, key =>
    match Map.find l.mapData key with
    | some _ => .root l
    | none =>
      match lookupBelow tag (.root l) key with
      | some v => .root (l.memoised key v)
      | none => .root l
  | .child l b, key =>
    match Map.find l.mapData key with
    | some _ => .child l b
    | none =>
      match lookupBelow tag (.child l b) key with
      | some v => .child (l.memoised key v) (memo tag b key)
      | none => .child l (memo tag b key)

/-- The result of `GetData` as a pure function of the chain: the value the lookup
finds, unless it is empty. -/
def found [DecidableEq K] [DbUtil V] (tag : PrefixType) (c : CCompositeKVCache K V) (key : K) :
    Option V :=
  (lookup tag c key).filter (fun v => !DbUtil.IsEmpty v)

/-- The relation between the data members `l` before and `l1` after the entry of `key`
was written: same bindings, the entry of `key` is `cv`, every other entry is
as before. -/
def Layer.Put [LinearOrder K] (l l1 : Layer K V) (key : K) (cv : CacheValue V) : Prop :=
  l1.pDbAccess = l.pDbAccess ∧ l1.is_calc_size = l.is_calc_size ∧
  (∀ k2, Map.find l1.mapData k2 = if k2 = key then some (key, cv) else Map.find l.mapData k2) ∧
  (∀ e ∈ l1.mapData, e = (key, cv) ∨ e ∈ l.mapData) ∧
  (Map.WF l.mapData → Map.WF l1.mapData)

/-- The value of the last modified entry of `key` in iteration order: the one whose
write `Flush` leaves in the parent. In a well-formed map there is at most one
entry of `key`. -/
def Map.lastModified [DecidableEq K] : Map K V → K → Option V
  | [], _ => none
  | item :: rest, key =>
    match Map.lastModified rest key with
    | some v => some v
    | none => if item.1 = key ∧ item.2.is_modified = true then some item.2.value else none

/-- One call of a sequence of mutations: `SetData(key, value)` or `EraseData(key)`. -/
inductive CacheOp (K V : Type)
  | set (key : K) (value : V)
  | erase (key : K)

/-- The key a call is made on. -/
def CacheOp.key : CacheOp K V → K
  | .set key _ => key
  | .erase key => key

/-- One call of the sequence, its `bool` result dropped. -/
def runOp [LinearOrder K] [DbUtil K] [DbUtil V] [Inhabited V] (tag : PrefixType)
    (c : CCompositeKVCache K V) : CacheOp K V → Except CacheError (CCompositeKVCache K V)
  | .set key value => (SetData tag c key value).map Prod.snd
  | .erase key => (EraseData tag c key).map Prod.snd

/-- A finite sequence of `SetData` / `EraseData` calls on the same cache object. -/
def runOps [LinearOrder K] [DbUtil K] [DbUtil V] [Inhabited V] (tag : PrefixType) :
    CCompositeKVCache K V → List (CacheOp K V) → Except CacheError (CCompositeKVCache K V)
  | c, [] => .ok c
  | c, op :: ops =>
    match runOp tag c op with
    | .ok c1 => runOps tag c1 ops
    | .error err => .error err

/-- The entries of this domain captured in the sink attached to the cache object
(`CDBOpLogMap::GetDbOpLogs(PREFIX_TYPE)`); none when no sink is attached. -/
def capturedLogs (tag : PrefixType) (c : CCompositeKVCache K V) : CDbOpLogs K V :=
  match c.self.pDbOpLogMap with
  | some m => m tag
  | none => []

/-- The first entry of a log for a key: the one `UndoDataList` replays last. -/
def firstLog [DecidableEq K] (es : CDbOpLogs K V) (key : K) : Option (CDbOpLog K V) :=
  es.find? (fun e => decide (e.key = key))

/-- The entry of `key` in the local map, where it is not modified, is a copy of what the
lookup below the layer finds for `key`: the state read-through memoisation leaves. -/
def FaithfulAt [DecidableEq K] (tag : PrefixType) (c : CCompositeKVCache K V) (key : K) : Prop :=
  ∀ e, Map.find c.self.mapData key = some e → e.2.is_modified = false →
    lookupBelow tag c key = some e.2.value

/-- Exactly one of `pBase` and `pDbAccess` is set: what `Flush` asserts. -/
def Bound (c : CCompositeKVCache K V) : Prop :=
  c.GetBasePtr.isSome = !c.self.pDbAccess.isSome

/-- What `GetData` finds below a layer once its map `m` was flushed: the last modified
entry of the key, else what the lookup below found before; nothing when that
value is empty. -/
def flushedFound [DecidableEq K] [DbUtil V] (tag : PrefixType) (m : Map K V)
    (c : CCompositeKVCache K V) (key : K) : Option V :=
  match Map.lastModified m key with
  | some v => (some v).filter (fun w => !DbUtil.IsEmpty w)
  | none => (lookupBelow tag c key).filter (fun w => !DbUtil.IsEmpty w)

/-- The domain-tagged key a batch operation is about. -/
def BatchOp.key : BatchOp K V → PrefixType × K
  | .Write key _ => key
  | .Erase key => key

/-- The key is in no local map of the chain and not in the store of its root. -/
def Absent [DecidableEq K] (tag : PrefixType) : CCompositeKVCache K V → K → Prop
  | .root l, key =>
    Map.find l.mapData key = none ∧ ∀ db, l.pDbAccess = some db → db.GetData tag key = none
  | .child l b, key => Map.find l.mapData key = none ∧ Absent tag b key

/-- The store bindings of the layers of a chain, the layer itself first: the content
and the batch history of every backing store the chain can reach. -/
def dbChain : CCompositeKVCache K V → List (Option (CDBAccess K V))
  | .root l => [l.pDbAccess]
  | .child l b => l.pDbAccess :: dbChain b

/-- The member `GetCacheSize`. -/
def GetCacheSize (c : CCompositeKVCache K V) : Nat :=
  c.self.size

/-- The sum, over the entries of a local map, of the serialized size of the key and of
the stored value. -/
def Map.dataSize [DbUtil K] [DbUtil V] (m : Map K V) : Nat :=
  (m.map (fun e => CalcDataSize e.1 + CalcDataSize e.2.value)).sum

/-- The size invariant of one cache object: the accumulated size is the sum over the
entries of the local map when size calculation is enabled, and `0` when it is not. -/
def Layer.SizeOK [DbUtil K] [DbUtil V] (l : Layer K V) : Prop :=
  (l.is_calc_size = true → l.size = Map.dataSize l.mapData) ∧
  (l.is_calc_size = false → l.size = 0)

/-- The size invariant on every cache object of a chain. -/
def AllSizeOK [DbUtil K] [DbUtil V] : CCompositeKVCache K V → Prop
  | .root l => l.SizeOK
  | .child l b => l.SizeOK ∧ AllSizeOK b

/-- Every cache object of the chain has room for `n` more bytes: its accumulated size
plus `n` stays below `2 ^ 32`. -/
def Room (n : Nat) : CCompositeKVCache K V → Prop
  | .root l => l.size + n < 2 ^ 32
  | .child l b => l.size + n < 2 ^ 32 ∧ Room n b

/-- The serialized size of the value the lookup finds, `0` when it finds none. -/
def foundSize [DecidableEq K] [DbUtil V] (tag : PrefixType) (c : CCompositeKVCache K V)
    (key : K) : Nat :=
  ((lookup tag c key).map (fun w => CalcDataSize w)).getD 0

/-- The serialized size of what is left of the value the lookup finds once it was
emptied, `0` when it finds none. -/
def emptiedSize [DecidableEq K] [DbUtil V] (tag : PrefixType) (c : CCompositeKVCache K V)
    (key : K) : Nat :=
  ((lookup tag c key).map (fun w => CalcDataSize (DbUtil.SetEmpty w))).getD 0

/-- The bytes a flush can add to the parent: the sizes of the modified entries. -/
def Map.modifiedSize [DbUtil K] [DbUtil V] (m : Map K V) : Nat :=
  Map.dataSize (m.filter (fun e => e.2.is_modified))

/-- The member `SetBase`: asserts that no store is bound and that the local map is empty,
then points `pBase` to `pBaseIn` (`none` is `nullptr`). -/
def SetBase (c : CCompositeKVCache K V) (pBaseIn : Option (CCompositeKVCache K V)) :
    Except CacheError (CCompositeKVCache K V) :=
  if c.self.pDbAccess.isSome then .error .assertion
  else if !c.self.mapData.isEmpty then .error .assertion
  else
    match pBaseIn with
    | some b => .ok (.child c.self b)
    | none => .ok (.root c.self)

/-- The modified entries of a local map, in map order: what the next `Flush` writes. -/
def Map.modified (m : Map K V) : Map K V :=
  m.filter (fun e => e.2.is_modified)

/-- Two chains of the same length agree, cache object by cache object, on the result of
`GetData` for every key and on the modified entries of the local map. -/
def SameReads [LinearOrder K] [DbUtil K] [DbUtil V] (tag : PrefixType) :
    CCompositeKVCache K V → CCompositeKVCache K V → Prop
  | .root l, .root l1 =>
    (∀ k, (GetData tag (.root l1) k).map Prod.fst = (GetData tag (.root l) k).map Prod.fst) ∧
    Map.modified l1.mapData = Map.modified l.mapData
  | .child l b, .child l1 b1 =>
    (∀ k, (GetData tag (.child l1 b1) k).map Prod.fst
      = (GetData tag (.child l b) k).map Prod.fst) ∧
    Map.modified l1.mapData = Map.modified l.mapData ∧ SameReads tag b b1
  | _, _ => False

/-- The loop of `operator=`: `mapData[otherItem.first].Set(otherItem.second)` for every
entry of the other map, in map order (`operator[]` inserts a default-constructed
`CacheValue` when the key is new). -/
def Map.copyFrom [LinearOrder K] [Inhabited V] (other : Map K V) : Map K V :=
  other.foldl (fun m otherItem =>
    Map.assign (Map.emplace m otherItem.1 ⟨default, false⟩).1 otherItem.1 otherItem.2) []

/-- The copy-assignment `operator=` (the copy constructor calls it): every data member is
taken from `other`, the map entry by entry; what `this` held is dropped. -/
def CCompositeKVCache.assign [LinearOrder K] [Inhabited V] (_this other : CCompositeKVCache K V) :
    CCompositeKVCache K V :=
  other.withSelf
    { mapData := Map.copyFrom other.self.mapData, pDbAccess := other.self.pDbAccess,
      pDbOpLogMap := other.self.pDbOpLogMap, is_calc_size := other.self.is_calc_size,
      size := other.self.size }

/-- No cache object of the chain has both a parent and a store: every object that has a
parent has `pDbAccess == nullptr`. -/
def Exclusive : CCompositeKVCache K V → Prop
  | .root _ => True
  | .child l b => l.pDbAccess = none ∧ Exclusive b

/-- A property of the data members holds of every cache object of the chain. -/
def AllLayers (p : Layer K V → Prop) : CCompositeKVCache K V → Prop
  | .root l => p l
  | .child l b => p l ∧ AllLayers p b

/-- No local map of the chain holds the empty key. -/
def NoEmptyKey [DbUtil K] (c : CCompositeKVCache K V) : Prop :=
  AllLayers (fun l => ∀ e ∈ l.mapData, DbUtil.IsEmpty e.1 = false) c

/-- The local map holds no empty key, and neither does an entry of this domain in the
sink attached to the cache object. -/
def Layer.CleanKeys [DbUtil K] (tag : PrefixType) (l : Layer K V) : Prop :=
  (∀ e ∈ l.mapData, DbUtil.IsEmpty e.1 = false) ∧
  (∀ m, l.pDbOpLogMap = some m → ∀ e ∈ m tag, DbUtil.IsEmpty e.key = false)

/-! ### `CSimpleKVCache` -/

/-- The data members of one scalar cache object, `pBase` apart. The slot `ptrData` is
`none` for `nullptr`; the store and the op-log sink are those of the keyed cache with
the unit key ("key (unit for scalar cache)"). -/
structure SimpleLayer (V : Type) where
  ptrData : Option V
  pDbAccess : Option (CDBAccess Unit V)
  pDbOpLogMap : Option (CDBOpLogMap Unit V)

/-- A scalar cache object together with the objects its `pBase` chain leads to. -/
inductive CSimpleKVCache (V : Type)
  | root (self : SimpleLayer V)
  | child (self : SimpleLayer V) (pBase : CSimpleKVCache V)

/-- Modelled from the spec: `CDBAccess::WriteBatch(PREFIX_TYPE, value)`, which "performs one
put/delete against the backing store": a delete when the value is the empty
sentinel, a put otherwise. -/
def CDBAccess.WriteBatchValue [DbUtil V] (db : CDBAccess Unit V) (tag : PrefixType)
    (value : V) : CDBAccess Unit V :=
  db.WriteBatch [if DbUtil.IsEmpty value then BatchOp.Erase (GenDbKey tag ())
    else BatchOp.Write (GenDbKey tag ()) value]

/-- Modelled from the spec: `db_util::MakeEmptyValue<ValueType>()`, a fresh value that is
the empty sentinel: the default-constructed value. -/
def MakeEmptyValue [Inhabited V] : V := default

/-- The layer of the scalar cache object itself. -/
def CSimpleKVCache.self : CSimpleKVCache V → SimpleLayer V
  | .root l => l
  | .child l _ => l

/-- The same chain with the data members of the object itself replaced. -/
def CSimpleKVCache.withSelf : CSimpleKVCache V → SimpleLayer V → CSimpleKVCache V
  | .root _, l => .root l
  | .child _ b, l => .child l b

/-- The chain `pBase` points to. -/
def CSimpleKVCache.GetBasePtr : CSimpleKVCache V → Option (CSimpleKVCache V)
  | .root _ => none
  | .child _ b => some b

/-- The member `GetDataPtr` of the scalar cache: the slot, else the parent (whose hit is
copied into the slot), else the store (whose hit is asserted not empty and put into
the slot). Returns the pointee and the chain with the slots it filled. -/
def CSimpleKVCache.GetDataPtr [DbUtil V] (tag : PrefixType) :
    CSimpleKVCache V → Except CacheError (Option V × CSimpleKVCache V)
  | .root l =>
    match l.ptrData with
    | some v => .ok (some v, .root l)
    | none =>
      match l.pDbAccess with
      | some db =>
        match db.GetData tag () with
        | some v =>
          if DbUtil.IsEmpty v then .error .assertion
          else .ok (some v, .root { l with ptrData := some v })
        | none => .ok (none, .root l)
      | none => .ok (none, .root l)
  | .child l b =>
    match l.ptrData with
    | some v => .ok (some v, .child l b)
    | none =>
      match CSimpleKVCache.GetDataPtr tag b with
      | .ok (some v, b1) => .ok (some v, .child { l with ptrData := some v } b1)
      | .ok (none, b1) => .ok (none, .child l b1)
      | .error err => .error err

/-- The member `GetData` of the scalar cache: `some v` is `true` with `value = v`. -/
def CSimpleKVCache.GetData [DbUtil V] (tag : PrefixType) (c : CSimpleKVCache V) :
    Except CacheError (Option V × CSimpleKVCache V) :=
  match c.GetDataPtr tag with
  | .ok (some v, c1) => if !DbUtil.IsEmpty v then .ok (some v, c1) else .ok (none, c1)
  | .ok (none, c1) => .ok (none, c1)
  | .error err => .error err

/-- The member `HasData` of the scalar cache. -/
def CSimpleKVCache.HasData [DbUtil V] (tag : PrefixType) (c : CSimpleKVCache V) :
    Except CacheError (Bool × CSimpleKVCache V) :=
  match c.GetDataPtr tag with
  | .ok (some v, c1) => .ok (!DbUtil.IsEmpty v, c1)
  | .ok (none, c1) => .ok (false, c1)
  | .error err => .error err

/-- The member `AddOpLog` of the scalar cache (`DB_OP_LOG_NEW_VALUE` not defined). -/
def SimpleLayer.AddOpLog (tag : PrefixType) (l : SimpleLayer V) (oldValue : V)
    (_pNewValue : Option V) : SimpleLayer V :=
  match l.pDbOpLogMap with
  | some m => { l with pDbOpLogMap := some (m.AddOpLog tag ⟨(), oldValue⟩) }
  | none => l

/-- The member `SetData` of the scalar cache: the slot is not read through; an empty slot
is first filled with an empty value, which is what gets logged. -/
def CSimpleKVCache.SetData [Inhabited V] (tag : PrefixType) (c : CSimpleKVCache V)
    (value : V) : Bool × CSimpleKVCache V :=
  let l0 : SimpleLayer V :=
    match c.self.ptrData with
    | some _ => c.self
    | none => { c.self with ptrData := some MakeEmptyValue }
  let l1 := l0.AddOpLog tag (l0.ptrData.getD MakeEmptyValue) (some value)
  (true, c.withSelf { l1 with ptrData := some value })

/-- The member `EraseData` of the scalar cache. -/
def CSimpleKVCache.EraseData [DbUtil V] (tag : PrefixType) (c : CSimpleKVCache V) :
    Except CacheError (Bool × CSimpleKVCache V) :=
  match c.GetDataPtr tag with
  | .ok (some v, c1) =>
    if !DbUtil.IsEmpty v then
      let l1 := c1.self.AddOpLog tag v none
      .ok (true, c1.withSelf { l1 with ptrData := some (DbUtil.SetEmpty v) })
    else .ok (true, c1)
  | .ok (none, c1) => .ok (true, c1)
  | .error err => .error err

/-- The member `Clear` of the scalar cache. -/
def CSimpleKVCache.Clear (c : CSimpleKVCache V) : CSimpleKVCache V :=
  c.withSelf { c.self with ptrData := none }

/-- The member `Flush` of the scalar cache: asserts a binding; a slot that is set goes to
the slot of the parent (asserting that no store is bound) or to the store, and is
reset. -/
def CSimpleKVCache.Flush [DbUtil V] (tag : PrefixType) :
    CSimpleKVCache V → Except CacheError (CSimpleKVCache V)
  | .child l b =>
    match l.ptrData with
    | some x =>
      if l.pDbAccess.isSome then .error .assertion
      else .ok (.child { l with ptrData := none } (b.withSelf { b.self with ptrData := some x }))
    | none => .ok (.child l b)
  | .root l =>
    match l.pDbAccess with
    | none => .error .assertion
    | some db =>
      match l.ptrData with
      | some x =>
        .ok (.root { l with pDbAccess := some (db.WriteBatchValue tag x), ptrData := none })
      | none => .ok (.root l)

/-- The member `UndoData` of the scalar cache: `dbOpLog.Get(*ptrData)` over the slot,
which is first filled when it is not set. -/
def CSimpleKVCache.UndoData [Inhabited V] (c : CSimpleKVCache V) (dbOpLog : CDbOpLog Unit V) :
    CSimpleKVCache V :=
  let l0 : SimpleLayer V :=
    match c.self.ptrData with
    | some _ => c.self
    | none => { c.self with ptrData := some MakeEmptyValue }
  c.withSelf { l0 with ptrData := some dbOpLog.value }

/-- The member `UndoDataList` of the scalar cache: the last entry first. -/
def CSimpleKVCache.UndoDataList [Inhabited V] (c : CSimpleKVCache V) :
    CDbOpLogs Unit V → CSimpleKVCache V
  | [] => c
  | dbOpLog :: rest => (CSimpleKVCache.UndoDataList c rest).UndoData dbOpLog

/-- The entries of this domain captured in the sink attached to the scalar cache. -/
def CSimpleKVCache.capturedLogs (tag : PrefixType) (c : CSimpleKVCache V) : CDbOpLogs Unit V :=
  match c.self.pDbOpLogMap with
  | some m => m tag
  | none => []

/-- One call on a cache object: a read (`GetData`, `HasData`) or a write (`SetData`,
`EraseData`). -/
inductive Call (K V : Type)
  | get (key : K)
  | has (key : K)
  | set (key : K) (value : V)
  | erase (key : K)

/-- The key a call is made on. -/
def Call.key : Call K V → K
  | .get key => key
  | .has key => key
  | .set key _ => key
  | .erase key => key

end Defs

/-! ## A concrete domain for the examples -/

/-- Unsigned integers as keys and values: empty when zero (the integer overloads
of `db_util`), four bytes when serialized. -/
instance instDbUtilNat : DbUtil Nat where
  IsEmpty n := n == 0
  SetEmpty _ := 0
  GetSerializeSize _ := 4

instance instLawfulDbUtilNat : LawfulDbUtil Nat where
  isEmpty_default := rfl
  isEmpty_setEmpty _ := rfl

/-- An empty backing store. -/
def emptyDb : CDBAccess Nat Nat := { data := fun _ => none, batches := [] }

/-- A backing store of the domain `tag` that holds `key -> value` and nothing else. -/
def singletonDb (tag : PrefixType) (key value : Nat) : CDBAccess Nat Nat :=
  { data := fun dbKey => if dbKey = (tag, key) then some value else none, batches := [] }

/-- The data members after the constructor `CCompositeKVCache(CDBAccess *pDbAccessIn)`. -/
def newStoreLayer {K V : Type} (db : CDBAccess K V) : Layer K V :=
  { mapData := [], pDbAccess := some db, pDbOpLogMap := none, is_calc_size := true, size := 0 }

/-- The data members after the constructor `CCompositeKVCache(CCompositeKVCache *pBaseIn)`. -/
def newChildLayer {K V : Type} : Layer K V :=
  { mapData := [], pDbAccess := none, pDbOpLogMap := none, is_calc_size := false, size := 0 }

/-- The member `SetDbOpLogMap`, on the data members. -/
def Layer.SetDbOpLogMap {K V : Type} (l : Layer K V) (pDbOpLogMapIn : Option (CDBOpLogMap K V)) :
    Layer K V :=
  { l with pDbOpLogMap := pDbOpLogMapIn }

/-- An op-log map with no entry in any domain. -/
def emptyOpLogMap {K V : Type} : CDBOpLogMap K V := fun _ => []

/-- The chain of scenario 2 of the spec: a root whose store holds `1 -> 10` (domain 7),
and over it a fresh layer with an empty op-log sink attached. -/
def scenarioTwo : CCompositeKVCache Nat Nat :=
  .child (newChildLayer.SetDbOpLogMap (some emptyOpLogMap))
    (.root (newStoreLayer (singletonDb 7 1 10)))

/-- A layer over an empty root that holds a modified entry, an unmodified (memoised)
entry and a modified tombstone. -/
def mixedLayer : Layer Nat Nat :=
  { mapData := [(1, ⟨10, true⟩), (2, ⟨5, false⟩), (3, ⟨0, true⟩)], pDbAccess := none,
    pDbOpLogMap := none, is_calc_size := false, size := 0 }

/-- A store-backed root cache with the same three entries in its local map. -/
def mixedRootLayer : Layer Nat Nat :=
  { mixedLayer with pDbAccess := some (singletonDb 7 3 8), is_calc_size := true, size := 24 }

/-- A child that holds a stale memoised tombstone: its unmodified entry says that key
`1` is empty while its parent holds `1 -> 10`. It is reached from fresh caches by
`P.SetData(1, 10); P.EraseData(1); C.GetData(1); P.SetData(1, 10)`. -/
def staleChild : CCompositeKVCache Nat Nat :=
  .child { newChildLayer with mapData := [(1, ⟨0, false⟩)] }
    (.root { newStoreLayer emptyDb with mapData := [(1, ⟨10, true⟩)], size := 8 })

/-- A child that holds a stale memoised tombstone over a store-backed root whose store
holds `1 -> 10`. It is reached from fresh caches by
`R.EraseData(1); C.GetData(1); R.Clear()`. -/
def staleOverStore : CCompositeKVCache Nat Nat :=
  .child { newChildLayer with mapData := [(1, ⟨0, false⟩)] }
    (.root (newStoreLayer (singletonDb 7 1 10)))

/-- A byte string as far as the cache looks at it: its length. It is empty when it has no
byte (the string overload of `db_util`) and is taken to serialize to its bytes. -/
structure Blob where
  len : Nat
  deriving DecidableEq, Repr

instance instInhabitedBlob : Inhabited Blob := ⟨⟨0⟩⟩

instance instDbUtilBlob : DbUtil Blob where
  IsEmpty b := b.len == 0
  SetEmpty _ := ⟨0⟩
  GetSerializeSize b := b.len

/-- An empty backing store of byte strings. -/
def emptyBlobDb : CDBAccess Nat Blob := { data := fun _ => none, batches := [] }

/-- The caches that the member functions build from a freshly constructed one, every call
leaving room in the 32-bit size counters: a call that reads through the parents has room,
in every cache of the chain, for the key and the value it finds (and `SetData` for the
new value, `EraseData` for the emptied one), `UndoData` for the key and the value of the
log entry, and a flush into a parent for the modified entries it writes. -/
inductive Reach [LinearOrder K] [DbUtil K] [DbUtil V] [Inhabited V] (tag : PrefixType) :
    CCompositeKVCache K V → Prop
  | store (db : CDBAccess K V) : Reach tag (.root (newStoreLayer db))
  | unbound : Reach tag (.root newChildLayer)
  | over {c : CCompositeKVCache K V} : Reach tag c → Reach tag (.child newChildLayer c)
  | base {l : Layer K V} {b : CCompositeKVCache K V} : Reach tag (.child l b) → Reach tag b
  | sink {c : CCompositeKVCache K V} (pDbOpLogMapIn : Option (CDBOpLogMap K V)) :
      Reach tag c → Reach tag (c.withSelf (c.self.SetDbOpLogMap pDbOpLogMapIn))
  | get {c c1 : CCompositeKVCache K V} (key : K) (r : Option V) : Reach tag c →
      Room (CalcDataSize key + foundSize tag c key) c →
      GetData tag c key = .ok (r, c1) → Reach tag c1
  | has {c c1 : CCompositeKVCache K V} (key : K) (r : Bool) : Reach tag c →
      Room (CalcDataSize key + foundSize tag c key) c →
      HasData tag c key = .ok (r, c1) → Reach tag c1
  | set {c c1 : CCompositeKVCache K V} (key : K) (value : V) (r : Bool) : Reach tag c →
      Room (CalcDataSize key + CalcDataSize value + foundSize tag c key) c →
      SetData tag c key value = .ok (r, c1) → Reach tag c1
  | erase {c c1 : CCompositeKVCache K V} (key : K) (r : Bool) : Reach tag c →
      Room (CalcDataSize key + foundSize tag c key + emptiedSize tag c key) c →
      EraseData tag c key = .ok (r, c1) → Reach tag c1
  | undo {c c1 : CCompositeKVCache K V} (dbOpLog : CDbOpLog K V) : Reach tag c →
      c.self.size + (CalcDataSize dbOpLog.key + CalcDataSize dbOpLog.value) < 2 ^ 32 →
      UndoData c dbOpLog = .ok c1 → Reach tag c1
  | clear {c : CCompositeKVCache K V} : Reach tag c → Reach tag (Clear c)
  | flush {c c1 : CCompositeKVCache K V} : Reach tag c →
      (∀ b, c.GetBasePtr = some b →
        b.self.size + Map.modifiedSize c.self.mapData < 2 ^ 32) →
      Flush tag c = .ok (c1) → Reach tag c1

/-- The cache states the constructors and the public member functions build: the three
constructors, the parent a state points to, the same object over a later state of its
parent, copy-assignment, `SetBase`, `SetDbOpLogMap` and every successful call of
`GetData`, `HasData`, `SetData`, `EraseData`, `UndoData`, `Clear` and `Flush`. -/
inductive Built [LinearOrder K] [DbUtil K] [DbUtil V] [Inhabited V] (tag : PrefixType) :
    CCompositeKVCache K V → Prop
  | unbound : Built tag (.root newChildLayer)
  | store (db : CDBAccess K V) : Built tag (.root (newStoreLayer db))
  | over {b : CCompositeKVCache K V} : Built tag b → Built tag (.child newChildLayer b)
  | base {l : Layer K V} {b : CCompositeKVCache K V} : Built tag (.child l b) → Built tag b
  | under {l : Layer K V} {b b1 : CCompositeKVCache K V} :
      Built tag (.child l b) → Built tag b1 → Built tag (.child l b1)
  | copy {c other : CCompositeKVCache K V} :
      Built tag c → Built tag other → Built tag (c.assign other)
  | setBase {c c1 : CCompositeKVCache K V} (pBaseIn : Option (CCompositeKVCache K V)) :
      Built tag c → (∀ b, pBaseIn = some b → Built tag b) → SetBase c pBaseIn = .ok c1 →
      Built tag c1
  | sink {c : CCompositeKVCache K V} (pDbOpLogMapIn : Option (CDBOpLogMap K V)) :
      Built tag c → Built tag (c.withSelf (c.self.SetDbOpLogMap pDbOpLogMapIn))
  | get {c c1 : CCompositeKVCache K V} (key : K) (r : Option V) :
      Built tag c → GetData tag c key = .ok (r, c1) → Built tag c1
  | has {c c1 : CCompositeKVCache K V} (key : K) (r : Bool) :
      Built tag c → HasData tag c key = .ok (r, c1) → Built tag c1
  | set {c c1 : CCompositeKVCache K V} (key : K) (value : V) (r : Bool) :
      Built tag c → SetData tag c key value = .ok (r, c1) → Built tag c1
  | erase {c c1 : CCompositeKVCache K V} (key : K) (r : Bool) :
      Built tag c → EraseData tag c key = .ok (r, c1) → Built tag c1
  | undo {c c1 : CCompositeKVCache K V} (dbOpLog : CDbOpLog K V) :
      Built tag c → UndoData c dbOpLog = .ok c1 → Built tag c1
  | clear {c : CCompositeKVCache K V} : Built tag c → Built tag (Clear c)
  | flush {c c1 : CCompositeKVCache K V} : Built tag c → Flush tag c = .ok c1 → Built tag c1

/-- The cache states built from empty caches (store-backed, or a fresh child over such a
state; a sink is attached while it has no entry of this domain) through successful calls
of `GetData`, `HasData`, `SetData`, `EraseData`, `Clear`, `Flush`, and `UndoDataList` on
entries that the sink of one of these states has captured. -/
inductive Grown [LinearOrder K] [DbUtil K] [DbUtil V] [Inhabited V] (tag : PrefixType) :
    CCompositeKVCache K V → Prop
  | store (db : CDBAccess K V) : Grown tag (.root (newStoreLayer db))
  | unbound : Grown tag (.root newChildLayer)
  | over {b : CCompositeKVCache K V} : Grown tag b → Grown tag (.child newChildLayer b)
  | base {l : Layer K V} {b : CCompositeKVCache K V} : Grown tag (.child l b) → Grown tag b
  | under {l : Layer K V} {b b1 : CCompositeKVCache K V} :
      Grown tag (.child l b) → Grown tag b1 → Grown tag (.child l b1)
  | sink {c : CCompositeKVCache K V} (pDbOpLogMapIn : Option (CDBOpLogMap K V)) :
      Grown tag c → (∀ m, pDbOpLogMapIn = some m → m tag = []) →
      Grown tag (c.withSelf (c.self.SetDbOpLogMap pDbOpLogMapIn))
  | get {c c1 : CCompositeKVCache K V} (key : K) (r : Option V) :
      Grown tag c → GetData tag c key = .ok (r, c1) → Grown tag c1
  | has {c c1 : CCompositeKVCache K V} (key : K) (r : Bool) :
      Grown tag c → HasData tag c key = .ok (r, c1) → Grown tag c1
  | set {c c1 : CCompositeKVCache K V} (key : K) (value : V) (r : Bool) :
      Grown tag c → SetData tag c key value = .ok (r, c1) → Grown tag c1
  | erase {c c1 : CCompositeKVCache K V} (key : K) (r : Bool) :
      Grown tag c → EraseData tag c key = .ok (r, c1) → Grown tag c1
  | clear {c : CCompositeKVCache K V} : Grown tag c → Grown tag (Clear c)
  | flush {c c1 : CCompositeKVCache K V} : Grown tag c → Flush tag c = .ok c1 → Grown tag c1
  | undoList {c c0 c1 : CCompositeKVCache K V} (dbOpLogs : CDbOpLogs K V) :
      Grown tag c → Grown tag c0 → (∀ e ∈ dbOpLogs, e ∈ capturedLogs tag c0) →
      UndoDataList c dbOpLogs = .ok c1 → Grown tag c1

/-- The data members after the constructor `CSimpleKVCache(CSimpleKVCache *pBaseIn)`, and
after the default constructor. -/
def newSimpleLayer {V : Type} : SimpleLayer V :=
  { ptrData := none, pDbAccess := none, pDbOpLogMap := none }

/-- The member `SetDbOpLogMap` of the scalar cache, on the data members. -/
def SimpleLayer.SetDbOpLogMap {V : Type} (l : SimpleLayer V)
    (pDbOpLogMapIn : Option (CDBOpLogMap Unit V)) : SimpleLayer V :=
  { l with pDbOpLogMap := pDbOpLogMapIn }

/-- A scalar cache without binding whose slot holds `10`. -/
def scalarParent : CSimpleKVCache Nat :=
  .root { newSimpleLayer with ptrData := some 10 }

/-- A fresh scalar child, with an empty op-log sink attached, over a parent whose slot
holds `10`. -/
def scalarChild : CSimpleKVCache Nat :=
  .child (newSimpleLayer.SetDbOpLogMap (some emptyOpLogMap)) scalarParent

end dbcache

/-! # Conversions of C++ integers -/

namespace cxx

/-- The conversion of an integer to `int32_t`: the value modulo `2 ^ 32`, in two's
complement. -/
def toInt32 (x : Int) : Int :=
  (x + 2 ^ 31) % 2 ^ 32 - 2 ^ 31

/-- The conversion of an integer to `uint64_t`: the value modulo `2 ^ 64`. -/
def toUInt64 (x : Int) : Int :=
  x % 2 ^ 64

end cxx

/-! # Trading pairs: `src/entities/asset.h` -/

namespace asset

/-- Modelled from the spec: `TokenSymbol` is a `std::string` (its typedef is not among the
sources): the list of its characters, which `operator<` compares lexicographically. -/
abbrev TokenSymbol := List Char

/-- The class `CAssetTradingPair`. -/
structure CAssetTradingPair where
  base_asset_symbol : TokenSymbol
  quote_asset_symbol : TokenSymbol
  deriving DecidableEq, Repr

/-- The friend `operator<` of `CAssetTradingPair`. -/
def CAssetTradingPair.operator_lt (a b : CAssetTradingPair) : Bool :=
  decide (a.base_asset_symbol < b.base_asset_symbol) ||
    decide (a.quote_asset_symbol < b.quote_asset_symbol)

/-- The friend `operator==` of `CAssetTradingPair`. -/
def CAssetTradingPair.operator_eq (a b : CAssetTradingPair) : Bool :=
  decide (a.base_asset_symbol = b.base_asset_symbol) &&
    decide (a.quote_asset_symbol = b.quote_asset_symbol)

/-- The pair `WICC-WUSD`. -/
def pairWiccWusd : CAssetTradingPair := ⟨"WICC".toList, "WUSD".toList⟩

/-- The pair `WUSD-WICC`. -/
def pairWusdWicc : CAssetTradingPair := ⟨"WUSD".toList, "WICC".toList⟩

end asset

/-! # Transactions: `src/tx/tx.cpp` -/

namespace tx

/-- Modelled from the spec: the enumeration `TxType` is declared in a header that is not
among the sources; `IsValidHeight` names three of its values, the others are `other`. -/
inductive TxType
  | BLOCK_REWARD_TX
  | UCOIN_BLOCK_REWARD_TX
  | PRICE_MEDIAN_TX
  | other (code : Nat)
  deriving DecidableEq, Repr

/-- The members of `CBaseTx` that `IsValidHeight` reads. -/
structure CBaseTx where
  nTxType : TxType
  valid_height : Int

/-- The member `CBaseTx::IsValidHeight`. The `int32_t` sum and difference wrap; the
division by two truncates towards zero. -/
def CBaseTx.IsValidHeight (t : CBaseTx) (nCurrHeight nTxCacheHeight : Int) : Bool :=
  if t.nTxType = .BLOCK_REWARD_TX ∨ t.nTxType = .UCOIN_BLOCK_REWARD_TX ∨
      t.nTxType = .PRICE_MEDIAN_TX then true
  else if t.valid_height > cxx.toInt32 (nCurrHeight + Int.tdiv nTxCacheHeight 2) then false
  else if t.valid_height < cxx.toInt32 (nCurrHeight - Int.tdiv nTxCacheHeight 2) then false
  else true

end tx

/-! # UTXO transfer conditions: `src/tx/coinutxotx.cpp` -/

namespace coinutxotx

/-- An input condition of a UTXO input, as far as the case `OP2PH` looks at it: a
password-hash-lock input condition (`IP2PH`) with its password, or a condition of
another type. -/
inductive CUtxoCondIn
  | IP2PH (password : String)
  | other (cond_type : Nat)
  deriving DecidableEq, Repr

/-- The class `CPasswordHashLockCondOut`; hashes are numbers, `0` being `uint256()`. -/
structure CPasswordHashLockCondOut where
  password_proof_required : Bool
  password_hash : Nat
  deriving DecidableEq, Repr

/-- The members of `CUtxoInput` that the case reads; the txid is its `ToString()`. -/
structure CUtxoInput where
  prev_utxo_txid : String
  prev_utxo_vout_index : Nat
  conds : List CUtxoCondIn
  deriving DecidableEq, Repr

/-- The members of `CAccount` that the case reads; the key id is its `ToString()`. -/
structure CAccount where
  keyid : String
  regid : Nat
  deriving DecidableEq, Repr

/-- The user id of the previous transaction: a key id, or another kind of id that the
account cache resolves. -/
inductive CUserID
  | keyId (keyid : String)
  | otherId (uid : Nat)
  deriving DecidableEq, Repr

/-- Modelled from the spec: the collaborators of the case that are not among the sources.
`Hash` is the hash of a text, `GetAccount` is `cw.accountCache.GetAccount`,
`ToString` is `CUserID::ToString` on a user id that is not a key id, and
`GetUtxoPasswordProof` is `txUtxoCache.GetUtxoPasswordProof`, which returns `true`
with the stored proof when there is one under the key (so the other caller in this
file, which deletes the proof it found, uses it). -/
structure Context where
  Hash : String → Nat
  GetAccount : Nat → Option CAccount
  ToString : Nat → String
  GetUtxoPasswordProof : String × Nat × Nat → Option Nat

/-- The first `IP2PH` condition of the input: the one the loop over `input.conds` examines
before its `break`. -/
def firstIP2PH : List CUtxoCondIn → Option String
  | [] => none
  | .IP2PH password :: _ => some password
  | .other _ :: rest => firstIP2PH rest

/-- The case `UtxoCondType::OP2PH` of `CheckUtxoOutCondition`: `.ok ()` is `return true`,
`.error errMsg` is `return false` with the message. A `std::string` is a text here and
its `size()` is the number of its bytes (`utf8ByteSize`), not of its characters. -/
def CheckUtxoOutCondition_OP2PH (context : Context) (isPrevUtxoOut : Bool)
    (prevUtxoTxUid : CUserID) (txAcct : CAccount) (input : CUtxoInput)
    (theCond : CPasswordHashLockCondOut) : Except String Unit :=
  if isPrevUtxoOut then
    match firstIP2PH input.conds with
    | none => .error "input cond not found"
    | some password =>
      if password.utf8ByteSize > 256 then
        .error ("p2phCondIn.password.size() =" ++ toString password.utf8ByteSize ++ " > 256")
      else
        let prevUtxoTxKeyId : Except String String :=
          match prevUtxoTxUid with
          | .keyId keyid => .ok keyid
          | .otherId uid =>
            match context.GetAccount uid with
            | some acct => .ok acct.keyid
            | none =>
              .error ("prevUtxoTxUid(" ++ context.ToString uid ++ ")'s account not found")
        match prevUtxoTxKeyId with
        | .error errMsg => .error errMsg
        | .ok keyId =>
          let checkProof : Except String Unit :=
            if theCond.password_proof_required then
              let hash := context.Hash (password ++ keyId ++ txAcct.keyid ++ input.prev_utxo_txid
                ++ toString input.prev_utxo_vout_index)
              match context.GetUtxoPasswordProof
                  (input.prev_utxo_txid, input.prev_utxo_vout_index, txAcct.regid) with
              | some _ => .error "GetUtxoPasswordProof failed"
              | none => if hash ≠ 0 then .error "hash != proof" else .ok ()
            else .ok ()
          match checkProof with
          | .error errMsg => .error errMsg
          | .ok _ =>
            if theCond.password_hash ≠ context.Hash (keyId ++ password) then
              .error "theCond.password_hash != hash"
            else .ok ()
  else if theCond.password_hash = 0 then .error "theCond.password_hash empty"
  else .ok ()

/-- A context for the examples: the hash of a text is its length plus one, no account is
known, and the only stored proof is the one a spender with regid `9` submitted for
output `0` of transaction `"t1"` and the password `"pw"`. -/
def exampleContext : Context where
  Hash := fun text => text.length + 1
  GetAccount := fun _ => none
  ToString := fun uid => toString uid
  GetUtxoPasswordProof := fun key =>
    if key = ("t1", 0, 9) then some (("pw" ++ "owner" ++ "spender" ++ "t1" ++ "0").length + 1)
    else none

end coinutxotx

/-! # The price point cache: `src/persistence/pricefeeddb.cpp` -/

namespace cxx

/-- A `std::map` as the list of its entries in iteration order. -/
abbrev StdMap (K V : Type) := List (K × V)

/-- The member `find` of `std::map`: the mapped value, `none` for `end()`. -/
def StdMap.find {K V : Type} [DecidableEq K] : StdMap K V → K → Option V
  | [], _ => none
  | (k, v) :: m, key => if k = key then some v else StdMap.find m key

/-- The assignment `m[key] = value`: the entry is replaced, or inserted at its place in key
order. -/
def StdMap.insert {K V : Type} [LinearOrder K] : StdMap K V → K → V → StdMap K V
  | [], key, value => [(key, value)]
  | (k, v) :: m, key, value =>
    if key < k then (key, value) :: (k, v) :: m
    else if key = k then (k, value) :: m
    else (k, v) :: StdMap.insert m key value

/-- The member `erase(key)` of `std::map`. -/
def StdMap.erase {K V : Type} [DecidableEq K] : StdMap K V → K → StdMap K V
  | [], _ => []
  | (k, v) :: m, key => if k = key then StdMap.erase m key else (k, v) :: StdMap.erase m key

/-- The member `emplace(key, value)` of `std::map`: nothing happens when the key is
there. -/
def StdMap.emplace {K V : Type} [LinearOrder K] (m : StdMap K V) (key : K) (value : V) :
    StdMap K V :=
  if (StdMap.find m key).isSome then m else StdMap.insert m key value

/-- The keys of the map are distinct, as in every `std::map`. -/
def StdMap.Distinct {K V : Type} (m : StdMap K V) : Prop :=
  (m.map Prod.fst).Nodup

end cxx

namespace pricefeeddb

open cxx

/-- The struct `CMedianPriceDetail`, default-constructed as `{0, 0}`. -/
structure CMedianPriceDetail where
  price : Nat
  last_feed_height : Int
  deriving DecidableEq, Repr

/-- The type `map<CRegID, uint64_t>`: the prices the users fed in one block. -/
abbrev UserPrices (R : Type) := StdMap R Nat

/-- The type `BlockUserPriceMap`: block height to user prices. -/
abbrev BlockUserPriceMap (R : Type) := StdMap Int (UserPrices R)

/-- The class `CConsecutiveBlockPrice`. -/
structure CConsecutiveBlockPrice (R : Type) where
  mapBlockUserPrices : BlockUserPriceMap R

/-- The type `CoinPricePointMap`: coin pair to consecutive block prices. -/
abbrev CoinPricePointMap (P R : Type) := StdMap P (CConsecutiveBlockPrice R)

/-- A `CPricePointMemCache` together with the caches its `pBase` chain leads to. -/
inductive CPricePointMemCache (P R : Type)
  | root (mapCoinPricePointCache : CoinPricePointMap P R)
  | child (mapCoinPricePointCache : CoinPricePointMap P R) (pBase : CPricePointMemCache P R)

/-- The member `ComputeMedianNumber` on a vector of `uint64_t`: the size is taken as an
`int32_t`, the vector is sorted ascending, and the sum of the two middle numbers of an
even-sized vector is a `uint64_t` sum. -/
def ComputeMedianNumber (numbers : List Nat) : Nat :=
  let size : Int := toInt32 numbers.length
  if size < 2 then (if size = 0 then 0 else numbers.getD 0 0)
  else
    let sorted := numbers.insertionSort (· ≤ ·)
    if Int.tmod size 2 = 0 then
      (sorted.getD (Int.tdiv size 2 - 1).toNat 0 + sorted.getD (Int.tdiv size 2).toNat 0)
        % 2 ^ 64 / 2
    else sorted.getD (Int.tdiv size 2).toNat 0

/-- The loop of `ComputeBlockMedianPrice`: from `height` down while it is above
`beginBlockHeight`, at most `count` times; the state is `last_feed_height` and the
vector `prices`. -/
def priceLoop {R : Type} (blockUserPrices : BlockUserPriceMap R)
    (blockHeight beginBlockHeight : Int) : Nat → Int → Int × List Nat → Int × List Nat
  | 0, _, st => st
  | count + 1, height, st =>
    if height > beginBlockHeight then
      priceLoop blockUserPrices blockHeight beginBlockHeight count (height - 1)
        (match StdMap.find blockUserPrices height with
          | some userPrices =>
            (if height = blockHeight then blockHeight else st.1,
              st.2 ++ userPrices.map Prod.snd)
          | none => st)
    else st

/-- The member `ComputeBlockMedianPrice(blockHeight, slideWindow, blockUserPrices)`. The
difference `blockHeight - slideWindow` is a `uint64_t` difference, converted to
`int32_t` for `std::max<int32_t>`; the loop runs `blockHeight - beginBlockHeight`
times when that is positive. -/
def ComputeBlockMedianPrice {R : Type} (blockHeight : Int) (slideWindow : Nat)
    (blockUserPrices : BlockUserPriceMap R) : CMedianPriceDetail :=
  let beginBlockHeight : Int :=
    max (toInt32 (toUInt64 (toUInt64 blockHeight - slideWindow))) 0
  let st := priceLoop blockUserPrices blockHeight beginBlockHeight
    (blockHeight - beginBlockHeight).toNat blockHeight (0, [])
  { price := ComputeMedianNumber st.2, last_feed_height := st.1 }

/-- The heights `h` with `max(blockHeight - slideWindow, 0) < h <= blockHeight`, the
difference taken over the integers, from `blockHeight` downwards. -/
def windowHeights (blockHeight : Int) (slideWindow : Nat) : List Int :=
  (List.range (blockHeight - max (blockHeight - slideWindow) 0).toNat).map
    (fun (i : Nat) => blockHeight - (i : Int))

/-- The user prices recorded at the heights of the window. -/
def windowPrices {R : Type} (blockHeight : Int) (slideWindow : Nat)
    (blockUserPrices : BlockUserPriceMap R) : List Nat :=
  (windowHeights blockHeight slideWindow).flatMap
    (fun h => ((StdMap.find blockUserPrices h).getD []).map Prod.snd)

/-- The map `mapCoinPricePointCache[pair].mapBlockUserPrices`, empty when the pair has no
entry. -/
def heightsOf {P R : Type} [DecidableEq P] (m : CoinPricePointMap P R) (pair : P) :
    BlockUserPriceMap R :=
  ((StdMap.find m pair).map (fun cbp => cbp.mapBlockUserPrices)).getD []

/-- An update of `mapCoinPricePointCache[pair].mapBlockUserPrices`: `operator[]` creates the
entry of the pair when there is none. -/
def atPair {P R : Type} [LinearOrder P] (m : CoinPricePointMap P R) (pair : P)
    (f : BlockUserPriceMap R → BlockUserPriceMap R) : CoinPricePointMap P R :=
  StdMap.insert m pair ⟨f (heightsOf m pair)⟩

/-- The innermost loop of `BatchWrite`: each user price of one height of one pair is
emplaced at `[pair][height]` (`operator[]` creates the height when there is none). -/
def BatchWriteUsers {P R : Type} [LinearOrder P] [LinearOrder R] :
    CoinPricePointMap P R → P → Int → UserPrices R → CoinPricePointMap P R
  | m, _, _, [] => m
  | m, pair, height, priceItem :: rest =>
    BatchWriteUsers
      (atPair m pair (fun hm =>
        StdMap.insert hm height
          (StdMap.emplace ((StdMap.find hm height).getD []) priceItem.1 priceItem.2)))
      pair height rest

/-- The loop of `BatchWrite` over the heights of one pair: a height without user price is
erased from `[pair]`, any other height has its user prices emplaced. -/
def BatchWriteHeights {P R : Type} [LinearOrder P] [LinearOrder R] :
    CoinPricePointMap P R → P → BlockUserPriceMap R → CoinPricePointMap P R
  | m, _, [] => m
  | m, pair, userPrice :: rest =>
    BatchWriteHeights
      (if userPrice.2.isEmpty then atPair m pair (fun hm => StdMap.erase hm userPrice.1)
       else BatchWriteUsers m pair userPrice.1 userPrice.2)
      pair rest

/-- The member `BatchWrite`, on the map of the cache that is written: the loop over the
pairs of the incoming map. -/
def BatchWrite {P R : Type} [LinearOrder P] [LinearOrder R] :
    CoinPricePointMap P R → CoinPricePointMap P R → CoinPricePointMap P R
  | m, [] => m
  | m, item :: rest =>
    BatchWrite (BatchWriteHeights m item.1 item.2.mapBlockUserPrices) rest

/-- The member `Flush`: asserts a base, writes the map into the base and clears it. -/
def Flush {P R : Type} [LinearOrder P] [LinearOrder R] :
    CPricePointMemCache P R → Option (CPricePointMemCache P R)
  | .root _ => none
  | .child m (.root mb) => some (.child [] (.root (BatchWrite mb m)))
  | .child m (.child mb bb) => some (.child [] (.child (BatchWrite mb m) bb))

/-- The loop of `GetBlockUserPrices` over the heights of one cache: a height without user
price is marked expired; a height that is expired or already in the result is skipped;
any other height is copied into the result. The state is `expired` and
`blockUserPrices`. -/
def mergeHeights {R : Type} :
    BlockUserPriceMap R → List Int × BlockUserPriceMap R → List Int × BlockUserPriceMap R
  | [], st => st
  | item :: rest, st =>
    mergeHeights rest
      (if item.2.isEmpty then (item.1 :: st.1, st.2)
       else if decide (item.1 ∈ st.1) || (StdMap.find st.2 item.1).isSome then st
       else (st.1, StdMap.insert st.2 item.1 item.2))

/-- The member `GetBlockUserPrices(coinPricePair, expired, blockUserPrices)`: this cache
first, then its base. It always returns `true`. -/
def GetBlockUserPricesFrom {P R : Type} [DecidableEq P] :
    CPricePointMemCache P R → P → List Int × BlockUserPriceMap R →
      List Int × BlockUserPriceMap R
  | .root m, pair, st =>
    match StdMap.find m pair with
    | some cbp => mergeHeights cbp.mapBlockUserPrices st
    | none => st
  | .child m b, pair, st =>
    GetBlockUserPricesFrom b pair
      (match StdMap.find m pair with
        | some cbp => mergeHeights cbp.mapBlockUserPrices st
        | none => st)

/-- The member `GetBlockUserPrices(coinPricePair, blockUserPrices)` on an empty result
map. -/
def GetBlockUserPrices {P R : Type} [DecidableEq P] (c : CPricePointMemCache P R) (pair : P) :
    BlockUserPriceMap R :=
  (GetBlockUserPricesFrom c pair ([], [])).2

/-- Two results of a map lookup agree: both are `end()`, or both are there and hold the
same price for every user. -/
def SameUserPrices {R : Type} [DecidableEq R] (a b : Option (UserPrices R)) : Prop :=
  a.isSome = b.isSome ∧
  ∀ u, a.bind (fun m => StdMap.find m u) = b.bind (fun m => StdMap.find m u)

/-- Two block-to-user-price maps are equal as maps: at every height they agree. -/
def SameBlockUserPrices {R : Type} [DecidableEq R] (a b : BlockUserPriceMap R) : Prop :=
  ∀ h, SameUserPrices (StdMap.find a h) (StdMap.find b h)

/-- The cache `pBase` points to. -/
def CPricePointMemCache.GetBasePtr {P R : Type} :
    CPricePointMemCache P R → Option (CPricePointMemCache P R)
  | .root _ => none
  | .child _ b => some b

/-- The user prices of one height after the user prices `users` were emplaced into
`target` one by one: a user already in `target` keeps the price it has there. -/
def emplaceAll {R : Type} [LinearOrder R] : UserPrices R → UserPrices R → UserPrices R
  | target, [] => target
  | target, priceItem :: rest => emplaceAll (StdMap.emplace target priceItem.1 priceItem.2) rest

/-- What `BatchWrite` leaves at one height of one pair, given what the incoming map holds
there and what the written map held: the old entry when nothing comes in, no entry
when a height without user price comes in, else the old user prices with the incoming
ones emplaced. -/
def writeHeight {R : Type} [LinearOrder R] (incoming old : Option (UserPrices R)) :
    Option (UserPrices R) :=
  match incoming with
  | none => old
  | some users => if users.isEmpty then none else some (emplaceAll (old.getD []) users)

/-- A base cache that holds, for the pair `1` at height `5`, the price `10` of user `1`. -/
def exampleBase : CoinPricePointMap Nat Nat := [(1, ⟨[(5, [(1, 10)])]⟩)]

/-- A child cache that holds, for the pair `1` at height `5`, the price `20` of user `2`. -/
def exampleChild : CoinPricePointMap Nat Nat := [(1, ⟨[(5, [(2, 20)])]⟩)]

/-- A child cache that holds, for the pair `1`, the price `20` of user `2` at height `6`
and a deletion mark at height `4`. -/
def exampleChildApart : CoinPricePointMap Nat Nat := [(1, ⟨[(4, []), (6, [(2, 20)])]⟩)]

end pricefeeddb

namespace dbcache

section Lemmas

variable {K V : Type}

/-! ## The map -/

theorem Map.find_key [DecidableEq K] {m : Map K V} {key : K} {e : K × CacheValue V}
    (h : Map.find m key = some e) : e.1 = key := by
  induction m with
  | nil => simp [Map.find] at h
  | cons a m ih =>
    obtain ⟨k, c⟩ := a
    by_cases hk : k = key
    · simp [Map.find, hk] at h
      rw [← h]
    · simp [Map.find, hk] at h
      exact ih h

theorem Map.count_of_find_none [DecidableEq K] {m : Map K V} {key : K}
    (h : Map.find m key = none) : Map.count m key = 0 := by
  simp [Map.count, h]

theorem Map.emplace_inserted [LinearOrder K] {m : Map K V} {key : K} (cv : CacheValue V)
    (h : Map.find m key = none) : (Map.emplace m key cv).2 = true := by
  induction m with
  | nil => rfl
  | cons a m ih =>
    obtain ⟨k, c⟩ := a
    by_cases hk : k = key
    · simp [Map.find, hk] at h
    · have hk2 : ¬ key = k := fun h2 => hk h2.symm
      simp only [Map.find, hk, if_false] at h
      by_cases hlt : key < k
      · simp [Map.emplace, hlt]
      · simp [Map.emplace, hlt, hk2, ih h]

theorem Map.find_emplace_self [LinearOrder K] {m : Map K V} {key : K} (cv : CacheValue V)
    (h : Map.find m key = none) : Map.find (Map.emplace m key cv).1 key = some (key, cv) := by
  induction m with
  | nil => simp [Map.emplace, Map.find]
  | cons a m ih =>
    obtain ⟨k, c⟩ := a
    by_cases hk : k = key
    · simp [Map.find, hk] at h
    · have hk2 : ¬ key = k := fun h2 => hk h2.symm
      simp only [Map.find, hk, if_false] at h
      by_cases hlt : key < k
      · simp [Map.emplace, hlt, Map.find]
      · simp [Map.emplace, hlt, hk2, Map.find, hk, ih h]

theorem Map.find_emplace_ne [LinearOrder K] (m : Map K V) {key k2 : K} (cv : CacheValue V)
    (h : k2 ≠ key) : Map.find (Map.emplace m key cv).1 k2 = Map.find m k2 := by
  have h2 : ¬ key = k2 := fun h3 => h h3.symm
  induction m with
  | nil => simp [Map.emplace, Map.find, h2]
  | cons a m ih =>
    obtain ⟨k, c⟩ := a
    by_cases hlt : key < k
    · simp [Map.emplace, hlt, Map.find, h2]
    · by_cases hk : key = k
      · simp [Map.emplace, hlt, hk]
      · by_cases hk3 : k = k2
        · subst hk3
          simp [Map.emplace, hlt, hk, Map.find]
        · simp [Map.emplace, hlt, hk, Map.find, hk3, ih]

theorem Map.find_assign_self [DecidableEq K] {m : Map K V} {key : K} {e : K × CacheValue V}
    (cv : CacheValue V) (h : Map.find m key = some e) :
    Map.find (Map.assign m key cv) key = some (key, cv) := by
  induction m with
  | nil => simp [Map.find] at h
  | cons a m ih =>
    obtain ⟨k, c⟩ := a
    by_cases hk : k = key
    · simp [Map.assign, Map.find, hk]
    · simp only [Map.find, hk, if_false] at h
      simp [Map.assign, Map.find, hk, ih h]

theorem Map.find_assign_ne [DecidableEq K] (m : Map K V) {key k2 : K} (cv : CacheValue V)
    (h : k2 ≠ key) : Map.find (Map.assign m key cv) k2 = Map.find m k2 := by
  induction m with
  | nil => simp [Map.assign, Map.find]
  | cons a m ih =>
    obtain ⟨k, c⟩ := a
    by_cases hk : k = key
    · have : ¬ key = k2 := fun h3 => h h3.symm
      simp [Map.assign, Map.find, hk, this]
    · by_cases hk3 : k = k2
      · subst hk3
        simp [Map.assign, Map.find, hk]
      · simp [Map.assign, Map.find, hk, hk3, ih]

/-! ## Data members -/

@[simp] theorem IncDataSize_mapData [DbUtil K] [DbUtil V] (l : Layer K V) (k : K) (v : V) :
    (IncDataSize l k v).mapData = l.mapData := by
  unfold IncDataSize; split <;> rfl

@[simp] theorem IncDataSize_pDbAccess [DbUtil K] [DbUtil V] (l : Layer K V) (k : K) (v : V) :
    (IncDataSize l k v).pDbAccess = l.pDbAccess := by
  unfold IncDataSize; split <;> rfl

@[simp] theorem IncDataSize_pDbOpLogMap [DbUtil K] [DbUtil V] (l : Layer K V) (k : K) (v : V) :
    (IncDataSize l k v).pDbOpLogMap = l.pDbOpLogMap := by
  unfold IncDataSize; split <;> rfl

@[simp] theorem IncDataSize_is_calc_size [DbUtil K] [DbUtil V] (l : Layer K V) (k : K) (v : V) :
    (IncDataSize l k v).is_calc_size = l.is_calc_size := by
  unfold IncDataSize; split <;> rfl

@[simp] theorem IncDataSizeValue_mapData [DbUtil V] (l : Layer K V) (v : V) :
    (IncDataSizeValue l v).mapData = l.mapData := by
  unfold IncDataSizeValue; split <;> rfl

@[simp] theorem IncDataSizeValue_pDbAccess [DbUtil V] (l : Layer K V) (v : V) :
    (IncDataSizeValue l v).pDbAccess = l.pDbAccess := by
  unfold IncDataSizeValue; split <;> rfl

@[simp] theorem IncDataSizeValue_pDbOpLogMap [DbUtil V] (l : Layer K V) (v : V) :
    (IncDataSizeValue l v).pDbOpLogMap = l.pDbOpLogMap := by
  unfold IncDataSizeValue; split <;> rfl

@[simp] theorem IncDataSizeValue_is_calc_size [DbUtil V] (l : Layer K V) (v : V) :
    (IncDataSizeValue l v).is_calc_size = l.is_calc_size := by
  unfold IncDataSizeValue; split <;> rfl

@[simp] theorem DecDataSize_mapData [DbUtil V] (l : Layer K V) (v : V) :
    (DecDataSize l v).mapData = l.mapData := by
  unfold DecDataSize; split <;> rfl

@[simp] theorem DecDataSize_pDbAccess [DbUtil V] (l : Layer K V) (v : V) :
    (DecDataSize l v).pDbAccess = l.pDbAccess := by
  unfold DecDataSize; split <;> rfl

@[simp] theorem DecDataSize_pDbOpLogMap [DbUtil V] (l : Layer K V) (v : V) :
    (DecDataSize l v).pDbOpLogMap = l.pDbOpLogMap := by
  unfold DecDataSize; split <;> rfl

@[simp] theorem DecDataSize_is_calc_size [DbUtil V] (l : Layer K V) (v : V) :
    (DecDataSize l v).is_calc_size = l.is_calc_size := by
  unfold DecDataSize; split <;> rfl

@[simp] theorem UpdateDataSize_mapData [DbUtil V] (l : Layer K V) (v w : V) :
    (UpdateDataSize l v w).mapData = l.mapData := by
  unfold UpdateDataSize; split <;> rfl

@[simp] theorem UpdateDataSize_pDbAccess [DbUtil V] (l : Layer K V) (v w : V) :
    (UpdateDataSize l v w).pDbAccess = l.pDbAccess := by
  unfold UpdateDataSize; split <;> rfl

@[simp] theorem UpdateDataSize_pDbOpLogMap [DbUtil V] (l : Layer K V) (v w : V) :
    (UpdateDataSize l v w).pDbOpLogMap = l.pDbOpLogMap := by
  unfold UpdateDataSize; split <;> rfl

@[simp] theorem UpdateDataSize_is_calc_size [DbUtil V] (l : Layer K V) (v w : V) :
    (UpdateDataSize l v w).is_calc_size = l.is_calc_size := by
  unfold UpdateDataSize; split <;> rfl

@[simp] theorem AddOpLog_mapData (tag : PrefixType) (l : Layer K V) (k : K) (v : V)
    (p : Option V) : (AddOpLog tag l k v p).mapData = l.mapData := by
  unfold AddOpLog; split <;> rfl

@[simp] theorem AddOpLog_pDbAccess (tag : PrefixType) (l : Layer K V) (k : K) (v : V)
    (p : Option V) : (AddOpLog tag l k v p).pDbAccess = l.pDbAccess := by
  unfold AddOpLog; split <;> rfl

@[simp] theorem AddOpLog_is_calc_size (tag : PrefixType) (l : Layer K V) (k : K) (v : V)
    (p : Option V) : (AddOpLog tag l k v p).is_calc_size = l.is_calc_size := by
  unfold AddOpLog; split <;> rfl

theorem AddOpLog_pDbOpLogMap (tag : PrefixType) (l : Layer K V) (k : K) (v : V)
    (p : Option V) :
    (AddOpLog tag l k v p).pDbOpLogMap = l.pDbOpLogMap.map (fun m => m.AddOpLog tag ⟨k, v⟩) := by
  unfold AddOpLog; split <;> simp [*]

@[simp] theorem self_withSelf (c : CCompositeKVCache K V) (l : Layer K V) :
    (c.withSelf l).self = l := by
  cases c <;> rfl

@[simp] theorem GetBasePtr_withSelf (c : CCompositeKVCache K V) (l : Layer K V) :
    (c.withSelf l).GetBasePtr = c.GetBasePtr := by
  cases c <;> rfl

@[simp] theorem withSelf_withSelf (c : CCompositeKVCache K V) (l l2 : Layer K V) :
    (c.withSelf l).withSelf l2 = c.withSelf l2 := by
  cases c <;> rfl

@[simp] theorem withSelf_self (c : CCompositeKVCache K V) : c.withSelf c.self = c := by
  cases c <;> rfl

@[simp] theorem memoised_mapData [LinearOrder K] [DbUtil K] [DbUtil V] (l : Layer K V)
    (k : K) (v : V) :
    (l.memoised k v).mapData = (Map.emplace l.mapData k ⟨v, false⟩).1 := by
  simp [Layer.memoised]

@[simp] theorem memoised_pDbAccess [LinearOrder K] [DbUtil K] [DbUtil V] (l : Layer K V)
    (k : K) (v : V) : (l.memoised k v).pDbAccess = l.pDbAccess := by
  simp [Layer.memoised]

@[simp] theorem memoised_pDbOpLogMap [LinearOrder K] [DbUtil K] [DbUtil V] (l : Layer K V)
    (k : K) (v : V) : (l.memoised k v).pDbOpLogMap = l.pDbOpLogMap := by
  simp [Layer.memoised]

@[simp] theorem memoised_is_calc_size [LinearOrder K] [DbUtil K] [DbUtil V] (l : Layer K V)
    (k : K) (v : V) : (l.memoised k v).is_calc_size = l.is_calc_size := by
  simp [Layer.memoised]

/-- Adding a key that `find` does not find passes the assertion and the emplace. -/
theorem AddDataToMap_ok [LinearOrder K] [DbUtil K] [DbUtil V] (l : Layer K V) {key : K}
    (cv : CacheValue V) (h : Map.find l.mapData key = none) :
    AddDataToMap l key cv
      = .ok (IncDataSize { l with mapData := (Map.emplace l.mapData key cv).1 } key cv.value) := by
  simp [AddDataToMap, Map.count_of_find_none h, Map.emplace_inserted cv h]

/-! ## The lookup -/

theorem lookupIt_value [DecidableEq K] (tag : PrefixType) (c : CCompositeKVCache K V) (key : K) :
    (lookupIt tag c key).map (fun e => e.2.value) = lookup tag c key := by
  unfold lookupIt lookup
  cases Map.find c.self.mapData key with
  | some e => rfl
  | none => cases lookupBelow tag c key <;> rfl

theorem lookupBelow_child [DecidableEq K] (tag : PrefixType) (l : Layer K V)
    (b : CCompositeKVCache K V) (key : K) :
    lookupBelow tag (.child l b) key = lookup tag b key := rfl

/-- What `GetDataIt` computes: it never fails, returns `lookupIt` and leaves `memo`. -/
theorem GetDataIt_eq [LinearOrder K] [DbUtil K] [DbUtil V] (tag : PrefixType)
    (c : CCompositeKVCache K V) (key : K) :
    GetDataIt tag c key = .ok (lookupIt tag c key, memo tag c key) := by
  induction c with
  | root l =>
    unfold GetDataIt lookupIt memo
    cases hf : Map.find l.mapData key with
    | some e => simp [CCompositeKVCache.self, hf]
    | none =>
      cases hdb : l.pDbAccess with
      | none => simp [CCompositeKVCache.self, hf, lookupBelow, hdb]
      | some db =>
        cases hg : db.GetData tag key with
        | none => simp [CCompositeKVCache.self, hf, lookupBelow, hdb, hg]
        | some v =>
          simp [CCompositeKVCache.self, hf, lookupBelow, hdb, hg, AddDataToMap_ok l _ hf,
            Layer.memoised]
  | child l b ih =>
    unfold GetDataIt lookupIt memo
    cases hf : Map.find l.mapData key with
    | some e => simp [CCompositeKVCache.self, hf]
    | none =>
      rw [ih]
      have hv := lookupIt_value tag b key
      rw [lookupBelow_child]
      cases hb : lookupIt tag b key with
      | none =>
        rw [hb] at hv
        simp [CCompositeKVCache.self, hf, ← hv]
      | some e =>
        rw [hb] at hv
        simp [CCompositeKVCache.self, hf, ← hv, AddDataToMap_ok l _ hf, Layer.memoised]

theorem Map.mem_emplace [LinearOrder K] {m : Map K V} {key : K} {cv : CacheValue V}
    {e : K × CacheValue V} (h : e ∈ (Map.emplace m key cv).1) : e = (key, cv) ∨ e ∈ m := by
  induction m with
  | nil => simpa [Map.emplace] using h
  | cons a m ih =>
    obtain ⟨k, c⟩ := a
    by_cases hlt : key < k
    · simp only [Map.emplace, hlt, if_true, List.mem_cons] at h
      simpa using h
    · by_cases hk : key = k
      · simp only [Map.emplace, hlt, hk, if_false, if_true] at h
        exact Or.inr (by simpa [hk] using h)
      · simp only [Map.emplace, hlt, hk, if_false, List.mem_cons] at h
        rcases h with h | h
        · exact Or.inr (by simp [h])
        · rcases ih h with h2 | h2
          · exact Or.inl h2
          · exact Or.inr (by simp [h2])

theorem Map.mem_assign [DecidableEq K] {m : Map K V} {key : K} {cv : CacheValue V}
    {e : K × CacheValue V} (h : e ∈ Map.assign m key cv) : e = (key, cv) ∨ e ∈ m := by
  induction m with
  | nil => simp [Map.assign] at h
  | cons a m ih =>
    obtain ⟨k, c⟩ := a
    by_cases hk : k = key
    · simp only [Map.assign, hk, if_true, List.mem_cons] at h
      rcases h with h | h
      · exact Or.inl h
      · exact Or.inr (by simp [h])
    · simp only [Map.assign, hk, if_false, List.mem_cons] at h
      rcases h with h | h
      · exact Or.inr (by simp [h])
      · rcases ih h with h2 | h2
        · exact Or.inl h2
        · exact Or.inr (by simp [h2])

theorem Map.keys_assign [DecidableEq K] (m : Map K V) (key : K) (cv : CacheValue V) :
    (Map.assign m key cv).map Prod.fst = m.map Prod.fst := by
  induction m with
  | nil => rfl
  | cons a m ih =>
    obtain ⟨k, c⟩ := a
    by_cases hk : k = key
    · simp [Map.assign, hk]
    · simp [Map.assign, hk, ih]

theorem Map.WF_assign [LinearOrder K] {m : Map K V} (key : K) (cv : CacheValue V)
    (h : Map.WF m) : Map.WF (Map.assign m key cv) := by
  unfold Map.WF
  rw [Map.keys_assign]
  exact h

theorem Map.WF_emplace [LinearOrder K] {m : Map K V} (key : K) (cv : CacheValue V)
    (h : Map.WF m) : Map.WF (Map.emplace m key cv).1 := by
  induction m with
  | nil => simp [Map.emplace, Map.WF]
  | cons a m ih =>
    obtain ⟨k, c⟩ := a
    have hs : (k :: m.map Prod.fst).Sorted (· < ·) := h
    rw [List.sorted_cons] at hs
    by_cases hlt : key < k
    · simp only [Map.emplace, hlt, if_true]
      show (key :: k :: m.map Prod.fst).Sorted (· < ·)
      rw [List.sorted_cons]
      refine ⟨?_, h⟩
      intro b hb
      rcases List.mem_cons.1 hb with hb | hb
      · rw [hb]; exact hlt
      · exact lt_trans hlt (hs.1 b hb)
    · by_cases hk : key = k
      · subst hk
        simp only [Map.emplace, hlt, if_false, if_true]
        exact h
      · simp only [Map.emplace, hlt, hk, if_false]
        show (k :: (Map.emplace m key cv).1.map Prod.fst).Sorted (· < ·)
        rw [List.sorted_cons]
        refine ⟨?_, ih hs.2⟩
        intro b hb
        obtain ⟨e, he, heb⟩ := List.mem_map.1 hb
        rcases Map.mem_emplace he with h2 | h2
        · rw [← heb, h2]
          exact lt_of_le_of_ne (not_lt.1 hlt) (fun h3 => hk h3.symm)
        · rw [← heb]
          exact hs.1 _ (List.mem_map_of_mem _ h2)

theorem Layer.put_assign [LinearOrder K] {l l1 : Layer K V} {key : K} {e : K × CacheValue V}
    (cv : CacheValue V) (hf : Map.find l.mapData key = some e)
    (hd : l1.pDbAccess = l.pDbAccess) (hc : l1.is_calc_size = l.is_calc_size)
    (hm : l1.mapData = Map.assign l.mapData key cv) : Layer.Put l l1 key cv := by
  refine ⟨hd, hc, ?_, ?_, ?_⟩
  · intro k2
    rw [hm]
    by_cases h : k2 = key
    · simp [h, Map.find_assign_self cv hf]
    · simp [h, Map.find_assign_ne _ cv h]
  · intro e2 he
    rw [hm] at he
    exact Map.mem_assign he
  · intro hwf
    rw [hm]
    exact Map.WF_assign key cv hwf

theorem Layer.put_emplace [LinearOrder K] {l l1 : Layer K V} {key : K}
    (cv : CacheValue V) (hf : Map.find l.mapData key = none)
    (hd : l1.pDbAccess = l.pDbAccess) (hc : l1.is_calc_size = l.is_calc_size)
    (hm : l1.mapData = (Map.emplace l.mapData key cv).1) : Layer.Put l l1 key cv := by
  refine ⟨hd, hc, ?_, ?_, ?_⟩
  · intro k2
    rw [hm]
    by_cases h : k2 = key
    · simp [h, Map.find_emplace_self cv hf]
    · simp [h, Map.find_emplace_ne _ cv h]
  · intro e2 he
    rw [hm] at he
    exact Map.mem_emplace he
  · intro hwf
    rw [hm]
    exact Map.WF_emplace key cv hwf

/-! ## The chain `GetDataIt` leaves behind -/

theorem memo_pDbAccess [LinearOrder K] [DbUtil K] [DbUtil V] (tag : PrefixType)
    (c : CCompositeKVCache K V) (key : K) :
    (memo tag c key).self.pDbAccess = c.self.pDbAccess := by
  cases c <;> (unfold memo; split <;> [rfl; (split <;> simp [CCompositeKVCache.self])])

theorem memo_pDbOpLogMap [LinearOrder K] [DbUtil K] [DbUtil V] (tag : PrefixType)
    (c : CCompositeKVCache K V) (key : K) :
    (memo tag c key).self.pDbOpLogMap = c.self.pDbOpLogMap := by
  cases c <;> (unfold memo; split <;> [rfl; (split <;> simp [CCompositeKVCache.self])])

theorem memo_is_calc_size [LinearOrder K] [DbUtil K] [DbUtil V] (tag : PrefixType)
    (c : CCompositeKVCache K V) (key : K) :
    (memo tag c key).self.is_calc_size = c.self.is_calc_size := by
  cases c <;> (unfold memo; split <;> [rfl; (split <;> simp [CCompositeKVCache.self])])

theorem memo_GetBasePtr [LinearOrder K] [DbUtil K] [DbUtil V] (tag : PrefixType)
    (c : CCompositeKVCache K V) (key : K) :
    (memo tag c key).GetBasePtr = none ∧ c.GetBasePtr = none ∨
    (memo tag c key).GetBasePtr = c.GetBasePtr ∨
    ∃ b, c.GetBasePtr = some b ∧ (memo tag c key).GetBasePtr = some (memo tag b key) := by
  cases c with
  | root l =>
    left
    unfold memo
    split <;> [skip; split] <;> simp [CCompositeKVCache.GetBasePtr]
  | child l b =>
    rw [memo]
    split
    · right; left; rfl
    · right; right
      split <;> exact ⟨b, rfl, rfl⟩

/-- The local map after `GetDataIt`: the entry of the key is the returned iterator,
every other entry is untouched. -/
theorem find_memo [LinearOrder K] [DbUtil K] [DbUtil V] (tag : PrefixType)
    (c : CCompositeKVCache K V) (key k2 : K) :
    Map.find (memo tag c key).self.mapData k2
      = if k2 = key then lookupIt tag c key else Map.find c.self.mapData k2 := by
  have main : ∀ (l : Layer K V) (c0 : CCompositeKVCache K V), c0.self = l →
      ∀ c1 : CCompositeKVCache K V,
      (match Map.find l.mapData key with
        | some _ => c1.self = l
        | none =>
          match lookupBelow tag c0 key with
          | some v => c1.self = l.memoised key v
          | none => c1.self = l) →
      Map.find c1.self.mapData k2
        = if k2 = key then lookupIt tag c0 key else Map.find c0.self.mapData k2 := by
    intro l c0 hc0 c1 h
    unfold lookupIt
    rw [hc0]
    cases hf : Map.find l.mapData key with
    | some e =>
      rw [hf] at h
      simp only at h
      rw [h]
      by_cases hk : k2 = key
      · simp [hk, hf]
      · simp [hk]
    | none =>
      rw [hf] at h
      simp only at h
      cases hb : lookupBelow tag c0 key with
      | none =>
        rw [hb] at h
        simp only at h
        rw [h]
        by_cases hk : k2 = key
        · simp [hk, hf]
        · simp [hk]
      | some v =>
        rw [hb] at h
        simp only at h
        rw [h]
        by_cases hk : k2 = key
        · simp [hk, Map.find_emplace_self _ hf]
        · simp [hk, Map.find_emplace_ne _ _ hk]
  cases c with
  | root l =>
    apply main l (.root l) rfl
    unfold memo
    split <;> [rfl; split] <;> rfl
  | child l b =>
    apply main l (.child l b) rfl
    unfold memo
    split <;> [rfl; split] <;> rfl

/-- An entry of the local map after `GetDataIt` was there before, or is not modified. -/
theorem mem_memo [LinearOrder K] [DbUtil K] [DbUtil V] (tag : PrefixType)
    (c : CCompositeKVCache K V) (key : K) (e : K × CacheValue V)
    (h : e ∈ (memo tag c key).self.mapData) :
    e ∈ c.self.mapData ∨ e.2.is_modified = false := by
  have aux : ∀ (l : Layer K V) (v : V), e ∈ (l.memoised key v).mapData →
      e ∈ l.mapData ∨ e.2.is_modified = false := by
    intro l v he
    rw [memoised_mapData] at he
    rcases Map.mem_emplace he with h2 | h2
    · right; rw [h2]
    · left; exact h2
  cases c with
  | root l =>
    unfold memo at h
    split at h
    · exact Or.inl h
    · split at h
      · exact aux l _ h
      · exact Or.inl h
  | child l b =>
    unfold memo at h
    split at h
    · exact Or.inl h
    · split at h
      · exact aux l _ h
      · exact Or.inl h

/-- The local map after `GetDataIt` is a well-formed map when it was one before. -/
theorem WF_memo [LinearOrder K] [DbUtil K] [DbUtil V] (tag : PrefixType)
    (c : CCompositeKVCache K V) (key : K) (h : Map.WF c.self.mapData) :
    Map.WF (memo tag c key).self.mapData := by
  have aux : ∀ (l : Layer K V) (v : V), Map.WF l.mapData → Map.WF (l.memoised key v).mapData := by
    intro l v hl
    rw [memoised_mapData]
    exact Map.WF_emplace key _ hl
  cases c with
  | root l =>
    rw [memo.eq_1]
    split
    · exact h
    · split
      · exact aux l _ h
      · exact h
  | child l b =>
    rw [memo.eq_2]
    split
    · exact h
    · split
      · exact aux l _ h
      · exact h

theorem lookupBelow_withSelf [DecidableEq K] (tag : PrefixType) (c : CCompositeKVCache K V)
    (l : Layer K V) (h : l.pDbAccess = c.self.pDbAccess) (k : K) :
    lookupBelow tag (c.withSelf l) k = lookupBelow tag c k := by
  cases c with
  | root l0 => simp [CCompositeKVCache.withSelf, lookupBelow, h, CCompositeKVCache.self]
  | child l0 b => rfl

/-- Memoisation is invisible to the lookup: `GetDataIt` changes the value the lookup
finds for no key, on this layer and below it. -/
theorem lookup_memo [LinearOrder K] [DbUtil K] [DbUtil V] (tag : PrefixType)
    (c : CCompositeKVCache K V) (key k2 : K) :
    lookup tag (memo tag c key) k2 = lookup tag c k2 ∧
    lookupBelow tag (memo tag c key) k2 = lookupBelow tag c k2 := by
  induction c with
  | root l =>
    have hb : lookupBelow tag (memo tag (.root l) key) k2 = lookupBelow tag (.root l) k2 := by
      have := memo_pDbAccess tag (.root l) key
      cases hm : memo tag (.root l) key with
      | root l1 =>
        rw [hm] at this
        simp only [CCompositeKVCache.self] at this
        simp [lookupBelow, this]
      | child l1 b1 =>
        exfalso
        unfold memo at hm
        split at hm <;> [skip; split at hm] <;> cases hm
    refine ⟨?_, hb⟩
    unfold lookup
    rw [find_memo, hb]
    by_cases hk : k2 = key
    · subst hk
      simp only [if_true, lookupIt]
      cases Map.find (CCompositeKVCache.root l).self.mapData k2 with
      | some e => rfl
      | none =>
        cases lookupBelow tag (.root l) k2 <;> rfl
    · simp [hk]
  | child l b ih =>
    have hb : lookupBelow tag (memo tag (.child l b) key) k2
        = lookupBelow tag (.child l b) k2 := by
      unfold memo
      split
      · rfl
      · split <;> simp only [lookupBelow_child, ih.1]
    refine ⟨?_, hb⟩
    unfold lookup
    rw [find_memo, hb]
    by_cases hk : k2 = key
    · subst hk
      simp only [if_true, lookupIt]
      cases Map.find (CCompositeKVCache.child l b).self.mapData k2 with
      | some e => rfl
      | none =>
        cases lookupBelow tag (.child l b) k2 <;> rfl
    · simp [hk]

theorem lookupIt_key [DecidableEq K] {tag : PrefixType} {c : CCompositeKVCache K V} {key : K}
    {e : K × CacheValue V} (h : lookupIt tag c key = some e) : e.1 = key := by
  unfold lookupIt at h
  cases hf : Map.find c.self.mapData key with
  | some e2 =>
    rw [hf] at h
    simp only [Option.some.injEq] at h
    rw [← h]
    exact Map.find_key hf
  | none =>
    rw [hf] at h
    cases hb : lookupBelow tag c key with
    | none => simp [hb] at h
    | some v =>
      simp [hb] at h
      rw [← h]

theorem find_memo_self [LinearOrder K] [DbUtil K] [DbUtil V] (tag : PrefixType)
    (c : CCompositeKVCache K V) (key : K) :
    Map.find (memo tag c key).self.mapData key = lookupIt tag c key := by
  rw [find_memo]; simp

/-- The lookup after the entry of `key` was written on the layer itself. -/
theorem lookup_put [LinearOrder K] (tag : PrefixType) (c : CCompositeKVCache K V)
    {l1 : Layer K V} {key : K} {cv : CacheValue V} (h : Layer.Put c.self l1 key cv) (k2 : K) :
    lookup tag (c.withSelf l1) k2 = if k2 = key then some cv.value else lookup tag c k2 := by
  obtain ⟨hd, _, hf, _⟩ := h
  unfold lookup
  rw [lookupBelow_withSelf tag c l1 hd, self_withSelf, hf]
  by_cases hk : k2 = key <;> simp [hk]

/-! ## The member functions, in closed form -/

theorem GetData_eq [LinearOrder K] [DbUtil K] [DbUtil V] (tag : PrefixType)
    (c : CCompositeKVCache K V) {key : K} (hk : DbUtil.IsEmpty key = false) :
    GetData tag c key = .ok (found tag c key, memo tag c key) := by
  unfold GetData found
  rw [GetDataIt_eq, ← lookupIt_value]
  simp only [hk]
  cases lookupIt tag c key with
  | none => rfl
  | some e =>
    by_cases he : DbUtil.IsEmpty e.2.value = true
    · simp [he, Option.filter]
    · simp [he, Option.filter]

theorem HasData_eq [LinearOrder K] [DbUtil K] [DbUtil V] (tag : PrefixType)
    (c : CCompositeKVCache K V) {key : K} (hk : DbUtil.IsEmpty key = false) :
    HasData tag c key = .ok ((found tag c key).isSome, memo tag c key) := by
  unfold HasData found
  rw [GetDataIt_eq, ← lookupIt_value]
  simp only [hk]
  cases lookupIt tag c key with
  | none => rfl
  | some e =>
    by_cases he : DbUtil.IsEmpty e.2.value = true
    · simp [he, Option.filter, ValueIsEmpty]
    · simp [he, Option.filter, ValueIsEmpty]

/-- The member `SetData` on a non-empty key: it succeeds, writes `(value, modified)` on
the layer itself over what `GetDataIt` left, and logs the value the lookup
found (a default-constructed value when it found none). -/
theorem SetData_ok [LinearOrder K] [DbUtil K] [DbUtil V] [Inhabited V] (tag : PrefixType)
    (c : CCompositeKVCache K V) {key : K} (value : V) (hk : DbUtil.IsEmpty key = false) :
    ∃ l1, SetData tag c key value = .ok (true, (memo tag c key).withSelf l1) ∧
      Layer.Put (memo tag c key).self l1 key ⟨value, true⟩ ∧
      l1.pDbOpLogMap = c.self.pDbOpLogMap.map
        (fun m => m.AddOpLog tag ⟨key, (lookup tag c key).getD default⟩) := by
  unfold SetData
  rw [GetDataIt_eq, ← lookupIt_value]
  simp only [hk]
  have hfm := find_memo_self tag c key
  cases hit : lookupIt tag c key with
  | none =>
    rw [hit] at hfm
    have hf2 : Map.find (AddOpLog tag (memo tag c key).self key default (some value)).mapData
        key = none := by simpa using hfm
    simp only [Bool.false_eq_true, if_false, AddDataToMap_ok _ _ hf2]
    refine ⟨_, rfl, ?_, ?_⟩
    · exact Layer.put_emplace _ hfm (by simp) (by simp) (by simp)
    · simp [AddOpLog_pDbOpLogMap, memo_pDbOpLogMap]
  | some e =>
    rw [hit] at hfm
    have hek := lookupIt_key hit
    simp only [Bool.false_eq_true, if_false]
    refine ⟨_, rfl, ?_, ?_⟩
    · exact Layer.put_assign _ hfm (by simp) (by simp) (by simp [hek])
    · simp [AddOpLog_pDbOpLogMap, memo_pDbOpLogMap]

/-- The member `EraseData` on a non-empty key: it succeeds; when the lookup finds
nothing or an empty value it only memoises, otherwise it writes the tombstone
`(SetEmpty v, modified)` and logs the value `v` it found. -/
theorem EraseData_ok [LinearOrder K] [DbUtil K] [DbUtil V] (tag : PrefixType)
    (c : CCompositeKVCache K V) {key : K} (hk : DbUtil.IsEmpty key = false) :
    (found tag c key = none ∧ EraseData tag c key = .ok (true, memo tag c key)) ∨
    ∃ v l1, lookup tag c key = some v ∧ DbUtil.IsEmpty v = false ∧
      EraseData tag c key = .ok (true, (memo tag c key).withSelf l1) ∧
      Layer.Put (memo tag c key).self l1 key ⟨DbUtil.SetEmpty v, true⟩ ∧
      l1.pDbOpLogMap = c.self.pDbOpLogMap.map (fun m => m.AddOpLog tag ⟨key, v⟩) := by
  unfold EraseData found
  rw [GetDataIt_eq, ← lookupIt_value]
  simp only [hk]
  have hfm := find_memo_self tag c key
  cases hit : lookupIt tag c key with
  | none => left; simp [Option.filter]
  | some e =>
    rw [hit] at hfm
    have hek := lookupIt_key hit
    by_cases he : DbUtil.IsEmpty e.2.value = true
    · left; simp [he, Option.filter]
    · right
      simp only [Bool.not_eq_true] at he
      simp only [he, Bool.false_eq_true, if_false, Bool.not_false, if_true]
      refine ⟨e.2.value, _, rfl, he, rfl, ?_, ?_⟩
      · exact Layer.put_assign _ hfm (by simp) (by simp) (by simp [hek])
      · simp [AddOpLog_pDbOpLogMap, memo_pDbOpLogMap]

/-- The member `SetDataToCache`: it succeeds and writes `(value, modified)` on the layer
itself; the op log is not touched. -/
theorem SetDataToCache_ok [LinearOrder K] [DbUtil K] [DbUtil V]
    (c : CCompositeKVCache K V) (key : K) (value : V) :
    ∃ l1, SetDataToCache c key value = .ok (c.withSelf l1) ∧
      Layer.Put c.self l1 key ⟨value, true⟩ ∧ l1.pDbOpLogMap = c.self.pDbOpLogMap := by
  unfold SetDataToCache Layer.SetDataToCache
  cases hf : Map.find c.self.mapData key with
  | none =>
    simp only [AddDataToMap_ok _ _ hf]
    exact ⟨_, rfl, Layer.put_emplace _ hf (by simp) (by simp) (by simp), by simp⟩
  | some e =>
    have hek := Map.find_key hf
    simp only
    exact ⟨_, rfl, Layer.put_assign _ hf (by simp) (by simp) (by simp [hek]), by simp⟩

/-- Below a layer, `GetDataIt` changes what no lookup finds. -/
theorem memo_base [LinearOrder K] [DbUtil K] [DbUtil V] (tag : PrefixType)
    (c b : CCompositeKVCache K V) (key : K) (h : c.GetBasePtr = some b) :
    ∃ b1, (memo tag c key).GetBasePtr = some b1 ∧ ∀ k2, lookup tag b1 k2 = lookup tag b k2 := by
  rcases memo_GetBasePtr tag c key with h1 | h1 | ⟨b0, h1, h2⟩
  · rw [h] at h1; cases h1.2
  · exact ⟨b, by rw [h1, h], fun _ => rfl⟩
  · rw [h] at h1
    cases h1
    exact ⟨_, h2, fun k2 => (lookup_memo tag b key k2).1⟩

theorem lookup_child_nil [DecidableEq K] (tag : PrefixType) (l : Layer K V)
    (b : CCompositeKVCache K V) (h : l.mapData = []) (k : K) :
    lookup tag (.child l b) k = lookup tag b k := by
  show (match Map.find l.mapData k with
    | some e => some e.2.value
    | none => lookupBelow tag (.child l b) k) = _
  rw [h]
  rfl

/-! ## Flush -/

theorem Map.lastModified_of_find [LinearOrder K] {m : Map K V} (h : Map.WF m) (key : K) :
    Map.lastModified m key
      = match Map.find m key with
        | some e => if e.2.is_modified = true then some e.2.value else none
        | none => none := by
  induction m with
  | nil => rfl
  | cons a m ih =>
    obtain ⟨k, c⟩ := a
    have hs : (k :: m.map Prod.fst).Sorted (· < ·) := h
    rw [List.sorted_cons] at hs
    have ih2 := ih hs.2
    by_cases hk : k = key
    · have hnone : Map.find m key = none := by
        cases hf : Map.find m key with
        | none => rfl
        | some e =>
          exfalso
          have h1 := Map.find_key hf
          have h2 : e.1 ∈ m.map Prod.fst := by
            have : e ∈ m := by
              clear ih ih2 h hs
              induction m with
              | nil => simp [Map.find] at hf
              | cons a2 m2 ih3 =>
                obtain ⟨k3, c3⟩ := a2
                by_cases hk3 : k3 = key
                · simp [Map.find, hk3] at hf
                  simp [← hf, hk3]
                · simp only [Map.find, hk3, if_false] at hf
                  exact List.mem_cons_of_mem _ (ih3 hf)
            exact List.mem_map_of_mem _ this
          have := hs.1 _ h2
          rw [h1, hk] at this
          exact lt_irrefl _ this
      rw [hnone] at ih2
      simp [Map.lastModified, ih2, Map.find, hk]
    · simp only [Map.lastModified, Map.find, hk, if_false, false_and]
      rw [ih2]
      cases Map.find m key with
      | none => rfl
      | some e => by_cases hm : e.2.is_modified = true <;> simp [hm]

/-- The loop of `Flush` into a parent: it succeeds, changes only the local map (and the
size) of the parent, and leaves there, for every key, the last modified entry
of the child, marked modified, or else what the parent had. -/
theorem FlushToBase_ok [LinearOrder K] [DbUtil K] [DbUtil V] (m : Map K V)
    (b : CCompositeKVCache K V) :
    ∃ l1, FlushToBase m b = .ok (b.withSelf l1) ∧
      l1.pDbAccess = b.self.pDbAccess ∧ l1.pDbOpLogMap = b.self.pDbOpLogMap ∧
      l1.is_calc_size = b.self.is_calc_size ∧
      ∀ k, Map.find l1.mapData k
        = match Map.lastModified m k with
          | some v => some (k, ⟨v, true⟩)
          | none => Map.find b.self.mapData k := by
  induction m generalizing b with
  | nil => exact ⟨b.self, by simp [FlushToBase], rfl, rfl, rfl, fun k => rfl⟩
  | cons item rest ih =>
    by_cases hm : item.2.is_modified = true
    · obtain ⟨l0, h0, hput, hlog⟩ := SetDataToCache_ok b item.1 item.2.value
      obtain ⟨l1, h1, hd, ho, hc, hf⟩ := ih (b.withSelf l0)
      refine ⟨l1, ?_, ?_, ?_, ?_, ?_⟩
      · simp only [FlushToBase, hm, if_true, h0, h1, withSelf_withSelf]
      · rw [hd, self_withSelf, hput.1]
      · rw [ho, self_withSelf, hlog]
      · rw [hc, self_withSelf, hput.2.1]
      · intro k
        rw [hf k, self_withSelf, hput.2.2.1 k]
        simp only [Map.lastModified, hm, and_true]
        cases Map.lastModified rest k with
        | some v => rfl
        | none =>
          by_cases hk : k = item.1
          · simp [hk]
          · have hk2 : ¬ item.1 = k := fun h => hk h.symm
            simp [hk, hk2]
    · obtain ⟨l1, h1, hd, ho, hc, hf⟩ := ih b
      refine ⟨l1, ?_, hd, ho, hc, ?_⟩
      · simp only [FlushToBase, hm, Bool.false_eq_true, if_false, h1]
      · intro k
        rw [hf k]
        simp only [Map.lastModified, hm, and_false, if_false]
        cases Map.lastModified rest k <;> simp

/-- The lookup of the parent after the loop of `Flush`. -/
theorem lookup_flushed [DecidableEq K] (tag : PrefixType) (m : Map K V)
    (b : CCompositeKVCache K V) (l1 : Layer K V) (hd : l1.pDbAccess = b.self.pDbAccess)
    (hf : ∀ k, Map.find l1.mapData k
        = match Map.lastModified m k with
          | some v => some (k, ⟨v, true⟩)
          | none => Map.find b.self.mapData k) (k : K) :
    lookup tag (b.withSelf l1) k
      = match Map.lastModified m k with
        | some v => some v
        | none => lookup tag b k := by
  unfold lookup
  rw [lookupBelow_withSelf tag b l1 hd, self_withSelf, hf]
  cases Map.lastModified m k <;> rfl

theorem Flush_child [LinearOrder K] [DbUtil K] [DbUtil V] (tag : PrefixType) (l : Layer K V)
    (b : CCompositeKVCache K V) (h : l.pDbAccess = none) :
    Flush tag (.child l b) = (FlushToBase l.mapData b).map (fun b1 => .child l.Clear b1) := by
  unfold Flush
  simp only [h, Option.isSome_none, Bool.false_eq_true, if_false]
  cases FlushToBase l.mapData b <;> rfl

theorem Map.lastModified_of_all [DecidableEq K] {m : Map K V} {key : K} {v : V}
    (hall : ∀ e ∈ m, e = (key, ⟨v, true⟩)) (hne : m ≠ []) :
    Map.lastModified m key = some v := by
  induction m with
  | nil => exact absurd rfl hne
  | cons a m ih =>
    have ha := hall a (List.mem_cons_self _ _)
    by_cases hm : m = []
    · subst hm
      simp [Map.lastModified, ha]
    · have := ih (fun e he => hall e (List.mem_cons_of_mem _ he)) hm
      simp [Map.lastModified, this]

theorem Map.lastModified_none [DecidableEq K] {m : Map K V} {key : K}
    (h : ∀ e ∈ m, e.2.is_modified = true → e.1 ≠ key) : Map.lastModified m key = none := by
  induction m with
  | nil => rfl
  | cons a m ih =>
    have h1 := ih (fun e he => h e (List.mem_cons_of_mem _ he))
    have h2 := h a (List.mem_cons_self _ _)
    simp only [Map.lastModified, h1]
    by_cases hm : a.2.is_modified = true
    · simp [h2 hm]
    · simp [hm]

theorem lookup_root_empty [DecidableEq K] (tag : PrefixType) (l : Layer K V)
    (db : CDBAccess K V) (hm : l.mapData = []) (hdb : l.pDbAccess = some db)
    (hstore : ∀ dbKey, db.data dbKey = none) (k : K) : lookup tag (.root l) k = none := by
  simp [lookup, CCompositeKVCache.self, hm, Map.find, lookupBelow, hdb, CDBAccess.GetData, hstore]

theorem found_of_lookup [DecidableEq K] [DbUtil V] (tag : PrefixType)
    (c : CCompositeKVCache K V) (k : K) (v : V) (h : lookup tag c k = some v)
    (hv : DbUtil.IsEmpty v = false) : found tag c k = some v := by
  simp [found, h, Option.filter, hv]

theorem found_of_lookup_empty [DecidableEq K] [DbUtil V] (tag : PrefixType)
    (c : CCompositeKVCache K V) (k : K) (v : V) (h : lookup tag c k = some v)
    (hv : DbUtil.IsEmpty v = true) : found tag c k = none := by
  simp [found, h, Option.filter, hv]

theorem found_of_lookup_none [DecidableEq K] [DbUtil V] (tag : PrefixType)
    (c : CCompositeKVCache K V) (k : K) (h : lookup tag c k = none) :
    found tag c k = none := by
  simp [found, h, Option.filter]

theorem found_congr [DecidableEq K] [DbUtil V] (tag : PrefixType)
    (c c2 : CCompositeKVCache K V) (k : K) (h : lookup tag c k = lookup tag c2 k) :
    found tag c k = found tag c2 k := by
  simp [found, h]

theorem lookup_of_found [DecidableEq K] [DbUtil V] {tag : PrefixType}
    {c : CCompositeKVCache K V} {k : K} {v : V} (h : found tag c k = some v) :
    lookup tag c k = some v ∧ DbUtil.IsEmpty v = false := by
  unfold found at h
  cases hl : lookup tag c k with
  | none => simp [hl, Option.filter] at h
  | some w =>
    rw [hl] at h
    by_cases hw : DbUtil.IsEmpty w = true
    · simp [Option.filter, hw] at h
    · simp only [Bool.not_eq_true] at hw
      simp [Option.filter, hw] at h
      rw [← h]
      exact ⟨rfl, hw⟩

/-- A successful `GetData` was called on a non-empty key. -/
theorem key_of_GetData [LinearOrder K] [DbUtil K] [DbUtil V] {tag : PrefixType}
    {c : CCompositeKVCache K V} {k : K} {r : Option V × CCompositeKVCache K V}
    (h : GetData tag c k = .ok r) : DbUtil.IsEmpty k = false := by
  unfold GetData at h
  by_cases hk : DbUtil.IsEmpty k = true
  · simp [hk] at h
  · simpa using hk

end Lemmas

/-! ## What a flush leaves below -/

section Flushed

variable {K V : Type}

/-- The store content at a key of the domain after the batch of `Flush` was applied. -/
theorem store_after_batch [DecidableEq K] [DbUtil V] (tag : PrefixType) (m : Map K V)
    (d : PrefixType × K → Option V) (k : K) :
    (List.foldl BatchOp.apply d (FlushBatch tag m)) (GenDbKey tag k)
      = match Map.lastModified m k with
        | some v => if DbUtil.IsEmpty v then none else some v
        | none => d (GenDbKey tag k) := by
  induction m generalizing d with
  | nil => rfl
  | cons item rest ih =>
    by_cases hm : item.2.is_modified = true
    · simp only [FlushBatch, hm, if_true, List.foldl_cons, ih, Map.lastModified, and_true]
      cases Map.lastModified rest k with
      | some v => rfl
      | none =>
        by_cases hk : item.1 = k
        · subst hk
          by_cases he : DbUtil.IsEmpty item.2.value = true
          · simp [he, BatchOp.apply]
          · simp [he, BatchOp.apply]
        · have hk2 : ¬ GenDbKey tag k = GenDbKey tag item.1 := by
            intro h
            exact hk (Prod.mk.inj h).2.symm
          by_cases he : DbUtil.IsEmpty item.2.value = true
          · simp [he, BatchOp.apply, hk, Function.update, hk2]
          · simp [he, BatchOp.apply, hk, Function.update, hk2]
    · simp only [FlushBatch, hm, Bool.false_eq_true, if_false, ih, Map.lastModified, and_false]
      cases Map.lastModified rest k <;> simp

/-- After `Flush` of a store-bound root, `GetData` on it (its local map is empty, it
answers from the store) finds `flushedFound`. -/
theorem Flush_root_found [LinearOrder K] [DbUtil K] [DbUtil V] (tag : PrefixType)
    (l : Layer K V) (db : CDBAccess K V) (hdb : l.pDbAccess = some db) :
    ∃ l1, Flush tag (.root l) = .ok (.root l1) ∧
      ∀ k, found tag (.root l1) k = flushedFound tag l.mapData (.root l) k := by
  refine ⟨{ l with pDbAccess := some (db.WriteBatch (FlushBatch tag l.mapData)) }.Clear,
    by simp [Flush, hdb], ?_⟩
  intro k
  simp only [found, flushedFound, lookup, CCompositeKVCache.self, Layer.Clear, Map.find,
    lookupBelow, CDBAccess.GetData, CDBAccess.WriteBatch, store_after_batch, hdb]
  cases Map.lastModified l.mapData k with
  | none => rfl
  | some v =>
    by_cases he : DbUtil.IsEmpty v = true
    · simp [he, Option.filter]
    · simp [he, Option.filter]

/-- After `Flush` of a child, `GetData` on the parent, and on the child itself (its local
map is empty, it answers from the parent), finds `flushedFound`. -/
theorem Flush_child_found [LinearOrder K] [DbUtil K] [DbUtil V] (tag : PrefixType)
    (l : Layer K V) (b : CCompositeKVCache K V) (hdb : l.pDbAccess = none) :
    ∃ l1 b1, Flush tag (.child l b) = .ok (.child l1 b1) ∧
      (∀ k, found tag b1 k = flushedFound tag l.mapData (.child l b) k) ∧
      (∀ k, found tag (.child l1 b1) k = flushedFound tag l.mapData (.child l b) k) ∧
      (∀ k, Map.find b1.self.mapData k
        = match Map.lastModified l.mapData k with
          | some v => some (k, ⟨v, true⟩)
          | none => Map.find b.self.mapData k) ∧
      b1.self.pDbAccess = b.self.pDbAccess ∧ b1.GetBasePtr = b.GetBasePtr := by
  obtain ⟨l2, hfl, hd, _, _, hf⟩ := FlushToBase_ok l.mapData b
  have hlook := lookup_flushed tag l.mapData b l2 hd hf
  have h1 : ∀ k, found tag (b.withSelf l2) k = flushedFound tag l.mapData (.child l b) k := by
    intro k
    unfold found flushedFound
    rw [hlook k, lookupBelow_child]
    cases Map.lastModified l.mapData k <;> rfl
  refine ⟨l.Clear, b.withSelf l2, ?_, h1, ?_, ?_, ?_, ?_⟩
  · rw [Flush_child tag l b hdb, hfl]
    rfl
  · intro k
    rw [found_congr tag _ _ k (lookup_child_nil tag l.Clear _ rfl k)]
    exact h1 k
  · intro k
    rw [self_withSelf]
    exact hf k
  · rw [self_withSelf]
    exact hd
  · rw [GetBasePtr_withSelf]

theorem lookupBelow_of_lookupIt [DecidableEq K] {tag : PrefixType}
    {c : CCompositeKVCache K V} {k : K} {e : K × CacheValue V} (hf : FaithfulAt tag c k)
    (hit : lookupIt tag c k = some e) (hm : e.2.is_modified = false) :
    lookupBelow tag c k = some e.2.value := by
  unfold lookupIt at hit
  cases hfind : Map.find c.self.mapData k with
  | some e0 =>
    rw [hfind] at hit
    cases hit
    exact hf e hfind hm
  | none =>
    rw [hfind] at hit
    cases hb : lookupBelow tag c k with
    | none => rw [hb] at hit; cases hit
    | some v =>
      rw [hb] at hit
      cases hit
      rfl

theorem flushedFound_congr [LinearOrder K] [DbUtil V] (tag : PrefixType) {m1 m2 : Map K V}
    {c1 c2 : CCompositeKVCache K V} {k : K} (h1 : Map.WF m1) (h2 : Map.WF m2)
    (hf : Map.find m1 k = Map.find m2 k) (hb : lookupBelow tag c1 k = lookupBelow tag c2 k) :
    flushedFound tag m1 c1 k = flushedFound tag m2 c2 k := by
  unfold flushedFound
  rw [Map.lastModified_of_find h1, Map.lastModified_of_find h2, hf, hb]

theorem flushedFound_tombstone [LinearOrder K] [DbUtil V] (tag : PrefixType) {m : Map K V}
    (c : CCompositeKVCache K V) {k : K} {v : V} (h : Map.WF m)
    (hf : Map.find m k = some (k, ⟨v, true⟩)) (hv : DbUtil.IsEmpty v = true) :
    flushedFound tag m c k = none := by
  unfold flushedFound
  rw [Map.lastModified_of_find h, hf]
  simp [Option.filter, hv]

/-- `EraseData(k)` and `SetData(k, ev)` with an empty value `ev`, from the same state:
both succeed, `GetData` finds the same for every key afterwards, and, when the
entry of `k` is a faithful copy, a flush of either leaves the same below. -/
theorem erase_set_core [LinearOrder K] [DbUtil K] [DbUtil V] [Inhabited V] [LawfulDbUtil V]
    (tag : PrefixType) (c : CCompositeKVCache K V) (k : K) (ev : V)
    (hk : DbUtil.IsEmpty k = false) (hev : DbUtil.IsEmpty ev = true) :
    ∃ lE lS, EraseData tag c k = .ok (true, (memo tag c k).withSelf lE) ∧
      SetData tag c k ev = .ok (true, (memo tag c k).withSelf lS) ∧
      lE.pDbAccess = c.self.pDbAccess ∧ lS.pDbAccess = c.self.pDbAccess ∧
      (∀ k2, found tag ((memo tag c k).withSelf lE) k2
        = found tag ((memo tag c k).withSelf lS) k2) ∧
      (Map.WF c.self.mapData → FaithfulAt tag c k →
        ∀ k2, flushedFound tag lE.mapData ((memo tag c k).withSelf lE) k2
          = flushedFound tag lS.mapData ((memo tag c k).withSelf lS) k2) := by
  obtain ⟨lS, hset, hputS, _⟩ := SetData_ok tag c ev hk
  have hlS : ∀ k2, lookup tag ((memo tag c k).withSelf lS) k2
      = if k2 = k then some ev else lookup tag c k2 := by
    intro k2
    rw [lookup_put tag _ hputS]
    by_cases h : k2 = k
    · simp [h]
    · simp [h, (lookup_memo tag c k k2).1]
  have hbS : ∀ k2, lookupBelow tag ((memo tag c k).withSelf lS) k2 = lookupBelow tag c k2 := by
    intro k2
    rw [lookupBelow_withSelf tag _ _ hputS.1, (lookup_memo tag c k k2).2]
  have hdS : lS.pDbAccess = c.self.pDbAccess := by rw [hputS.1, memo_pDbAccess]
  rcases EraseData_ok tag c hk with ⟨hnone, her⟩ | ⟨v, lE, hv, hvne, her, hputE, _⟩
  · -- nothing to erase: `EraseData` only memoised
    refine ⟨(memo tag c k).self, lS, by rw [withSelf_self]; exact her, hset,
      memo_pDbAccess tag c k, hdS, ?_, ?_⟩
    · intro k2
      rw [withSelf_self]
      unfold found
      rw [hlS k2, (lookup_memo tag c k k2).1]
      by_cases h : k2 = k
      · subst h
        have : found tag c k2 = none := hnone
        unfold found at this
        rw [this]
        simp [Option.filter, hev]
      · simp [h]
    · intro hwf hfaith k2
      have hwf1 := WF_memo tag c k hwf
      have hwfS := hputS.2.2.2.2 hwf1
      rw [withSelf_self]
      by_cases h : k2 = k
      · subst h
        have hS : flushedFound tag lS.mapData ((memo tag c k2).withSelf lS) k2 = none :=
          flushedFound_tombstone tag _ hwfS (by rw [hputS.2.2.1]; simp) hev
        rw [hS]
        unfold flushedFound
        rw [Map.lastModified_of_find hwf1, find_memo_self, (lookup_memo tag c k2 k2).2]
        have hval := lookupIt_value tag c k2
        have hnone2 : (lookup tag c k2).filter (fun w => !DbUtil.IsEmpty w) = none := hnone
        cases hit : lookupIt tag c k2 with
        | none =>
          rw [hit] at hval
          simp only
          have hb : lookupBelow tag c k2 = none := by
            unfold lookupIt at hit
            cases hfind : Map.find c.self.mapData k2 with
            | some e0 => rw [hfind] at hit; cases hit
            | none =>
              rw [hfind] at hit
              cases hb : lookupBelow tag c k2 with
              | none => rfl
              | some w => rw [hb] at hit; cases hit
          rw [hb]
          rfl
        | some e =>
          rw [hit] at hval
          simp only [Option.map_some'] at hval
          rw [← hval] at hnone2
          by_cases hm : e.2.is_modified = true
          · simpa [hm] using hnone2
          · simp only [Bool.not_eq_true] at hm
            simp only [hm, Bool.false_eq_true, if_false]
            rw [lookupBelow_of_lookupIt hfaith hit hm]
            exact hnone2
      · apply flushedFound_congr tag hwf1 hwfS
        · rw [hputS.2.2.1]; simp [h]
        · rw [hbS, (lookup_memo tag c k k2).2]
  · -- a value was there: `EraseData` wrote the tombstone
    have hse := LawfulDbUtil.isEmpty_setEmpty v
    have hdE : lE.pDbAccess = c.self.pDbAccess := by rw [hputE.1, memo_pDbAccess]
    refine ⟨lE, lS, her, hset, hdE, hdS, ?_, ?_⟩
    · intro k2
      unfold found
      rw [hlS k2, lookup_put tag _ hputE]
      by_cases h : k2 = k
      · simp [h, Option.filter, hev, hse]
      · simp [h, (lookup_memo tag c k k2).1]
    · intro hwf _ k2
      have hwf1 := WF_memo tag c k hwf
      have hwfS := hputS.2.2.2.2 hwf1
      have hwfE := hputE.2.2.2.2 hwf1
      by_cases h : k2 = k
      · subst h
        rw [flushedFound_tombstone tag _ hwfS (by rw [hputS.2.2.1]; simp) hev,
          flushedFound_tombstone tag _ hwfE (by rw [hputE.2.2.1]; simp) hse]
      · apply flushedFound_congr tag hwfE hwfS
        · rw [hputS.2.2.1, hputE.2.2.1]
          simp [h]
        · rw [hbS, lookupBelow_withSelf tag _ _ hputE.1, (lookup_memo tag c k k2).2]

theorem memo_root_shape [LinearOrder K] [DbUtil K] [DbUtil V] (tag : PrefixType)
    (l : Layer K V) (k : K) : memo tag (.root l) k = .root (memo tag (.root l) k).self := by
  rw [memo.eq_1]
  split
  · rfl
  · split <;> rfl

theorem memo_child_shape [LinearOrder K] [DbUtil K] [DbUtil V] (tag : PrefixType)
    (l : Layer K V) (b : CCompositeKVCache K V) (k : K) :
    ∃ b1, memo tag (.child l b) k = .child (memo tag (.child l b) k).self b1 := by
  rw [memo.eq_2]
  split
  · exact ⟨_, rfl⟩
  · split <;> exact ⟨_, rfl⟩

theorem GetData_fst_congr [LinearOrder K] [DbUtil K] [DbUtil V] (tag : PrefixType)
    (c1 c2 : CCompositeKVCache K V) (k : K) (h : found tag c1 k = found tag c2 k) :
    (GetData tag c1 k).map Prod.fst = (GetData tag c2 k).map Prod.fst := by
  by_cases hk : DbUtil.IsEmpty k = true
  · simp [GetData, hk, Except.map]
  · simp only [Bool.not_eq_true] at hk
    rw [GetData_eq tag _ hk, GetData_eq tag _ hk]
    simp [Except.map, h]

theorem HasData_fst_congr [LinearOrder K] [DbUtil K] [DbUtil V] (tag : PrefixType)
    (c1 c2 : CCompositeKVCache K V) (k : K) (h : found tag c1 k = found tag c2 k) :
    (HasData tag c1 k).map Prod.fst = (HasData tag c2 k).map Prod.fst := by
  by_cases hk : DbUtil.IsEmpty k = true
  · simp [HasData, hk, Except.map]
  · simp only [Bool.not_eq_true] at hk
    rw [HasData_eq tag _ hk, HasData_eq tag _ hk]
    simp [Except.map, h]

/-- Flushing a child whose entry of `k` is a modified tombstone, or whose entries of `k`
are unmodified while the root below holds a modified tombstone of `k`: the root then
holds a modified tombstone of `k`, and `GetData(k)` finds nothing on root and child. -/
theorem flush_keeps_tombstone [LinearOrder K] [DbUtil K] [DbUtil V] (tag : PrefixType)
    (lX lR1 : Layer K V) (k : K) (hdb : lX.pDbAccess = none) (hwf : Map.WF lX.mapData)
    (h : (∃ t, Map.find lX.mapData k = some (k, ⟨t, true⟩) ∧ DbUtil.IsEmpty t = true) ∨
      ((∀ e, Map.find lX.mapData k = some e → e.2.is_modified = false) ∧
        ∃ t, Map.find lR1.mapData k = some (k, ⟨t, true⟩) ∧ DbUtil.IsEmpty t = true)) :
    ∃ l2 lR2, Flush tag (.child lX (.root lR1)) = .ok (.child l2 (.root lR2)) ∧
      (∃ t, Map.find lR2.mapData k = some (k, ⟨t, true⟩) ∧ DbUtil.IsEmpty t = true) ∧
      found tag (.root lR2) k = none ∧ found tag (.child l2 (.root lR2)) k = none ∧
      lR2.pDbAccess = lR1.pDbAccess := by
  obtain ⟨l2, bE, hfl, hEb, hEc, hfind, hpd, hbase⟩ := Flush_child_found tag lX (.root lR1) hdb
  cases bE with
  | child _ _ => cases hbase
  | root lR2 =>
    simp only [CCompositeKVCache.self] at hfind hpd
    have hfk := hfind k
    rw [Map.lastModified_of_find hwf] at hfk
    have htomb : ∃ t, Map.find lR2.mapData k = some (k, ⟨t, true⟩) ∧ DbUtil.IsEmpty t = true := by
      rcases h with ⟨t, ht, hte⟩ | ⟨hun, t, ht, hte⟩
      · rw [ht] at hfk
        exact ⟨t, by simpa using hfk, hte⟩
      · cases he : Map.find lX.mapData k with
        | none =>
          rw [he] at hfk
          exact ⟨t, by rw [hfk, ht], hte⟩
        | some e =>
          rw [he] at hfk
          simp only [hun e he, Bool.false_eq_true, if_false] at hfk
          exact ⟨t, by rw [hfk, ht], hte⟩
    obtain ⟨t, ht, hte⟩ := htomb
    have hR : found tag (.root lR2) k = none := by
      apply found_of_lookup_empty tag _ k t _ hte
      simp [lookup, CCompositeKVCache.self, ht]
    refine ⟨l2, lR2, hfl, ⟨t, ht, hte⟩, hR, ?_, hpd⟩
    rw [hEc, ← hEb]
    exact hR

theorem lookup_root_store [DecidableEq K] (tag : PrefixType) (lR : Layer K V)
    (db : CDBAccess K V) (k : K) (v : V) (hdb : lR.pDbAccess = some db)
    (hstore : db.GetData tag k = some v) :
    lookup tag (.root lR) k = some v ∨
    ∃ eR, Map.find lR.mapData k = some eR ∧ lookup tag (.root lR) k = some eR.2.value := by
  unfold lookup
  simp only [CCompositeKVCache.self]
  cases hf : Map.find lR.mapData k with
  | none => left; simp [lookupBelow, hdb, hstore]
  | some eR => right; exact ⟨eR, rfl, rfl⟩

/-- The root below a child after `GetDataIt` on the child: still a root on the same
store, with the entry of the key it had, if it had one. -/
theorem memo_child_root [LinearOrder K] [DbUtil K] [DbUtil V] (tag : PrefixType)
    (lC lR : Layer K V) (k : K) :
    ∃ lR1, memo tag (.child lC (.root lR)) k
        = .child (memo tag (.child lC (.root lR)) k).self (.root lR1) ∧
      lR1.pDbAccess = lR.pDbAccess ∧
      ∀ eR, Map.find lR.mapData k = some eR → Map.find lR1.mapData k = some eR := by
  rw [memo.eq_2]
  split
  · exact ⟨lR, rfl, rfl, fun _ h => h⟩
  · have hfind : ∀ eR, Map.find lR.mapData k = some eR →
        Map.find (memo tag (.root lR) k).self.mapData k = some eR := by
      intro eR h
      rw [find_memo_self]
      simp [lookupIt, CCompositeKVCache.self, h]
    split
    · refine ⟨(memo tag (.root lR) k).self, ?_, memo_pDbAccess tag (.root lR) k, hfind⟩
      rw [← memo_root_shape]
      rfl
    · refine ⟨(memo tag (.root lR) k).self, ?_, memo_pDbAccess tag (.root lR) k, hfind⟩
      rw [← memo_root_shape]
      rfl

end Flushed

/-! ## Undo -/

section Undo

variable {K V : Type}

/-- The member `UndoDataList` succeeds; afterwards the lookup finds, for a key of the log,
the prior value of the first entry for that key, and for any other key what it
found before. The op log is not touched. -/
theorem UndoDataList_ok [LinearOrder K] [DbUtil K] [DbUtil V] (tag : PrefixType)
    (c : CCompositeKVCache K V) (es : CDbOpLogs K V) :
    ∃ l2, UndoDataList c es = .ok (c.withSelf l2) ∧
      l2.pDbAccess = c.self.pDbAccess ∧ l2.pDbOpLogMap = c.self.pDbOpLogMap ∧
      ∀ k, lookup tag (c.withSelf l2) k
        = match firstLog es k with
          | some e => some e.value
          | none => lookup tag c k := by
  induction es with
  | nil => exact ⟨c.self, by simp [UndoDataList], rfl, rfl, fun k => by simp [firstLog]⟩
  | cons e rest ih =>
    obtain ⟨l1, h1, hd1, ho1, hl1⟩ := ih
    obtain ⟨l2, h2, hput, ho2⟩ := SetDataToCache_ok (c.withSelf l1) e.key e.value
    rw [withSelf_withSelf] at h2
    refine ⟨l2, ?_, ?_, ?_, ?_⟩
    · simp only [UndoDataList, h1, UndoData, h2]
    · rw [hput.1, self_withSelf, hd1]
    · rw [ho2, self_withSelf, ho1]
    · intro k
      have := lookup_put tag (c.withSelf l1) hput k
      rw [withSelf_withSelf] at this
      rw [this, hl1 k]
      by_cases hk : e.key = k
      · simp [firstLog, List.find?, hk]
      · have hk2 : ¬ k = e.key := fun h => hk h.symm
        simp [firstLog, List.find?, hk, hk2]

/-- What one call of a sequence does, with an op-log sink attached: it succeeds; either
it logs nothing and changes no lookup, or it logs one entry, the key with the
value the lookup found (default-constructed when none), and changes the lookup
of that key only. Below the layer no lookup changes, and an entry that is
modified afterwards was modified before or has the logged key. -/
theorem runOp_ok [LinearOrder K] [DbUtil K] [DbUtil V] [Inhabited V] (tag : PrefixType)
    (c : CCompositeKVCache K V) (op : CacheOp K V) (m : CDBOpLogMap K V)
    (hsink : c.self.pDbOpLogMap = some m) (hk : DbUtil.IsEmpty op.key = false) :
    ∃ c1 es m1, runOp tag c op = .ok c1 ∧ c1.self.pDbOpLogMap = some m1 ∧
      m1 tag = m tag ++ es ∧ c1.self.pDbAccess = c.self.pDbAccess ∧
      ((es = [] ∧ ∀ k, lookup tag c1 k = lookup tag c k) ∨
       (es = [⟨op.key, (lookup tag c op.key).getD default⟩] ∧
        ∀ k, k ≠ op.key → lookup tag c1 k = lookup tag c k)) ∧
      (∀ e ∈ c1.self.mapData, e.2.is_modified = true →
        (e ∈ c.self.mapData ∨ ∃ g ∈ es, g.key = e.1)) ∧
      (∀ b, c.GetBasePtr = some b →
        ∃ b1, c1.GetBasePtr = some b1 ∧ ∀ k, lookup tag b1 k = lookup tag b k) := by
  have hmod : ∀ (l1 : Layer K V) (cv : CacheValue V) (g : CDbOpLog K V),
      g.key = op.key → Layer.Put (memo tag c op.key).self l1 op.key cv →
      ∀ e ∈ l1.mapData, e.2.is_modified = true →
        (e ∈ c.self.mapData ∨ ∃ g2 ∈ [g], g2.key = e.1) := by
    intro l1 cv g hg hput e he hm
    rcases hput.2.2.2.1 e he with h | h
    · right; exact ⟨g, List.mem_singleton.2 rfl, by rw [h, hg]⟩
    · rcases mem_memo tag c op.key e h with h2 | h2
      · left; exact h2
      · rw [h2] at hm; cases hm
  have hbase : ∀ l1 : Layer K V, ∀ b, c.GetBasePtr = some b →
      ∃ b1, ((memo tag c op.key).withSelf l1).GetBasePtr = some b1 ∧
        ∀ k, lookup tag b1 k = lookup tag b k := by
    intro l1 b hb
    obtain ⟨b1, h1, h2⟩ := memo_base tag c b op.key hb
    exact ⟨b1, by rw [GetBasePtr_withSelf, h1], h2⟩
  cases op with
  | set key value =>
    simp only [CacheOp.key] at hk hmod hbase ⊢
    obtain ⟨l1, hset, hput, hlog⟩ := SetData_ok tag c value hk
    refine ⟨_, [⟨key, (lookup tag c key).getD default⟩], _, by simp [runOp, hset, Except.map],
      by rw [self_withSelf, hlog, hsink]; rfl, by simp [CDBOpLogMap.AddOpLog], ?_, Or.inr ⟨rfl, ?_⟩,
      ?_, hbase l1⟩
    · rw [self_withSelf, hput.1, memo_pDbAccess]
    · intro k hkk
      rw [lookup_put tag _ hput, if_neg hkk, (lookup_memo tag c key k).1]
    · rw [self_withSelf]
      exact hmod l1 _ _ rfl hput
  | erase key =>
    simp only [CacheOp.key] at hk hmod hbase ⊢
    rcases EraseData_ok tag c hk with ⟨_, her⟩ | ⟨v, l1, hv, _, her, hput, hlog⟩
    · refine ⟨_, [], m, by simp [runOp, her, Except.map], by rw [memo_pDbOpLogMap, hsink],
        by simp, memo_pDbAccess tag c key, Or.inl ⟨rfl, fun k => (lookup_memo tag c key k).1⟩,
        ?_, ?_⟩
      · intro e he hm
        rcases mem_memo tag c key e he with h2 | h2
        · left; exact h2
        · rw [h2] at hm; cases hm
      · intro b hb
        have := hbase (memo tag c key).self b hb
        rwa [withSelf_self] at this
    · refine ⟨_, [⟨key, (lookup tag c key).getD default⟩], _, by simp [runOp, her, Except.map],
        by rw [self_withSelf, hlog, hsink]; rfl, by simp [CDBOpLogMap.AddOpLog, hv], ?_,
        Or.inr ⟨rfl, ?_⟩, ?_, hbase l1⟩
      · rw [self_withSelf, hput.1, memo_pDbAccess]
      · intro k hkk
        rw [lookup_put tag _ hput, if_neg hkk, (lookup_memo tag c key k).1]
      · rw [self_withSelf]
        exact hmod l1 _ _ rfl hput

theorem filter_prior [DecidableEq K] [DbUtil V] [Inhabited V] [LawfulDbUtil V]
    (tag : PrefixType) (c : CCompositeKVCache K V) (k : K) :
    (some ((lookup tag c k).getD default)).filter (fun v => !DbUtil.IsEmpty v)
      = found tag c k := by
  unfold found
  cases lookup tag c k with
  | none => simp [Option.filter, LawfulDbUtil.isEmpty_default]
  | some v => rfl

/-- What a sequence of calls does, with an op-log sink attached: it succeeds and appends
`es` to the log of the domain; for a key of `es` the prior value of its first
entry is what `GetData` returned before the sequence, and for any other key the
lookup is unchanged. -/
theorem runOps_ok [LinearOrder K] [DbUtil K] [DbUtil V] [Inhabited V] [LawfulDbUtil V]
    (tag : PrefixType) (ops : List (CacheOp K V)) :
    ∀ (c : CCompositeKVCache K V) (m : CDBOpLogMap K V), c.self.pDbOpLogMap = some m →
    (∀ op ∈ ops, DbUtil.IsEmpty op.key = false) →
    ∃ c1 es m1, runOps tag c ops = .ok c1 ∧ c1.self.pDbOpLogMap = some m1 ∧
      m1 tag = m tag ++ es ∧ c1.self.pDbAccess = c.self.pDbAccess ∧
      (∀ k, match firstLog es k with
        | some e => (some e.value).filter (fun v => !DbUtil.IsEmpty v) = found tag c k
        | none => lookup tag c1 k = lookup tag c k) ∧
      (∀ e ∈ c1.self.mapData, e.2.is_modified = true →
        (e ∈ c.self.mapData ∨ ∃ g ∈ es, g.key = e.1)) ∧
      (∀ b, c.GetBasePtr = some b →
        ∃ b1, c1.GetBasePtr = some b1 ∧ ∀ k, lookup tag b1 k = lookup tag b k) := by
  induction ops with
  | nil =>
    intro c m hsink _
    exact ⟨c, [], m, rfl, hsink, by simp, rfl, fun k => by simp [firstLog],
      fun e he _ => Or.inl he, fun b hb => ⟨b, hb, fun _ => rfl⟩⟩
  | cons op rest ih =>
    intro c m hsink hkeys
    obtain ⟨c0, es0, m0, hrun0, hsink0, hlog0, hdb0, hcase, hmod0, hbase0⟩ :=
      runOp_ok tag c op m hsink (hkeys op (List.mem_cons_self _ _))
    obtain ⟨c1, es1, m1, hrun1, hsink1, hlog1, hdb1, hlook1, hmod1, hbase1⟩ :=
      ih c0 m0 hsink0 (fun o ho => hkeys o (List.mem_cons_of_mem _ ho))
    refine ⟨c1, es0 ++ es1, m1, by simp only [runOps, hrun0, hrun1],
      hsink1, by rw [hlog1, hlog0, List.append_assoc], by rw [hdb1, hdb0], ?_, ?_, ?_⟩
    · intro k
      have h1 := hlook1 k
      rcases hcase with ⟨he, hl⟩ | ⟨he, hl⟩
      · rw [he, List.nil_append]
        cases hf : firstLog es1 k with
        | none =>
          rw [hf] at h1
          simp only at h1 ⊢
          rw [h1, hl]
        | some e =>
          rw [hf] at h1
          simp only at h1 ⊢
          rw [h1]
          exact found_congr tag c0 c k (hl k)
      · by_cases hk : k = op.key
        · subst hk
          have : firstLog (es0 ++ es1) op.key
              = some ⟨op.key, (lookup tag c op.key).getD default⟩ := by
            simp [firstLog, he, List.find?]
          rw [this]
          exact filter_prior tag c op.key
        · have hk2 : ¬ op.key = k := fun h => hk h.symm
          have : firstLog (es0 ++ es1) k = firstLog es1 k := by
            simp [firstLog, he, List.find?, hk2]
          rw [this]
          cases hf : firstLog es1 k with
          | none =>
            rw [hf] at h1
            simp only at h1 ⊢
            rw [h1, hl k hk]
          | some e =>
            rw [hf] at h1
            simp only at h1 ⊢
            rw [h1]
            exact found_congr tag c0 c k (hl k hk)
    · intro e he hm
      rcases hmod1 e he hm with h | ⟨g, hg, hgk⟩
      · rcases hmod0 e h hm with h2 | ⟨g, hg, hgk⟩
        · exact Or.inl h2
        · exact Or.inr ⟨g, List.mem_append_left _ hg, hgk⟩
      · exact Or.inr ⟨g, List.mem_append_right _ hg, hgk⟩
    · intro b hb
      obtain ⟨b0, hb0, hl0⟩ := hbase0 b hb
      obtain ⟨b1, hb1, hl1⟩ := hbase1 b0 hb0
      exact ⟨b1, hb1, fun k => by rw [hl1, hl0]⟩

theorem firstLog_none [DecidableEq K] {es : CDbOpLogs K V} {k : K}
    (h : firstLog es k = none) : ∀ g ∈ es, g.key ≠ k := by
  intro g hg
  have := List.find?_eq_none.1 h g hg
  simpa using this

theorem found_child_nil [DecidableEq K] [DbUtil V] (tag : PrefixType) (l : Layer K V)
    (b : CCompositeKVCache K V) (h : l.mapData = []) (k : K) :
    found tag (.child l b) k = found tag b k :=
  found_congr tag _ _ k (lookup_child_nil tag l b h k)

end Undo

/-! ## Two-step commit -/

section TwoStep

variable {K V : Type}

/-- The loop of `Flush` into a parent keeps the local map of the parent well formed. -/
theorem FlushToBase_WF [LinearOrder K] [DbUtil K] [DbUtil V] (m : Map K V) :
    ∀ b : CCompositeKVCache K V, Map.WF b.self.mapData →
      ∀ b1, FlushToBase m b = .ok b1 → Map.WF b1.self.mapData := by
  induction m with
  | nil =>
    intro b hwf b1 h
    simp only [FlushToBase, Except.ok.injEq] at h
    rw [← h]
    exact hwf
  | cons item rest ih =>
    intro b hwf b1 h
    by_cases hm : item.2.is_modified = true
    · obtain ⟨l0, h0, hput, _⟩ := SetDataToCache_ok b item.1 item.2.value
      simp only [FlushToBase, hm, if_true, h0] at h
      exact ih (b.withSelf l0) (by rw [self_withSelf]; exact hput.2.2.2.2 hwf) b1 h
    · simp only [FlushToBase, hm, Bool.false_eq_true, if_false] at h
      exact ih b hwf b1 h

theorem Flush_child_WF [LinearOrder K] [DbUtil K] [DbUtil V] (tag : PrefixType)
    (l l2 : Layer K V) (b b2 : CCompositeKVCache K V)
    (h : Flush tag (.child l b) = .ok (.child l2 b2)) (hwf : Map.WF b.self.mapData) :
    Map.WF b2.self.mapData := by
  cases hd : l.pDbAccess with
  | some db => simp [Flush, hd] at h
  | none =>
    rw [Flush_child tag l b hd] at h
    cases hfl : FlushToBase l.mapData b with
    | error err => rw [hfl] at h; cases h
    | ok b1 =>
      rw [hfl] at h
      simp only [Except.map, Except.ok.injEq, CCompositeKVCache.child.injEq] at h
      rw [← h.2]
      exact FlushToBase_WF l.mapData b hwf b1 hfl

/-- `Flush` of a store-bound root with a well-formed local map: one batch is submitted,
and the store then holds, for a key with a modified entry, the value of the entry
(nothing when it is empty), and for any other key what it held. -/
theorem Flush_root_store [LinearOrder K] [DbUtil K] [DbUtil V] (tag : PrefixType)
    (l : Layer K V) (db : CDBAccess K V) (hdb : l.pDbAccess = some db)
    (hwf : Map.WF l.mapData) :
    ∃ l1 db1, Flush tag (.root l) = .ok (.root l1) ∧ l1.pDbAccess = some db1 ∧
      db1.batches = db.batches ++ [FlushBatch tag l.mapData] ∧
      (∀ k e, Map.find l.mapData k = some e → e.2.is_modified = true →
        db1.GetData tag k = if DbUtil.IsEmpty e.2.value then none else some e.2.value) ∧
      (∀ k, (∀ e, Map.find l.mapData k = some e → e.2.is_modified = false) →
        db1.GetData tag k = db.GetData tag k) := by
  refine ⟨{ l with pDbAccess := some (db.WriteBatch (FlushBatch tag l.mapData)) }.Clear,
    db.WriteBatch (FlushBatch tag l.mapData), by simp [Flush, hdb], rfl, rfl, ?_, ?_⟩
  · intro k e he hm
    simp only [CDBAccess.GetData, CDBAccess.WriteBatch, store_after_batch,
      Map.lastModified_of_find hwf, he, hm, if_true]
  · intro k hk
    simp only [CDBAccess.GetData, CDBAccess.WriteBatch, store_after_batch,
      Map.lastModified_of_find hwf]
    cases he : Map.find l.mapData k with
    | none => rfl
    | some e => simp [hk e he]

/-- The chain below a child after `GetDataIt` on the child: untouched when the child
had the key, else what `GetDataIt` on the parent leaves. -/
theorem memo_child_base [LinearOrder K] [DbUtil K] [DbUtil V] (tag : PrefixType)
    (l : Layer K V) (b : CCompositeKVCache K V) (k : K) :
    ∃ b1, memo tag (.child l b) k = .child (memo tag (.child l b) k).self b1 ∧
      (b1 = b ∨ b1 = memo tag b k) := by
  rw [memo.eq_2]
  split
  · exact ⟨b, rfl, Or.inl rfl⟩
  · split
    · exact ⟨memo tag b k, rfl, Or.inr rfl⟩
    · exact ⟨memo tag b k, rfl, Or.inr rfl⟩

/-- The root below a child after `GetDataIt` on the child, with what it keeps: the
store binding, the entry of the key if it had one, and a well-formed local map. -/
theorem memo_child_root_WF [LinearOrder K] [DbUtil K] [DbUtil V] (tag : PrefixType)
    (lC lR : Layer K V) (k : K) :
    ∃ lR1, memo tag (.child lC (.root lR)) k
        = .child (memo tag (.child lC (.root lR)) k).self (.root lR1) ∧
      lR1.pDbAccess = lR.pDbAccess ∧
      (∀ eR, Map.find lR.mapData k = some eR → Map.find lR1.mapData k = some eR) ∧
      (Map.WF lR.mapData → Map.WF lR1.mapData) ∧
      (∀ e ∈ lR1.mapData, e ∈ lR.mapData ∨ e.2.is_modified = false) ∧
      (∀ k2, lookup tag (.root lR1) k2 = lookup tag (.root lR) k2) := by
  obtain ⟨b1, hshape, hb1⟩ := memo_child_base tag lC (.root lR) k
  rcases hb1 with h | h
  · subst h
    exact ⟨lR, hshape, rfl, fun _ h => h, fun h => h, fun e he => Or.inl he, fun _ => rfl⟩
  · refine ⟨(memo tag (.root lR) k).self, ?_, memo_pDbAccess tag (.root lR) k, ?_,
      WF_memo tag (.root lR) k, mem_memo tag (.root lR) k, ?_⟩
    · rw [← memo_root_shape, ← h]
      exact hshape
    · intro eR he
      rw [find_memo_self]
      simp [lookupIt, CCompositeKVCache.self, he]
    · intro k2
      rw [← memo_root_shape]
      exact (lookup_memo tag (.root lR) k k2).1

/-- `C.EraseData(k); C.Flush()` over a store-backed root whose store holds a non-empty
value for `k`, the entries of `k` being faithful copies where unmodified: both
calls succeed and leave in the local map of the root a modified tombstone of `k`;
the store is not touched and the local map of the root stays well formed. -/
theorem erase_flush_tombstone [LinearOrder K] [DbUtil K] [DbUtil V] [Inhabited V]
    [LawfulDbUtil V]
    (tag : PrefixType) (lC lR : Layer K V) (db : CDBAccess K V) (k : K) (v : V)
    (hdb : lR.pDbAccess = some db) (hstore : db.GetData tag k = some v)
    (hv : DbUtil.IsEmpty v = false) (hCdb : lC.pDbAccess = none) (hwf : Map.WF lC.mapData)
    (hk : DbUtil.IsEmpty k = false)
    (hfC : FaithfulAt tag (.child lC (.root lR)) k) (hfR : FaithfulAt tag (.root lR) k) :
    ∃ c1 l2 lR2, EraseData tag (.child lC (.root lR)) k = .ok (true, c1) ∧
      Flush tag c1 = .ok (.child l2 (.root lR2)) ∧
      (∃ t, Map.find lR2.mapData k = some (k, ⟨t, true⟩) ∧ DbUtil.IsEmpty t = true) ∧
      lR2.pDbAccess = some db ∧ (Map.WF lR.mapData → Map.WF lR2.mapData) := by
  obtain ⟨lR1, hshape, hR1db, hR1find, hR1wf, _, _⟩ := memo_child_root_WF tag lC lR k
  have hwf1 := WF_memo tag (.child lC (.root lR)) k hwf
  have hdb1 : (memo tag (.child lC (.root lR)) k).self.pDbAccess = none := by
    rw [memo_pDbAccess]; exact hCdb
  have finish : ∀ lX : Layer K V, lX.pDbAccess = none → Map.WF lX.mapData →
      ((∃ t, Map.find lX.mapData k = some (k, ⟨t, true⟩) ∧ DbUtil.IsEmpty t = true) ∨
        ((∀ e, Map.find lX.mapData k = some e → e.2.is_modified = false) ∧
          ∃ t, Map.find lR1.mapData k = some (k, ⟨t, true⟩) ∧ DbUtil.IsEmpty t = true)) →
      ∃ l2 lR2, Flush tag (.child lX (.root lR1)) = .ok (.child l2 (.root lR2)) ∧
        (∃ t, Map.find lR2.mapData k = some (k, ⟨t, true⟩) ∧ DbUtil.IsEmpty t = true) ∧
        lR2.pDbAccess = some db ∧ (Map.WF lR.mapData → Map.WF lR2.mapData) := by
    intro lX hX hXwf hT
    obtain ⟨l2, lR2, hfl, htomb, _, _, hpd⟩ := flush_keeps_tombstone tag lX lR1 k hX hXwf hT
    exact ⟨l2, lR2, hfl, htomb, by rw [hpd, hR1db, hdb],
      fun h => Flush_child_WF tag lX l2 (.root lR1) (.root lR2) hfl (hR1wf h)⟩
  rcases EraseData_ok tag (.child lC (.root lR)) hk with ⟨hnone, her⟩ | ⟨w, lE, _, _, her, hput, _⟩
  · rw [hshape] at her
    have hfm := find_memo_self tag (.child lC (.root lR)) k
    have hval := lookupIt_value tag (.child lC (.root lR)) k
    have hnone2 : (lookup tag (.child lC (.root lR)) k).filter (fun w => !DbUtil.IsEmpty w)
        = none := hnone
    have hroot := lookup_root_store tag lR db k v hdb hstore
    cases hit : lookupIt tag (.child lC (.root lR)) k with
    | none =>
      exfalso
      rw [hit] at hval
      have hl : lookup tag (.child lC (.root lR)) k = none := by rw [← hval]; rfl
      have hb : lookupBelow tag (.child lC (.root lR)) k = none := by
        unfold lookup at hl
        cases hfind : Map.find (CCompositeKVCache.child lC (.root lR)).self.mapData k with
        | some e0 => rw [hfind] at hl; cases hl
        | none => rw [hfind] at hl; exact hl
      rw [lookupBelow_child] at hb
      rcases hroot with h | ⟨eR, _, h⟩ <;> (rw [hb] at h; cases h)
    | some e =>
      rw [hit] at hfm hval
      simp only [Option.map_some'] at hval
      rw [← hval] at hnone2
      have hempty : DbUtil.IsEmpty e.2.value = true := by
        by_cases h : DbUtil.IsEmpty e.2.value = true
        · exact h
        · simp [Option.filter, h] at hnone2
      have hek := lookupIt_key hit
      obtain ⟨l2, lR2, hfl, rest⟩ := finish _ hdb1 hwf1 (by
        by_cases hm : e.2.is_modified = true
        · left
          refine ⟨e.2.value, ?_, hempty⟩
          rw [hfm, ← hek, ← hm]
        · right
          simp only [Bool.not_eq_true] at hm
          refine ⟨fun e2 he2 => by rw [hfm] at he2; cases he2; exact hm, ?_⟩
          have hbelow := lookupBelow_of_lookupIt hfC hit hm
          rw [lookupBelow_child] at hbelow
          rcases hroot with h | ⟨eR, hfind, h⟩
          · rw [hbelow] at h
            cases h
            rw [hv] at hempty
            cases hempty
          · rw [hbelow] at h
            have hval2 : eR.2.value = e.2.value := (Option.some.inj h).symm
            have hmod : eR.2.is_modified = true := by
              by_cases hm2 : eR.2.is_modified = true
              · exact hm2
              · exfalso
                simp only [Bool.not_eq_true] at hm2
                have := hfR eR hfind hm2
                simp only [lookupBelow, hdb, hstore, Option.some.injEq] at this
                rw [this, hval2, hempty] at hv
                cases hv
            refine ⟨eR.2.value, ?_, by rw [hval2]; exact hempty⟩
            rw [hR1find eR hfind, ← Map.find_key hfind, ← hmod])
      exact ⟨_, l2, lR2, her, hfl, rest⟩
  · rw [hshape] at her hput
    simp only [CCompositeKVCache.withSelf, CCompositeKVCache.self] at her hput
    rw [hshape] at hwf1 hdb1
    simp only [CCompositeKVCache.self] at hwf1 hdb1
    obtain ⟨l2, lR2, hfl, rest⟩ := finish lE (by rw [hput.1, hdb1]) (hput.2.2.2.2 hwf1)
      (Or.inl ⟨DbUtil.SetEmpty w, by rw [hput.2.2.1]; simp, LawfulDbUtil.isEmpty_setEmpty w⟩)
    exact ⟨_, l2, lR2, her, hfl, rest⟩

/-- `C.SetData(k, v); C.Flush()` over a store-backed root: both calls succeed and leave
in the local map of the root the modified entry `(k, v)`; the store is not touched
and the local map of the root stays well formed. -/
theorem set_flush_entry [LinearOrder K] [DbUtil K] [DbUtil V] [Inhabited V]
    (tag : PrefixType) (lC lR : Layer K V) (db : CDBAccess K V) (k : K) (v : V)
    (hdb : lR.pDbAccess = some db) (hCdb : lC.pDbAccess = none) (hwf : Map.WF lC.mapData)
    (hk : DbUtil.IsEmpty k = false) :
    ∃ c1 l2 lR2, SetData tag (.child lC (.root lR)) k v = .ok (true, c1) ∧
      Flush tag c1 = .ok (.child l2 (.root lR2)) ∧
      Map.find lR2.mapData k = some (k, ⟨v, true⟩) ∧
      lR2.pDbAccess = some db ∧ (Map.WF lR.mapData → Map.WF lR2.mapData) := by
  obtain ⟨lR1, hshape, hR1db, _, hR1wf, _, _⟩ := memo_child_root_WF tag lC lR k
  have hwf1 := WF_memo tag (.child lC (.root lR)) k hwf
  have hdb1 : (memo tag (.child lC (.root lR)) k).self.pDbAccess = none := by
    rw [memo_pDbAccess]; exact hCdb
  obtain ⟨l1, hset, hput, _⟩ := SetData_ok tag (.child lC (.root lR)) v hk
  rw [hshape] at hset hput hwf1 hdb1
  simp only [CCompositeKVCache.withSelf, CCompositeKVCache.self] at hset hput hwf1 hdb1
  have hl1wf := hput.2.2.2.2 hwf1
  obtain ⟨l2, b2, hfl, _, _, hfind, hpd, hbase⟩ :=
    Flush_child_found tag l1 (.root lR1) (by rw [hput.1, hdb1])
  cases b2 with
  | child _ _ => cases hbase
  | root lR2 =>
    simp only [CCompositeKVCache.self] at hfind hpd
    refine ⟨_, l2, lR2, hset, hfl, ?_, by rw [hpd, hR1db, hdb],
      fun h => Flush_child_WF tag l1 l2 (.root lR1) (.root lR2) hfl (hR1wf h)⟩
    rw [hfind k, Map.lastModified_of_find hl1wf, hput.2.2.1 k]
    simp

end TwoStep

/-! ## What a flush writes -/

section FlushWrites

variable {K V : Type}

theorem Map.not_mem_of_find_none [DecidableEq K] {m : Map K V} {k : K}
    (h : Map.find m k = none) : ∀ e ∈ m, e.1 ≠ k := by
  induction m with
  | nil => intro e he; cases he
  | cons a m ih =>
    obtain ⟨k0, c0⟩ := a
    by_cases hk : k0 = k
    · simp [Map.find, hk] at h
    · simp only [Map.find, hk, if_false] at h
      intro e he
      rcases List.mem_cons.1 he with h1 | h1
      · rw [h1]; exact hk
      · exact ih h e h1

/-- An entry of the parent after the loop of `Flush` was there before or is a modified
entry of the child, written as modified. -/
theorem FlushToBase_mem [LinearOrder K] [DbUtil K] [DbUtil V] (m : Map K V) :
    ∀ b b1 : CCompositeKVCache K V, FlushToBase m b = .ok b1 →
      ∀ e ∈ b1.self.mapData, e ∈ b.self.mapData ∨
        ∃ item ∈ m, item.2.is_modified = true ∧ e = (item.1, ⟨item.2.value, true⟩) := by
  induction m with
  | nil =>
    intro b b1 h e he
    simp only [FlushToBase, Except.ok.injEq] at h
    rw [← h] at he
    exact Or.inl he
  | cons item rest ih =>
    intro b b1 h e he
    by_cases hm : item.2.is_modified = true
    · obtain ⟨l0, h0, hput, _⟩ := SetDataToCache_ok b item.1 item.2.value
      simp only [FlushToBase, hm, if_true, h0] at h
      rcases ih (b.withSelf l0) b1 h e he with h1 | ⟨it, hit, hmod, heq⟩
      · rw [self_withSelf] at h1
        rcases hput.2.2.2.1 e h1 with h2 | h2
        · exact Or.inr ⟨item, List.mem_cons_self _ _, hm, h2⟩
        · exact Or.inl h2
      · exact Or.inr ⟨it, List.mem_cons_of_mem _ hit, hmod, heq⟩
    · simp only [FlushToBase, hm, Bool.false_eq_true, if_false] at h
      rcases ih b b1 h e he with h1 | ⟨it, hit, hmod, heq⟩
      · exact Or.inl h1
      · exact Or.inr ⟨it, List.mem_cons_of_mem _ hit, hmod, heq⟩

/-- Every operation of the batch of `Flush` is about the key of a modified entry. -/
theorem FlushBatch_mem [DbUtil V] (tag : PrefixType) (m : Map K V) (op : BatchOp K V)
    (h : op ∈ FlushBatch tag m) :
    ∃ e ∈ m, e.2.is_modified = true ∧ op.key = GenDbKey tag e.1 := by
  induction m with
  | nil => simp [FlushBatch] at h
  | cons a m ih =>
    by_cases hm : a.2.is_modified = true
    · simp only [FlushBatch, hm, if_true, List.mem_cons] at h
      rcases h with h | h
      · refine ⟨a, List.mem_cons_self _ _, hm, ?_⟩
        rw [h]
        by_cases he : DbUtil.IsEmpty a.2.value = true
        · simp [he, BatchOp.key]
        · simp [he, BatchOp.key]
      · obtain ⟨e, he, hmod, hkey⟩ := ih h
        exact ⟨e, List.mem_cons_of_mem _ he, hmod, hkey⟩
    · simp only [FlushBatch, hm, Bool.false_eq_true, if_false] at h
      obtain ⟨e, he, hmod, hkey⟩ := ih h
      exact ⟨e, List.mem_cons_of_mem _ he, hmod, hkey⟩

/-- A key that the lookup finds nowhere: `GetDataIt` leaves the chain as it is. -/
theorem memo_of_lookup_none [LinearOrder K] [DbUtil K] [DbUtil V] (tag : PrefixType)
    (c : CCompositeKVCache K V) (k : K) (h : lookup tag c k = none) : memo tag c k = c := by
  induction c with
  | root l =>
    unfold lookup at h
    simp only [CCompositeKVCache.self] at h
    rw [memo.eq_1]
    cases hf : Map.find l.mapData k with
    | some e => rfl
    | none =>
      rw [hf] at h
      simp only at h
      simp [h]
  | child l b ih =>
    unfold lookup at h
    simp only [CCompositeKVCache.self] at h
    rw [memo.eq_2]
    cases hf : Map.find l.mapData k with
    | some e => rfl
    | none =>
      rw [hf] at h
      simp only at h
      have hb : lookup tag b k = none := by rw [← lookupBelow_child tag l b k]; exact h
      simp [h, ih hb]

end FlushWrites

/-! ## Frames of the member functions -/

section Frames

variable {K V : Type}

theorem lookup_of_Absent [DecidableEq K] (tag : PrefixType) (c : CCompositeKVCache K V)
    (k : K) (h : Absent tag c k) : lookup tag c k = none := by
  induction c with
  | root l =>
    obtain ⟨hf, hdb⟩ := h
    unfold lookup
    simp only [CCompositeKVCache.self, hf, lookupBelow]
    cases hl : l.pDbAccess with
    | none => rfl
    | some db => exact hdb db hl
  | child l b ih =>
    obtain ⟨hf, hb⟩ := h
    unfold lookup
    simp only [CCompositeKVCache.self, hf]
    rw [lookupBelow_child]
    exact ih hb

theorem dbChain_withSelf (c : CCompositeKVCache K V) (l : Layer K V)
    (h : l.pDbAccess = c.self.pDbAccess) : dbChain (c.withSelf l) = dbChain c := by
  cases c with
  | root l0 => simp [CCompositeKVCache.withSelf, dbChain, h, CCompositeKVCache.self]
  | child l0 b => simp [CCompositeKVCache.withSelf, dbChain, h, CCompositeKVCache.self]

/-- `GetDataIt` writes to no store. -/
theorem dbChain_memo [LinearOrder K] [DbUtil K] [DbUtil V] (tag : PrefixType)
    (c : CCompositeKVCache K V) (k : K) : dbChain (memo tag c k) = dbChain c := by
  induction c with
  | root l =>
    rw [memo_root_shape]
    simp only [dbChain]
    rw [memo_pDbAccess]
    rfl
  | child l b ih =>
    obtain ⟨b1, hshape, hb1⟩ := memo_child_base tag l b k
    have hd := memo_pDbAccess tag (.child l b) k
    rw [hshape]
    rw [hshape] at hd
    simp only [CCompositeKVCache.self] at hd
    simp only [dbChain, hd, CCompositeKVCache.self]
    rcases hb1 with h | h
    · rw [h]
    · rw [h, ih]

/-- One call of a sequence, sink or not: it succeeds, writes to no store and changes no
lookup below the layer. -/
theorem runOp_frame [LinearOrder K] [DbUtil K] [DbUtil V] [Inhabited V] (tag : PrefixType)
    (c : CCompositeKVCache K V) (op : CacheOp K V) (hk : DbUtil.IsEmpty op.key = false) :
    ∃ c1, runOp tag c op = .ok c1 ∧ dbChain c1 = dbChain c ∧
      (∀ k, k ≠ op.key → lookup tag c1 k = lookup tag c k) ∧
      (∀ b, c.GetBasePtr = some b →
        ∃ b1, c1.GetBasePtr = some b1 ∧ ∀ k, lookup tag b1 k = lookup tag b k) := by
  have hbase : ∀ l1 : Layer K V, ∀ b, c.GetBasePtr = some b →
      ∃ b1, ((memo tag c op.key).withSelf l1).GetBasePtr = some b1 ∧
        ∀ k, lookup tag b1 k = lookup tag b k := by
    intro l1 b hb
    obtain ⟨b1, h1, h2⟩ := memo_base tag c b op.key hb
    exact ⟨b1, by rw [GetBasePtr_withSelf, h1], h2⟩
  have hput : ∀ (l1 : Layer K V) (cv : CacheValue V),
      Layer.Put (memo tag c op.key).self l1 op.key cv →
      dbChain ((memo tag c op.key).withSelf l1) = dbChain c ∧
      ∀ k, k ≠ op.key → lookup tag ((memo tag c op.key).withSelf l1) k = lookup tag c k := by
    intro l1 cv h
    refine ⟨by rw [dbChain_withSelf _ _ h.1, dbChain_memo], ?_⟩
    intro k hkk
    rw [lookup_put tag _ h, if_neg hkk, (lookup_memo tag c op.key k).1]
  cases op with
  | set key value =>
    simp only [CacheOp.key] at hk hbase hput
    obtain ⟨l1, hset, hp, _⟩ := SetData_ok tag c value hk
    exact ⟨_, by simp [runOp, hset, Except.map], (hput l1 _ hp).1, (hput l1 _ hp).2, hbase l1⟩
  | erase key =>
    simp only [CacheOp.key] at hk hbase hput
    rcases EraseData_ok tag c hk with ⟨_, her⟩ | ⟨v, l1, _, _, her, hp, _⟩
    · refine ⟨_, by simp [runOp, her, Except.map], dbChain_memo tag c key,
        fun k _ => (lookup_memo tag c key k).1, ?_⟩
      intro b hb
      have := hbase (memo tag c key).self b hb
      rwa [withSelf_self] at this
    · exact ⟨_, by simp [runOp, her, Except.map], (hput l1 _ hp).1, (hput l1 _ hp).2, hbase l1⟩

/-- A sequence of calls, sink or not: it succeeds, writes to no store and changes no
lookup below the layer. -/
theorem runOps_frame [LinearOrder K] [DbUtil K] [DbUtil V] [Inhabited V] (tag : PrefixType)
    (ops : List (CacheOp K V)) :
    ∀ c : CCompositeKVCache K V, (∀ op ∈ ops, DbUtil.IsEmpty op.key = false) →
    ∃ c1, runOps tag c ops = .ok c1 ∧ dbChain c1 = dbChain c ∧
      (∀ b, c.GetBasePtr = some b →
        ∃ b1, c1.GetBasePtr = some b1 ∧ ∀ k, lookup tag b1 k = lookup tag b k) := by
  induction ops with
  | nil =>
    intro c _
    exact ⟨c, rfl, rfl, fun b hb => ⟨b, hb, fun _ => rfl⟩⟩
  | cons op rest ih =>
    intro c hkeys
    obtain ⟨c0, hrun0, hdb0, _, hbase0⟩ := runOp_frame tag c op (hkeys op (List.mem_cons_self _ _))
    obtain ⟨c1, hrun1, hdb1, hbase1⟩ := ih c0 (fun o ho => hkeys o (List.mem_cons_of_mem _ ho))
    refine ⟨c1, by simp only [runOps, hrun0, hrun1], by rw [hdb1, hdb0], ?_⟩
    intro b hb
    obtain ⟨b0, hb0, hl0⟩ := hbase0 b hb
    obtain ⟨b1, hb1, hl1⟩ := hbase1 b0 hb0
    exact ⟨b1, hb1, fun k => by rw [hl1, hl0]⟩

/-- The local map after `UndoDataList`: for a key of the log the prior value of its
first entry, marked modified; for any other key the entry it had. -/
theorem UndoDataList_find [LinearOrder K] [DbUtil K] [DbUtil V]
    (c : CCompositeKVCache K V) (es : CDbOpLogs K V) :
    ∃ l2, UndoDataList c es = .ok (c.withSelf l2) ∧
      ∀ k, Map.find l2.mapData k
        = match firstLog es k with
          | some e => some (k, ⟨e.value, true⟩)
          | none => Map.find c.self.mapData k := by
  induction es with
  | nil => exact ⟨c.self, by simp [UndoDataList], fun k => by simp [firstLog]⟩
  | cons e rest ih =>
    obtain ⟨l1, h1, hl1⟩ := ih
    obtain ⟨l2, h2, hput, _⟩ := SetDataToCache_ok (c.withSelf l1) e.key e.value
    rw [withSelf_withSelf] at h2
    refine ⟨l2, by simp only [UndoDataList, h1, UndoData, h2], ?_⟩
    intro k
    rw [hput.2.2.1 k, self_withSelf, hl1 k]
    by_cases hk : e.key = k
    · subst hk
      simp [firstLog, List.find?]
    · have hk2 : ¬ k = e.key := fun h => hk h.symm
      simp [firstLog, List.find?, hk, hk2]

/-- The recursion of `UndoDataList` is the left fold of `UndoData` over the reversed
list. -/
theorem UndoDataList_eq_foldlM [LinearOrder K] [DbUtil K] [DbUtil V]
    (c : CCompositeKVCache K V) (es : CDbOpLogs K V) :
    UndoDataList c es = es.reverse.foldlM (fun c1 e => UndoData c1 e) c := by
  induction es with
  | nil => rfl
  | cons e rest ih =>
    rw [List.reverse_cons, List.foldlM_append, ← ih]
    simp only [UndoDataList]
    cases UndoDataList c rest with
    | error err => rfl
    | ok c1 =>
      simp only [List.foldlM, bind, Except.bind, pure, Except.pure]
      cases UndoData c1 e <;> rfl

end Frames

/-! ## Size accounting -/

section Sizes

variable {K V : Type}

@[simp] theorem AddOpLog_size (tag : PrefixType) (l : Layer K V) (k : K) (v : V)
    (p : Option V) : (AddOpLog tag l k v p).size = l.size := by
  unfold AddOpLog; split <;> rfl

theorem Map.dataSize_cons [DbUtil K] [DbUtil V] (a : K × CacheValue V) (m : Map K V) :
    Map.dataSize (a :: m) = CalcDataSize a.1 + CalcDataSize a.2.value + Map.dataSize m := by
  simp [Map.dataSize]

theorem Map.dataSize_emplace [LinearOrder K] [DbUtil K] [DbUtil V] {m : Map K V} {key : K}
    (cv : CacheValue V) (h : Map.find m key = none) :
    Map.dataSize (Map.emplace m key cv).1
      = Map.dataSize m + CalcDataSize key + CalcDataSize cv.value := by
  induction m with
  | nil => simp [Map.emplace, Map.dataSize]
  | cons a m ih =>
    obtain ⟨k, c⟩ := a
    by_cases hk : k = key
    · simp [Map.find, hk] at h
    · have hk2 : ¬ key = k := fun h2 => hk h2.symm
      simp only [Map.find, hk, if_false] at h
      by_cases hlt : key < k
      · simp only [Map.emplace, hlt, if_true, Map.dataSize_cons]
        omega
      · simp only [Map.emplace, hlt, hk2, if_false, Map.dataSize_cons, ih h]
        omega

theorem Map.dataSize_assign [DecidableEq K] [DbUtil K] [DbUtil V] {m : Map K V} {key : K}
    {e : K × CacheValue V} (cv : CacheValue V) (h : Map.find m key = some e) :
    Map.dataSize (Map.assign m key cv) + CalcDataSize e.2.value
      = Map.dataSize m + CalcDataSize cv.value := by
  induction m with
  | nil => simp [Map.find] at h
  | cons a m ih =>
    obtain ⟨k, c⟩ := a
    by_cases hk : k = key
    · simp only [Map.find, hk, if_true, Option.some.injEq] at h
      simp only [Map.assign, hk, if_true, Map.dataSize_cons, ← h]
      omega
    · simp only [Map.find, hk, if_false] at h
      simp only [Map.assign, hk, if_false, Map.dataSize_cons]
      have := ih h
      omega

theorem Map.dataSize_ge [DecidableEq K] [DbUtil K] [DbUtil V] {m : Map K V} {key : K}
    {e : K × CacheValue V} (h : Map.find m key = some e) :
    CalcDataSize e.2.value ≤ Map.dataSize m := by
  induction m with
  | nil => simp [Map.find] at h
  | cons a m ih =>
    obtain ⟨k, c⟩ := a
    by_cases hk : k = key
    · simp only [Map.find, hk, if_true, Option.some.injEq] at h
      simp only [Map.dataSize_cons, ← h]
      omega
    · simp only [Map.find, hk, if_false] at h
      simp only [Map.dataSize_cons]
      have := ih h
      omega

theorem CalcDataSize_lt {α : Type} [DbUtil α] (d : α) : CalcDataSize d < 2 ^ 32 := by
  unfold CalcDataSize
  exact Nat.mod_lt _ (by norm_num)

/-- The size after `AddDataToMap` of a new key, with room for the key and the value. -/
theorem AddDataToMap_size [LinearOrder K] [DbUtil K] [DbUtil V] (l : Layer K V) {key : K}
    (cv : CacheValue V) (h : Map.find l.mapData key = none) :
    ∃ l1, AddDataToMap l key cv = .ok l1 ∧
      l1.mapData = (Map.emplace l.mapData key cv).1 ∧ l1.is_calc_size = l.is_calc_size ∧
      (l.is_calc_size = false → l1.size = l.size) ∧
      (l.is_calc_size = true →
        l1.size = ((l.size + CalcDataSize key) % 2 ^ 32 + CalcDataSize cv.value) % 2 ^ 32) := by
  refine ⟨_, AddDataToMap_ok l cv h, by simp, by simp, ?_, ?_⟩
  · intro hc
    simp [IncDataSize, hc]
  · intro hc
    simp [IncDataSize, hc]

theorem Layer.SizeOK_insert [LinearOrder K] [DbUtil K] [DbUtil V] {l l1 : Layer K V} {key : K}
    {cv : CacheValue V} (hok : l.SizeOK) (h : Map.find l.mapData key = none)
    (hroom : l.size + (CalcDataSize key + CalcDataSize cv.value) < 2 ^ 32)
    (hadd : AddDataToMap l key cv = .ok l1) : l1.SizeOK := by
  obtain ⟨l2, h2, hm, hc, hs0, hs1⟩ := AddDataToMap_size l cv h
  rw [h2] at hadd
  cases hadd
  constructor
  · intro hcalc
    rw [hc] at hcalc
    rw [hs1 hcalc, hm, Map.dataSize_emplace cv h, ← hok.1 hcalc]
    rw [Nat.mod_eq_of_lt (by omega), Nat.mod_eq_of_lt (by omega)]
  · intro hcalc
    rw [hc] at hcalc
    rw [hs0 hcalc]
    exact hok.2 hcalc

/-- The size invariant after an existing entry was overwritten (`UpdateDataSize`, then
the write through the iterator), with room for the new value. -/
theorem Layer.SizeOK_update [DecidableEq K] [DbUtil K] [DbUtil V] {l l1 : Layer K V} {key : K}
    {e : K × CacheValue V} (cv : CacheValue V) (hok : l.SizeOK)
    (h : Map.find l.mapData key = some e)
    (hroom : l.size + CalcDataSize cv.value < 2 ^ 32)
    (hc : l1.is_calc_size = l.is_calc_size)
    (hm : l1.mapData = Map.assign l.mapData key cv)
    (hs : l1.size = (UpdateDataSize l e.2.value cv.value).size) : l1.SizeOK := by
  have hge := Map.dataSize_ge h
  have hsum := Map.dataSize_assign cv h
  constructor
  · intro hcalc
    rw [hc] at hcalc
    have hsize := hok.1 hcalc
    rw [hs, hm]
    simp only [UpdateDataSize, hcalc, if_true]
    rw [Nat.mod_eq_of_lt hroom]
    split <;> omega
  · intro hcalc
    rw [hc] at hcalc
    rw [hs]
    simp only [UpdateDataSize, hcalc, Bool.false_eq_true, if_false]
    exact hok.2 hcalc

/-- The size invariant after `EraseData` wrote a tombstone (`DecDataSize`, the write
through the iterator, `IncDataSize`), with room for the emptied value. -/
theorem Layer.SizeOK_erase [DecidableEq K] [DbUtil K] [DbUtil V] {l l1 : Layer K V} {key : K}
    {e : K × CacheValue V} (hok : l.SizeOK) (h : Map.find l.mapData key = some e)
    (hroom : l.size + CalcDataSize (DbUtil.SetEmpty e.2.value) < 2 ^ 32)
    (hc : l1.is_calc_size = l.is_calc_size)
    (hm : l1.mapData = Map.assign l.mapData key ⟨DbUtil.SetEmpty e.2.value, true⟩)
    (hs0 : l.is_calc_size = false → l1.size = l.size)
    (hs1 : l.is_calc_size = true → l1.size
      = ((if l.size > CalcDataSize e.2.value then l.size - CalcDataSize e.2.value else 0)
          + CalcDataSize (DbUtil.SetEmpty e.2.value)) % 2 ^ 32) : l1.SizeOK := by
  have hge := Map.dataSize_ge h
  have hsum := Map.dataSize_assign ⟨DbUtil.SetEmpty e.2.value, true⟩ h
  constructor
  · intro hcalc
    rw [hc] at hcalc
    have hsize := hok.1 hcalc
    rw [hs1 hcalc, hm]
    simp only at hsum
    split
    · rw [Nat.mod_eq_of_lt (by omega)]
      omega
    · rw [Nat.mod_eq_of_lt (by omega)]
      omega
  · intro hcalc
    rw [hc] at hcalc
    rw [hs0 hcalc]
    exact hok.2 hcalc

/-- The data members of the layer itself after `GetDataIt`: untouched, or, when the key
was not in the local map and was found below, with the copy added. -/
theorem memo_self_cases [LinearOrder K] [DbUtil K] [DbUtil V] (tag : PrefixType)
    (c : CCompositeKVCache K V) (k : K) :
    ((memo tag c k).self = c.self ∧
      (Map.find c.self.mapData k = none → lookupBelow tag c k = none)) ∨
    (Map.find c.self.mapData k = none ∧
      ∃ w, lookupBelow tag c k = some w ∧ (memo tag c k).self = c.self.memoised k w) := by
  cases c with
  | root l =>
    rw [memo.eq_1]
    cases hf : Map.find l.mapData k with
    | some e => left; exact ⟨rfl, fun h => by simp [CCompositeKVCache.self, hf] at h⟩
    | none =>
      cases hb : lookupBelow tag (.root l) k with
      | none => left; exact ⟨rfl, fun _ => rfl⟩
      | some w => right; exact ⟨hf, w, rfl, rfl⟩
  | child l b =>
    rw [memo.eq_2]
    cases hf : Map.find l.mapData k with
    | some e => left; exact ⟨rfl, fun h => by simp [CCompositeKVCache.self, hf] at h⟩
    | none =>
      cases hb : lookupBelow tag (.child l b) k with
      | none => left; exact ⟨rfl, fun _ => rfl⟩
      | some w => right; exact ⟨hf, w, rfl, rfl⟩

theorem memoised_size [LinearOrder K] [DbUtil K] [DbUtil V] (l : Layer K V) (k : K) (w : V) :
    (l.is_calc_size = false → (l.memoised k w).size = l.size) ∧
    (l.is_calc_size = true →
      (l.memoised k w).size = ((l.size + CalcDataSize k) % 2 ^ 32 + CalcDataSize w) % 2 ^ 32) := by
  constructor <;> intro hc <;> simp [Layer.memoised, IncDataSize, hc]

/-- The member `SetData` on a non-empty key, by what `GetDataIt` returned: the entry is
added with `AddDataToMap` when it returned `end()`, and overwritten in place, the
size going through `UpdateDataSize`, when it returned an entry. -/
theorem SetData_cases [LinearOrder K] [DbUtil K] [DbUtil V] [Inhabited V] (tag : PrefixType)
    (c : CCompositeKVCache K V) {key : K} (value : V) (hk : DbUtil.IsEmpty key = false) :
    (lookupIt tag c key = none ∧ Map.find (memo tag c key).self.mapData key = none ∧
      ∃ l1, SetData tag c key value = .ok (true, (memo tag c key).withSelf l1) ∧
        AddDataToMap (AddOpLog tag (memo tag c key).self key default (some value)) key
          ⟨value, true⟩ = .ok l1) ∨
    (∃ e l1, lookupIt tag c key = some e ∧
      Map.find (memo tag c key).self.mapData key = some e ∧
      SetData tag c key value = .ok (true, (memo tag c key).withSelf l1) ∧
      l1.is_calc_size = (memo tag c key).self.is_calc_size ∧
      l1.mapData = Map.assign (memo tag c key).self.mapData key ⟨value, true⟩ ∧
      l1.size = (UpdateDataSize (memo tag c key).self e.2.value value).size) := by
  unfold SetData
  rw [GetDataIt_eq]
  simp only [hk]
  have hfm := find_memo_self tag c key
  cases hit : lookupIt tag c key with
  | none =>
    left
    rw [hit] at hfm
    have hf2 : Map.find (AddOpLog tag (memo tag c key).self key default (some value)).mapData
        key = none := by simpa using hfm
    simp only [Bool.false_eq_true, if_false, AddDataToMap_ok _ _ hf2]
    exact ⟨trivial, hfm, _, rfl, rfl⟩
  | some e =>
    right
    rw [hit] at hfm
    have hek := lookupIt_key hit
    simp only [Bool.false_eq_true, if_false]
    refine ⟨e, _, rfl, hfm, rfl, by simp, by simp [hek], ?_⟩
    by_cases hc : (memo tag c key).self.is_calc_size = true
    · simp [UpdateDataSize, hc]
    · simp [UpdateDataSize, hc]

/-- The member `EraseData` on a non-empty key, by what `GetDataIt` returned: nothing
happens on `end()` or an empty value; otherwise the entry is emptied in place,
the size going through `DecDataSize` and `IncDataSize`. -/
theorem EraseData_cases [LinearOrder K] [DbUtil K] [DbUtil V] (tag : PrefixType)
    (c : CCompositeKVCache K V) {key : K} (hk : DbUtil.IsEmpty key = false) :
    (found tag c key = none ∧ EraseData tag c key = .ok (true, memo tag c key)) ∨
    (∃ e l1, lookupIt tag c key = some e ∧ DbUtil.IsEmpty e.2.value = false ∧
      Map.find (memo tag c key).self.mapData key = some e ∧
      EraseData tag c key = .ok (true, (memo tag c key).withSelf l1) ∧
      l1.is_calc_size = (memo tag c key).self.is_calc_size ∧
      l1.mapData = Map.assign (memo tag c key).self.mapData key
        ⟨DbUtil.SetEmpty e.2.value, true⟩ ∧
      ((memo tag c key).self.is_calc_size = false → l1.size = (memo tag c key).self.size) ∧
      ((memo tag c key).self.is_calc_size = true → l1.size
        = ((if (memo tag c key).self.size > CalcDataSize e.2.value
            then (memo tag c key).self.size - CalcDataSize e.2.value else 0)
            + CalcDataSize (DbUtil.SetEmpty e.2.value)) % 2 ^ 32)) := by
  unfold EraseData found
  rw [GetDataIt_eq, ← lookupIt_value]
  simp only [hk]
  have hfm := find_memo_self tag c key
  cases hit : lookupIt tag c key with
  | none => left; simp [Option.filter]
  | some e =>
    rw [hit] at hfm
    have hek := lookupIt_key hit
    by_cases he : DbUtil.IsEmpty e.2.value = true
    · left; simp [he, Option.filter]
    · right
      simp only [Bool.not_eq_true] at he
      simp only [he, Bool.false_eq_true, if_false, Bool.not_false, if_true]
      refine ⟨e, _, rfl, he, hfm, rfl, by simp, by simp [hek], ?_, ?_⟩
      · intro hc
        simp [IncDataSizeValue, DecDataSize, AddOpLog_size, hc]
      · intro hc
        simp [IncDataSizeValue, DecDataSize, AddOpLog_size, hc]

theorem memo_of_find_some [LinearOrder K] [DbUtil K] [DbUtil V] (tag : PrefixType)
    (c : CCompositeKVCache K V) {k : K} {e : K × CacheValue V}
    (h : Map.find c.self.mapData k = some e) : memo tag c k = c := by
  cases c with
  | root l =>
    simp only [CCompositeKVCache.self] at h
    rw [memo.eq_1, h]
  | child l b =>
    simp only [CCompositeKVCache.self] at h
    rw [memo.eq_2, h]

theorem lookupIt_of_find_some [DecidableEq K] (tag : PrefixType)
    (c : CCompositeKVCache K V) {k : K} {e : K × CacheValue V}
    (h : Map.find c.self.mapData k = some e) : lookupIt tag c k = some e := by
  simp [lookupIt, h]

/-! ### The size invariant through the member functions -/

theorem Layer.SizeOK_of_eq [DbUtil K] [DbUtil V] {l l1 : Layer K V} (hok : l.SizeOK)
    (hm : l1.mapData = l.mapData) (hc : l1.is_calc_size = l.is_calc_size)
    (hs : l1.size = l.size) : l1.SizeOK := by
  unfold Layer.SizeOK
  rw [hm, hc, hs]
  exact hok

theorem Layer.SizeOK_Clear [DbUtil K] [DbUtil V] (l : Layer K V) : l.Clear.SizeOK :=
  ⟨fun _ => rfl, fun _ => rfl⟩

theorem AllSizeOK_self [DbUtil K] [DbUtil V] {c : CCompositeKVCache K V} (h : AllSizeOK c) :
    c.self.SizeOK := by
  cases c with
  | root l => exact h
  | child l b => exact h.1

theorem AllSizeOK_withSelf [DbUtil K] [DbUtil V] {c : CCompositeKVCache K V} {l : Layer K V}
    (h : AllSizeOK c) (hl : l.SizeOK) : AllSizeOK (c.withSelf l) := by
  cases c with
  | root l0 => exact hl
  | child l0 b => exact ⟨hl, h.2⟩

theorem Room_mono {n m : Nat} (hnm : m ≤ n) {c : CCompositeKVCache K V} (h : Room n c) :
    Room m c := by
  induction c with
  | root l =>
    have h1 : l.size + n < 2 ^ 32 := h
    show l.size + m < 2 ^ 32
    omega
  | child l b ih =>
    have h1 : l.size + n < 2 ^ 32 := h.1
    exact ⟨by show l.size + m < 2 ^ 32; omega, ih h.2⟩

theorem Room_self {n : Nat} {c : CCompositeKVCache K V} (h : Room n c) :
    c.self.size + n < 2 ^ 32 := by
  cases c with
  | root l => exact h
  | child l b => exact h.1

theorem Layer.SizeOK_memoised [LinearOrder K] [DbUtil K] [DbUtil V] {l : Layer K V} {k : K}
    (w : V) (hok : l.SizeOK) (h : Map.find l.mapData k = none)
    (hroom : l.size + (CalcDataSize k + CalcDataSize w) < 2 ^ 32) :
    (l.memoised k w).SizeOK :=
  Layer.SizeOK_insert hok h hroom (AddDataToMap_ok l ⟨w, false⟩ h)

theorem foundSize_of_lookup [DecidableEq K] [DbUtil V] {tag : PrefixType}
    {c : CCompositeKVCache K V} {k : K} {w : V} (h : lookup tag c k = some w) :
    foundSize tag c k = CalcDataSize w := by
  simp [foundSize, h]

/-- `GetDataIt` keeps the size invariant on every layer, given room for the key and the
value it finds. -/
theorem AllSizeOK_memo [LinearOrder K] [DbUtil K] [DbUtil V] (tag : PrefixType)
    (c : CCompositeKVCache K V) (k : K) (hok : AllSizeOK c)
    (hroom : Room (CalcDataSize k + foundSize tag c k) c) : AllSizeOK (memo tag c k) := by
  induction c with
  | root l =>
    rw [memo.eq_1]
    cases hf : Map.find l.mapData k with
    | some e => exact hok
    | none =>
      cases hb : lookupBelow tag (.root l) k with
      | none => exact hok
      | some w =>
        have hl : lookup tag (.root l) k = some w := by
          simp [lookup, CCompositeKVCache.self, hf, hb]
        rw [foundSize_of_lookup hl] at hroom
        exact Layer.SizeOK_memoised w hok hf hroom
  | child l b ih =>
    rw [memo.eq_2]
    cases hf : Map.find l.mapData k with
    | some e => exact hok
    | none =>
      have hfs : foundSize tag (.child l b) k = foundSize tag b k := by
        simp [foundSize, lookup, CCompositeKVCache.self, hf, lookupBelow_child]
      rw [hfs] at hroom
      have hb2 := ih hok.2 hroom.2
      cases hb : lookupBelow tag (.child l b) k with
      | none => exact ⟨hok.1, hb2⟩
      | some w =>
        have hl : lookup tag b k = some w := by rw [← lookupBelow_child tag l b k]; exact hb
        have h1 := hroom.1
        rw [foundSize_of_lookup hl] at h1
        exact ⟨Layer.SizeOK_memoised w hok.1 hf h1, hb2⟩

/-- The size of the layer itself after `GetDataIt` grew by at most the sizes of the key
and of the value found. -/
theorem memo_self_size [LinearOrder K] [DbUtil K] [DbUtil V] (tag : PrefixType)
    (c : CCompositeKVCache K V) (k : K)
    (hroom : c.self.size + (CalcDataSize k + foundSize tag c k) < 2 ^ 32) :
    (memo tag c k).self.size ≤ c.self.size + (CalcDataSize k + foundSize tag c k) := by
  rcases memo_self_cases tag c k with ⟨h, _⟩ | ⟨hf, w, hb, hself⟩
  · rw [h]
    omega
  · have hl : lookup tag c k = some w := by simp [lookup, hf, hb]
    rw [foundSize_of_lookup hl] at hroom ⊢
    rw [hself]
    cases hc : c.self.is_calc_size with
    | false =>
      rw [(memoised_size c.self k w).1 hc]
      omega
    | true =>
      rw [(memoised_size c.self k w).2 hc, Nat.mod_eq_of_lt (by omega),
        Nat.mod_eq_of_lt (by omega)]
      omega

theorem key_of_ok_HasData [LinearOrder K] [DbUtil K] [DbUtil V] {tag : PrefixType}
    {c : CCompositeKVCache K V} {k : K} {r : Bool × CCompositeKVCache K V}
    (h : HasData tag c k = .ok r) : DbUtil.IsEmpty k = false := by
  unfold HasData at h
  by_cases hk : DbUtil.IsEmpty k = true
  · simp [hk] at h
  · simpa using hk

theorem key_of_ok_SetData [LinearOrder K] [DbUtil K] [DbUtil V] [Inhabited V]
    {tag : PrefixType} {c : CCompositeKVCache K V} {k : K} {v : V}
    {r : Bool × CCompositeKVCache K V}
    (h : SetData tag c k v = .ok r) : DbUtil.IsEmpty k = false := by
  unfold SetData at h
  by_cases hk : DbUtil.IsEmpty k = true
  · simp [hk] at h
  · simpa using hk

theorem key_of_ok_EraseData [LinearOrder K] [DbUtil K] [DbUtil V] {tag : PrefixType}
    {c : CCompositeKVCache K V} {k : K} {r : Bool × CCompositeKVCache K V}
    (h : EraseData tag c k = .ok r) : DbUtil.IsEmpty k = false := by
  unfold EraseData at h
  by_cases hk : DbUtil.IsEmpty k = true
  · simp [hk] at h
  · simpa using hk

/-- `SetData` keeps the size invariant, given room for the key, the value and the value
the lookup finds. -/
theorem AllSizeOK_SetData [LinearOrder K] [DbUtil K] [DbUtil V] [Inhabited V]
    (tag : PrefixType) (c c1 : CCompositeKVCache K V) (k : K) (v : V) (r : Bool)
    (hok : AllSizeOK c)
    (hroom : Room (CalcDataSize k + CalcDataSize v + foundSize tag c k) c)
    (h : SetData tag c k v = .ok (r, c1)) : AllSizeOK c1 := by
  have hk := key_of_ok_SetData h
  have hmemo := AllSizeOK_memo tag c k hok (Room_mono (by omega) hroom)
  have hself := Room_self hroom
  have hsz := memo_self_size tag c k (by omega)
  rcases SetData_cases tag c v hk with ⟨hit, hfm, l1, hset, hadd⟩ | ⟨e, l1, _, hfm, hset, hc, hm, hs⟩
  · rw [hset] at h
    cases h
    apply AllSizeOK_withSelf hmemo
    have hf2 : Map.find (AddOpLog tag (memo tag c k).self k default (some v)).mapData k
        = none := by simpa using hfm
    have hln : lookup tag c k = none := by
      rw [← lookupIt_value, hit]
      rfl
    have hsame : (memo tag c k).self.size = c.self.size := by
      rcases memo_self_cases tag c k with ⟨h1, _⟩ | ⟨hf, w, hb, _⟩
      · rw [h1]
      · have hl : lookup tag c k = some w := by simp [lookup, hf, hb]
        rw [hln] at hl
        cases hl
    refine Layer.SizeOK_insert ?_ hf2 ?_ hadd
    · exact Layer.SizeOK_of_eq (AllSizeOK_self hmemo) (by simp) (by simp) (by simp)
    · simp only [AddOpLog_size]
      rw [hsame]
      omega
  · rw [hset] at h
    cases h
    apply AllSizeOK_withSelf hmemo
    exact Layer.SizeOK_update ⟨v, true⟩ (AllSizeOK_self hmemo) hfm
      (by show (memo tag c k).self.size + CalcDataSize v < 2 ^ 32; omega) hc hm hs

/-- `EraseData` keeps the size invariant, given room for the key, the value the lookup
finds and the emptied value. -/
theorem AllSizeOK_EraseData [LinearOrder K] [DbUtil K] [DbUtil V]
    (tag : PrefixType) (c c1 : CCompositeKVCache K V) (k : K) (r : Bool)
    (hok : AllSizeOK c)
    (hroom : Room (CalcDataSize k + foundSize tag c k + emptiedSize tag c k) c)
    (h : EraseData tag c k = .ok (r, c1)) : AllSizeOK c1 := by
  have hk := key_of_ok_EraseData h
  have hmemo := AllSizeOK_memo tag c k hok (Room_mono (by omega) hroom)
  have hself := Room_self hroom
  have hsz := memo_self_size tag c k (by omega)
  rcases EraseData_cases tag c hk with ⟨_, her⟩ | ⟨e, l1, hit, _, hfm, her, hc, hm, hs0, hs1⟩
  · rw [her] at h
    cases h
    exact hmemo
  · rw [her] at h
    cases h
    apply AllSizeOK_withSelf hmemo
    have hl : lookup tag c k = some e.2.value := by
      rw [← lookupIt_value, hit]
      rfl
    have hes : emptiedSize tag c k = CalcDataSize (DbUtil.SetEmpty e.2.value) := by
      simp [emptiedSize, hl]
    exact Layer.SizeOK_erase (AllSizeOK_self hmemo) hfm (by omega) hc hm hs0 hs1

/-- `SetDataToCache` keeps the size invariant of the layer, given room for the key and
the value, and adds at most their sizes. -/
theorem Layer.SizeOK_SetDataToCache [LinearOrder K] [DbUtil K] [DbUtil V] {l l1 : Layer K V}
    {k : K} {v : V} (hok : l.SizeOK)
    (hroom : l.size + (CalcDataSize k + CalcDataSize v) < 2 ^ 32)
    (h : l.SetDataToCache k v = .ok l1) :
    l1.SizeOK ∧ l1.size ≤ l.size + (CalcDataSize k + CalcDataSize v) := by
  unfold Layer.SetDataToCache at h
  cases hf : Map.find l.mapData k with
  | none =>
    rw [hf] at h
    simp only at h
    refine ⟨Layer.SizeOK_insert hok hf hroom h, ?_⟩
    obtain ⟨l2, h2, _, _, hs0, hs1⟩ := AddDataToMap_size l (⟨v, true⟩ : CacheValue V) hf
    rw [h2] at h
    cases h
    cases hc : l.is_calc_size with
    | false => rw [hs0 hc]; omega
    | true =>
      have e1 := hs1 hc
      dsimp only at e1
      rw [e1, Nat.mod_eq_of_lt (by omega), Nat.mod_eq_of_lt (by omega)]
      omega
  | some e =>
    rw [hf] at h
    simp only [Except.ok.injEq] at h
    have hek := Map.find_key hf
    have hs : l1.size = (UpdateDataSize l e.2.value v).size := by rw [← h]
    refine ⟨Layer.SizeOK_update ⟨v, true⟩ hok hf (by show l.size + CalcDataSize v < 2 ^ 32; omega)
      (by rw [← h]; simp) (by rw [← h, hek]) hs, ?_⟩
    rw [hs]
    cases hc : l.is_calc_size with
    | false => simp [UpdateDataSize, hc]
    | true =>
      simp only [UpdateDataSize, hc, if_true]
      rw [Nat.mod_eq_of_lt (by omega)]
      split <;> omega

theorem AllSizeOK_SetDataToCache [LinearOrder K] [DbUtil K] [DbUtil V]
    {c c1 : CCompositeKVCache K V} {k : K} {v : V} (hok : AllSizeOK c)
    (hroom : c.self.size + (CalcDataSize k + CalcDataSize v) < 2 ^ 32)
    (h : SetDataToCache c k v = .ok c1) :
    AllSizeOK c1 ∧ c1.self.size ≤ c.self.size + (CalcDataSize k + CalcDataSize v) := by
  unfold SetDataToCache at h
  cases hl : c.self.SetDataToCache k v with
  | error err => rw [hl] at h; cases h
  | ok l1 =>
    rw [hl] at h
    cases h
    obtain ⟨h1, h2⟩ := Layer.SizeOK_SetDataToCache (AllSizeOK_self hok) hroom hl
    exact ⟨AllSizeOK_withSelf hok h1, by rw [self_withSelf]; exact h2⟩

/-- The loop of `Flush` into a parent keeps the size invariant of the parent chain, given
room in the parent for the modified entries. -/
theorem AllSizeOK_FlushToBase [LinearOrder K] [DbUtil K] [DbUtil V] (m : Map K V) :
    ∀ b b1 : CCompositeKVCache K V, AllSizeOK b →
      b.self.size + Map.modifiedSize m < 2 ^ 32 → FlushToBase m b = .ok b1 → AllSizeOK b1 := by
  induction m with
  | nil =>
    intro b b1 hok _ h
    simp only [FlushToBase, Except.ok.injEq] at h
    rw [← h]
    exact hok
  | cons item rest ih =>
    intro b b1 hok hroom h
    by_cases hm : item.2.is_modified = true
    · have hms : Map.modifiedSize (item :: rest)
          = CalcDataSize item.1 + CalcDataSize item.2.value + Map.modifiedSize rest := by
        simp [Map.modifiedSize, List.filter, hm, Map.dataSize_cons]
      rw [hms] at hroom
      cases hs : SetDataToCache b item.1 item.2.value with
      | error err => simp [FlushToBase, hm, hs] at h
      | ok b0 =>
        simp only [FlushToBase, hm, if_true, hs] at h
        obtain ⟨h1, h2⟩ := AllSizeOK_SetDataToCache hok (by omega) hs
        exact ih b0 b1 h1 (by omega) h
    · have hms : Map.modifiedSize (item :: rest) = Map.modifiedSize rest := by
        simp [Map.modifiedSize, List.filter, hm]
      rw [hms] at hroom
      simp only [FlushToBase, hm, Bool.false_eq_true, if_false] at h
      exact ih b b1 hok hroom h

/-- `Flush` keeps the size invariant, given room in the parent for the modified
entries. -/
theorem AllSizeOK_Flush [LinearOrder K] [DbUtil K] [DbUtil V] (tag : PrefixType)
    (c c1 : CCompositeKVCache K V) (hok : AllSizeOK c)
    (hroom : ∀ b, c.GetBasePtr = some b →
      b.self.size + Map.modifiedSize c.self.mapData < 2 ^ 32)
    (h : Flush tag c = .ok c1) : AllSizeOK c1 := by
  cases c with
  | root l =>
    cases hd : l.pDbAccess with
    | none => simp [Flush, hd] at h
    | some db =>
      simp only [Flush, hd, Except.ok.injEq] at h
      rw [← h]
      exact Layer.SizeOK_Clear _
  | child l b =>
    cases hd : l.pDbAccess with
    | some db => simp [Flush, hd] at h
    | none =>
      rw [Flush_child tag l b hd] at h
      cases hfl : FlushToBase l.mapData b with
      | error err => rw [hfl] at h; cases h
      | ok b1 =>
        rw [hfl] at h
        simp only [Except.map, Except.ok.injEq] at h
        rw [← h]
        exact ⟨Layer.SizeOK_Clear l, AllSizeOK_FlushToBase l.mapData b b1 hok.2 (hroom b rfl) hfl⟩

end Sizes

/-! ## Rebinding, misses and memoisation -/

section Reads

variable {K V : Type}

theorem Map.ne_nil_of_find [DecidableEq K] {m : Map K V} {k : K} {e : K × CacheValue V}
    (h : Map.find m k = some e) : m ≠ [] := by
  intro hm
  rw [hm] at h
  simp [Map.find] at h

/-- `SetBase` fails exactly on a cache bound to a store or holding an entry. -/
theorem SetBase_error_iff (c : CCompositeKVCache K V) (pBaseIn : Option (CCompositeKVCache K V)) :
    SetBase c pBaseIn = .error .assertion ↔
      c.self.pDbAccess.isSome = true ∨ c.self.mapData ≠ [] := by
  unfold SetBase
  cases hd : c.self.pDbAccess with
  | some db => simp
  | none =>
    cases hm : c.self.mapData with
    | nil => cases pBaseIn <;> simp
    | cons a m => simp

theorem SetBase_of_find [DecidableEq K] (c : CCompositeKVCache K V)
    (pBaseIn : Option (CCompositeKVCache K V)) {k : K} {e : K × CacheValue V}
    (h : Map.find c.self.mapData k = some e) : SetBase c pBaseIn = .error .assertion :=
  (SetBase_error_iff c pBaseIn).2 (Or.inr (Map.ne_nil_of_find h))

/-- After `GetDataIt` found an entry for the key, the local map holds an entry. -/
theorem find_memo_of_lookup [LinearOrder K] [DbUtil K] [DbUtil V] (tag : PrefixType)
    (c : CCompositeKVCache K V) (k : K) (w : V) (h : lookup tag c k = some w) :
    ∃ e, Map.find (memo tag c k).self.mapData k = some e ∧ e.2.value = w := by
  rw [find_memo_self]
  rw [← lookupIt_value] at h
  cases hit : lookupIt tag c k with
  | none => rw [hit] at h; cases h
  | some e =>
    rw [hit] at h
    exact ⟨e, rfl, Option.some.inj h⟩

/-- `EraseData` of a key that is nowhere leaves the chain as it is. -/
theorem EraseData_of_Absent [LinearOrder K] [DbUtil K] [DbUtil V] (tag : PrefixType)
    (c : CCompositeKVCache K V) (k : K) (hk : DbUtil.IsEmpty k = false)
    (habs : Absent tag c k) : EraseData tag c k = .ok (true, c) := by
  have hl := lookup_of_Absent tag c k habs
  rcases EraseData_ok tag c hk with ⟨_, h⟩ | ⟨w, _, h, _⟩
  · rw [memo_of_lookup_none tag c k hl] at h
    exact h
  · rw [hl] at h
    cases h

theorem find_of_Absent [DecidableEq K] {tag : PrefixType} {c : CCompositeKVCache K V} {k : K}
    (h : Absent tag c k) : Map.find c.self.mapData k = none := by
  cases c with
  | root l => exact h.1
  | child l b => exact h.1

/-- The chain `GetDataIt` leaves below a child that missed the key locally. -/
theorem memo_child_miss [LinearOrder K] [DbUtil K] [DbUtil V] (tag : PrefixType)
    (l : Layer K V) (b : CCompositeKVCache K V) (k : K) (v : V)
    (hf : Map.find l.mapData k = none) (hb : lookup tag b k = some v) :
    memo tag (.child l b) k = .child (l.memoised k v) (memo tag b k) := by
  rw [memo.eq_2]
  simp only [hf, lookupBelow_child, hb]

theorem memo_root_hit [LinearOrder K] [DbUtil K] [DbUtil V] (tag : PrefixType)
    (l : Layer K V) (db : CDBAccess K V) (k : K) (v : V)
    (hf : Map.find l.mapData k = none) (hdb : l.pDbAccess = some db)
    (hs : db.GetData tag k = some v) :
    memo tag (.root l) k = .root (l.memoised k v) := by
  rw [memo.eq_1]
  simp only [hf, lookupBelow, hdb, hs]

theorem find_memoised [LinearOrder K] [DbUtil K] [DbUtil V] (l : Layer K V) (k : K) (v : V)
    (hf : Map.find l.mapData k = none) (k2 : K) :
    Map.find (l.memoised k v).mapData k2
      = if k2 = k then some (k, ⟨v, false⟩) else Map.find l.mapData k2 := by
  rw [memoised_mapData]
  by_cases h : k2 = k
  · simp [h, Map.find_emplace_self _ hf]
  · simp [h, Map.find_emplace_ne _ _ h]

/-- `GetDataIt` keeps every entry the local map had. -/
theorem find_memo_keeps [LinearOrder K] [DbUtil K] [DbUtil V] (tag : PrefixType)
    (c : CCompositeKVCache K V) (k k2 : K) (e : K × CacheValue V)
    (h : Map.find c.self.mapData k2 = some e) :
    Map.find (memo tag c k).self.mapData k2 = some e := by
  rw [find_memo]
  by_cases hk : k2 = k
  · subst hk
    simp [lookupIt, h]
  · simp [hk, h]

end Reads

/-! ## Reads leave the answers and the modified entries alone -/

section ReadOnly

variable {K V : Type}

theorem Map.modified_emplace [LinearOrder K] (m : Map K V) (k : K) (v : V) :
    Map.modified (Map.emplace m k ⟨v, false⟩).1 = Map.modified m := by
  induction m with
  | nil => simp [Map.emplace, Map.modified]
  | cons a m ih =>
    obtain ⟨k0, c0⟩ := a
    by_cases hlt : k < k0
    · simp [Map.emplace, hlt, Map.modified, List.filter]
    · by_cases hk : k = k0
      · simp [Map.emplace, hlt, hk]
      · simp only [Map.emplace, hlt, hk, if_false]
        unfold Map.modified at ih ⊢
        simp only [List.filter_cons, ih]

theorem modified_memo [LinearOrder K] [DbUtil K] [DbUtil V] (tag : PrefixType)
    (c : CCompositeKVCache K V) (k : K) :
    Map.modified (memo tag c k).self.mapData = Map.modified c.self.mapData := by
  rcases memo_self_cases tag c k with ⟨h, _⟩ | ⟨_, w, _, h⟩
  · rw [h]
  · rw [h, memoised_mapData, Map.modified_emplace]

theorem SameReads_of_lookup [LinearOrder K] [DbUtil K] [DbUtil V] (tag : PrefixType)
    (c c1 : CCompositeKVCache K V) (h : ∀ k, lookup tag c1 k = lookup tag c k) (k : K) :
    (GetData tag c1 k).map Prod.fst = (GetData tag c k).map Prod.fst :=
  GetData_fst_congr tag c1 c k (found_congr tag c1 c k (h k))

theorem SameReads_refl [LinearOrder K] [DbUtil K] [DbUtil V] (tag : PrefixType)
    (c : CCompositeKVCache K V) : SameReads tag c c := by
  induction c with
  | root l => exact ⟨fun _ => rfl, rfl⟩
  | child l b ih => exact ⟨fun _ => rfl, rfl, ih⟩

/-- The chain `GetDataIt` leaves answers every `GetData` as before and has the same
modified entries, on every cache object of the chain. -/
theorem SameReads_memo [LinearOrder K] [DbUtil K] [DbUtil V] (tag : PrefixType)
    (c : CCompositeKVCache K V) (k : K) : SameReads tag c (memo tag c k) := by
  induction c with
  | root l =>
    have hm := modified_memo tag (.root l) k
    have hl := fun k2 => (lookup_memo tag (.root l) k k2).1
    rw [memo_root_shape] at hm hl ⊢
    exact ⟨fun k2 => SameReads_of_lookup tag _ _ hl k2, hm⟩
  | child l b ih =>
    have hm := modified_memo tag (.child l b) k
    have hl := fun k2 => (lookup_memo tag (.child l b) k k2).1
    obtain ⟨b1, hshape, hb1⟩ := memo_child_base tag l b k
    rw [hshape] at hm hl ⊢
    refine ⟨fun k2 => SameReads_of_lookup tag _ _ hl k2, hm, ?_⟩
    rcases hb1 with h | h
    · rw [h]
      exact SameReads_refl tag b
    · rw [h]
      exact ih

end ReadOnly

/-! ## Parent and store are mutually exclusive -/

section Binding

variable {K V : Type}

theorem Exclusive_withSelf {c : CCompositeKVCache K V} {l : Layer K V} (h : Exclusive c)
    (hl : l.pDbAccess = c.self.pDbAccess) : Exclusive (c.withSelf l) := by
  cases c with
  | root l0 => trivial
  | child l0 b => exact ⟨hl.trans h.1, h.2⟩

theorem Exclusive_memo [LinearOrder K] [DbUtil K] [DbUtil V] (tag : PrefixType)
    (c : CCompositeKVCache K V) (k : K) (h : Exclusive c) : Exclusive (memo tag c k) := by
  induction c with
  | root l => rw [memo_root_shape]; trivial
  | child l b ih =>
    have hd := memo_pDbAccess tag (.child l b) k
    obtain ⟨b1, hshape, hb1⟩ := memo_child_base tag l b k
    rw [hshape] at hd ⊢
    refine ⟨hd.trans h.1, ?_⟩
    rcases hb1 with h1 | h1
    · rw [h1]; exact h.2
    · rw [h1]; exact ih h.2

theorem Exclusive_SetData [LinearOrder K] [DbUtil K] [DbUtil V] [Inhabited V]
    (tag : PrefixType) (c c1 : CCompositeKVCache K V) (k : K) (v : V) (r : Bool)
    (h : Exclusive c) (hset : SetData tag c k v = .ok (r, c1)) : Exclusive c1 := by
  obtain ⟨l1, hs, hput, _⟩ := SetData_ok tag c v (key_of_ok_SetData hset)
  rw [hs] at hset
  cases hset
  exact Exclusive_withSelf (Exclusive_memo tag c k h) hput.1

theorem Exclusive_EraseData [LinearOrder K] [DbUtil K] [DbUtil V]
    (tag : PrefixType) (c c1 : CCompositeKVCache K V) (k : K) (r : Bool)
    (h : Exclusive c) (her : EraseData tag c k = .ok (r, c1)) : Exclusive c1 := by
  rcases EraseData_ok tag c (key_of_ok_EraseData her) with ⟨_, he⟩ | ⟨v, l1, _, _, he, hput, _⟩
  · rw [he] at her
    cases her
    exact Exclusive_memo tag c k h
  · rw [he] at her
    cases her
    exact Exclusive_withSelf (Exclusive_memo tag c k h) hput.1

theorem Exclusive_UndoData [LinearOrder K] [DbUtil K] [DbUtil V]
    (c c1 : CCompositeKVCache K V) (e : CDbOpLog K V)
    (h : Exclusive c) (hundo : UndoData c e = .ok c1) : Exclusive c1 := by
  obtain ⟨l1, hs, hput, _⟩ := SetDataToCache_ok c e.key e.value
  unfold UndoData at hundo
  rw [hs] at hundo
  cases hundo
  exact Exclusive_withSelf h hput.1

theorem Exclusive_Flush [LinearOrder K] [DbUtil K] [DbUtil V] (tag : PrefixType)
    (c c1 : CCompositeKVCache K V) (h : Exclusive c) (hfl : Flush tag c = .ok c1) :
    Exclusive c1 := by
  cases c with
  | root l =>
    cases hd : l.pDbAccess with
    | none => simp [Flush, hd] at hfl
    | some db =>
      simp only [Flush, hd, Except.ok.injEq] at hfl
      rw [← hfl]
      trivial
  | child l b =>
    cases hd : l.pDbAccess with
    | some db => simp [Flush, hd] at hfl
    | none =>
      rw [Flush_child tag l b hd] at hfl
      obtain ⟨l1, hf, hd1, _⟩ := FlushToBase_ok l.mapData b
      rw [hf] at hfl
      simp only [Except.map, Except.ok.injEq] at hfl
      rw [← hfl]
      exact ⟨hd, Exclusive_withSelf h.2 hd1⟩

theorem Exclusive_SetBase (c c1 : CCompositeKVCache K V)
    (pBaseIn : Option (CCompositeKVCache K V)) (hb : ∀ b, pBaseIn = some b → Exclusive b)
    (h : SetBase c pBaseIn = .ok c1) : Exclusive c1 := by
  unfold SetBase at h
  cases hd : c.self.pDbAccess with
  | some db => simp [hd] at h
  | none =>
    cases hm : c.self.mapData with
    | cons a m => simp [hd, hm] at h
    | nil =>
      cases pBaseIn with
      | none =>
        simp only [hd, hm, Option.isSome_none, Bool.false_eq_true, if_false, List.isEmpty_nil,
          Bool.not_true, Except.ok.injEq] at h
        rw [← h]
        trivial
      | some b =>
        simp only [hd, hm, Option.isSome_none, Bool.false_eq_true, if_false, List.isEmpty_nil,
          Bool.not_true, Except.ok.injEq] at h
        rw [← h]
        exact ⟨hd, hb b rfl⟩

theorem not_both_of_Exclusive {c : CCompositeKVCache K V} (h : Exclusive c) :
    ¬ (c.GetBasePtr.isSome = true ∧ c.self.pDbAccess.isSome = true) := by
  cases c with
  | root l => simp [CCompositeKVCache.GetBasePtr]
  | child l b =>
    have h1 : l.pDbAccess = none := h.1
    simp [CCompositeKVCache.self, h1]

end Binding

/-! ## The empty key never enters a local map -/

section Keys

variable {K V : Type}

theorem AllLayers_self {p : Layer K V → Prop} {c : CCompositeKVCache K V}
    (h : AllLayers p c) : p c.self := by
  cases c with
  | root l => exact h
  | child l b => exact h.1

theorem AllLayers_withSelf {p : Layer K V → Prop} {c : CCompositeKVCache K V} {l : Layer K V}
    (h : AllLayers p c) (hl : p l) : AllLayers p (c.withSelf l) := by
  cases c with
  | root l0 => exact hl
  | child l0 b => exact ⟨hl, h.2⟩

theorem AllLayers_mono {p q : Layer K V → Prop} (hpq : ∀ l, p l → q l)
    {c : CCompositeKVCache K V} (h : AllLayers p c) : AllLayers q c := by
  induction c with
  | root l => exact hpq l h
  | child l b ih => exact ⟨hpq l h.1, ih h.2⟩

theorem Layer.CleanKeys_memoised [LinearOrder K] [DbUtil K] [DbUtil V] (tag : PrefixType)
    (l : Layer K V) (k : K) (w : V) (hk : DbUtil.IsEmpty k = false) (h : l.CleanKeys tag) :
    (l.memoised k w).CleanKeys tag := by
  refine ⟨?_, ?_⟩
  · intro e he
    rw [memoised_mapData] at he
    rcases Map.mem_emplace he with h1 | h1
    · rw [h1]; exact hk
    · exact h.1 e h1
  · rw [memoised_pDbOpLogMap]
    exact h.2

/-- `GetDataIt` with a non-empty key adds no empty key. -/
theorem CleanKeys_memo [LinearOrder K] [DbUtil K] [DbUtil V] (tag : PrefixType)
    (c : CCompositeKVCache K V) (k : K) (hk : DbUtil.IsEmpty k = false)
    (h : AllLayers (Layer.CleanKeys tag) c) : AllLayers (Layer.CleanKeys tag) (memo tag c k) := by
  induction c with
  | root l =>
    rw [memo.eq_1]
    split
    · exact h
    · split
      · exact Layer.CleanKeys_memoised tag l k _ hk h
      · exact h
  | child l b ih =>
    rw [memo.eq_2]
    split
    · exact h
    · split
      · exact ⟨Layer.CleanKeys_memoised tag l k _ hk h.1, ih h.2⟩
      · exact ⟨h.1, ih h.2⟩

theorem mem_AddOpLog {tag : PrefixType} {m : CDBOpLogMap K V} {g e : CDbOpLog K V}
    (h : e ∈ (m.AddOpLog tag g) tag) : e ∈ m tag ∨ e = g := by
  simpa [CDBOpLogMap.AddOpLog] using h

/-- A write of a non-empty key that logs an entry of that key at most keeps the keys
clean. -/
theorem Layer.CleanKeys_put [LinearOrder K] [DbUtil K] (tag : PrefixType) {l l1 : Layer K V}
    {k : K} {cv : CacheValue V} (w : V) (hk : DbUtil.IsEmpty k = false)
    (h : l.CleanKeys tag) (hput : Layer.Put l l1 k cv)
    (hlog : l1.pDbOpLogMap = l.pDbOpLogMap ∨
      l1.pDbOpLogMap = l.pDbOpLogMap.map (fun m => m.AddOpLog tag ⟨k, w⟩)) :
    l1.CleanKeys tag := by
  refine ⟨?_, ?_⟩
  · intro e he
    rcases hput.2.2.2.1 e he with h1 | h1
    · rw [h1]; exact hk
    · exact h.1 e h1
  · intro m hm e he
    rcases hlog with h1 | h1
    · rw [h1] at hm
      exact h.2 m hm e he
    · rw [h1] at hm
      cases hl : l.pDbOpLogMap with
      | none => rw [hl] at hm; cases hm
      | some m0 =>
        rw [hl] at hm
        simp only [Option.map_some', Option.some.injEq] at hm
        rw [← hm] at he
        rcases mem_AddOpLog he with h2 | h2
        · exact h.2 m0 hl e h2
        · rw [h2]; exact hk

theorem CleanKeys_SetData [LinearOrder K] [DbUtil K] [DbUtil V] [Inhabited V]
    (tag : PrefixType) (c c1 : CCompositeKVCache K V) (k : K) (v : V) (r : Bool)
    (h : AllLayers (Layer.CleanKeys tag) c) (hset : SetData tag c k v = .ok (r, c1)) :
    AllLayers (Layer.CleanKeys tag) c1 := by
  have hk := key_of_ok_SetData hset
  obtain ⟨l1, hs, hput, hlog⟩ := SetData_ok tag c v hk
  rw [hs] at hset
  cases hset
  have hm := CleanKeys_memo tag c k hk h
  refine AllLayers_withSelf hm (Layer.CleanKeys_put tag ((lookup tag c k).getD default) hk
    (AllLayers_self hm) hput ?_)
  right
  rw [memo_pDbOpLogMap]
  exact hlog

theorem CleanKeys_EraseData [LinearOrder K] [DbUtil K] [DbUtil V]
    (tag : PrefixType) (c c1 : CCompositeKVCache K V) (k : K) (r : Bool)
    (h : AllLayers (Layer.CleanKeys tag) c) (her : EraseData tag c k = .ok (r, c1)) :
    AllLayers (Layer.CleanKeys tag) c1 := by
  have hk := key_of_ok_EraseData her
  have hm := CleanKeys_memo tag c k hk h
  rcases EraseData_ok tag c hk with ⟨_, he⟩ | ⟨v, l1, _, _, he, hput, hlog⟩
  · rw [he] at her
    cases her
    exact hm
  · rw [he] at her
    cases her
    refine AllLayers_withSelf hm (Layer.CleanKeys_put tag v hk (AllLayers_self hm) hput ?_)
    right
    rw [memo_pDbOpLogMap]
    exact hlog

theorem CleanKeys_SetDataToCache [LinearOrder K] [DbUtil K] [DbUtil V] (tag : PrefixType)
    (c c1 : CCompositeKVCache K V) (k : K) (v : V) (hk : DbUtil.IsEmpty k = false)
    (h : AllLayers (Layer.CleanKeys tag) c) (hset : SetDataToCache c k v = .ok c1) :
    AllLayers (Layer.CleanKeys tag) c1 := by
  obtain ⟨l1, hs, hput, hlog⟩ := SetDataToCache_ok c k v
  rw [hs] at hset
  cases hset
  exact AllLayers_withSelf h (Layer.CleanKeys_put tag v hk (AllLayers_self h) hput (Or.inl hlog))

theorem CleanKeys_UndoDataList [LinearOrder K] [DbUtil K] [DbUtil V] (tag : PrefixType)
    (c : CCompositeKVCache K V) (es : CDbOpLogs K V) :
    ∀ c1, (∀ e ∈ es, DbUtil.IsEmpty e.key = false) → AllLayers (Layer.CleanKeys tag) c →
      UndoDataList c es = .ok c1 → AllLayers (Layer.CleanKeys tag) c1 := by
  induction es with
  | nil =>
    intro c1 _ h hundo
    simp only [UndoDataList, Except.ok.injEq] at hundo
    rw [← hundo]
    exact h
  | cons e rest ih =>
    intro c1 hes h hundo
    simp only [UndoDataList] at hundo
    cases hr : UndoDataList c rest with
    | error err => rw [hr] at hundo; cases hundo
    | ok c0 =>
      rw [hr] at hundo
      have h0 := ih c0 (fun g hg => hes g (List.mem_cons_of_mem _ hg)) h hr
      exact CleanKeys_SetDataToCache tag c0 c1 e.key e.value (hes e (List.mem_cons_self _ _))
        h0 hundo

theorem CleanKeys_FlushToBase [LinearOrder K] [DbUtil K] [DbUtil V] (tag : PrefixType)
    (m : Map K V) :
    ∀ b b1 : CCompositeKVCache K V, (∀ e ∈ m, DbUtil.IsEmpty e.1 = false) →
      AllLayers (Layer.CleanKeys tag) b → FlushToBase m b = .ok b1 →
      AllLayers (Layer.CleanKeys tag) b1 := by
  induction m with
  | nil =>
    intro b b1 _ h hfl
    simp only [FlushToBase, Except.ok.injEq] at hfl
    rw [← hfl]
    exact h
  | cons item rest ih =>
    intro b b1 hm h hfl
    have hrest : ∀ e ∈ rest, DbUtil.IsEmpty e.1 = false :=
      fun e he => hm e (List.mem_cons_of_mem _ he)
    by_cases hmod : item.2.is_modified = true
    · cases hs : SetDataToCache b item.1 item.2.value with
      | error err => simp [FlushToBase, hmod, hs] at hfl
      | ok b0 =>
        simp only [FlushToBase, hmod, if_true, hs] at hfl
        exact ih b0 b1 hrest
          (CleanKeys_SetDataToCache tag b b0 item.1 item.2.value
            (hm item (List.mem_cons_self _ _)) h hs) hfl
    · simp only [FlushToBase, hmod, Bool.false_eq_true, if_false] at hfl
      exact ih b b1 hrest h hfl

theorem Layer.CleanKeys_Clear [DbUtil K] (tag : PrefixType) {l : Layer K V}
    (h : l.CleanKeys tag) : l.Clear.CleanKeys tag :=
  ⟨fun e he => by simp [Layer.Clear] at he, h.2⟩

theorem CleanKeys_Flush [LinearOrder K] [DbUtil K] [DbUtil V] (tag : PrefixType)
    (c c1 : CCompositeKVCache K V) (h : AllLayers (Layer.CleanKeys tag) c)
    (hfl : Flush tag c = .ok c1) : AllLayers (Layer.CleanKeys tag) c1 := by
  cases c with
  | root l =>
    cases hd : l.pDbAccess with
    | none => simp [Flush, hd] at hfl
    | some db =>
      simp only [Flush, hd, Except.ok.injEq] at hfl
      rw [← hfl]
      exact ⟨fun e he => by simp [Layer.Clear] at he, h.2⟩
  | child l b =>
    cases hd : l.pDbAccess with
    | some db => simp [Flush, hd] at hfl
    | none =>
      rw [Flush_child tag l b hd] at hfl
      cases hf : FlushToBase l.mapData b with
      | error err => rw [hf] at hfl; cases hfl
      | ok b1 =>
        rw [hf] at hfl
        simp only [Except.map, Except.ok.injEq] at hfl
        rw [← hfl]
        exact ⟨Layer.CleanKeys_Clear tag h.1, CleanKeys_FlushToBase tag l.mapData b b1 h.1.1 h.2 hf⟩

theorem capturedLogs_clean [DbUtil K] (tag : PrefixType) {c : CCompositeKVCache K V}
    (h : AllLayers (Layer.CleanKeys tag) c) :
    ∀ e ∈ capturedLogs tag c, DbUtil.IsEmpty e.key = false := by
  intro e he
  unfold capturedLogs at he
  cases hm : c.self.pDbOpLogMap with
  | none => rw [hm] at he; simp at he
  | some m =>
    rw [hm] at he
    exact (AllLayers_self h).2 m hm e he

end Keys

/-! ## The scalar cache -/

section Scalar

variable {V : Type}

@[simp] theorem CSimpleKVCache.slot_withSelf (c : CSimpleKVCache V) (l : SimpleLayer V) :
    (c.withSelf l).self = l := by
  cases c <;> rfl

@[simp] theorem CSimpleKVCache.base_withSelf (c : CSimpleKVCache V) (l : SimpleLayer V) :
    (c.withSelf l).GetBasePtr = c.GetBasePtr := by
  cases c <;> rfl

/-- When the slot is set, `GetDataPtr` returns it and changes nothing. -/
theorem CSimpleKVCache.GetDataPtr_of_slot [DbUtil V] (tag : PrefixType) (c : CSimpleKVCache V)
    (x : V) (h : c.self.ptrData = some x) : c.GetDataPtr tag = .ok (some x, c) := by
  cases c with
  | root l =>
    simp only [CSimpleKVCache.self] at h
    simp only [CSimpleKVCache.GetDataPtr, h]
  | child l b =>
    simp only [CSimpleKVCache.self] at h
    simp only [CSimpleKVCache.GetDataPtr, h]

/-- A second `GetDataPtr` returns what the first returned and changes nothing more. -/
theorem CSimpleKVCache.GetDataPtr_idem [DbUtil V] (tag : PrefixType) (c : CSimpleKVCache V) :
    ∀ r c1, c.GetDataPtr tag = .ok (r, c1) → c1.GetDataPtr tag = .ok (r, c1) := by
  induction c with
  | root l =>
    intro r c1 h
    cases hp : l.ptrData with
    | some v =>
      simp only [CSimpleKVCache.GetDataPtr, hp, Except.ok.injEq, Prod.mk.injEq] at h
      rw [← h.1, ← h.2]
      exact CSimpleKVCache.GetDataPtr_of_slot tag _ v hp
    | none =>
      cases hd : l.pDbAccess with
      | none =>
        simp only [CSimpleKVCache.GetDataPtr, hp, hd, Except.ok.injEq, Prod.mk.injEq] at h
        rw [← h.1, ← h.2]
        simp only [CSimpleKVCache.GetDataPtr, hp, hd]
      | some db =>
        cases hs : db.GetData tag () with
        | none =>
          simp only [CSimpleKVCache.GetDataPtr, hp, hd, hs, Except.ok.injEq, Prod.mk.injEq] at h
          rw [← h.1, ← h.2]
          simp only [CSimpleKVCache.GetDataPtr, hp, hd, hs]
        | some v =>
          by_cases hv : DbUtil.IsEmpty v = true
          · simp [CSimpleKVCache.GetDataPtr, hp, hd, hs, hv] at h
          · simp only [CSimpleKVCache.GetDataPtr, hp, hd, hs, hv, Bool.false_eq_true, if_false,
              Except.ok.injEq, Prod.mk.injEq] at h
            rw [← h.1, ← h.2]
            exact CSimpleKVCache.GetDataPtr_of_slot tag _ v rfl
  | child l b ih =>
    intro r c1 h
    cases hp : l.ptrData with
    | some v =>
      simp only [CSimpleKVCache.GetDataPtr, hp, Except.ok.injEq, Prod.mk.injEq] at h
      rw [← h.1, ← h.2]
      exact CSimpleKVCache.GetDataPtr_of_slot tag _ v hp
    | none =>
      cases hb : b.GetDataPtr tag with
      | error err => simp [CSimpleKVCache.GetDataPtr, hp, hb] at h
      | ok rb =>
        obtain ⟨r0, b1⟩ := rb
        have hb1 := ih r0 b1 hb
        cases r0 with
        | none =>
          simp only [CSimpleKVCache.GetDataPtr, hp, hb, Except.ok.injEq, Prod.mk.injEq] at h
          rw [← h.1, ← h.2]
          simp only [CSimpleKVCache.GetDataPtr, hp, hb1]
        | some v =>
          simp only [CSimpleKVCache.GetDataPtr, hp, hb, Except.ok.injEq, Prod.mk.injEq] at h
          rw [← h.1, ← h.2]
          exact CSimpleKVCache.GetDataPtr_of_slot tag _ v rfl

/-- `GetData` returns a value exactly when `GetDataPtr` returns it and it is not empty. -/
theorem CSimpleKVCache.GetData_some [DbUtil V] {tag : PrefixType} {c c1 : CSimpleKVCache V}
    {v : V} (h : c.GetData tag = .ok (some v, c1)) :
    c.GetDataPtr tag = .ok (some v, c1) ∧ DbUtil.IsEmpty v = false := by
  unfold CSimpleKVCache.GetData at h
  cases hp : c.GetDataPtr tag with
  | error err => rw [hp] at h; cases h
  | ok rb =>
    obtain ⟨r0, b1⟩ := rb
    rw [hp] at h
    cases r0 with
    | none => simp at h
    | some w =>
      by_cases hw : DbUtil.IsEmpty w = true
      · simp [hw] at h
      · simp only [Bool.not_eq_true] at hw
        simp only [hw, Bool.not_false, if_true, Except.ok.injEq, Prod.mk.injEq,
          Option.some.injEq] at h
        rw [← h.1, ← h.2]
        exact ⟨rfl, hw⟩

theorem CSimpleKVCache.GetData_of_ptr [DbUtil V] {tag : PrefixType} {c c1 : CSimpleKVCache V}
    {v : V} (h : c.GetDataPtr tag = .ok (some v, c1)) :
    c.GetData tag = .ok (if DbUtil.IsEmpty v then none else some v, c1) := by
  unfold CSimpleKVCache.GetData
  rw [h]
  by_cases hv : DbUtil.IsEmpty v = true <;> simp [hv]

/-- What `GetData` returns from a slot that is set. -/
theorem CSimpleKVCache.GetData_of_slot [DbUtil V] (tag : PrefixType) (c : CSimpleKVCache V)
    (x : V) (h : c.self.ptrData = some x) :
    c.GetData tag = .ok (if DbUtil.IsEmpty x then none else some x, c) :=
  CSimpleKVCache.GetData_of_ptr (CSimpleKVCache.GetDataPtr_of_slot tag c x h)

/-- A child whose slot is not set copies what `GetDataPtr` of the parent returns. -/
theorem CSimpleKVCache.GetDataPtr_child [DbUtil V] (tag : PrefixType) (l : SimpleLayer V)
    (b b1 : CSimpleKVCache V) (v : V) (hl : l.ptrData = none)
    (hb : b.GetDataPtr tag = .ok (some v, b1)) :
    (CSimpleKVCache.child l b).GetDataPtr tag
      = .ok (some v, .child { l with ptrData := some v } b1) := by
  simp only [CSimpleKVCache.GetDataPtr, hl, hb]

/-- `SetData` of the scalar cache returns `true`, sets the slot and keeps the parent. -/
theorem CSimpleKVCache.SetData_slot [Inhabited V] (tag : PrefixType) (c : CSimpleKVCache V)
    (v : V) :
    ∃ c2, c.SetData tag v = (true, c2) ∧ c2.self.ptrData = some v ∧
      c2.GetBasePtr = c.GetBasePtr :=
  ⟨(c.SetData tag v).2, rfl, by simp [CSimpleKVCache.SetData],
    by simp [CSimpleKVCache.SetData]⟩

/-- `EraseData` of the scalar cache over a slot holding a non-empty value empties the
value in place and keeps the parent. -/
theorem CSimpleKVCache.EraseData_of_slot [DbUtil V] (tag : PrefixType) (c : CSimpleKVCache V)
    (v : V) (h : c.self.ptrData = some v) (hv : DbUtil.IsEmpty v = false) :
    ∃ c2, c.EraseData tag = .ok (true, c2) ∧ c2.self.ptrData = some (DbUtil.SetEmpty v) ∧
      c2.GetBasePtr = c.GetBasePtr := by
  refine ⟨c.withSelf { c.self.AddOpLog tag v none with ptrData := some (DbUtil.SetEmpty v) },
    ?_, by simp, by simp⟩
  unfold CSimpleKVCache.EraseData
  rw [CSimpleKVCache.GetDataPtr_of_slot tag c v h]
  simp only [hv, Bool.not_false, if_true]

end Scalar

/-! ## Writes are local to their key -/

section KeyLocal

variable {K V : Type}

/-- Below the cache object a write leaves what `GetDataIt` leaves: every parent answers
every `GetData` as before. -/
theorem SameReads_base_memo [LinearOrder K] [DbUtil K] [DbUtil V] (tag : PrefixType)
    (c b : CCompositeKVCache K V) (k : K) (l1 : Layer K V) (h : c.GetBasePtr = some b) :
    ∃ b1, ((memo tag c k).withSelf l1).GetBasePtr = some b1 ∧ SameReads tag b b1 := by
  rw [GetBasePtr_withSelf]
  rcases memo_GetBasePtr tag c k with h1 | h1 | ⟨b0, h1, h2⟩
  · rw [h] at h1
    cases h1.2
  · exact ⟨b, by rw [h1, h], SameReads_refl tag b⟩
  · rw [h] at h1
    cases h1
    exact ⟨_, h2, SameReads_memo tag b k⟩

/-- `SetData` on `key` leaves the lookup of every other key as it was. -/
theorem SetData_lookup_ne [LinearOrder K] [DbUtil K] [DbUtil V] [Inhabited V]
    (tag : PrefixType) (c : CCompositeKVCache K V) {key : K} (value : V)
    (hk : DbUtil.IsEmpty key = false) :
    ∃ l1, SetData tag c key value = .ok (true, (memo tag c key).withSelf l1) ∧
      ∀ k2, k2 ≠ key → lookup tag ((memo tag c key).withSelf l1) k2 = lookup tag c k2 := by
  obtain ⟨l1, hset, hput, _⟩ := SetData_ok tag c value hk
  refine ⟨l1, hset, fun k2 hk2 => ?_⟩
  rw [lookup_put tag _ hput k2, if_neg hk2, (lookup_memo tag c key k2).1]

/-- `EraseData` on `key` leaves the lookup of every other key as it was. -/
theorem EraseData_lookup_ne [LinearOrder K] [DbUtil K] [DbUtil V]
    (tag : PrefixType) (c : CCompositeKVCache K V) {key : K}
    (hk : DbUtil.IsEmpty key = false) :
    ∃ l1, EraseData tag c key = .ok (true, (memo tag c key).withSelf l1) ∧
      ∀ k2, k2 ≠ key → lookup tag ((memo tag c key).withSelf l1) k2 = lookup tag c k2 := by
  rcases EraseData_ok tag c hk with ⟨_, her⟩ | ⟨v, l1, _, _, her, hput, _⟩
  · refine ⟨(memo tag c key).self, ?_, fun k2 _ => ?_⟩
    · rw [withSelf_self]
      exact her
    · rw [withSelf_self, (lookup_memo tag c key k2).1]
  · refine ⟨l1, her, fun k2 hk2 => ?_⟩
    rw [lookup_put tag _ hput k2, if_neg hk2, (lookup_memo tag c key k2).1]

/-- `AddDataToMap` succeeds exactly when the key is not yet in the local map. -/
theorem AddDataToMap_ok_iff [LinearOrder K] [DbUtil K] [DbUtil V] (l : Layer K V) (key : K)
    (cacheValue : CacheValue V) :
    (∃ l1, AddDataToMap l key cacheValue = .ok l1) ↔ Map.find l.mapData key = none := by
  constructor
  · rintro ⟨l1, h⟩
    cases hf : Map.find l.mapData key with
    | none => rfl
    | some e => simp [AddDataToMap, Map.count, hf] at h
  · intro hf
    exact ⟨_, AddDataToMap_ok l cacheValue hf⟩

/-- `Flush` fails only on its binding assertions. -/
theorem Flush_ok_iff [LinearOrder K] [DbUtil K] [DbUtil V] (tag : PrefixType)
    (c : CCompositeKVCache K V) :
    (Bound c → ∃ c1, Flush tag c = .ok c1) ∧ (¬ Bound c → Flush tag c = .error .assertion) := by
  cases c with
  | root l =>
    cases hd : l.pDbAccess with
    | none =>
      refine ⟨fun hb => ?_, fun _ => by simp [Flush, hd]⟩
      simp [Bound, CCompositeKVCache.GetBasePtr, CCompositeKVCache.self, hd] at hb
    | some db =>
      refine ⟨fun _ => ?_, fun hb => ?_⟩
      · simp only [Flush, hd]
        exact ⟨_, rfl⟩
      · exact absurd (by simp [Bound, CCompositeKVCache.GetBasePtr, CCompositeKVCache.self, hd]) hb
  | child l b =>
    cases hd : l.pDbAccess with
    | some db =>
      refine ⟨fun hb => ?_, fun _ => by simp [Flush, hd]⟩
      simp [Bound, CCompositeKVCache.GetBasePtr, CCompositeKVCache.self, hd] at hb
    | none =>
      refine ⟨fun _ => ?_, fun hb => ?_⟩
      · obtain ⟨l1, hf, _⟩ := FlushToBase_ok l.mapData b
        rw [Flush_child tag l b hd, hf]
        exact ⟨_, rfl⟩
      · exact absurd (by simp [Bound, CCompositeKVCache.GetBasePtr, CCompositeKVCache.self, hd]) hb

end KeyLocal

/-! ## Calls that follow a read -/

section LaterCalls

variable {K V : Type}

end LaterCalls

/-! ## The testable properties of the keyed cache -/

section Claims

variable {K V : Type}

/-- C1: for a store-backed root `R` whose store and local map are empty and a child `C`
over `R` (fresh or not), a non-empty key `k` and a non-empty value `v`: `C.SetData(k, v)`
succeeds, after it `C.GetData(k)` returns `v` and `R.GetData(k)` returns not-found. -/
theorem set_stays_in_child [LinearOrder K] [DbUtil K] [DbUtil V] [Inhabited V]
    (tag : PrefixType) (lC lR : Layer K V) (db : CDBAccess K V)
    (k : K) (v : V) (hR : lR.mapData = [])
    (hdb : lR.pDbAccess = some db) (hstore : ∀ dbKey, db.data dbKey = none)
    (hk : DbUtil.IsEmpty k = false) (hv : DbUtil.IsEmpty v = false) :
    ∃ c1, SetData tag (.child lC (.root lR)) k v = .ok (true, c1) ∧
      (∃ c2, GetData tag c1 k = .ok (some v, c2)) ∧
      ∃ r1, c1.GetBasePtr = some r1 ∧ ∃ r2, GetData tag r1 k = .ok (none, r2) := by
  obtain ⟨l1, hset, hput, _⟩ := SetData_ok tag (.child lC (.root lR)) v hk
  refine ⟨_, hset, ?_, ?_⟩
  · have hl : lookup tag ((memo tag (.child lC (.root lR)) k).withSelf l1) k = some v := by
      rw [lookup_put tag _ hput]; simp
    rw [GetData_eq tag _ hk, found_of_lookup tag _ k v hl hv]
    exact ⟨_, rfl⟩
  · obtain ⟨b1, hb1, hl⟩ := memo_base tag (.child lC (.root lR)) (.root lR) k rfl
    refine ⟨b1, by rw [GetBasePtr_withSelf, hb1], ?_⟩
    have hl2 : lookup tag b1 k = none := by
      rw [hl, lookup_root_empty tag lR db hR hdb hstore]
    rw [GetData_eq tag _ hk, found_of_lookup_none tag b1 k hl2]
    exact ⟨_, rfl⟩

/-- Witness of C1: scenario 1 of the spec up to the flush, with `k1 = 1`. -/
theorem set_stays_in_child_witness :
    ∃ c1, SetData 7 (.child newChildLayer (.root (newStoreLayer emptyDb))) 1 10 = .ok (true, c1) ∧
      (∃ c2, GetData 7 c1 1 = .ok (some 10, c2)) ∧
      ∃ r1, c1.GetBasePtr = some r1 ∧ ∃ r2, GetData 7 r1 1 = .ok (none, r2) :=
  set_stays_in_child 7 newChildLayer (newStoreLayer emptyDb) emptyDb 1 10 rfl rfl
    (fun _ => rfl) rfl rfl

/-- C2: for an empty store-backed root `R`, a fresh child `C` over `R`, a non-empty key
`k` and a non-empty value `v`: `C.SetData(k, v); C.Flush(); C.Clear()` succeed, and
afterwards `C.GetData(k)` returns `v` and `R.GetData(k)` returns `v`. -/
theorem flush_propagates [LinearOrder K] [DbUtil K] [DbUtil V] [Inhabited V]
    (tag : PrefixType) (lC lR : Layer K V) (db : CDBAccess K V)
    (k : K) (v : V) (hC : lC.mapData = []) (hCdb : lC.pDbAccess = none)
    (hR : lR.mapData = []) (hdb : lR.pDbAccess = some db)
    (hstore : ∀ dbKey, db.data dbKey = none)
    (hk : DbUtil.IsEmpty k = false) (hv : DbUtil.IsEmpty v = false) :
    ∃ c1 c2, SetData tag (.child lC (.root lR)) k v = .ok (true, c1) ∧
      Flush tag c1 = .ok c2 ∧
      (∃ c3, GetData tag (Clear c2) k = .ok (some v, c3)) ∧
      ∃ r2, (Clear c2).GetBasePtr = some r2 ∧ ∃ r3, GetData tag r2 k = .ok (some v, r3) := by
  obtain ⟨l1, hset, hput, _⟩ := SetData_ok tag (.child lC (.root lR)) v hk
  -- the chain after `GetDataIt` missed everywhere is the chain before
  have hmemo : memo tag (.child lC (.root lR)) k = .child lC (memo tag (.root lR) k) := by
    have hl : lookup tag (.root lR) k = none := lookup_root_empty tag lR db hR hdb hstore k
    rw [memo.eq_2]
    simp [hC, Map.find, lookupBelow_child, hl]
  rw [hmemo] at hset hput
  simp only [CCompositeKVCache.withSelf, CCompositeKVCache.self] at hset hput
  -- the local map of the child holds the one entry `(k, v, modified)`
  have hlast : Map.lastModified l1.mapData k = some v := by
    apply Map.lastModified_of_all
    · intro e he
      rcases hput.2.2.2.1 e he with h | h
      · exact h
      · rw [hC] at h; cases h
    · intro h0
      have := hput.2.2.1 k
      rw [h0] at this
      simp [Map.find] at this
  have hl1 : l1.pDbAccess = none := by rw [hput.1, hCdb]
  obtain ⟨l2, hfl, hd, _, _, hf⟩ := FlushToBase_ok l1.mapData (memo tag (.root lR) k)
  have hlook : lookup tag ((memo tag (.root lR) k).withSelf l2) k = some v := by
    rw [lookup_flushed tag l1.mapData (memo tag (.root lR) k) l2 hd hf k, hlast]
  have hflush : Flush tag (.child l1 (memo tag (.root lR) k))
      = .ok (.child l1.Clear ((memo tag (.root lR) k).withSelf l2)) := by
    rw [Flush_child tag l1 _ hl1, hfl]
    rfl
  have hclear : Clear (.child l1.Clear ((memo tag (.root lR) k).withSelf l2))
      = .child l1.Clear.Clear ((memo tag (.root lR) k).withSelf l2) := rfl
  refine ⟨_, _, hset, hflush, ?_, ?_⟩
  · have hl : lookup tag (Clear (.child l1.Clear ((memo tag (.root lR) k).withSelf l2))) k
        = some v := by
      rw [hclear, lookup_child_nil tag _ _ rfl, hlook]
    rw [GetData_eq tag _ hk, found_of_lookup tag _ k v hl hv]
    exact ⟨_, rfl⟩
  · refine ⟨_, rfl, ?_⟩
    rw [GetData_eq tag _ hk, found_of_lookup tag _ k v hlook hv]
    exact ⟨_, rfl⟩

/-- Witness of C2: scenario 1 of the spec, with `k1 = 1`. -/
theorem flush_propagates_witness :
    ∃ c1 c2, SetData 7 (.child newChildLayer (.root (newStoreLayer emptyDb))) 1 10
        = .ok (true, c1) ∧
      Flush 7 c1 = .ok c2 ∧
      (∃ c3, GetData 7 (Clear c2) 1 = .ok (some 10, c3)) ∧
      ∃ r2, (Clear c2).GetBasePtr = some r2 ∧ ∃ r3, GetData 7 r2 1 = .ok (some 10, r3) :=
  flush_propagates 7 newChildLayer (newStoreLayer emptyDb) emptyDb 1 10 rfl rfl rfl rfl
    (fun _ => rfl) rfl rfl

/-- C3: for a cache `R` on which `R.GetData(k)` returns a (non-empty) value `v0` and a
fresh child `C` over `R`: `C.EraseData(k)` succeeds, after it `C.GetData(k)` returns
not-found and `R.GetData(k)` still returns `v0`. -/
theorem erase_hides_parent_value [LinearOrder K] [DbUtil K] [DbUtil V] [Inhabited V]
    [LawfulDbUtil V] (tag : PrefixType) (R R1 : CCompositeKVCache K V) (lC : Layer K V)
    (k : K) (v0 : V)
    (hC : lC.mapData = []) (hR : GetData tag R k = .ok (some v0, R1)) :
    ∃ c1, EraseData tag (.child lC R) k = .ok (true, c1) ∧
      (∃ c2, GetData tag c1 k = .ok (none, c2)) ∧
      ∃ r1, c1.GetBasePtr = some r1 ∧ ∃ r2, GetData tag r1 k = .ok (some v0, r2) := by
  have hk := key_of_GetData hR
  rw [GetData_eq tag R hk] at hR
  have hfound : found tag R k = some v0 := by
    injection hR with h
    exact (Prod.mk.inj h).1
  obtain ⟨hlR, hv0⟩ := lookup_of_found hfound
  have hlC : lookup tag (.child lC R) k = some v0 := by
    rw [lookup_child_nil tag lC R hC, hlR]
  obtain ⟨b1, hb1, hl⟩ := memo_base tag (.child lC R) R k rfl
  rcases EraseData_ok tag (.child lC R) hk with ⟨hnone, _⟩ | ⟨v, l1, hv, _, her, hput, _⟩
  · rw [found_of_lookup tag _ k v0 hlC hv0] at hnone
    cases hnone
  · rw [hlC] at hv
    cases hv
    refine ⟨_, her, ?_, b1, by rw [GetBasePtr_withSelf, hb1], ?_⟩
    · have hl2 : lookup tag ((memo tag (.child lC R) k).withSelf l1) k
          = some (DbUtil.SetEmpty v0) := by
        rw [lookup_put tag _ hput]; simp
      rw [GetData_eq tag _ hk,
        found_of_lookup_empty tag _ k _ hl2 (LawfulDbUtil.isEmpty_setEmpty v0)]
      exact ⟨_, rfl⟩
    · have hl2 : lookup tag b1 k = some v0 := by rw [hl, hlR]
      rw [GetData_eq tag _ hk, found_of_lookup tag b1 k v0 hl2 hv0]
      exact ⟨_, rfl⟩

/-- Witness of C3: the root holds `1 -> 10` in its store. -/
theorem erase_hides_parent_value_witness :
    ∃ c1, EraseData 7 (.child newChildLayer (.root (newStoreLayer (singletonDb 7 1 10)))) 1
        = .ok (true, c1) ∧
      (∃ c2, GetData 7 c1 1 = .ok (none, c2)) ∧
      ∃ r1, c1.GetBasePtr = some r1 ∧ ∃ r2, GetData 7 r1 1 = .ok (some 10, r2) :=
  erase_hides_parent_value 7 (.root (newStoreLayer (singletonDb 7 1 10))) _ newChildLayer 1 10
    rfl rfl

/-- C4: undo round trip on the keyed cache. For every cache state with an attached op-log
sink whose log for this domain is empty, and every finite sequence of `SetData` /
`EraseData` calls on non-empty keys: the sequence succeeds, `UndoDataList` on the
captured entries succeeds, and afterwards `GetData(k)` returns for every key `k`
exactly what it returned before the sequence (the same value, or not-found). -/
theorem undo_round_trip [LinearOrder K] [DbUtil K] [DbUtil V] [Inhabited V]
    [LawfulDbUtil V] (tag : PrefixType) (c : CCompositeKVCache K V)
    (m : CDBOpLogMap K V) (ops : List (CacheOp K V))
    (hsink : c.self.pDbOpLogMap = some m) (hlog : m tag = [])
    (hkeys : ∀ op ∈ ops, DbUtil.IsEmpty op.key = false) :
    ∃ c1 c2, runOps tag c ops = .ok c1 ∧ UndoDataList c1 (capturedLogs tag c1) = .ok c2 ∧
      ∀ k, (GetData tag c2 k).map Prod.fst = (GetData tag c k).map Prod.fst := by
  obtain ⟨c1, es, m1, hrun, hsink1, hlog1, _, hlook, _, _⟩ := runOps_ok tag ops c m hsink hkeys
  have hcap : capturedLogs tag c1 = es := by
    simp [capturedLogs, hsink1, hlog1, hlog]
  obtain ⟨l2, hundo, _, _, hl2⟩ := UndoDataList_ok tag c1 es
  refine ⟨c1, _, hrun, by rw [hcap]; exact hundo, ?_⟩
  intro k
  by_cases hk : DbUtil.IsEmpty k = true
  · simp [GetData, hk, Except.map]
  · simp only [Bool.not_eq_true] at hk
    rw [GetData_eq tag _ hk, GetData_eq tag _ hk]
    have h1 := hlook k
    have h2 := hl2 k
    have : found tag (c1.withSelf l2) k = found tag c k := by
      cases hf : firstLog es k with
      | none =>
        rw [hf] at h1 h2
        simp only at h1 h2
        exact found_congr tag _ _ k (by rw [h2, h1])
      | some e =>
        rw [hf] at h1 h2
        simp only at h1 h2
        rw [← h1]
        simp [found, h2]
    simp [Except.map, this]

/-- Witness of C4: scenario 2 of the spec. The root holds `1 -> 10`; the layer over it,
with a sink, does `SetData(1, 20); SetData(1, 30)`, then erases the key. -/
theorem undo_round_trip_witness :
    ∃ c1 c2, runOps 7 scenarioTwo [.set 1 20, .set 1 30, .erase 1] = .ok c1 ∧
      UndoDataList c1 (capturedLogs 7 c1) = .ok c2 ∧
      ∀ k, (GetData 7 c2 k).map Prod.fst = (GetData 7 scenarioTwo k).map Prod.fst :=
  undo_round_trip 7 scenarioTwo emptyOpLogMap [.set 1 20, .set 1 30, .erase 1] rfl rfl
    (by decide)

/-- C5: undo against an already-flushed target. For every cache `R`, every fresh child
`C` over `R` with an attached, initially empty op-log sink, and every finite sequence
of `SetData` / `EraseData` calls on `C` (non-empty keys): the sequence and `C.Flush()`
succeed, `R.UndoDataList(captured entries)` succeeds, and afterwards `R.GetData(k)`
returns for every key `k` exactly what `R.GetData(k)` returned before the sequence. -/
theorem undo_after_flush [LinearOrder K] [DbUtil K] [DbUtil V] [Inhabited V]
    [LawfulDbUtil V] (tag : PrefixType) (R : CCompositeKVCache K V)
    (lC : Layer K V) (m : CDBOpLogMap K V) (ops : List (CacheOp K V))
    (hC : lC.mapData = []) (hCdb : lC.pDbAccess = none)
    (hsink : lC.pDbOpLogMap = some m) (hlog : m tag = [])
    (hkeys : ∀ op ∈ ops, DbUtil.IsEmpty op.key = false) :
    ∃ c1 c2 r2 r3, runOps tag (.child lC R) ops = .ok c1 ∧ Flush tag c1 = .ok c2 ∧
      c2.GetBasePtr = some r2 ∧ UndoDataList r2 (capturedLogs tag c1) = .ok r3 ∧
      ∀ k, (GetData tag r3 k).map Prod.fst = (GetData tag R k).map Prod.fst := by
  obtain ⟨c1, es, m1, hrun, hsink1, hlog1, hdb1, hlook, hmod, hbase⟩ :=
    runOps_ok tag ops (.child lC R) m hsink hkeys
  obtain ⟨b1, hb1, hlb⟩ := hbase R rfl
  have hcap : capturedLogs tag c1 = es := by
    simp [capturedLogs, hsink1, hlog1, hlog]
  cases c1 with
  | root l1 => cases hb1
  | child l1 b9 =>
    cases hb1
    simp only [CCompositeKVCache.self] at hdb1 hmod hsink1
    rw [hCdb] at hdb1
    obtain ⟨l2, hfl, hd2, _, _, hf2⟩ := FlushToBase_ok l1.mapData b1
    have hlook2 := lookup_flushed tag l1.mapData b1 l2 hd2 hf2
    obtain ⟨l3, hundo, _, _, hl3⟩ := UndoDataList_ok tag (b1.withSelf l2) es
    refine ⟨_, .child l1.Clear (b1.withSelf l2), b1.withSelf l2, _, hrun, ?_, rfl,
      by rw [hcap]; exact hundo, ?_⟩
    · rw [Flush_child tag l1 b1 hdb1, hfl]
      rfl
    · intro k
      by_cases hk : DbUtil.IsEmpty k = true
      · simp [GetData, hk, Except.map]
      · simp only [Bool.not_eq_true] at hk
        rw [GetData_eq tag _ hk, GetData_eq tag _ hk]
        have h1 := hlook k
        have h3 := hl3 k
        have : found tag ((b1.withSelf l2).withSelf l3) k = found tag R k := by
          cases hf : firstLog es k with
          | none =>
            rw [hf] at h1 h3
            simp only at h1 h3
            have hnone : Map.lastModified l1.mapData k = none := by
              apply Map.lastModified_none
              intro e he hm hek
              rcases hmod e he hm with h | ⟨g, hg, hgk⟩
              · rw [hC] at h; cases h
              · exact firstLog_none hf g hg (by rw [hgk, hek])
            have h2 := hlook2 k
            rw [hnone] at h2
            simp only at h2
            exact found_congr tag _ _ k (by rw [h3, h2, hlb])
          | some e =>
            rw [hf] at h1 h3
            simp only at h1 h3
            rw [← found_child_nil tag lC R hC k, ← h1]
            unfold found
            rw [h3]
        rw [withSelf_withSelf] at this
        simp [Except.map, this]

/-- Witness of C5: the root holds `1 -> 10` in its store; the child sets the key twice,
erases it and sets a new key. -/
theorem undo_after_flush_witness :
    ∃ c1 c2 r2 r3, runOps 7 scenarioTwo [.set 1 20, .set 1 30, .erase 1, .set 2 5] = .ok c1 ∧
      Flush 7 c1 = .ok c2 ∧ c2.GetBasePtr = some r2 ∧
      UndoDataList r2 (capturedLogs 7 c1) = .ok r3 ∧
      ∀ k, (GetData 7 r3 k).map Prod.fst
        = (GetData 7 (.root (newStoreLayer (singletonDb 7 1 10))) k).map Prod.fst :=
  undo_after_flush 7 (.root (newStoreLayer (singletonDb 7 1 10)))
    (newChildLayer.SetDbOpLogMap (some emptyOpLogMap)) emptyOpLogMap
    [.set 1 20, .set 1 30, .erase 1, .set 2 5] rfl rfl rfl rfl (by decide)

/-- C6: for every cache state, non-empty key `k` and value `v`, `SetData(k, v)` succeeds;
with a sink attached it appends exactly one entry to the log of this domain, the
key `k` with the value the read-through lookup of `k` finds before the call (`lookup`:
the entry of the first layer that has one, from the layer itself down its parents,
else the value the store of the root has), a default-constructed value when it finds
none, which is the case when no layer and no store has `k` (`Absent`), and leaves the
logs of the other domains alone; with no sink attached there is still none
afterwards. -/
theorem set_logs_prior_value [LinearOrder K] [DbUtil K] [DbUtil V] [Inhabited V]
    (tag : PrefixType)
    (c : CCompositeKVCache K V) (k : K) (v : V)
    (hk : DbUtil.IsEmpty k = false) :
    ∃ c1, SetData tag c k v = .ok (true, c1) ∧
      (∀ m, c.self.pDbOpLogMap = some m →
        ∃ m1, c1.self.pDbOpLogMap = some m1 ∧
          m1 tag = m tag ++ [⟨k, (lookup tag c k).getD default⟩] ∧
          ∀ t, t ≠ tag → m1 t = m t) ∧
      (Absent tag c k → (lookup tag c k).getD default = default) ∧
      (c.self.pDbOpLogMap = none → c1.self.pDbOpLogMap = none) := by
  obtain ⟨l1, hset, _, hlog⟩ := SetData_ok tag c v hk
  refine ⟨_, hset, ?_, ?_, ?_⟩
  · intro m hm
    rw [self_withSelf, hlog, hm]
    refine ⟨_, rfl, ?_, ?_⟩
    · simp [CDBOpLogMap.AddOpLog]
    · intro t ht
      simp [CDBOpLogMap.AddOpLog, Function.update, ht]
  · intro ha
    rw [lookup_of_Absent tag c k ha]
    rfl
  · intro hm
    rw [self_withSelf, hlog, hm]
    rfl

/-- Witness of C6: the first write of scenario 2 of the spec. The layer is fresh and the
store of its root holds `1 -> 10`: the write of `20` logs the entry `(1, 10)`, the
value read through from the store. -/
theorem set_logs_prior_value_witness :
    lookup 7 scenarioTwo 1 = some 10 ∧
      ∃ c1 m1, SetData 7 scenarioTwo 1 20 = .ok (true, c1) ∧
        c1.self.pDbOpLogMap = some m1 ∧ m1 7 = [⟨1, 10⟩] ∧ ∀ t, t ≠ 7 → m1 t = [] := by
  obtain ⟨c1, h1, h2, _, _⟩ := set_logs_prior_value 7 scenarioTwo 1 20 rfl
  obtain ⟨m1, hm1, hlog, hother⟩ := h2 emptyOpLogMap rfl
  exact ⟨rfl, c1, m1, h1, hm1, hlog, hother⟩

/-- C9: flush into a parent. For every child `C` (a well-formed local map, no store bound)
over a parent `P`, `C.Flush()` succeeds and changes only the local map and the size
of `P` (not its bindings, not what is below it); afterwards the local map of `P`
holds, for a key whose entry in `C` was modified, the value of that entry marked
modified, and for every other key (no entry in `C`, or an unmodified one) what it
held before; the local map of `C` is empty and its size is `0`. -/
theorem flush_into_parent [LinearOrder K] [DbUtil K] [DbUtil V] (tag : PrefixType)
    (l : Layer K V) (P : CCompositeKVCache K V)
    (hwf : Map.WF l.mapData) (hdb : l.pDbAccess = none) :
    ∃ l1 lP, Flush tag (.child l P) = .ok (.child l1 (P.withSelf lP)) ∧
      l1.mapData = [] ∧ l1.size = 0 ∧
      lP.pDbAccess = P.self.pDbAccess ∧ lP.pDbOpLogMap = P.self.pDbOpLogMap ∧
      (∀ k e, Map.find l.mapData k = some e → e.2.is_modified = true →
        Map.find lP.mapData k = some (k, ⟨e.2.value, true⟩)) ∧
      (∀ k, (∀ e, Map.find l.mapData k = some e → e.2.is_modified = false) →
        Map.find lP.mapData k = Map.find P.self.mapData k) := by
  obtain ⟨lP, hfl, hd, ho, _, hf⟩ := FlushToBase_ok l.mapData P
  refine ⟨l.Clear, lP, ?_, rfl, rfl, hd, ho, ?_, ?_⟩
  · rw [Flush_child tag l P hdb, hfl]
    rfl
  · intro k e he hm
    rw [hf k, Map.lastModified_of_find hwf, he]
    simp [hm]
  · intro k hk
    rw [hf k, Map.lastModified_of_find hwf]
    cases he : Map.find l.mapData k with
    | none => rfl
    | some e => simp [hk e he]

/-- Witness of C9: a child with a modified entry, a memoised entry and a tombstone. -/
theorem flush_into_parent_witness :
    ∃ l1 lP, Flush 7 (.child mixedLayer (.root (newStoreLayer emptyDb)))
        = .ok (.child l1 ((CCompositeKVCache.root (newStoreLayer emptyDb)).withSelf lP)) ∧
      l1.mapData = [] ∧ l1.size = 0 ∧
      lP.pDbAccess = (CCompositeKVCache.root (newStoreLayer emptyDb)).self.pDbAccess ∧
      lP.pDbOpLogMap = (CCompositeKVCache.root (newStoreLayer emptyDb)).self.pDbOpLogMap ∧
      (∀ k e, Map.find mixedLayer.mapData k = some e → e.2.is_modified = true →
        Map.find lP.mapData k = some (k, ⟨e.2.value, true⟩)) ∧
      (∀ k, (∀ e, Map.find mixedLayer.mapData k = some e → e.2.is_modified = false) →
        Map.find lP.mapData k
          = Map.find (CCompositeKVCache.root (newStoreLayer emptyDb)).self.mapData k) :=
  flush_into_parent 7 mixedLayer (.root (newStoreLayer emptyDb))
    (by simp [Map.WF, mixedLayer]) rfl

theorem FlushBatch_eq [DbUtil V] (tag : PrefixType) (m : Map K V) :
    FlushBatch tag m
      = (m.filter (fun e => e.2.is_modified)).map
          (fun e => if DbUtil.IsEmpty e.2.value then BatchOp.Erase (GenDbKey tag e.1)
            else BatchOp.Write (GenDbKey tag e.1) e.2.value) := by
  induction m with
  | nil => rfl
  | cons a m ih =>
    by_cases hm : a.2.is_modified = true
    · simp [FlushBatch, hm, List.filter, ih]
    · simp [FlushBatch, hm, List.filter, ih]

/-- C10: flush into the backing store. For every store-bound cache, `Flush()` succeeds
and submits exactly one batch; the batch is, in map order, one operation for each
modified local entry, an erase of the domain-tagged key when the value is empty and
a write of (domain-tagged key, value) otherwise, and nothing for an unmodified
entry; the store content is the old content with that batch applied; afterwards
the local map is empty and the size is `0`. -/
theorem flush_into_store [LinearOrder K] [DbUtil K] [DbUtil V] (tag : PrefixType)
    (l : Layer K V) (db : CDBAccess K V)
    (hdb : l.pDbAccess = some db) :
    ∃ l1 db1, Flush tag (.root l) = .ok (.root l1) ∧ l1.pDbAccess = some db1 ∧
      db1.batches = db.batches ++ [FlushBatch tag l.mapData] ∧
      db1.data = (FlushBatch tag l.mapData).foldl BatchOp.apply db.data ∧
      FlushBatch tag l.mapData
        = (l.mapData.filter (fun e => e.2.is_modified)).map
            (fun e => if DbUtil.IsEmpty e.2.value then BatchOp.Erase (GenDbKey tag e.1)
              else BatchOp.Write (GenDbKey tag e.1) e.2.value) ∧
      l1.mapData = [] ∧ l1.size = 0 := by
  refine ⟨{ l with pDbAccess := some (db.WriteBatch (FlushBatch tag l.mapData)) }.Clear,
    db.WriteBatch (FlushBatch tag l.mapData), ?_, rfl, rfl, rfl,
    FlushBatch_eq tag l.mapData, rfl, rfl⟩
  simp [Flush, hdb]

/-- Witness of C10: a root with a modified entry, a memoised entry and a tombstone. -/
theorem flush_into_store_witness :
    ∃ l1 db1, Flush 7 (.root mixedRootLayer) = .ok (.root l1) ∧ l1.pDbAccess = some db1 ∧
      db1.batches = (singletonDb 7 3 8).batches ++ [FlushBatch 7 mixedRootLayer.mapData] ∧
      db1.data = (FlushBatch 7 mixedRootLayer.mapData).foldl BatchOp.apply (singletonDb 7 3 8).data ∧
      FlushBatch 7 mixedRootLayer.mapData
        = (mixedRootLayer.mapData.filter (fun e => e.2.is_modified)).map
            (fun e => if DbUtil.IsEmpty e.2.value then BatchOp.Erase (GenDbKey 7 e.1)
              else BatchOp.Write (GenDbKey 7 e.1) e.2.value) ∧
      l1.mapData = [] ∧ l1.size = 0 :=
  flush_into_store 7 mixedRootLayer (singletonDb 7 3 8) rfl

/-- The state `staleChild` is reached from fresh caches through the public calls
`P.SetData(1, 10); P.EraseData(1); C.GetData(1); P.SetData(1, 10)`. -/
theorem staleChild_reached :
    ∃ p1 p2 l p3, SetData 7 (.root (newStoreLayer emptyDb)) 1 10 = .ok (true, p1) ∧
      EraseData 7 p1 1 = .ok (true, p2) ∧
      GetData 7 (.child newChildLayer p2) 1 = .ok (none, .child l p2) ∧
      SetData 7 p2 1 10 = .ok (true, p3) ∧ staleChild = .child l p3 :=
  ⟨_, _, _, _, rfl, rfl, rfl, rfl, rfl⟩

/-- Counterexample to C7 as stated: from the state `staleChild`, `EraseData(1)` followed
by `Flush()` leaves the parent answering `10` for key `1`, while `SetData(1, 0)` with
the empty value `0` followed by `Flush()` leaves it answering not-found. -/
theorem erase_differs_from_set_on_stale_memo :
    ∃ cE cS fE fS rE rS, EraseData 7 staleChild 1 = .ok (true, cE) ∧
      SetData 7 staleChild 1 0 = .ok (true, cS) ∧
      Flush 7 cE = .ok fE ∧ Flush 7 cS = .ok fS ∧
      fE.GetBasePtr = some rE ∧ fS.GetBasePtr = some rS ∧
      (GetData 7 rE 1).map Prod.fst = .ok (some 10) ∧
      (GetData 7 rS 1).map Prod.fst = .ok none :=
  ⟨_, _, _, _, _, _, rfl, rfl, rfl, rfl, rfl, rfl, rfl, rfl⟩

/-- C7, amended: `EraseData(k)` and `SetData(k, ev)` with an empty value `ev`, run from the
same state on a non-empty key `k`, both succeed and give caches on which `GetData` and
`HasData` return the same result for every key. When moreover the cache is bound to
exactly one of parent and store, its local map is well formed and its entry of `k`,
if unmodified, is a copy of what the lookup below finds (no stale memoised entry),
a following `Flush()` succeeds on both and leaves `GetData` returning the same result
for every key on the parent layer, and on the flushed cache itself, which then
answers from the parent or from the backing store. -/
theorem erase_equiv_set_empty [LinearOrder K] [DbUtil K] [DbUtil V] [Inhabited V]
    [LawfulDbUtil V] (tag : PrefixType) (c : CCompositeKVCache K V) (k : K) (ev : V)
    (hk : DbUtil.IsEmpty k = false) (hev : DbUtil.IsEmpty ev = true) :
    ∃ cE cS, EraseData tag c k = .ok (true, cE) ∧ SetData tag c k ev = .ok (true, cS) ∧
      (∀ k2, (GetData tag cE k2).map Prod.fst = (GetData tag cS k2).map Prod.fst ∧
        (HasData tag cE k2).map Prod.fst = (HasData tag cS k2).map Prod.fst) ∧
      (Map.WF c.self.mapData → Bound c → FaithfulAt tag c k →
        ∃ fE fS, Flush tag cE = .ok fE ∧ Flush tag cS = .ok fS ∧
          fE.GetBasePtr.isSome = c.GetBasePtr.isSome ∧
          fS.GetBasePtr.isSome = c.GetBasePtr.isSome ∧
          (∀ k2, (GetData tag fE k2).map Prod.fst = (GetData tag fS k2).map Prod.fst) ∧
          (∀ rE rS, fE.GetBasePtr = some rE → fS.GetBasePtr = some rS →
            ∀ k2, (GetData tag rE k2).map Prod.fst = (GetData tag rS k2).map Prod.fst)) := by
  obtain ⟨lE, lS, her, hset, hdE, hdS, hfound, hflush⟩ := erase_set_core tag c k ev hk hev
  refine ⟨_, _, her, hset,
    fun k2 => ⟨GetData_fst_congr tag _ _ k2 (hfound k2), HasData_fst_congr tag _ _ k2 (hfound k2)⟩,
    ?_⟩
  intro hwf hbound hfaith
  have hcore := hflush hwf hfaith
  cases c with
  | root l =>
    have hdb : ∃ db, l.pDbAccess = some db := by
      unfold Bound at hbound
      simp only [CCompositeKVCache.GetBasePtr, CCompositeKVCache.self, Option.isSome_none] at hbound
      cases hl : l.pDbAccess with
      | none => rw [hl] at hbound; simp at hbound
      | some db => exact ⟨db, rfl⟩
    obtain ⟨db, hdb⟩ := hdb
    simp only [CCompositeKVCache.self] at hdE hdS
    rw [memo_root_shape] at hcore ⊢
    simp only [CCompositeKVCache.withSelf] at hcore ⊢
    obtain ⟨fE, hfE, hEfound⟩ := Flush_root_found tag lE db (by rw [hdE, hdb])
    obtain ⟨fS, hfS, hSfound⟩ := Flush_root_found tag lS db (by rw [hdS, hdb])
    refine ⟨_, _, hfE, hfS, rfl, rfl, ?_, ?_⟩
    · intro k2
      exact GetData_fst_congr tag _ _ k2 (by rw [hEfound, hSfound, hcore])
    · intro rE rS hrE
      cases hrE
  | child l b =>
    have hdb : l.pDbAccess = none := by
      unfold Bound at hbound
      simp only [CCompositeKVCache.GetBasePtr, CCompositeKVCache.self, Option.isSome_some] at hbound
      cases hl : l.pDbAccess with
      | none => rfl
      | some db => rw [hl] at hbound; simp at hbound
    simp only [CCompositeKVCache.self] at hdE hdS
    obtain ⟨b1, hshape⟩ := memo_child_shape tag l b k
    rw [hshape] at hcore ⊢
    simp only [CCompositeKVCache.withSelf] at hcore ⊢
    obtain ⟨lE1, bE, hfE, hEb, hEc, _, _, _⟩ := Flush_child_found tag lE b1 (by rw [hdE, hdb])
    obtain ⟨lS1, bS, hfS, hSb, hSc, _, _, _⟩ := Flush_child_found tag lS b1 (by rw [hdS, hdb])
    refine ⟨_, _, hfE, hfS, rfl, rfl, ?_, ?_⟩
    · intro k2
      exact GetData_fst_congr tag _ _ k2 (by rw [hEc, hSc, hcore])
    · intro rE rS hrE hrS k2
      cases hrE
      cases hrS
      exact GetData_fst_congr tag _ _ k2 (by rw [hEb, hSb, hcore])

/-- Witness of C7, amended: the chain of scenario 2, where the child reads key `1`
through; both calls succeed, so do both flushes, and the results agree. -/
theorem erase_equiv_set_empty_witness :
    ∃ cE cS fE fS, EraseData 7 scenarioTwo 1 = .ok (true, cE) ∧
      SetData 7 scenarioTwo 1 0 = .ok (true, cS) ∧
      Flush 7 cE = .ok fE ∧ Flush 7 cS = .ok fS ∧
      (∀ k2, (GetData 7 fE k2).map Prod.fst = (GetData 7 fS k2).map Prod.fst) ∧
      (∀ rE rS, fE.GetBasePtr = some rE → fS.GetBasePtr = some rS →
        ∀ k2, (GetData 7 rE k2).map Prod.fst = (GetData 7 rS k2).map Prod.fst) := by
  obtain ⟨cE, cS, hE, hS, _, hflush⟩ := erase_equiv_set_empty 7 scenarioTwo 1 0 rfl rfl
  obtain ⟨fE, fS, hfE, hfS, _, _, h1, h2⟩ :=
    hflush (by simp [Map.WF, scenarioTwo, CCompositeKVCache.self, newChildLayer,
        Layer.SetDbOpLogMap])
      rfl (fun e he => by simp [scenarioTwo, CCompositeKVCache.self, newChildLayer,
        Layer.SetDbOpLogMap, Map.find] at he)
  exact ⟨cE, cS, fE, fS, hE, hS, hfE, hfS, h1, h2⟩

/-- The state `staleOverStore` is reached from fresh caches through the public calls
`R.EraseData(1); C.GetData(1); R.Clear()`. -/
theorem staleOverStore_reached :
    ∃ r1 l, EraseData 7 (.root (newStoreLayer (singletonDb 7 1 10))) 1 = .ok (true, r1) ∧
      GetData 7 (.child newChildLayer r1) 1 = .ok (none, .child l r1) ∧
      staleOverStore = .child l (Clear r1) :=
  ⟨_, _, rfl, rfl, rfl⟩

/-- Counterexample to C8 as stated: the store of the root holds `1 -> 10`, the child
holds a stale memoised tombstone of key `1`; after `C.EraseData(1); C.Flush()` the
local map of the root holds no entry for key `1`, and `R.GetData(1)` returns `10`. -/
theorem stale_tombstone_resurrected :
    ∃ c1 l2 lR db, EraseData 7 staleOverStore 1 = .ok (true, c1) ∧
      Flush 7 c1 = .ok (.child l2 (.root lR)) ∧
      lR.pDbAccess = some db ∧ db.GetData 7 1 = some 10 ∧
      Map.find lR.mapData 1 = none ∧
      (GetData 7 (.root lR) 1).map Prod.fst = .ok (some 10) :=
  ⟨_, _, _, _, rfl, rfl, rfl, rfl, rfl, rfl⟩

/-- C8, amended: for every store-backed root `R` whose store holds a non-empty value for
`k` and every child `C` over `R` (well-formed local map, no store bound), provided
the entries of `k` in `C` and in `R`, where unmodified, are copies of what the lookup
below finds (no stale memoised entry): `C.EraseData(k); C.Flush()` succeed, and
afterwards the local map of `R` holds for `k` an entry with an empty value and
`is_modified = true`, `R.GetData(k)` and `C.GetData(k)` return not-found, and the
store, untouched, still holds `k`. -/
theorem tombstone_not_resurrected [LinearOrder K] [DbUtil K] [DbUtil V] [Inhabited V]
    [LawfulDbUtil V] (tag : PrefixType) (lC lR : Layer K V) (db : CDBAccess K V) (k : K) (v : V)
    (hdb : lR.pDbAccess = some db) (hstore : db.GetData tag k = some v)
    (hv : DbUtil.IsEmpty v = false) (hCdb : lC.pDbAccess = none) (hwf : Map.WF lC.mapData)
    (hk : DbUtil.IsEmpty k = false)
    (hfC : FaithfulAt tag (.child lC (.root lR)) k) (hfR : FaithfulAt tag (.root lR) k) :
    ∃ c1 l2 lR2, EraseData tag (.child lC (.root lR)) k = .ok (true, c1) ∧
      Flush tag c1 = .ok (.child l2 (.root lR2)) ∧
      (∃ t, Map.find lR2.mapData k = some (k, ⟨t, true⟩) ∧ DbUtil.IsEmpty t = true) ∧
      (∃ r3, GetData tag (.root lR2) k = .ok (none, r3)) ∧
      (∃ c3, GetData tag (.child l2 (.root lR2)) k = .ok (none, c3)) ∧
      lR2.pDbAccess = some db ∧ db.GetData tag k = some v := by
  obtain ⟨lR1, hshape, hR1db, hR1find⟩ := memo_child_root tag lC lR k
  have hwf1 := WF_memo tag (.child lC (.root lR)) k hwf
  have hdb1 : (memo tag (.child lC (.root lR)) k).self.pDbAccess = none := by
    rw [memo_pDbAccess]; exact hCdb
  -- in each case the flushed layer leaves or finds a modified tombstone in the root
  have finish : ∀ lX : Layer K V, lX.pDbAccess = none → Map.WF lX.mapData →
      ((∃ t, Map.find lX.mapData k = some (k, ⟨t, true⟩) ∧ DbUtil.IsEmpty t = true) ∨
        ((∀ e, Map.find lX.mapData k = some e → e.2.is_modified = false) ∧
          ∃ t, Map.find lR1.mapData k = some (k, ⟨t, true⟩) ∧ DbUtil.IsEmpty t = true)) →
      ∃ l2 lR2, Flush tag (.child lX (.root lR1)) = .ok (.child l2 (.root lR2)) ∧
        (∃ t, Map.find lR2.mapData k = some (k, ⟨t, true⟩) ∧ DbUtil.IsEmpty t = true) ∧
        (∃ r3, GetData tag (.root lR2) k = .ok (none, r3)) ∧
        (∃ c3, GetData tag (.child l2 (.root lR2)) k = .ok (none, c3)) ∧
        lR2.pDbAccess = some db ∧ db.GetData tag k = some v := by
    intro lX hX hXwf hT
    obtain ⟨l2, lR2, hfl, htomb, hfR2, hfC2, hpd⟩ :=
      flush_keeps_tombstone tag lX lR1 k hX hXwf hT
    refine ⟨l2, lR2, hfl, htomb, ?_, ?_, by rw [hpd, hR1db, hdb], hstore⟩
    · rw [GetData_eq tag _ hk, hfR2]
      exact ⟨_, rfl⟩
    · rw [GetData_eq tag _ hk, hfC2]
      exact ⟨_, rfl⟩
  rcases EraseData_ok tag (.child lC (.root lR)) hk with ⟨hnone, her⟩ | ⟨w, lE, _, _, her, hput, _⟩
  · -- the lookup of the child found nothing or an empty value: `EraseData` only memoised
    rw [hshape] at her
    have hfm := find_memo_self tag (.child lC (.root lR)) k
    have hval := lookupIt_value tag (.child lC (.root lR)) k
    have hnone2 : (lookup tag (.child lC (.root lR)) k).filter (fun w => !DbUtil.IsEmpty w)
        = none := hnone
    have hroot := lookup_root_store tag lR db k v hdb hstore
    cases hit : lookupIt tag (.child lC (.root lR)) k with
    | none =>
      exfalso
      have hb : lookupBelow tag (.child lC (.root lR)) k = none := by
        unfold lookupIt at hit
        cases hfind : Map.find (CCompositeKVCache.child lC (.root lR)).self.mapData k with
        | some e0 => rw [hfind] at hit; cases hit
        | none =>
          rw [hfind] at hit
          cases hb : lookupBelow tag (.child lC (.root lR)) k with
          | none => rfl
          | some w => rw [hb] at hit; cases hit
      rw [lookupBelow_child] at hb
      rcases hroot with h | ⟨eR, _, h⟩ <;> (rw [hb] at h; cases h)
    | some e =>
      rw [hit] at hfm hval
      simp only [Option.map_some'] at hval
      rw [← hval] at hnone2
      have hempty : DbUtil.IsEmpty e.2.value = true := by
        by_cases h : DbUtil.IsEmpty e.2.value = true
        · exact h
        · simp [Option.filter, h] at hnone2
      have hek := lookupIt_key hit
      obtain ⟨l2, lR2, hfl, rest⟩ := finish _ hdb1 hwf1 (by
        by_cases hm : e.2.is_modified = true
        · left
          refine ⟨e.2.value, ?_, hempty⟩
          rw [hfm, ← hek, ← hm]
        · right
          simp only [Bool.not_eq_true] at hm
          refine ⟨fun e2 he2 => by rw [hfm] at he2; cases he2; exact hm, ?_⟩
          have hbelow := lookupBelow_of_lookupIt hfC hit hm
          rw [lookupBelow_child] at hbelow
          rcases hroot with h | ⟨eR, hfind, h⟩
          · rw [hbelow] at h
            cases h
            rw [hv] at hempty
            cases hempty
          · rw [hbelow] at h
            have hval2 : eR.2.value = e.2.value := (Option.some.inj h).symm
            have hmod : eR.2.is_modified = true := by
              by_cases hm2 : eR.2.is_modified = true
              · exact hm2
              · exfalso
                simp only [Bool.not_eq_true] at hm2
                have := hfR eR hfind hm2
                simp only [lookupBelow, hdb, hstore, Option.some.injEq] at this
                rw [this, hval2, hempty] at hv
                cases hv
            refine ⟨eR.2.value, ?_, by rw [hval2]; exact hempty⟩
            rw [hR1find eR hfind, ← Map.find_key hfind, ← hmod])
      exact ⟨_, l2, lR2, her, hfl, rest⟩
  · -- the lookup found a value: `EraseData` wrote the tombstone
    rw [hshape] at her hput
    simp only [CCompositeKVCache.withSelf, CCompositeKVCache.self] at her hput
    rw [hshape] at hwf1 hdb1
    simp only [CCompositeKVCache.self] at hwf1 hdb1
    obtain ⟨l2, lR2, hfl, rest⟩ := finish lE (by rw [hput.1, hdb1]) (hput.2.2.2.2 hwf1)
      (Or.inl ⟨DbUtil.SetEmpty w, by rw [hput.2.2.1]; simp, LawfulDbUtil.isEmpty_setEmpty w⟩)
    exact ⟨_, l2, lR2, her, hfl, rest⟩

/-- Witness of C8, amended: a fresh child over a fresh root whose store holds `1 -> 10`. -/
theorem tombstone_not_resurrected_witness :
    ∃ c1 l2 lR2, EraseData 7 scenarioTwo 1 = .ok (true, c1) ∧
      Flush 7 c1 = .ok (.child l2 (.root lR2)) ∧
      (∃ t, Map.find lR2.mapData 1 = some (1, ⟨t, true⟩) ∧ DbUtil.IsEmpty t = true) ∧
      (∃ r3, GetData 7 (.root lR2) 1 = .ok (none, r3)) ∧
      (∃ c3, GetData 7 (.child l2 (.root lR2)) 1 = .ok (none, c3)) ∧
      lR2.pDbAccess = some (singletonDb 7 1 10) ∧ (singletonDb 7 1 10).GetData 7 1 = some 10 :=
  tombstone_not_resurrected 7 (newChildLayer.SetDbOpLogMap (some emptyOpLogMap))
    (newStoreLayer (singletonDb 7 1 10)) (singletonDb 7 1 10) 1 10 rfl rfl rfl rfl
    (by simp [Map.WF, newChildLayer, Layer.SetDbOpLogMap]) rfl
    (fun e he => by simp [CCompositeKVCache.self, newChildLayer, Layer.SetDbOpLogMap,
      Map.find] at he)
    (fun e he => by simp [CCompositeKVCache.self, newStoreLayer, Map.find] at he)

/-- Counterexample to C11 as stated: the store of the root holds `1 -> 10`, the child holds
a stale memoised tombstone of key `1`; after `C.EraseData(1); C.Flush(); R.Flush()` the
store still holds `1 -> 10`. -/
theorem stale_erase_not_committed :
    ∃ c1 l2 lR2 l3 db3, (singletonDb 7 1 10).GetData 7 1 = some 10 ∧
      EraseData 7 staleOverStore 1 = .ok (true, c1) ∧
      Flush 7 c1 = .ok (.child l2 (.root lR2)) ∧
      Flush 7 (.root lR2) = .ok (.root l3) ∧
      l3.pDbAccess = some db3 ∧ db3.GetData 7 1 = some 10 :=
  ⟨_, _, _, _, _, rfl, rfl, rfl, rfl, rfl, rfl⟩

/-- C11, amended: two-step commit. For every child `C` over a store-backed root `R`
(well-formed local maps, `C` bound to no store), non-empty key `k` and non-empty
value `v`: `C.SetData(k, v); C.Flush()` succeed and leave the backing store as it was
(the same content, no batch submitted), and the following `R.Flush()` succeeds and
leaves the store mapping `k` to `v`. If the store holds a non-empty value for `k` and
the entries of `k` in `C` and in `R`, where unmodified, are copies of what the lookup
below finds (no stale memoised entry), then `C.EraseData(k); C.Flush()` succeed and
leave the store as it was, and after the following `R.Flush()` the store no longer
holds `k`. -/
theorem two_step_commit [LinearOrder K] [DbUtil K] [DbUtil V] [Inhabited V]
    [LawfulDbUtil V] (tag : PrefixType) (lC lR : Layer K V) (db : CDBAccess K V) (k : K) (v : V)
    (hdb : lR.pDbAccess = some db) (hCdb : lC.pDbAccess = none)
    (hwfC : Map.WF lC.mapData) (hwfR : Map.WF lR.mapData)
    (hk : DbUtil.IsEmpty k = false) (hv : DbUtil.IsEmpty v = false) :
    (∃ c1 l2 lR2 l3 db3, SetData tag (.child lC (.root lR)) k v = .ok (true, c1) ∧
      Flush tag c1 = .ok (.child l2 (.root lR2)) ∧ lR2.pDbAccess = some db ∧
      Flush tag (.root lR2) = .ok (.root l3) ∧ l3.pDbAccess = some db3 ∧
      db3.GetData tag k = some v) ∧
    (∀ w, db.GetData tag k = some w → DbUtil.IsEmpty w = false →
      FaithfulAt tag (.child lC (.root lR)) k → FaithfulAt tag (.root lR) k →
      ∃ c1 l2 lR2 l3 db3, EraseData tag (.child lC (.root lR)) k = .ok (true, c1) ∧
        Flush tag c1 = .ok (.child l2 (.root lR2)) ∧ lR2.pDbAccess = some db ∧
        Flush tag (.root lR2) = .ok (.root l3) ∧ l3.pDbAccess = some db3 ∧
        db3.GetData tag k = none) := by
  constructor
  · obtain ⟨c1, l2, lR2, hset, hfl, hfind, hpd, hwf2⟩ :=
      set_flush_entry tag lC lR db k v hdb hCdb hwfC hk
    obtain ⟨l3, db3, hfl3, hpd3, _, hmod, _⟩ := Flush_root_store tag lR2 db hpd (hwf2 hwfR)
    refine ⟨c1, l2, lR2, l3, db3, hset, hfl, hpd, hfl3, hpd3, ?_⟩
    rw [hmod k _ hfind rfl]
    simp [hv]
  · intro w hstore hw hfC hfR
    obtain ⟨c1, l2, lR2, her, hfl, ⟨t, hfind, ht⟩, hpd, hwf2⟩ :=
      erase_flush_tombstone tag lC lR db k w hdb hstore hw hCdb hwfC hk hfC hfR
    obtain ⟨l3, db3, hfl3, hpd3, _, hmod, _⟩ := Flush_root_store tag lR2 db hpd (hwf2 hwfR)
    refine ⟨c1, l2, lR2, l3, db3, her, hfl, hpd, hfl3, hpd3, ?_⟩
    rw [hmod k _ hfind rfl]
    simp [ht]

/-- Witness of C11, amended: over a root whose store holds `1 -> 10`, a fresh child sets
key `1` to `20`, or erases it; either way the store changes at the flush of the root. -/
theorem two_step_commit_witness :
    (∃ c1 l2 lR2 l3 db3, SetData 7 scenarioTwo 1 20 = .ok (true, c1) ∧
      Flush 7 c1 = .ok (.child l2 (.root lR2)) ∧ lR2.pDbAccess = some (singletonDb 7 1 10) ∧
      Flush 7 (.root lR2) = .ok (.root l3) ∧ l3.pDbAccess = some db3 ∧
      db3.GetData 7 1 = some 20) ∧
    (∃ c1 l2 lR2 l3 db3, EraseData 7 scenarioTwo 1 = .ok (true, c1) ∧
      Flush 7 c1 = .ok (.child l2 (.root lR2)) ∧ lR2.pDbAccess = some (singletonDb 7 1 10) ∧
      Flush 7 (.root lR2) = .ok (.root l3) ∧ l3.pDbAccess = some db3 ∧
      db3.GetData 7 1 = none) := by
  have h := two_step_commit 7 (newChildLayer.SetDbOpLogMap (some emptyOpLogMap))
    (newStoreLayer (singletonDb 7 1 10)) (singletonDb 7 1 10) 1 20 rfl rfl
    (by simp [Map.WF, newChildLayer, Layer.SetDbOpLogMap]) (by simp [Map.WF, newStoreLayer])
    rfl rfl
  exact ⟨h.1, h.2 10 rfl rfl
    (fun e he => by simp [CCompositeKVCache.self, newChildLayer, Layer.SetDbOpLogMap,
      Map.find] at he)
    (fun e he => by simp [CCompositeKVCache.self, newStoreLayer, Map.find] at he)⟩

/-- C12: for every layer `A` over a store-backed root `R` and every non-empty key `k` that
is neither in the store nor in the local map of `A` or `R`: `A.EraseData(k)`,
`A.Flush()` and `R.Flush()` succeed; the flush of `A` submits nothing to the store,
the flush of `R` submits one batch, and no operation of that batch (no erase, no
write) is about the domain-tagged key of `k`. -/
theorem erase_absent_issues_no_delete [LinearOrder K] [DbUtil K] [DbUtil V]
    (tag : PrefixType) (lA lR : Layer K V) (db : CDBAccess K V) (k : K)
    (hdb : lR.pDbAccess = some db) (hAdb : lA.pDbAccess = none)
    (hA : Map.find lA.mapData k = none) (hR : Map.find lR.mapData k = none)
    (hstore : db.GetData tag k = none) (hk : DbUtil.IsEmpty k = false) :
    ∃ c1 l2 lR2 l3 db3 batch, EraseData tag (.child lA (.root lR)) k = .ok (true, c1) ∧
      Flush tag c1 = .ok (.child l2 (.root lR2)) ∧ lR2.pDbAccess = some db ∧
      Flush tag (.root lR2) = .ok (.root l3) ∧ l3.pDbAccess = some db3 ∧
      db3.batches = db.batches ++ [batch] ∧
      ∀ op ∈ batch, op.key ≠ GenDbKey tag k := by
  have hlook : lookup tag (.child lA (.root lR)) k = none := by
    simp [lookup, CCompositeKVCache.self, hA, lookupBelow, hR, hdb, hstore]
  have her : EraseData tag (.child lA (.root lR)) k = .ok (true, .child lA (.root lR)) := by
    rcases EraseData_ok tag (.child lA (.root lR)) hk with ⟨_, h⟩ | ⟨w, _, h, _⟩
    · rw [memo_of_lookup_none tag _ k hlook] at h
      exact h
    · rw [hlook] at h
      cases h
  obtain ⟨lP, hfl, hd, _, _, _⟩ := FlushToBase_ok lA.mapData (.root lR)
  have hmem := FlushToBase_mem lA.mapData _ _ hfl
  simp only [CCompositeKVCache.withSelf, CCompositeKVCache.self] at hfl hd hmem
  refine ⟨_, lA.Clear, lP, { lP with pDbAccess := some (db.WriteBatch (FlushBatch tag
    lP.mapData)) }.Clear, db.WriteBatch (FlushBatch tag lP.mapData), FlushBatch tag lP.mapData,
    her, ?_, by rw [hd, hdb], ?_, rfl, rfl, ?_⟩
  · rw [Flush_child tag lA _ hAdb, hfl]
    rfl
  · simp [Flush, hd, hdb]
  · intro op hop hkey
    obtain ⟨e, he, _, hek⟩ := FlushBatch_mem tag lP.mapData op hop
    rw [hkey] at hek
    have hke : e.1 = k := (Prod.mk.inj hek).2.symm
    rcases hmem e he with h1 | ⟨item, hitem, _, heq⟩
    · exact Map.not_mem_of_find_none hR e h1 hke
    · rw [heq] at hke
      exact Map.not_mem_of_find_none hA item hitem hke

/-- Witness of C12: scenario 3 of the spec; the layer also holds entries of other keys. -/
theorem erase_absent_issues_no_delete_witness :
    ∃ c1 l2 lR2 l3 db3 batch,
      EraseData 7 (.child mixedLayer (.root (newStoreLayer emptyDb))) 5 = .ok (true, c1) ∧
      Flush 7 c1 = .ok (.child l2 (.root lR2)) ∧ lR2.pDbAccess = some emptyDb ∧
      Flush 7 (.root lR2) = .ok (.root l3) ∧ l3.pDbAccess = some db3 ∧
      db3.batches = emptyDb.batches ++ [batch] ∧
      ∀ op ∈ batch, op.key ≠ GenDbKey 7 5 :=
  erase_absent_issues_no_delete 7 mixedLayer (newStoreLayer emptyDb) emptyDb 5 rfl rfl
    (by decide) rfl rfl rfl

/-- Counterexample to C15 as stated: on a fresh store-backed root of byte-string values
(size calculation enabled), `SetData(1, v)` with `v` of `3 * 2 ^ 30` bytes and then
`SetData(1, w)` with `w` of `2 ^ 31` bytes, both reached through `SetData` alone. The sum
over the local map is below `2 ^ 32` in every state on the way (`0`, then
`4 + 3 * 2 ^ 30`, then `4 + 2 ^ 31`), and yet `GetCacheSize()` is `0` at the end: inside
`UpdateDataSize` the counter wraps when the new size is added, and the guarded
subtraction of the old size then sets it to zero. -/
theorem size_counter_wraps_on_update :
    ∃ c1 c2 : CCompositeKVCache Nat Blob,
      SetData 7 (.root (newStoreLayer emptyBlobDb)) 1 ⟨3221225472⟩ = .ok (true, c1) ∧
      SetData 7 c1 1 ⟨2147483648⟩ = .ok (true, c2) ∧
      c2.self.is_calc_size = true ∧
      Map.dataSize c1.self.mapData = 3221225476 ∧ GetCacheSize c1 = 3221225476 ∧
      Map.dataSize c2.self.mapData = 2147483652 ∧ 2147483652 < 2 ^ 32 ∧
      GetCacheSize c2 = 0 :=
  ⟨_, _, rfl, rfl, rfl, rfl, rfl, rfl, by decide, rfl⟩

/-- C15, amended: in every state built from a freshly constructed cache (store-backed,
unbound, or a child over such a state) through `GetData`, `HasData`, `SetData`,
`EraseData`, `UndoData`, `Clear`, `Flush` and `SetDbOpLogMap`, every call leaving room in
the 32-bit counters for the sizes it adds before it subtracts (`Reach`), the cache and
each of its parents satisfy: `GetCacheSize()` equals the sum over the entries of the local
map of the serialized sizes of the key and of the stored value when size calculation is
enabled, and equals `0` when it is disabled. -/
theorem size_invariant [LinearOrder K] [DbUtil K] [DbUtil V] [Inhabited V]
    (tag : PrefixType) (c : CCompositeKVCache K V) (h : Reach tag c) :
    AllSizeOK c ∧
      (c.self.is_calc_size = true → GetCacheSize c = Map.dataSize c.self.mapData) ∧
      (c.self.is_calc_size = false → GetCacheSize c = 0) := by
  have hall : AllSizeOK c := by
    induction h with
    | store db => exact ⟨fun _ => rfl, fun h => by simp [newStoreLayer] at h⟩
    | unbound => exact ⟨fun h => by simp [newChildLayer] at h, fun _ => rfl⟩
    | over _ ih => exact ⟨⟨fun h => by simp [newChildLayer] at h, fun _ => rfl⟩, ih⟩
    | base _ ih => exact ih.2
    | sink m _ ih =>
      exact AllSizeOK_withSelf ih (Layer.SizeOK_of_eq (AllSizeOK_self ih) rfl rfl rfl)
    | get key r _ hroom hget ih =>
      rw [GetData_eq tag _ (key_of_GetData hget)] at hget
      cases hget
      exact AllSizeOK_memo tag _ key ih hroom
    | has key r _ hroom hhas ih =>
      rw [HasData_eq tag _ (key_of_ok_HasData hhas)] at hhas
      cases hhas
      exact AllSizeOK_memo tag _ key ih hroom
    | set key value r _ hroom hset ih => exact AllSizeOK_SetData tag _ _ key value r ih hroom hset
    | erase key r _ hroom her ih => exact AllSizeOK_EraseData tag _ _ key r ih hroom her
    | undo dbOpLog _ hroom hundo ih => exact (AllSizeOK_SetDataToCache ih hroom hundo).1
    | clear _ ih => exact AllSizeOK_withSelf ih (Layer.SizeOK_Clear _)
    | flush _ hroom hfl ih => exact AllSizeOK_Flush tag _ _ ih hroom hfl
  exact ⟨hall, AllSizeOK_self hall⟩

/-- Witness of C15, amended: a child over a store-backed root after `SetData(1, 10)` in
the root (size `8` there, `0` in the child, whose size calculation is disabled). -/
theorem size_invariant_witness :
    AllSizeOK (CCompositeKVCache.child newChildLayer
        (.root { newStoreLayer emptyDb with mapData := [(1, ⟨10, true⟩)], size := 8 })) ∧
      ((newChildLayer : Layer Nat Nat).is_calc_size = true →
        GetCacheSize (CCompositeKVCache.child newChildLayer
          (.root { newStoreLayer emptyDb with mapData := [(1, ⟨10, true⟩)], size := 8 }))
          = Map.dataSize (newChildLayer : Layer Nat Nat).mapData) ∧
      ((newChildLayer : Layer Nat Nat).is_calc_size = false →
        GetCacheSize (CCompositeKVCache.child newChildLayer
          (.root { newStoreLayer emptyDb with mapData := [(1, ⟨10, true⟩)], size := 8 }))
          = 0) :=
  size_invariant 7 _
    (Reach.over (Reach.set 1 10 true (Reach.store emptyDb)
      (show (0 : Nat) + (4 + 4 + 0) < 2 ^ 32 by decide) rfl))

/-- C16: for every cache state and every non-empty key `k`, `GetData(k)` and `HasData(k)`
both succeed, `HasData(k)` returns `true` exactly when `GetData(k)` returns a value,
and both leave the cache chain in the same state. -/
theorem has_iff_get [LinearOrder K] [DbUtil K] [DbUtil V] (tag : PrefixType)
    (c : CCompositeKVCache K V) (k : K) (hk : DbUtil.IsEmpty k = false) :
    ∃ r c1, GetData tag c k = .ok (r, c1) ∧ HasData tag c k = .ok (r.isSome, c1) :=
  ⟨found tag c k, memo tag c k, GetData_eq tag c hk, HasData_eq tag c hk⟩

/-- Witness of C16: the chain of scenario 2 and its key `1`. -/
theorem has_iff_get_witness :
    ∃ r c1, GetData 7 scenarioTwo 1 = .ok (r, c1) ∧ HasData 7 scenarioTwo 1 = .ok (r.isSome, c1) :=
  has_iff_get 7 scenarioTwo 1 rfl

/-- C17: discard. For every parent `P`, every child `C` over `P` (fresh or not) and every
finite sequence of `SetData` / `EraseData` calls on `C` (non-empty keys): the sequence
succeeds; after `C.Clear()` the local map of `C` is empty and its size is `0`,
`C.GetData(k)` returns for every key what `P.GetData(k)` returns, `P.GetData(k)` returns
what it returned before the sequence, and every store binding of the chain is what
it was (same content, no batch submitted). -/
theorem clear_discards [LinearOrder K] [DbUtil K] [DbUtil V] [Inhabited V]
    (tag : PrefixType) (P : CCompositeKVCache K V) (lC : Layer K V) (ops : List (CacheOp K V))
    (hkeys : ∀ op ∈ ops, DbUtil.IsEmpty op.key = false) :
    ∃ c1 p1, runOps tag (.child lC P) ops = .ok c1 ∧ (Clear c1).GetBasePtr = some p1 ∧
      (Clear c1).self.mapData = [] ∧ (Clear c1).self.size = 0 ∧
      dbChain (Clear c1) = dbChain (.child lC P) ∧
      (∀ k, (GetData tag (Clear c1) k).map Prod.fst = (GetData tag p1 k).map Prod.fst) ∧
      (∀ k, (GetData tag p1 k).map Prod.fst = (GetData tag P k).map Prod.fst) := by
  obtain ⟨c1, hrun, hdb, hbase⟩ := runOps_frame tag ops (.child lC P) hkeys
  obtain ⟨p1, hp1, hl⟩ := hbase P rfl
  cases c1 with
  | root l1 => cases hp1
  | child l1 b1 =>
    cases hp1
    refine ⟨_, p1, hrun, rfl, rfl, rfl, ?_, ?_, ?_⟩
    · rw [← hdb]
      rfl
    · intro k
      apply GetData_fst_congr
      exact found_child_nil tag l1.Clear p1 rfl k
    · intro k
      apply GetData_fst_congr
      exact found_congr tag p1 P k (hl k)

/-- Witness of C17: the chain of scenario 2; the child sets, erases, and is cleared. -/
theorem clear_discards_witness :
    ∃ c1 p1, runOps 7 scenarioTwo [.set 1 20, .erase 1, .set 2 5] = .ok c1 ∧
      (Clear c1).GetBasePtr = some p1 ∧
      (Clear c1).self.mapData = [] ∧ (Clear c1).self.size = 0 ∧
      dbChain (Clear c1) = dbChain scenarioTwo ∧
      (∀ k, (GetData 7 (Clear c1) k).map Prod.fst = (GetData 7 p1 k).map Prod.fst) ∧
      (∀ k, (GetData 7 p1 k).map Prod.fst
        = (GetData 7 (.root (newStoreLayer (singletonDb 7 1 10))) k).map Prod.fst) :=
  clear_discards 7 (.root (newStoreLayer (singletonDb 7 1 10)))
    (newChildLayer.SetDbOpLogMap (some emptyOpLogMap)) [.set 1 20, .erase 1, .set 2 5]
    (by decide)

/-- C18: `GetData`, `HasData`, `SetData` and `EraseData` fail, with the assertion, when the
key is empty (the assertion is their first statement: nothing was changed), and
succeed for every non-empty key on every chain; for a non-empty key that is in no
local map and not in the store, `GetData` returns not-found and leaves the chain as
it is. -/
theorem fails_exactly_on_empty_key [LinearOrder K] [DbUtil K] [DbUtil V] [Inhabited V]
    (tag : PrefixType) (c : CCompositeKVCache K V) (k : K) (v : V) :
    (DbUtil.IsEmpty k = true →
      GetData tag c k = .error .assertion ∧ HasData tag c k = .error .assertion ∧
      SetData tag c k v = .error .assertion ∧ EraseData tag c k = .error .assertion) ∧
    (DbUtil.IsEmpty k = false →
      (∃ r c1, GetData tag c k = .ok (r, c1)) ∧ (∃ r c1, HasData tag c k = .ok (r, c1)) ∧
      (∃ c1, SetData tag c k v = .ok (true, c1)) ∧ (∃ c1, EraseData tag c k = .ok (true, c1))) ∧
    (DbUtil.IsEmpty k = false → Absent tag c k → GetData tag c k = .ok (none, c)) := by
  refine ⟨?_, ?_, ?_⟩
  · intro hk
    simp [GetData, HasData, SetData, EraseData, hk]
  · intro hk
    refine ⟨⟨_, _, GetData_eq tag c hk⟩, ⟨_, _, HasData_eq tag c hk⟩, ?_, ?_⟩
    · obtain ⟨l1, h, _⟩ := SetData_ok tag c v hk
      exact ⟨_, h⟩
    · rcases EraseData_ok tag c hk with ⟨_, h⟩ | ⟨_, _, _, _, h, _⟩
      · exact ⟨_, h⟩
      · exact ⟨_, h⟩
  · intro hk habs
    have hl := lookup_of_Absent tag c k habs
    rw [GetData_eq tag c hk, found_of_lookup_none tag c k hl, memo_of_lookup_none tag c k hl]

/-- Witness of C18: on the chain of scenario 2 the empty key `0` fails in all four
functions, the key `1` succeeds in all four, and the key `2`, which is nowhere, is
not found and leaves the chain as it is. -/
theorem fails_exactly_on_empty_key_witness :
    (GetData 7 scenarioTwo 0 = .error .assertion ∧ HasData 7 scenarioTwo 0 = .error .assertion ∧
      SetData 7 scenarioTwo 0 5 = .error .assertion ∧
      EraseData 7 scenarioTwo 0 = .error .assertion) ∧
    ((∃ r c1, GetData 7 scenarioTwo 1 = .ok (r, c1)) ∧
      (∃ r c1, HasData 7 scenarioTwo 1 = .ok (r, c1)) ∧
      (∃ c1, SetData 7 scenarioTwo 1 5 = .ok (true, c1)) ∧
      (∃ c1, EraseData 7 scenarioTwo 1 = .ok (true, c1))) ∧
    GetData 7 scenarioTwo 2 = .ok (none, scenarioTwo) :=
  ⟨(fails_exactly_on_empty_key 7 scenarioTwo 0 5).1 rfl,
    (fails_exactly_on_empty_key 7 scenarioTwo 1 5).2.1 rfl,
    (fails_exactly_on_empty_key 7 scenarioTwo 2 5).2.2 rfl
      ⟨rfl, rfl, fun db hdb => by cases hdb; rfl⟩⟩

/-- C19: `UndoDataList(L)` is `UndoData` applied to the entries of `L` from the last to
the first; it succeeds, and for every key that occurs in `L` the local map afterwards
holds the prior value of the first entry of `L` for that key, marked modified. -/
theorem undo_list_replays_in_reverse [LinearOrder K] [DbUtil K] [DbUtil V]
    (c : CCompositeKVCache K V) (L : CDbOpLogs K V) :
    UndoDataList c L = L.reverse.foldlM (fun c1 e => UndoData c1 e) c ∧
    ∃ c2, UndoDataList c L = .ok c2 ∧
      ∀ g ∈ L, ∃ e, firstLog L g.key = some e ∧ e.key = g.key ∧
        Map.find c2.self.mapData g.key = some (g.key, ⟨e.value, true⟩) := by
  refine ⟨UndoDataList_eq_foldlM c L, ?_⟩
  obtain ⟨l2, hundo, hfind⟩ := UndoDataList_find c L
  refine ⟨_, hundo, ?_⟩
  intro g hg
  cases hf : firstLog L g.key with
  | none => exact absurd rfl (firstLog_none hf g hg)
  | some e =>
    have hkey : e.key = g.key := by
      have := List.find?_some hf
      simpa using this
    refine ⟨e, rfl, hkey, ?_⟩
    rw [self_withSelf, hfind g.key, hf]

/-- Witness of C19: a log with two entries of key `1` and one of key `2`, undone on a
store-backed root. -/
theorem undo_list_replays_in_reverse_witness :
    UndoDataList (.root (newStoreLayer emptyDb)) [⟨1, 10⟩, ⟨1, 20⟩, ⟨2, 5⟩]
      = List.foldlM (fun c1 e => UndoData c1 e) (.root (newStoreLayer emptyDb))
          ([⟨1, 10⟩, ⟨1, 20⟩, ⟨2, 5⟩] : CDbOpLogs Nat Nat).reverse ∧
    ∃ c2, UndoDataList (.root (newStoreLayer emptyDb)) [⟨1, 10⟩, ⟨1, 20⟩, ⟨2, 5⟩] = .ok c2 ∧
      ∀ g ∈ ([⟨1, 10⟩, ⟨1, 20⟩, ⟨2, 5⟩] : CDbOpLogs Nat Nat),
        ∃ e, firstLog [⟨1, 10⟩, ⟨1, 20⟩, ⟨2, 5⟩] g.key = some e ∧ e.key = g.key ∧
          Map.find c2.self.mapData g.key = some (g.key, ⟨e.value, true⟩) :=
  undo_list_replays_in_reverse (.root (newStoreLayer emptyDb)) [⟨1, 10⟩, ⟨1, 20⟩, ⟨2, 5⟩]

/-- C20: `UndoData(entry)` succeeds on every cache state; afterwards the op-log sink of
the cache is exactly what it was, the chain below is what it was, the local map
holds the key of the entry with the prior value (marked modified), and every other
entry of the local map is unchanged. -/
theorem undo_bypasses_log [LinearOrder K] [DbUtil K] [DbUtil V]
    (c : CCompositeKVCache K V) (entry : CDbOpLog K V) :
    ∃ c1, UndoData c entry = .ok c1 ∧ c1.self.pDbOpLogMap = c.self.pDbOpLogMap ∧
      c1.GetBasePtr = c.GetBasePtr ∧
      Map.find c1.self.mapData entry.key = some (entry.key, ⟨entry.value, true⟩) ∧
      (∀ k, k ≠ entry.key → Map.find c1.self.mapData k = Map.find c.self.mapData k) ∧
      (∀ x ∈ c1.self.mapData, x = (entry.key, ⟨entry.value, true⟩) ∨ x ∈ c.self.mapData) := by
  obtain ⟨l1, h, hput, hlog⟩ := SetDataToCache_ok c entry.key entry.value
  refine ⟨_, h, by rw [self_withSelf, hlog], GetBasePtr_withSelf c l1, ?_, ?_, ?_⟩
  · rw [self_withSelf, hput.2.2.1]
    simp
  · intro k hk
    rw [self_withSelf, hput.2.2.1, if_neg hk]
  · intro x hx
    rw [self_withSelf] at hx
    exact hput.2.2.2.1 x hx

/-- Witness of C20: undoing the entry `1 -> 10` on the layer of scenario 2, whose sink is
attached and empty. -/
theorem undo_bypasses_log_witness :
    ∃ c1, UndoData scenarioTwo ⟨1, 10⟩ = .ok c1 ∧
      c1.self.pDbOpLogMap = scenarioTwo.self.pDbOpLogMap ∧
      c1.GetBasePtr = scenarioTwo.GetBasePtr ∧
      Map.find c1.self.mapData 1 = some (1, ⟨10, true⟩) ∧
      (∀ k, k ≠ 1 → Map.find c1.self.mapData k = Map.find scenarioTwo.self.mapData k) ∧
      (∀ x ∈ c1.self.mapData, x = (1, ⟨10, true⟩) ∨ x ∈ scenarioTwo.self.mapData) :=
  undo_bypasses_log scenarioTwo ⟨1, 10⟩

/-- Counterexample to C13 as stated: on a fresh store-backed root (size calculation
enabled), after `SetData(1, 10)` the size is `8`; a second `SetData(1, 20)` on the same
key leaves it at `8`, not at `8` plus the sizes of the key and the value. -/
theorem set_existing_key_keeps_size :
    ∃ c0 c1, SetData 7 (.root (newStoreLayer emptyDb)) 1 10 = .ok (true, c0) ∧
      c0.self.is_calc_size = true ∧ SetData 7 c0 1 20 = .ok (true, c1) ∧
      GetCacheSize c0 = 8 ∧ GetCacheSize c1 = 8 ∧
      GetCacheSize c1 ≠ GetCacheSize c0 + CalcDataSize (1 : Nat) + CalcDataSize (20 : Nat) :=
  ⟨_, _, rfl, rfl, rfl, rfl, rfl, by decide⟩

/-- C13, amended: size accounting of `SetData` on a cache with size calculation enabled,
for a non-empty key `k` and a value `v`. When `k` has no entry in the local map, and
the size plus the sizes of `k`, of `v` and of the value found below stays below
`2 ^ 32`, `GetCacheSize()` afterwards is `GetCacheSize()` before plus the sizes of `k`
and `v`. When `k` has an entry holding `w`, the key is not counted again: it is
`GetCacheSize()` before plus the size of `v` (modulo `2 ^ 32`) minus the size of `w`,
not below zero. -/
theorem set_size_accounting [LinearOrder K] [DbUtil K] [DbUtil V] [Inhabited V]
    (tag : PrefixType) (c : CCompositeKVCache K V) (k : K) (v : V)
    (hk : DbUtil.IsEmpty k = false) (hcalc : c.self.is_calc_size = true) :
    ∃ c1, SetData tag c k v = .ok (true, c1) ∧
      (Map.find c.self.mapData k = none →
        GetCacheSize c + CalcDataSize k + CalcDataSize v + foundSize tag c k < 2 ^ 32 →
        GetCacheSize c1 = GetCacheSize c + CalcDataSize k + CalcDataSize v) ∧
      (∀ e, Map.find c.self.mapData k = some e →
        GetCacheSize c1 = (GetCacheSize c + CalcDataSize v) % 2 ^ 32 - CalcDataSize e.2.value) := by
  rcases SetData_cases tag c v hk with ⟨hit, hfm, l1, hset, hadd⟩ | ⟨e, l1, hit, hfm, hset, hc, hm, hs⟩
  · -- the lookup found nothing: the entry is added
    have hself : (memo tag c k).self = c.self := by
      rcases memo_self_cases tag c k with ⟨h, _⟩ | ⟨hf, w, hb, _⟩
      · exact h
      · simp [lookupIt, hf, hb] at hit
    refine ⟨_, hset, ?_, ?_⟩
    · intro _ hroom
      have hf2 : Map.find (AddOpLog tag (memo tag c k).self k default (some v)).mapData k
          = none := by simpa using hfm
      obtain ⟨l2, h2, _, _, _, hs1⟩ := AddDataToMap_size _ (⟨v, true⟩ : CacheValue V) hf2
      rw [h2] at hadd
      cases hadd
      simp only [GetCacheSize, self_withSelf] at hroom ⊢
      rw [hs1 (by simp [hself, hcalc])]
      simp only [AddOpLog_size, hself]
      rw [Nat.mod_eq_of_lt (by omega), Nat.mod_eq_of_lt (by omega)]
    · intro e he
      simp [lookupIt, he] at hit
  · refine ⟨_, hset, ?_, ?_⟩
    · -- the key was found below: the copy is added, then overwritten
      intro hnone hroom
      rcases memo_self_cases tag c k with ⟨_, h⟩ | ⟨_, w, hb, hself⟩
      · simp [lookupIt, hnone, h hnone] at hit
      · have hew : e.2.value = w := by
          simp only [lookupIt, hnone, hb, Option.map_some', Option.some.injEq] at hit
          rw [← hit]
        have hfs : foundSize tag c k = CalcDataSize w := by
          simp [foundSize, lookup, hnone, hb]
        have hms := (memoised_size c.self k w).2 hcalc
        simp only [GetCacheSize, self_withSelf] at hroom ⊢
        rw [hfs] at hroom
        rw [hs, hself]
        simp only [UpdateDataSize, memoised_is_calc_size, hcalc, if_true, hms, hew]
        rw [Nat.mod_eq_of_lt (by omega), Nat.mod_eq_of_lt (by omega),
          Nat.mod_eq_of_lt (by omega)]
        split <;> omega
    · -- the key was in the local map: the entry is overwritten
      intro e2 he2
      have hmemo := memo_of_find_some tag c he2
      rw [lookupIt_of_find_some tag c he2] at hit
      cases hit
      simp only [GetCacheSize, self_withSelf]
      rw [hs, hmemo]
      simp only [UpdateDataSize, hcalc, if_true]
      split <;> omega

/-- Witness of C13, amended: a fresh store-backed root whose store holds `1 -> 10`; the
key is found in the store, copied, and overwritten. -/
theorem set_size_accounting_witness :
    ∃ c1, SetData 7 (.root (newStoreLayer (singletonDb 7 1 10))) 1 20 = .ok (true, c1) ∧
      GetCacheSize c1
        = GetCacheSize (CCompositeKVCache.root (newStoreLayer (singletonDb 7 1 10)))
          + CalcDataSize (1 : Nat) + CalcDataSize (20 : Nat) := by
  obtain ⟨c1, h, ha, _⟩ :=
    set_size_accounting 7 (.root (newStoreLayer (singletonDb 7 1 10))) 1 20 rfl rfl
  exact ⟨c1, h, ha rfl (by decide)⟩

/-- Counterexample to C14 as stated: on a fresh store-backed root, after `SetData(1, 10)`
the size is `8` and the entry of key `1` holds the non-empty value `10`; `EraseData(1)`
leaves the size at `8`, not at `8` minus the size of the value. -/
theorem erase_keeps_size_of_tombstone :
    ∃ c0 c1, SetData 7 (.root (newStoreLayer emptyDb)) 1 10 = .ok (true, c0) ∧
      c0.self.is_calc_size = true ∧ Map.find c0.self.mapData 1 = some (1, ⟨10, true⟩) ∧
      EraseData 7 c0 1 = .ok (true, c1) ∧ GetCacheSize c0 = 8 ∧ GetCacheSize c1 = 8 ∧
      GetCacheSize c1 ≠ GetCacheSize c0 - CalcDataSize (10 : Nat) :=
  ⟨_, _, rfl, rfl, rfl, rfl, rfl, rfl, by decide⟩

/-- C14, amended: size accounting of `EraseData` on a cache with size calculation
enabled, for a non-empty key `k` whose entry in the local map holds a non-empty value
`w`: the call succeeds and `GetCacheSize()` afterwards is `GetCacheSize()` before minus
the size of `w`, not below zero, plus the size of the emptied value that stays in
the map, modulo `2 ^ 32`. -/
theorem erase_size_accounting [LinearOrder K] [DbUtil K] [DbUtil V]
    (tag : PrefixType) (c : CCompositeKVCache K V) (k : K) (e : K × CacheValue V)
    (hk : DbUtil.IsEmpty k = false) (hcalc : c.self.is_calc_size = true)
    (hfind : Map.find c.self.mapData k = some e) (hne : DbUtil.IsEmpty e.2.value = false) :
    ∃ c1, EraseData tag c k = .ok (true, c1) ∧
      GetCacheSize c1
        = (GetCacheSize c - CalcDataSize e.2.value
            + CalcDataSize (DbUtil.SetEmpty e.2.value)) % 2 ^ 32 := by
  have hmemo := memo_of_find_some tag c hfind
  have hit0 := lookupIt_of_find_some tag c hfind
  rcases EraseData_cases tag c hk with ⟨hnone, _⟩ | ⟨e2, l1, hit, _, _, her, _, _, _, hs1⟩
  · have hl : lookup tag c k = some e.2.value := by
      rw [← lookupIt_value, hit0]
      rfl
    rw [found_of_lookup tag c k _ hl hne] at hnone
    cases hnone
  · rw [hit0] at hit
    cases hit
    refine ⟨_, her, ?_⟩
    simp only [GetCacheSize, self_withSelf]
    rw [hs1 (by rw [hmemo]; exact hcalc), hmemo]
    split
    · rfl
    · congr 2
      omega

/-- Witness of C14, amended: a store-backed root with three entries and size `24`;
erasing key `1`, which holds `10`, takes four bytes off and puts four bytes back. -/
theorem erase_size_accounting_witness :
    ∃ c1, EraseData 7 (.root mixedRootLayer) 1 = .ok (true, c1) ∧
      GetCacheSize c1
        = (GetCacheSize (CCompositeKVCache.root mixedRootLayer) - CalcDataSize (10 : Nat)
            + CalcDataSize (DbUtil.SetEmpty (10 : Nat))) % 2 ^ 32 :=
  erase_size_accounting 7 (.root mixedRootLayer) 1 (1, ⟨10, true⟩) rfl rfl rfl rfl

/-- Counterexample to C21 as stated: a child over an empty root performs `SetData(1, 10)`
and then `Clear()`; `SetBase` to another root, whose store holds `1 -> 10`, succeeds. The
binding has changed: `GetData(1)` found nothing through the old parent and returns `10`
through the new one. -/
theorem set_base_succeeds_after_clear :
    ∃ c1 c2 c3 c4, SetData 7 (.child newChildLayer (.root (newStoreLayer emptyDb))) 1 10
        = .ok (true, c1) ∧
      GetData 7 (Clear c1) 1 = .ok (none, c2) ∧
      SetBase (Clear c1) (some (.root (newStoreLayer (singletonDb 7 1 10)))) = .ok c3 ∧
      c3.GetBasePtr.map (fun b => b.self.pDbAccess.map (fun db => db.GetData 7 1))
        = some (some (some 10)) ∧
      GetData 7 c3 1 = .ok (some 10, c4) :=
  ⟨_, _, _, _, rfl, rfl, rfl, rfl, rfl⟩

/-- C21, amended: `SetBase` fails exactly when the cache is bound to a store or its local
map holds an entry. So it fails on the cache a `SetData` leaves, and on the cache a
`GetData` or an `EraseData` leaves when the lookup found an entry for the key (as long as
no `Clear` or `Flush` emptied the map since); on a cache without store whose local map
is empty it succeeds, keeps the data members and points `pBase` to its argument. -/
theorem set_base_fails_while_data_held [LinearOrder K] [DbUtil K] [DbUtil V] [Inhabited V]
    (tag : PrefixType) (c : CCompositeKVCache K V) (pBaseIn : Option (CCompositeKVCache K V)) :
    (SetBase c pBaseIn = .error .assertion ↔
      c.self.pDbAccess.isSome = true ∨ c.self.mapData ≠ []) ∧
    (c.self.pDbAccess = none → c.self.mapData = [] →
      ∃ c1, SetBase c pBaseIn = .ok c1 ∧ c1.self = c.self ∧ c1.GetBasePtr = pBaseIn) ∧
    (∀ k v r c1, SetData tag c k v = .ok (r, c1) → SetBase c1 pBaseIn = .error .assertion) ∧
    (∀ k w c1, GetData tag c k = .ok (some w, c1) → SetBase c1 pBaseIn = .error .assertion) ∧
    (∀ k r c1, EraseData tag c k = .ok (r, c1) → (lookup tag c k).isSome = true →
      SetBase c1 pBaseIn = .error .assertion) := by
  refine ⟨SetBase_error_iff c pBaseIn, ?_, ?_, ?_, ?_⟩
  · intro hd hm
    cases pBaseIn with
    | none => exact ⟨.root c.self, by simp [SetBase, hd, hm], rfl, rfl⟩
    | some b => exact ⟨.child c.self b, by simp [SetBase, hd, hm], rfl, rfl⟩
  · intro k v r c1 h
    obtain ⟨l1, hset, hput, _⟩ := SetData_ok tag c v (key_of_ok_SetData h)
    rw [hset] at h
    cases h
    have hf := hput.2.2.1 k
    rw [if_pos rfl] at hf
    exact SetBase_of_find _ pBaseIn (by rw [self_withSelf]; exact hf)
  · intro k w c1 h
    rw [GetData_eq tag c (key_of_GetData h)] at h
    simp only [Except.ok.injEq, Prod.mk.injEq] at h
    obtain ⟨hfound, hc1⟩ := h
    obtain ⟨e, he, _⟩ := find_memo_of_lookup tag c k w (lookup_of_found hfound).1
    rw [← hc1]
    exact SetBase_of_find _ pBaseIn he
  · intro k r c1 h hsome
    obtain ⟨w, hw⟩ := Option.isSome_iff_exists.1 hsome
    obtain ⟨e, he, _⟩ := find_memo_of_lookup tag c k w hw
    rcases EraseData_ok tag c (key_of_ok_EraseData h) with ⟨_, her⟩ | ⟨v, l1, _, _, her, hput, _⟩
    · rw [her] at h
      cases h
      exact SetBase_of_find _ pBaseIn he
    · rw [her] at h
      cases h
      have hf := hput.2.2.1 k
      rw [if_pos rfl] at hf
      exact SetBase_of_find _ pBaseIn (by rw [self_withSelf]; exact hf)

/-- Witness of C21, amended: a fresh child over an empty root accepts `SetBase`; after
`SetData(1, 10)` it refuses. -/
theorem set_base_fails_while_data_held_witness :
    (∃ c1, SetBase (.child newChildLayer (.root (newStoreLayer emptyDb)))
        (some (.root (newStoreLayer (singletonDb 7 1 10)))) = .ok c1 ∧
      c1.self = (newChildLayer : Layer Nat Nat) ∧
      c1.GetBasePtr = some (.root (newStoreLayer (singletonDb 7 1 10)))) ∧
    (∃ c1, SetData 7 (.child newChildLayer (.root (newStoreLayer emptyDb))) 1 10
        = .ok (true, c1) ∧
      SetBase c1 (some (.root (newStoreLayer (singletonDb 7 1 10)))) = .error .assertion) :=
  ⟨(set_base_fails_while_data_held 7 (.child newChildLayer (.root (newStoreLayer emptyDb)))
      (some (.root (newStoreLayer (singletonDb 7 1 10))))).2.1 rfl rfl,
    ⟨_, rfl, (set_base_fails_while_data_held 7
      (.child newChildLayer (.root (newStoreLayer emptyDb)))
      (some (.root (newStoreLayer (singletonDb 7 1 10))))).2.2.1 1 10 true _ rfl⟩⟩

/-- Counterexample to C25 as stated: a fresh layer over an empty store-backed root; after
`EraseData(5)` of a key that is nowhere, the local map of the layer holds no entry for
the key (it holds no entry at all). -/
theorem erase_absent_caches_nothing :
    ∃ c1, EraseData 7 (.child newChildLayer (.root (newStoreLayer emptyDb))) 5 = .ok (true, c1) ∧
      Map.find c1.self.mapData 5 = none ∧ c1.self.mapData = [] :=
  ⟨_, rfl, rfl, rfl⟩

/-- C25, amended: for every chain (a layer `A` over a store-backed root among them) and
every non-empty key `k` that is in no local map of the chain and not in the store,
`A.EraseData(k)` returns `true` and leaves the chain exactly as it was: the local map
of `A` still has no entry for `k`, nothing is cached and nothing is marked modified. -/
theorem erase_absent_leaves_no_entry [LinearOrder K] [DbUtil K] [DbUtil V]
    (tag : PrefixType) (c : CCompositeKVCache K V) (k : K)
    (hk : DbUtil.IsEmpty k = false) (habs : Absent tag c k) :
    EraseData tag c k = .ok (true, c) ∧ Map.find c.self.mapData k = none :=
  ⟨EraseData_of_Absent tag c k hk habs, find_of_Absent habs⟩

/-- Witness of C25, amended: a layer holding three other entries over an empty store-backed
root, and the key `5`. -/
theorem erase_absent_leaves_no_entry_witness :
    EraseData 7 (.child mixedLayer (.root (newStoreLayer emptyDb))) 5
        = .ok (true, .child mixedLayer (.root (newStoreLayer emptyDb))) ∧
      Map.find (CCompositeKVCache.child mixedLayer (.root (newStoreLayer emptyDb))).self.mapData 5
        = none :=
  erase_absent_leaves_no_entry 7 (.child mixedLayer (.root (newStoreLayer emptyDb))) 5 rfl
    ⟨rfl, rfl, fun db hdb => by cases hdb; rfl⟩

/-- C26: read-through memoisation. For a child `C` over a parent `P` and a non-empty key
`k` that has no entry in the local map of `C` and for which the lookup of `P` finds `v`:
`C.GetData(k)` succeeds (returning `v` unless `v` is empty), the local map of `C` then
holds `(k, v, is_modified = false)` and its other entries are as before, and every entry
of the local map of `P` is still there with the same value and the same flag. For a
store-bound cache whose local map has no entry for `k` and whose store holds `v`,
`GetData(k)` likewise adds `(k, v, is_modified = false)` and keeps the other entries. -/
theorem read_through_memoises [LinearOrder K] [DbUtil K] [DbUtil V]
    (tag : PrefixType) (k : K) (v : V) (hk : DbUtil.IsEmpty k = false) :
    (∀ (lC : Layer K V) (P : CCompositeKVCache K V),
      Map.find lC.mapData k = none → lookup tag P k = some v →
      ∃ lC1 P1, GetData tag (.child lC P) k
          = .ok ((some v).filter (fun w => !DbUtil.IsEmpty w), .child lC1 P1) ∧
        Map.find lC1.mapData k = some (k, ⟨v, false⟩) ∧
        (∀ k2, k2 ≠ k → Map.find lC1.mapData k2 = Map.find lC.mapData k2) ∧
        (∀ k2 e, Map.find P.self.mapData k2 = some e → Map.find P1.self.mapData k2 = some e)) ∧
    (∀ (lR : Layer K V) (db : CDBAccess K V),
      Map.find lR.mapData k = none → lR.pDbAccess = some db → db.GetData tag k = some v →
      ∃ lR1, GetData tag (.root lR) k
          = .ok ((some v).filter (fun w => !DbUtil.IsEmpty w), .root lR1) ∧
        Map.find lR1.mapData k = some (k, ⟨v, false⟩) ∧
        (∀ k2, k2 ≠ k → Map.find lR1.mapData k2 = Map.find lR.mapData k2) ∧
        lR1.pDbAccess = some db) := by
  constructor
  · intro lC P hC hP
    refine ⟨lC.memoised k v, memo tag P k, ?_, ?_, ?_, ?_⟩
    · rw [GetData_eq tag _ hk, memo_child_miss tag lC P k v hC hP]
      have hl : lookup tag (.child lC P) k = some v := by
        unfold lookup
        simp only [CCompositeKVCache.self, hC]
        exact hP
      simp [found, hl]
    · rw [find_memoised lC k v hC, if_pos rfl]
    · intro k2 hk2
      rw [find_memoised lC k v hC, if_neg hk2]
    · intro k2 e he
      exact find_memo_keeps tag P k k2 e he
  · intro lR db hR hdb hstore
    refine ⟨lR.memoised k v, ?_, ?_, ?_, ?_⟩
    · rw [GetData_eq tag _ hk, memo_root_hit tag lR db k v hR hdb hstore]
      have hl : lookup tag (.root lR) k = some v := by
        simp [lookup, CCompositeKVCache.self, hR, lookupBelow, hdb, hstore]
      simp [found, hl]
    · rw [find_memoised lR k v hR, if_pos rfl]
    · intro k2 hk2
      rw [find_memoised lR k v hR, if_neg hk2]
    · rw [memoised_pDbAccess, hdb]

/-- Witness of C26: the chain of scenario 2 (a fresh child over a root whose store holds
`1 -> 10`), read at key `1` in the child and in the root. -/
theorem read_through_memoises_witness :
    (∃ lC1 P1, GetData 7 scenarioTwo 1
        = .ok ((some 10).filter (fun w => !DbUtil.IsEmpty w), .child lC1 P1) ∧
      Map.find lC1.mapData 1 = some (1, ⟨10, false⟩) ∧
      (∀ k2, k2 ≠ 1 → Map.find lC1.mapData k2
        = Map.find (newChildLayer.SetDbOpLogMap (some emptyOpLogMap) : Layer Nat Nat).mapData k2) ∧
      (∀ k2 e, Map.find (CCompositeKVCache.root (newStoreLayer (singletonDb 7 1 10))).self.mapData
          k2 = some e → Map.find P1.self.mapData k2 = some e)) ∧
    (∃ lR1, GetData 7 (.root (newStoreLayer (singletonDb 7 1 10))) 1
        = .ok ((some 10).filter (fun w => !DbUtil.IsEmpty w), .root lR1) ∧
      Map.find lR1.mapData 1 = some (1, ⟨10, false⟩) ∧
      (∀ k2, k2 ≠ 1 → Map.find lR1.mapData k2
        = Map.find (newStoreLayer (singletonDb 7 1 10)).mapData k2) ∧
      lR1.pDbAccess = some (singletonDb 7 1 10)) :=
  ⟨(read_through_memoises 7 1 10 rfl).1 (newChildLayer.SetDbOpLogMap (some emptyOpLogMap))
      (.root (newStoreLayer (singletonDb 7 1 10))) rfl rfl,
    (read_through_memoises 7 1 10 rfl).2 (newStoreLayer (singletonDb 7 1 10))
      (singletonDb 7 1 10) rfl rfl rfl⟩

/-- C27: for every chain and every non-empty key `k` that is in no local map of the chain
and not in the backing store, `GetData(k)` returns not-found, `HasData(k)` returns
`false`, and both leave the chain (the local map of every layer) exactly as it was. -/
theorem miss_creates_no_entry [LinearOrder K] [DbUtil K] [DbUtil V]
    (tag : PrefixType) (c : CCompositeKVCache K V) (k : K)
    (hk : DbUtil.IsEmpty k = false) (habs : Absent tag c k) :
    GetData tag c k = .ok (none, c) ∧ HasData tag c k = .ok (false, c) := by
  have hl := lookup_of_Absent tag c k habs
  rw [GetData_eq tag c hk, HasData_eq tag c hk, found_of_lookup_none tag c k hl,
    memo_of_lookup_none tag c k hl]
  exact ⟨rfl, rfl⟩

/-- Witness of C27: a layer holding three other entries over a root whose store holds
another key, and the key `5`. -/
theorem miss_creates_no_entry_witness :
    GetData 7 (.child mixedLayer (.root (newStoreLayer (singletonDb 7 1 10)))) 5
        = .ok (none, .child mixedLayer (.root (newStoreLayer (singletonDb 7 1 10)))) ∧
      HasData 7 (.child mixedLayer (.root (newStoreLayer (singletonDb 7 1 10)))) 5
        = .ok (false, .child mixedLayer (.root (newStoreLayer (singletonDb 7 1 10)))) :=
  miss_creates_no_entry 7 (.child mixedLayer (.root (newStoreLayer (singletonDb 7 1 10)))) 5 rfl
    ⟨rfl, rfl, fun db hdb => by cases hdb; rfl⟩

/-- C29: in every cache state built from the constructors through `SetBase`,
`SetDbOpLogMap`, copy-assignment, `GetData`, `HasData`, `SetData`, `EraseData`,
`UndoData`, `Clear` and `Flush` (`Built`), the parent pointer and the store pointer are
not both set, in the cache object and in each of its parents. -/
theorem parent_and_store_exclusive [LinearOrder K] [DbUtil K] [DbUtil V] [Inhabited V]
    (tag : PrefixType) (c : CCompositeKVCache K V) (h : Built tag c) :
    Exclusive c ∧ ¬ (c.GetBasePtr.isSome = true ∧ c.self.pDbAccess.isSome = true) := by
  have hall : Exclusive c := by
    induction h with
    | unbound => trivial
    | store db => trivial
    | over _ ih => exact ⟨rfl, ih⟩
    | base _ ih => exact ih.2
    | under _ _ ih ih1 => exact ⟨ih.1, ih1⟩
    | copy _ _ _ ih => exact Exclusive_withSelf ih rfl
    | setBase pBaseIn _ _ hset _ ihb => exact Exclusive_SetBase _ _ pBaseIn ihb hset
    | sink m _ ih => exact Exclusive_withSelf ih rfl
    | get key r _ hget ih =>
      rw [GetData_eq tag _ (key_of_GetData hget)] at hget
      cases hget
      exact Exclusive_memo tag _ key ih
    | has key r _ hhas ih =>
      rw [HasData_eq tag _ (key_of_ok_HasData hhas)] at hhas
      cases hhas
      exact Exclusive_memo tag _ key ih
    | set key value r _ hset ih => exact Exclusive_SetData tag _ _ key value r ih hset
    | erase key r _ her ih => exact Exclusive_EraseData tag _ _ key r ih her
    | undo dbOpLog _ hundo ih => exact Exclusive_UndoData _ _ dbOpLog ih hundo
    | clear _ ih => exact Exclusive_withSelf ih rfl
    | flush _ hfl ih => exact Exclusive_Flush tag _ _ ih hfl
  exact ⟨hall, not_both_of_Exclusive hall⟩

/-- Witness of C29: a default-constructed cache is bound by `SetBase` to a store-backed
root and then sets key `1`. -/
theorem parent_and_store_exclusive_witness :
    ∃ c1 c2, SetBase (.root newChildLayer) (some (.root (newStoreLayer emptyDb))) = .ok c1 ∧
      SetData 7 c1 1 10 = .ok (true, c2) ∧ Exclusive c2 ∧
      ¬ (c2.GetBasePtr.isSome = true ∧ c2.self.pDbAccess.isSome = true) :=
  ⟨_, _, rfl, rfl, parent_and_store_exclusive 7 _
    (Built.set 1 10 true
      (Built.setBase (some (.root (newStoreLayer emptyDb))) Built.unbound
        (fun b hb => by cases hb; exact Built.store emptyDb) rfl) rfl)⟩

/-- C30: in every state of a chain built from empty caches through `GetData`, `HasData`,
`SetData`, `EraseData`, `Clear`, `Flush` and `UndoDataList` applied to op-log entries that
these caches captured (`Grown`), no local map of any cache object of the chain holds the
empty key, and no captured op-log entry of the domain has it. -/
theorem empty_key_never_stored [LinearOrder K] [DbUtil K] [DbUtil V] [Inhabited V]
    (tag : PrefixType) (c : CCompositeKVCache K V) (h : Grown tag c) :
    NoEmptyKey c ∧ ∀ e ∈ capturedLogs tag c, DbUtil.IsEmpty e.key = false := by
  have hall : AllLayers (Layer.CleanKeys tag) c := by
    induction h with
    | store db =>
      exact ⟨fun e he => by simp [newStoreLayer] at he, fun m hm => by simp [newStoreLayer] at hm⟩
    | unbound =>
      exact ⟨fun e he => by simp [newChildLayer] at he, fun m hm => by simp [newChildLayer] at hm⟩
    | over _ ih =>
      exact ⟨⟨fun e he => by simp [newChildLayer] at he,
        fun m hm => by simp [newChildLayer] at hm⟩, ih⟩
    | base _ ih => exact ih.2
    | under _ _ ih ih1 => exact ⟨ih.1, ih1⟩
    | sink pDbOpLogMapIn _ hm ih =>
      refine AllLayers_withSelf ih ⟨(AllLayers_self ih).1, ?_⟩
      intro m hm2 e he
      have hm3 : pDbOpLogMapIn = some m := hm2
      rw [hm m hm3] at he
      simp at he
    | get key r _ hget ih =>
      have hk := key_of_GetData hget
      rw [GetData_eq tag _ hk] at hget
      cases hget
      exact CleanKeys_memo tag _ key hk ih
    | has key r _ hhas ih =>
      have hk := key_of_ok_HasData hhas
      rw [HasData_eq tag _ hk] at hhas
      cases hhas
      exact CleanKeys_memo tag _ key hk ih
    | set key value r _ hset ih => exact CleanKeys_SetData tag _ _ key value r ih hset
    | erase key r _ her ih => exact CleanKeys_EraseData tag _ _ key r ih her
    | clear _ ih => exact AllLayers_withSelf ih (Layer.CleanKeys_Clear tag (AllLayers_self ih))
    | flush _ hfl ih => exact CleanKeys_Flush tag _ _ ih hfl
    | undoList dbOpLogs _ _ hcap hundo ih ih0 =>
      exact CleanKeys_UndoDataList tag _ dbOpLogs _
        (fun e he => capturedLogs_clean tag ih0 e (hcap e he)) ih hundo
  exact ⟨AllLayers_mono (fun l hl => hl.1) hall, capturedLogs_clean tag hall⟩

/-- Witness of C30: the fresh child of scenario 2 sets key `1`, erases it, and undoes the
two captured entries. -/
theorem empty_key_never_stored_witness :
    ∃ c1 c2 c3, SetData 7 scenarioTwo 1 20 = .ok (true, c1) ∧
      EraseData 7 c1 1 = .ok (true, c2) ∧ capturedLogs 7 c2 = [⟨1, 10⟩, ⟨1, 20⟩] ∧
      UndoDataList c2 (capturedLogs 7 c2) = .ok c3 ∧
      NoEmptyKey c3 ∧ ∀ e ∈ capturedLogs 7 c3, DbUtil.IsEmpty e.key = false :=
  have h2 : Grown 7 _ :=
    Grown.erase 1 true (Grown.set 1 20 true
      (Grown.sink (some emptyOpLogMap) (Grown.over (Grown.store (singletonDb 7 1 10)))
        (fun m hm => by cases hm; rfl)) rfl) rfl
  ⟨_, _, _, rfl, rfl, rfl, rfl,
    empty_key_never_stored 7 _ (Grown.undoList _ h2 h2 (fun e he => he) rfl)⟩

/-- C31: writes are key-local. For every chain, every non-empty key `k` and every value
`v`: `SetData(k, v)` and `EraseData(k)` on a cache object succeed; afterwards `GetData(k2)`
on that object returns, for every key `k2` other than `k`, what it returned before, and
every parent up the chain returns for every key (`k` among them) what it returned
before (and has the same modified entries). -/
theorem writes_are_key_local [LinearOrder K] [DbUtil K] [DbUtil V] [Inhabited V]
    (tag : PrefixType) (c : CCompositeKVCache K V) (k : K) (v : V)
    (hk : DbUtil.IsEmpty k = false) :
    (∃ c1, SetData tag c k v = .ok (true, c1) ∧
      (∀ k2, k2 ≠ k → (GetData tag c1 k2).map Prod.fst = (GetData tag c k2).map Prod.fst) ∧
      (∀ b, c.GetBasePtr = some b → ∃ b1, c1.GetBasePtr = some b1 ∧ SameReads tag b b1)) ∧
    (∃ c1, EraseData tag c k = .ok (true, c1) ∧
      (∀ k2, k2 ≠ k → (GetData tag c1 k2).map Prod.fst = (GetData tag c k2).map Prod.fst) ∧
      (∀ b, c.GetBasePtr = some b → ∃ b1, c1.GetBasePtr = some b1 ∧ SameReads tag b b1)) := by
  constructor
  · obtain ⟨l1, hset, hl⟩ := SetData_lookup_ne tag c v hk
    refine ⟨_, hset, fun k2 hk2 => ?_, fun b hb => SameReads_base_memo tag c b k l1 hb⟩
    exact GetData_fst_congr tag _ _ k2 (found_congr tag _ _ k2 (hl k2 hk2))
  · obtain ⟨l1, her, hl⟩ := EraseData_lookup_ne tag c hk
    refine ⟨_, her, fun k2 hk2 => ?_, fun b hb => SameReads_base_memo tag c b k l1 hb⟩
    exact GetData_fst_congr tag _ _ k2 (found_congr tag _ _ k2 (hl k2 hk2))

/-- Witness of C31: the chain of scenario 2 and its key `1`. -/
theorem writes_are_key_local_witness :
    (∃ c1, SetData 7 scenarioTwo 1 20 = .ok (true, c1) ∧
      (∀ k2, k2 ≠ 1 →
        (GetData 7 c1 k2).map Prod.fst = (GetData 7 scenarioTwo k2).map Prod.fst) ∧
      (∀ b, scenarioTwo.GetBasePtr = some b → ∃ b1, c1.GetBasePtr = some b1 ∧ SameReads 7 b b1)) ∧
    (∃ c1, EraseData 7 scenarioTwo 1 = .ok (true, c1) ∧
      (∀ k2, k2 ≠ 1 →
        (GetData 7 c1 k2).map Prod.fst = (GetData 7 scenarioTwo k2).map Prod.fst) ∧
      (∀ b, scenarioTwo.GetBasePtr = some b → ∃ b1, c1.GetBasePtr = some b1 ∧ SameReads 7 b b1)) :=
  writes_are_key_local 7 scenarioTwo 1 20 rfl

/-- C32: `AddDataToMap` succeeds exactly when the key is not yet in the local map, and on
every chain every call of it passes such a key. `GetDataIt` never fails; at the call in
`SetData` (the lookup returned `end()`) and at the call in `SetDataToCache` (the local
`find` returned `end()`) the key is not in the map. So `GetData`, `HasData`, `SetData` and
`EraseData` succeed for every non-empty key (for an empty key they fail on their first
assertion, before any call), `UndoData` always succeeds, and `Flush` succeeds when
exactly one of parent and store is bound and fails on its binding assertion otherwise:
no call ends in the "alloc new cache item failed" error. -/
theorem add_data_to_map_never_fails [LinearOrder K] [DbUtil K] [DbUtil V] [Inhabited V]
    (tag : PrefixType) (c : CCompositeKVCache K V) (k : K) (v : V) (dbOpLog : CDbOpLog K V) :
    (∀ (l : Layer K V) key cacheValue,
      (∃ l1, AddDataToMap l key cacheValue = .ok l1) ↔ Map.find l.mapData key = none) ∧
    GetDataIt tag c k = .ok (lookupIt tag c k, memo tag c k) ∧
    (lookupIt tag c k = none →
      ∃ l1, AddDataToMap (AddOpLog tag (memo tag c k).self k default (some v)) k ⟨v, true⟩
        = .ok l1) ∧
    (Map.find c.self.mapData k = none → ∃ l1, AddDataToMap c.self k ⟨v, true⟩ = .ok l1) ∧
    (DbUtil.IsEmpty k = false →
      (∃ r c1, GetData tag c k = .ok (r, c1)) ∧ (∃ r c1, HasData tag c k = .ok (r, c1)) ∧
      (∃ c1, SetData tag c k v = .ok (true, c1)) ∧ (∃ c1, EraseData tag c k = .ok (true, c1))) ∧
    (DbUtil.IsEmpty k = true →
      GetData tag c k = .error .assertion ∧ HasData tag c k = .error .assertion ∧
      SetData tag c k v = .error .assertion ∧ EraseData tag c k = .error .assertion) ∧
    (∃ c1, UndoData c dbOpLog = .ok c1) ∧
    (Bound c → ∃ c1, Flush tag c = .ok c1) ∧
    (¬ Bound c → Flush tag c = .error .assertion) := by
  refine ⟨fun l key cv => AddDataToMap_ok_iff l key cv, GetDataIt_eq tag c k, ?_, ?_, ?_, ?_, ?_,
    (Flush_ok_iff tag c).1, (Flush_ok_iff tag c).2⟩
  · intro hit
    refine (AddDataToMap_ok_iff _ k _).2 ?_
    rw [AddOpLog_mapData, find_memo_self, hit]
  · intro hf
    exact (AddDataToMap_ok_iff _ k _).2 hf
  · intro hk
    refine ⟨⟨_, _, GetData_eq tag c hk⟩, ⟨_, _, HasData_eq tag c hk⟩, ?_, ?_⟩
    · obtain ⟨l1, h, _⟩ := SetData_ok tag c v hk
      exact ⟨_, h⟩
    · rcases EraseData_ok tag c hk with ⟨_, h⟩ | ⟨_, _, _, _, h, _⟩
      · exact ⟨_, h⟩
      · exact ⟨_, h⟩
  · intro hk
    simp [GetData, HasData, SetData, EraseData, hk]
  · obtain ⟨l1, h, _⟩ := SetDataToCache_ok c dbOpLog.key dbOpLog.value
    exact ⟨_, h⟩

/-- Witness of C32: the chain of scenario 2, whose child misses key `1` and whose root
finds it in the store: the lookup adds the entry to both local maps and `SetData` then
updates the child's entry. -/
theorem add_data_to_map_never_fails_witness :
    (∃ r c1, GetData 7 scenarioTwo 1 = .ok (r, c1)) ∧
      (∃ r c1, HasData 7 scenarioTwo 1 = .ok (r, c1)) ∧
      (∃ c1, SetData 7 scenarioTwo 1 20 = .ok (true, c1)) ∧
      (∃ c1, EraseData 7 scenarioTwo 1 = .ok (true, c1)) ∧
      (∃ c1, UndoData scenarioTwo ⟨1, 10⟩ = .ok c1) ∧
      (∃ c1, Flush 7 scenarioTwo = .ok c1) :=
  have h := add_data_to_map_never_fails 7 scenarioTwo 1 20 ⟨1, 10⟩
  ⟨(h.2.2.2.2.1 rfl).1, (h.2.2.2.2.1 rfl).2.1, (h.2.2.2.2.1 rfl).2.2.1, (h.2.2.2.2.1 rfl).2.2.2,
    h.2.2.2.2.2.2.1, h.2.2.2.2.2.2.2.1 rfl⟩

end Claims

/-! ## The testable properties of the scalar cache -/

section ScalarClaims

variable {V : Type}

/-- C22: scalar cache isolation. For every parent `P` whose `GetData()` returns a
(non-empty) value `v0` and every child `C` over `P` whose slot is not set: `C.GetData()`
returns `v0`; after a following `C.SetData(v1)` with a non-empty `v1`, `P.GetData()`
still returns `v0` and `C.GetData()` returns `v1`; after a following `C.EraseData()`
instead, `P.GetData()` still returns `v0` and `C.GetData()` returns not-found. -/
theorem scalar_copy_on_read [DbUtil V] [Inhabited V] [LawfulDbUtil V] (tag : PrefixType)
    (lC : SimpleLayer V) (P P1 : CSimpleKVCache V) (v0 : V) (hfresh : lC.ptrData = none)
    (hP : P.GetData tag = .ok (some v0, P1)) :
    ∃ c1, (CSimpleKVCache.child lC P).GetData tag = .ok (some v0, c1) ∧
      (∀ v1, DbUtil.IsEmpty v1 = false →
        ∃ c2 p2 c3 p3, c1.SetData tag v1 = (true, c2) ∧ c2.GetBasePtr = some p2 ∧
          p2.GetData tag = .ok (some v0, p3) ∧ c2.GetData tag = .ok (some v1, c3)) ∧
      (∃ c2 p2 c3 p3, c1.EraseData tag = .ok (true, c2) ∧ c2.GetBasePtr = some p2 ∧
        p2.GetData tag = .ok (some v0, p3) ∧ c2.GetData tag = .ok (none, c3)) := by
  obtain ⟨hptr, hv0⟩ := CSimpleKVCache.GetData_some hP
  have hP1 : P1.GetData tag = .ok (some v0, P1) := by
    rw [CSimpleKVCache.GetData_of_ptr (CSimpleKVCache.GetDataPtr_idem tag P _ _ hptr)]
    simp [hv0]
  have hC := CSimpleKVCache.GetDataPtr_child tag lC P P1 v0 hfresh hptr
  refine ⟨.child { lC with ptrData := some v0 } P1, ?_, ?_, ?_⟩
  · rw [CSimpleKVCache.GetData_of_ptr hC]
    simp [hv0]
  · intro v1 hv1
    obtain ⟨c2, hset, hslot, hbase⟩ := CSimpleKVCache.SetData_slot tag
      (.child { lC with ptrData := some v0 } P1) v1
    refine ⟨c2, P1, c2, P1, hset, hbase, hP1, ?_⟩
    rw [CSimpleKVCache.GetData_of_slot tag c2 v1 hslot]
    simp [hv1]
  · obtain ⟨c2, her, hslot, hbase⟩ := CSimpleKVCache.EraseData_of_slot tag
      (.child { lC with ptrData := some v0 } P1) v0 rfl hv0
    refine ⟨c2, P1, c2, P1, her, hbase, hP1, ?_⟩
    rw [CSimpleKVCache.GetData_of_slot tag c2 _ hslot]
    simp [LawfulDbUtil.isEmpty_setEmpty]

/-- Witness of C22: a fresh child with a sink over a parent holding `10`, then
`SetData(20)` or `EraseData()`. -/
theorem scalar_copy_on_read_witness :
    ∃ c1, scalarChild.GetData 7 = .ok (some 10, c1) ∧
      (∃ c2 p2 c3 p3, c1.SetData 7 20 = (true, c2) ∧ c2.GetBasePtr = some p2 ∧
        p2.GetData 7 = .ok (some 10, p3) ∧ c2.GetData 7 = .ok (some 20, c3)) ∧
      (∃ c2 p2 c3 p3, c1.EraseData 7 = .ok (true, c2) ∧ c2.GetBasePtr = some p2 ∧
        p2.GetData 7 = .ok (some 10, p3) ∧ c2.GetData 7 = .ok (none, c3)) := by
  have hP : scalarParent.GetData 7 = .ok (some 10, scalarParent) := rfl
  obtain ⟨c1, h1, h2, h3⟩ := scalar_copy_on_read 7
    (newSimpleLayer.SetDbOpLogMap (some emptyOpLogMap)) scalarParent scalarParent 10 rfl hP
  exact ⟨c1, h1, h2 20 rfl, h3⟩

/-- C23: scalar flush. For a child `C` (bound to no store) over a parent `P`: when the slot
of `C` holds `x`, `C.Flush()` succeeds, the slot of `P` then holds `x` (nothing else of
`P` changed) and the slot of `C` is not set; `P.GetData()` and `C.GetData()` both return
`x` when `x` is not empty and both return not-found when it is. When the slot of `C` is
not set, `C.Flush()` succeeds and leaves `C` and `P` as they are. -/
theorem scalar_flush_moves_slot [DbUtil V] (tag : PrefixType) (lC : SimpleLayer V)
    (P : CSimpleKVCache V) :
    (∀ x, lC.ptrData = some x → lC.pDbAccess = none →
      ∃ c1 p1, (CSimpleKVCache.child lC P).Flush tag = .ok c1 ∧ c1.GetBasePtr = some p1 ∧
        p1 = P.withSelf { P.self with ptrData := some x } ∧
        p1.self.ptrData = some x ∧ c1.self.ptrData = none ∧
        (DbUtil.IsEmpty x = false →
          ∃ p2 c2, p1.GetData tag = .ok (some x, p2) ∧ c1.GetData tag = .ok (some x, c2)) ∧
        (DbUtil.IsEmpty x = true →
          ∃ p2 c2, p1.GetData tag = .ok (none, p2) ∧ c1.GetData tag = .ok (none, c2))) ∧
    (lC.ptrData = none →
      (CSimpleKVCache.child lC P).Flush tag = .ok (CSimpleKVCache.child lC P)) := by
  constructor
  · intro x hx hdb
    have hp := CSimpleKVCache.GetDataPtr_of_slot tag
      (P.withSelf { P.self with ptrData := some x }) x (by simp)
    have hc := CSimpleKVCache.GetDataPtr_child tag { lC with ptrData := none } _ _ x rfl hp
    refine ⟨.child { lC with ptrData := none } (P.withSelf { P.self with ptrData := some x }),
      _, ?_, rfl, rfl, by simp, rfl, ?_, ?_⟩
    · simp [CSimpleKVCache.Flush, hx, hdb]
    · intro hne
      have h1 := CSimpleKVCache.GetData_of_ptr hp
      have h2 := CSimpleKVCache.GetData_of_ptr hc
      simp only [hne, Bool.false_eq_true, if_false] at h1 h2
      exact ⟨_, _, h1, h2⟩
    · intro he
      have h1 := CSimpleKVCache.GetData_of_ptr hp
      have h2 := CSimpleKVCache.GetData_of_ptr hc
      simp only [he, if_true] at h1 h2
      exact ⟨_, _, h1, h2⟩
  · intro hnone
    simp [CSimpleKVCache.Flush, hnone]

/-- Witness of C23: a child whose slot holds `20` over a parent whose slot holds `10`. -/
theorem scalar_flush_moves_slot_witness :
    ∃ c1 p1 p2 c2,
      (CSimpleKVCache.child { newSimpleLayer with ptrData := some 20 } scalarParent).Flush 7
        = .ok c1 ∧
      c1.GetBasePtr = some p1 ∧ p1.self.ptrData = some 20 ∧ c1.self.ptrData = none ∧
      p1.GetData 7 = .ok (some 20, p2) ∧ c1.GetData 7 = .ok (some 20, c2) := by
  obtain ⟨c1, p1, h1, h2, _, h4, h5, h6, _⟩ :=
    (scalar_flush_moves_slot 7 { newSimpleLayer with ptrData := some 20 } scalarParent).1
      20 rfl rfl
  obtain ⟨p2, c2, h7, h8⟩ := h6 rfl
  exact ⟨c1, p1, p2, c2, h1, h2, h4, h5, h7, h8⟩

/-- C24 at its failing input: a fresh scalar child with an empty sink over a parent whose
slot holds `10`. `GetData()` returns `10`. `SetData(20)` does not read through: it fills
the slot with an empty value and logs that as the prior value. `UndoDataList` on the
captured entries then leaves the empty value in the slot and `GetData()` returns
not-found instead of `10`. -/
theorem scalar_set_logs_empty_prior :
    ∃ c0 c1 c2 c3, scalarChild.GetData 7 = .ok (some 10, c0) ∧
      scalarChild.SetData 7 20 = (true, c1) ∧
      c1.capturedLogs 7 = [⟨(), 0⟩] ∧
      c1.UndoDataList (c1.capturedLogs 7) = c2 ∧
      c2.self.ptrData = some 0 ∧
      c2.GetData 7 = .ok (none, c3) :=
  ⟨_, _, _, _, rfl, rfl, rfl, rfl, rfl, rfl⟩

end ScalarClaims

end dbcache

/-! # The testable properties of trading pairs -/

namespace asset

/-- C36 at its failing input: the pairs `WICC-WUSD` and `WUSD-WICC`. `operator<` is the
disjunction of the two symbol comparisons, not the lexicographic order: each of the two
pairs is less than the other (asymmetry fails, and more than one of `a < b`, `b < a`,
`a == b` holds), while `WICC-WUSD` is not less than itself (so transitivity fails on
`a < b`, `b < a`). -/
theorem operator_lt_not_asymmetric :
    pairWiccWusd.operator_lt pairWusdWicc = true ∧
      pairWusdWicc.operator_lt pairWiccWusd = true ∧
      pairWiccWusd.operator_lt pairWiccWusd = false ∧
      pairWiccWusd.operator_eq pairWusdWicc = false := by
  decide

end asset

/-! # The testable properties of transactions -/

namespace tx

theorem toInt32_of_range (x : Int) (h1 : -2 ^ 31 ≤ x) (h2 : x < 2 ^ 31) :
    cxx.toInt32 x = x := by
  unfold cxx.toInt32
  rw [Int.emod_eq_of_lt (by omega) (by omega)]
  omega

/-- C37: for every transaction and all heights for which the `int32_t` sum
`nCurrHeight + nTxCacheHeight / 2` and difference `nCurrHeight - nTxCacheHeight / 2` do not
overflow, `IsValidHeight` returns `true` exactly when the type is `BLOCK_REWARD_TX`,
`UCOIN_BLOCK_REWARD_TX` or `PRICE_MEDIAN_TX`, or
`nCurrHeight - nTxCacheHeight / 2 <= valid_height <= nCurrHeight + nTxCacheHeight / 2`, the
division being the integer division of C++ (truncating). -/
theorem is_valid_height_iff (t : CBaseTx) (nCurrHeight nTxCacheHeight : Int)
    (hlo : -2 ^ 31 ≤ nCurrHeight - Int.tdiv nTxCacheHeight 2)
    (hlo2 : nCurrHeight - Int.tdiv nTxCacheHeight 2 < 2 ^ 31)
    (hhi : -2 ^ 31 ≤ nCurrHeight + Int.tdiv nTxCacheHeight 2)
    (hhi2 : nCurrHeight + Int.tdiv nTxCacheHeight 2 < 2 ^ 31) :
    t.IsValidHeight nCurrHeight nTxCacheHeight = true ↔
      (t.nTxType = .BLOCK_REWARD_TX ∨ t.nTxType = .UCOIN_BLOCK_REWARD_TX ∨
        t.nTxType = .PRICE_MEDIAN_TX) ∨
      (nCurrHeight - Int.tdiv nTxCacheHeight 2 ≤ t.valid_height ∧
        t.valid_height ≤ nCurrHeight + Int.tdiv nTxCacheHeight 2) := by
  unfold CBaseTx.IsValidHeight
  rw [toInt32_of_range _ hhi hhi2, toInt32_of_range _ hlo hlo2]
  by_cases ht : t.nTxType = .BLOCK_REWARD_TX ∨ t.nTxType = .UCOIN_BLOCK_REWARD_TX ∨
      t.nTxType = .PRICE_MEDIAN_TX
  · simp [ht]
  · simp only [ht, if_false, false_or]
    by_cases h1 : t.valid_height > nCurrHeight + Int.tdiv nTxCacheHeight 2
    · simp only [h1, if_true, Bool.false_eq_true, false_iff]
      rintro ⟨_, h4⟩
      omega
    · simp only [h1, if_false]
      by_cases h2 : t.valid_height < nCurrHeight - Int.tdiv nTxCacheHeight 2
      · simp only [h2, if_true, Bool.false_eq_true, false_iff]
        rintro ⟨h3, _⟩
        omega
      · simp only [h2, if_false, true_iff]
        omega

/-- Witness of C37: a transaction of another type valid at height `100`, checked at the
current height `105` with a cache height of `11` (half of it is `5`). -/
theorem is_valid_height_iff_witness :
    (CBaseTx.mk (.other 3) 100).IsValidHeight 105 11 = true ↔
      ((TxType.other 3 = .BLOCK_REWARD_TX ∨ TxType.other 3 = .UCOIN_BLOCK_REWARD_TX ∨
        TxType.other 3 = .PRICE_MEDIAN_TX) ∨
      ((105 : Int) - Int.tdiv 11 2 ≤ 100 ∧ (100 : Int) ≤ 105 + Int.tdiv 11 2)) :=
  is_valid_height_iff (CBaseTx.mk (.other 3) 100) 105 11 (by decide) (by decide) (by decide)
    (by decide)

end tx

/-! # The testable properties of UTXO transfer conditions -/

namespace coinutxotx

/-- C38 on the code: for a previous-output `OP2PH` condition with
`password_proof_required = true`, an input whose first `IP2PH` condition carries a
password of at most 256 bytes, and a proof stored in the UTXO cache under
`(previous txid, vout index, spender regid)`, whatever the proof and the password hash
are: `CheckUtxoOutCondition` returns `false` with the message "GetUtxoPasswordProof
failed". The test of `GetUtxoPasswordProof` is inverted: the proof that was found is
what makes the check fail. -/
theorem stored_proof_is_rejected (context : Context) (prevUtxoTxKeyId : String)
    (txAcct : CAccount) (input : CUtxoInput) (theCond : CPasswordHashLockCondOut)
    (password : String) (proof : Nat)
    (hreq : theCond.password_proof_required = true)
    (hin : firstIP2PH input.conds = some password) (hsize : password.utf8ByteSize ≤ 256)
    (hproof : context.GetUtxoPasswordProof
      (input.prev_utxo_txid, input.prev_utxo_vout_index, txAcct.regid) = some proof) :
    CheckUtxoOutCondition_OP2PH context true (.keyId prevUtxoTxKeyId) txAcct input theCond
      = .error "GetUtxoPasswordProof failed" := by
  have hs : ¬ password.utf8ByteSize > 256 := by omega
  simp only [CheckUtxoOutCondition_OP2PH, if_true, hin, hs, if_false, hreq, hproof]

/-- Witness of C38 on the code: the premises of the claim hold (the password has two
bytes, the password hash is the hash of owner key id and password, the stored proof is
the hash of password, owner key id, spender key id, txid and index) and the check
fails. -/
theorem stored_proof_is_rejected_witness :
    firstIP2PH [.other 1, .IP2PH "pw"] = some "pw" ∧ "pw".utf8ByteSize ≤ 256 ∧
      exampleContext.Hash ("owner" ++ "pw") = 8 ∧
      exampleContext.GetUtxoPasswordProof ("t1", 0, 9)
        = some (exampleContext.Hash ("pw" ++ "owner" ++ "spender" ++ "t1" ++ toString 0)) ∧
      CheckUtxoOutCondition_OP2PH exampleContext true (.keyId "owner") ⟨"spender", 9⟩
          ⟨"t1", 0, [.other 1, .IP2PH "pw"]⟩ ⟨true, 8⟩
        = .error "GetUtxoPasswordProof failed" :=
  ⟨rfl, by decide, by decide, by decide,
    stored_proof_is_rejected exampleContext "owner" ⟨"spender", 9⟩
      ⟨"t1", 0, [.other 1, .IP2PH "pw"]⟩ ⟨true, 8⟩ "pw"
      (exampleContext.Hash ("pw" ++ "owner" ++ "spender" ++ "t1" ++ toString 0))
      rfl rfl (by decide) (by decide)⟩

end coinutxotx

/-! # The testable properties of the price point cache -/

namespace cxx

/-! ## Maps -/

section Maps

variable {K V : Type}

theorem StdMap.find_insert [LinearOrder K] (m : StdMap K V) (key : K) (value : V) (k2 : K) :
    StdMap.find (StdMap.insert m key value) k2
      = if k2 = key then some value else StdMap.find m k2 := by
  induction m with
  | nil =>
    by_cases h : k2 = key
    · simp [StdMap.insert, StdMap.find, h]
    · have h2 : ¬ key = k2 := fun e => h e.symm
      simp [StdMap.insert, StdMap.find, h, h2]
  | cons a m ih =>
    obtain ⟨k, v⟩ := a
    by_cases hlt : key < k
    · by_cases h : k2 = key
      · simp [StdMap.insert, StdMap.find, hlt, h]
      · have h2 : ¬ key = k2 := fun e => h e.symm
        simp [StdMap.insert, StdMap.find, hlt, h, h2]
    · by_cases hk : key = k
      · subst hk
        by_cases h : k2 = key
        · simp [StdMap.insert, StdMap.find, h]
        · have h2 : ¬ key = k2 := fun e => h e.symm
          simp [StdMap.insert, StdMap.find, h, h2]
      · simp only [StdMap.insert, hlt, hk, if_false, StdMap.find]
        by_cases hk2 : k = k2
        · have h : ¬ k2 = key := fun e => hk (e.symm.trans hk2.symm)
          simp [hk2, h]
        · simp [hk2, ih]

theorem StdMap.find_erase [DecidableEq K] (m : StdMap K V) (key k2 : K) :
    StdMap.find (StdMap.erase m key) k2 = if k2 = key then none else StdMap.find m k2 := by
  induction m with
  | nil => simp [StdMap.erase, StdMap.find]
  | cons a m ih =>
    obtain ⟨k, v⟩ := a
    by_cases hk : k = key
    · simp only [StdMap.erase, hk, if_true, ih, StdMap.find]
      by_cases h : k2 = key
      · simp [h]
      · have h2 : ¬ key = k2 := fun e => h e.symm
        simp [h, h2]
    · simp only [StdMap.erase, hk, if_false, StdMap.find, ih]
      by_cases h3 : k = k2
      · have h : ¬ k2 = key := fun e => hk (h3.trans e)
        simp [h3, h]
      · simp [h3]

theorem StdMap.find_emplace [LinearOrder K] (m : StdMap K V) (key : K) (value : V) (k2 : K) :
    StdMap.find (StdMap.emplace m key value) k2
      = if k2 = key then some ((StdMap.find m key).getD value) else StdMap.find m k2 := by
  unfold StdMap.emplace
  cases hf : StdMap.find m key with
  | some v =>
    by_cases h : k2 = key
    · simp [h, hf]
    · simp [h]
  | none =>
    simp only [Option.isSome_none, Bool.false_eq_true, if_false, StdMap.find_insert,
      Option.getD_none]

theorem StdMap.emplace_ne_nil [LinearOrder K] (m : StdMap K V) (key : K) (value : V) :
    StdMap.emplace m key value ≠ [] := by
  unfold StdMap.emplace
  cases hf : StdMap.find m key with
  | some v =>
    simp only [Option.isSome_some, if_true]
    intro h
    rw [h] at hf
    simp [StdMap.find] at hf
  | none =>
    simp only [Option.isSome_none, Bool.false_eq_true, if_false]
    cases m with
    | nil => simp [StdMap.insert]
    | cons a m =>
      obtain ⟨k, v⟩ := a
      simp only [StdMap.insert]
      split
      · simp
      · split <;> simp

theorem StdMap.mem_of_find [DecidableEq K] {m : StdMap K V} {key : K} {value : V}
    (h : StdMap.find m key = some value) : (key, value) ∈ m := by
  induction m with
  | nil => simp [StdMap.find] at h
  | cons a m ih =>
    obtain ⟨k, v⟩ := a
    by_cases hk : k = key
    · simp only [StdMap.find, hk, if_true, Option.some.injEq] at h
      simp [hk, h]
    · simp only [StdMap.find, hk, if_false] at h
      exact List.mem_cons_of_mem _ (ih h)

theorem StdMap.find_isSome_of_mem [DecidableEq K] {m : StdMap K V} {key : K} {value : V}
    (h : (key, value) ∈ m) : (StdMap.find m key).isSome = true := by
  induction m with
  | nil => simp at h
  | cons a m ih =>
    obtain ⟨k, v⟩ := a
    by_cases hk : k = key
    · simp [StdMap.find, hk]
    · simp only [StdMap.find, hk, if_false]
      rcases List.mem_cons.1 h with h1 | h1
      · simp only [Prod.mk.injEq] at h1
        exact absurd h1.1.symm hk
      · exact ih h1

theorem StdMap.find_none_of_not_mem_keys [DecidableEq K] {m : StdMap K V} {key : K}
    (h : key ∉ m.map Prod.fst) : StdMap.find m key = none := by
  cases hf : StdMap.find m key with
  | none => rfl
  | some v =>
    exact absurd (List.mem_map.2 ⟨(key, v), StdMap.mem_of_find hf, rfl⟩) h

end Maps

end cxx

namespace pricefeeddb

open cxx

/-! ## The median -/

theorem toInt32_natCast (n : Nat) (h : n < 2 ^ 31) : toInt32 (n : Int) = n := by
  unfold toInt32
  rw [Int.emod_eq_of_lt (by omega) (by omega)]
  omega

theorem sorted_getD_le (s : List Nat) (hs : s.Sorted (· ≤ ·)) (i j : Nat) (hij : i ≤ j)
    (hj : j < s.length) : s.getD i 0 ≤ s.getD j 0 := by
  rw [List.getD_eq_getElem s 0 (by omega), List.getD_eq_getElem s 0 hj]
  rcases Nat.eq_or_lt_of_le hij with h | h
  · subst h
    exact le_refl _
  · exact List.pairwise_iff_getElem.1 hs i j (by omega) hj h

/-- What `ComputeMedianNumber` computes on a vector of at least two and fewer than `2 ^ 31`
numbers. -/
theorem ComputeMedianNumber_eq (numbers : List Nat) (h2 : 2 ≤ numbers.length)
    (hlen : numbers.length < 2 ^ 31) :
    ComputeMedianNumber numbers
      = if numbers.length % 2 = 0 then
          ((numbers.insertionSort (· ≤ ·)).getD (numbers.length / 2 - 1) 0
            + (numbers.insertionSort (· ≤ ·)).getD (numbers.length / 2) 0) % 2 ^ 64 / 2
        else (numbers.insertionSort (· ≤ ·)).getD (numbers.length / 2) 0 := by
  unfold ComputeMedianNumber
  simp only [toInt32_natCast _ hlen]
  have h1 : ¬ ((numbers.length : Int) < 2) := by omega
  have h3 : Int.tdiv (numbers.length : Int) 2 = ((numbers.length / 2 : Nat) : Int) := rfl
  have h4 : Int.tmod (numbers.length : Int) 2 = ((numbers.length % 2 : Nat) : Int) := rfl
  have h5 : (((numbers.length / 2 : Nat) : Int) - 1).toNat = numbers.length / 2 - 1 := by omega
  rw [if_neg h1, h3, h4, h5, Int.toNat_ofNat]
  by_cases he : numbers.length % 2 = 0
  · rw [if_pos he, if_pos (by rw [he]; rfl)]
  · rw [if_neg he, if_neg (by omega)]

/-- Counterexample to C33 as stated: the two prices `2 ^ 63` and `2 ^ 63`. The sorted
vector is the same, both middle elements are `2 ^ 63`, and `ComputeMedianNumber` returns
`0`: the `uint64_t` sum of the two middle elements wraps. -/
theorem median_sum_wraps :
    ([9223372036854775808, 9223372036854775808] : List Nat).insertionSort (· ≤ ·)
        = [9223372036854775808, 9223372036854775808] ∧
      ComputeMedianNumber [9223372036854775808, 9223372036854775808] = 0 ∧
      ¬ (9223372036854775808 ≤ ComputeMedianNumber [9223372036854775808, 9223372036854775808]) := by
  decide

/-- C33, amended: for the empty vector `ComputeMedianNumber` returns `0`. For every
non-empty vector of fewer than `2 ^ 31` prices in which, when the size is even, the sum
of the two middle elements of the sorted vector is below `2 ^ 64`, it returns a value `m`
with `s[(n - 1) / 2] <= m <= s[n / 2]`, where `s` is the vector sorted ascending and `n`
its size. -/
theorem median_between_middle (numbers : List Nat) (hlen : numbers.length < 2 ^ 31)
    (hsum : numbers.length % 2 = 0 →
      (numbers.insertionSort (· ≤ ·)).getD (numbers.length / 2 - 1) 0
        + (numbers.insertionSort (· ≤ ·)).getD (numbers.length / 2) 0 < 2 ^ 64) :
    ComputeMedianNumber [] = 0 ∧
    (numbers ≠ [] →
      (numbers.insertionSort (· ≤ ·)).getD ((numbers.length - 1) / 2) 0
          ≤ ComputeMedianNumber numbers ∧
        ComputeMedianNumber numbers
          ≤ (numbers.insertionSort (· ≤ ·)).getD (numbers.length / 2) 0) := by
  refine ⟨by decide, fun hne => ?_⟩
  have hs : (numbers.insertionSort (· ≤ ·)).Sorted (· ≤ ·) := List.sorted_insertionSort _ _
  have hl : (numbers.insertionSort (· ≤ ·)).length = numbers.length :=
    List.length_insertionSort _ _
  by_cases h2 : 2 ≤ numbers.length
  · rw [ComputeMedianNumber_eq numbers h2 hlen]
    by_cases he : numbers.length % 2 = 0
    · have hle := sorted_getD_le _ hs (numbers.length / 2 - 1) (numbers.length / 2)
        (by omega) (by omega)
      have hidx : (numbers.length - 1) / 2 = numbers.length / 2 - 1 := by omega
      rw [if_pos he, Nat.mod_eq_of_lt (hsum he), hidx]
      omega
    · have hidx : (numbers.length - 1) / 2 = numbers.length / 2 := by omega
      rw [if_neg he, hidx]
      exact ⟨le_refl _, le_refl _⟩
  · cases numbers with
    | nil => exact absurd rfl hne
    | cons a t =>
      cases t with
      | nil => simp [ComputeMedianNumber, toInt32]
      | cons b t2 => simp at h2

/-- Witness of C33, amended: the prices `30, 10, 20, 40`, sorted `10, 20, 30, 40`, have the
median `25` between `20` and `30`. -/
theorem median_between_middle_witness :
    ([30, 10, 20, 40] : List Nat).insertionSort (· ≤ ·) = [10, 20, 30, 40] ∧
      ComputeMedianNumber [30, 10, 20, 40] = 25 ∧
      ComputeMedianNumber [] = 0 ∧
      (([30, 10, 20, 40] : List Nat).insertionSort (· ≤ ·)).getD
          ((([30, 10, 20, 40] : List Nat).length - 1) / 2) 0
        ≤ ComputeMedianNumber [30, 10, 20, 40] ∧
      ComputeMedianNumber [30, 10, 20, 40]
        ≤ (([30, 10, 20, 40] : List Nat).insertionSort (· ≤ ·)).getD
          (([30, 10, 20, 40] : List Nat).length / 2) 0 :=
  have h := median_between_middle [30, 10, 20, 40] (by decide) (fun _ => by decide)
  ⟨by decide, by decide, h.1, (h.2 (by decide)).1, (h.2 (by decide)).2⟩

/-! ## The block median price -/

/-- The first height below the window, when neither the 64-bit difference nor its
conversion to `int32_t` wraps past the true difference. -/
theorem beginBlockHeight_eq (blockHeight : Int) (slideWindow : Nat) (h0 : 0 ≤ blockHeight)
    (h1 : blockHeight < 2 ^ 31) (hs : (slideWindow : Int) ≤ blockHeight + 2 ^ 31) :
    max (toInt32 (toUInt64 (toUInt64 blockHeight - slideWindow))) 0
      = max (blockHeight - slideWindow) 0 := by
  have e : toInt32 (toUInt64 (toUInt64 blockHeight - slideWindow))
      = blockHeight - slideWindow := by
    unfold toInt32 toUInt64
    omega
  rw [e]

/-- The loop of `ComputeBlockMedianPrice`, started at `height` with exactly the iterations
it needs: it appends the user prices of the heights from `height` down to
`beginBlockHeight + 1` and notes the block height when the first of them is the block
height and has an entry. -/
theorem priceLoop_eq {R : Type} (blockUserPrices : BlockUserPriceMap R)
    (blockHeight beginBlockHeight : Int) (count : Nat) :
    ∀ (height : Int) (st : Int × List Nat), height - beginBlockHeight = count →
      height ≤ blockHeight →
      priceLoop blockUserPrices blockHeight beginBlockHeight count height st
        = (if height = blockHeight ∧ 0 < count ∧
              (StdMap.find blockUserPrices blockHeight).isSome = true
            then blockHeight else st.1,
          st.2 ++ ((List.range count).map (fun (i : Nat) => height - (i : Int))).flatMap
            (fun h => ((StdMap.find blockUserPrices h).getD []).map Prod.snd)) := by
  induction count with
  | zero =>
    intro height st _ _
    simp [priceLoop]
  | succ n ih =>
    intro height st hc hle
    have hgt : height > beginBlockHeight := by omega
    have hne : ¬ (height - 1 = blockHeight) := by omega
    simp only [priceLoop, hgt, if_true]
    rw [ih (height - 1) _ (by omega) (by omega)]
    have hrange : (List.range (n + 1)).map (fun (i : Nat) => height - (i : Int))
        = height :: (List.range n).map (fun (i : Nat) => height - 1 - (i : Int)) := by
      rw [List.range_succ_eq_map, List.map_cons, List.map_map]
      simp only [Nat.cast_zero, sub_zero, List.cons.injEq, true_and]
      apply List.map_congr_left
      intro i _
      simp only [Function.comp_apply, Nat.cast_succ]
      omega
    rw [hrange, List.flatMap_cons]
    simp only [hne, false_and, if_false, Nat.succ_pos, true_and]
    cases hf : StdMap.find blockUserPrices height with
    | none =>
      by_cases hb : height = blockHeight
      · subst hb
        simp [hf]
      · simp [hb]
    | some userPrices =>
      by_cases hb : height = blockHeight
      · subst hb
        simp [hf]
      · simp [hb]

/-- Counterexample to C34 as stated: block height `5`, a slide window of `0` blocks and a
map with an entry at height `5`. The window is empty and the loop does not run:
`last_feed_height` stays `0` although the map has an entry at the block height. -/
theorem last_feed_height_needs_window :
    (StdMap.find ([(5, [(1, 7)])] : BlockUserPriceMap Nat) 5).isSome = true ∧
      ComputeBlockMedianPrice 5 0 ([(5, [(1, 7)])] : BlockUserPriceMap Nat) = ⟨0, 0⟩ := by
  decide

/-- A slide window of `2 ^ 32` blocks at block height `10`: over the integers the window
is the heights `1` to `10`, whose only user price is `7`; the code converts the 64-bit
difference to `int32_t`, finds `10`, and looks at no height. -/
theorem slide_window_wraps :
    windowPrices 10 4294967296 ([(10, [(1, 7)])] : BlockUserPriceMap Nat) = [7] ∧
      ComputeBlockMedianPrice 10 4294967296 ([(10, [(1, 7)])] : BlockUserPriceMap Nat)
        = ⟨0, 0⟩ := by
  decide

/-- C34, amended: for every block height `0 <= blockHeight < 2 ^ 31`, every slide window
with `slideWindow <= blockHeight + 2 ^ 31` and every block-to-user-price map,
`ComputeBlockMedianPrice` returns as price the median (`ComputeMedianNumber`) of exactly
the user prices recorded at the heights `h` with
`max(blockHeight - slideWindow, 0) < h <= blockHeight` (difference over the integers),
and sets `last_feed_height` to `blockHeight` exactly when the map has an entry at
`blockHeight` and the window is not empty (`slideWindow > 0` and `blockHeight > 0`), and
to `0` otherwise. -/
theorem block_median_price_window {R : Type} (blockHeight : Int) (slideWindow : Nat)
    (blockUserPrices : BlockUserPriceMap R) (h0 : 0 ≤ blockHeight) (h1 : blockHeight < 2 ^ 31)
    (hs : (slideWindow : Int) ≤ blockHeight + 2 ^ 31) :
    (ComputeBlockMedianPrice blockHeight slideWindow blockUserPrices).price
      = ComputeMedianNumber (windowPrices blockHeight slideWindow blockUserPrices) ∧
    (ComputeBlockMedianPrice blockHeight slideWindow blockUserPrices).last_feed_height
      = if (StdMap.find blockUserPrices blockHeight).isSome = true ∧ 0 < slideWindow ∧
            0 < blockHeight
        then blockHeight else 0 := by
  unfold ComputeBlockMedianPrice
  simp only [beginBlockHeight_eq blockHeight slideWindow h0 h1 hs]
  rw [priceLoop_eq blockUserPrices blockHeight _ _ blockHeight (0, [])
    (by omega) (le_refl _)]
  refine ⟨by simp [windowPrices, windowHeights], ?_⟩
  simp only [true_and]
  have hiff : 0 < (blockHeight - max (blockHeight - (slideWindow : Int)) 0).toNat ↔
      0 < slideWindow ∧ 0 < blockHeight := by omega
  by_cases hf : (StdMap.find blockUserPrices blockHeight).isSome = true
  · by_cases hw : 0 < slideWindow ∧ 0 < blockHeight
    · rw [if_pos ⟨hiff.2 hw, hf⟩, if_pos ⟨hf, hw⟩]
    · rw [if_neg (fun h => hw (hiff.1 h.1)), if_neg (fun h => hw h.2)]
  · rw [if_neg (fun h => hf h.2), if_neg (fun h => hf h.1)]

/-- Witness of C34, amended: block height `10`, a window of `3` blocks and prices at the
heights `7` (outside the window), `9` and `10`. -/
theorem block_median_price_window_witness :
    windowPrices 10 3 ([(7, [(1, 50)]), (9, [(1, 30), (2, 10)]), (10, [(3, 20)])] :
        BlockUserPriceMap Nat) = [20, 30, 10] ∧
      (ComputeBlockMedianPrice 10 3 ([(7, [(1, 50)]), (9, [(1, 30), (2, 10)]), (10, [(3, 20)])] :
        BlockUserPriceMap Nat)).price
        = ComputeMedianNumber (windowPrices 10 3
            ([(7, [(1, 50)]), (9, [(1, 30), (2, 10)]), (10, [(3, 20)])] :
              BlockUserPriceMap Nat)) ∧
      (ComputeBlockMedianPrice 10 3 ([(7, [(1, 50)]), (9, [(1, 30), (2, 10)]), (10, [(3, 20)])] :
        BlockUserPriceMap Nat)).last_feed_height
        = if (StdMap.find ([(7, [(1, 50)]), (9, [(1, 30), (2, 10)]), (10, [(3, 20)])] :
              BlockUserPriceMap Nat) 10).isSome = true ∧ 0 < 3 ∧ (0 : Int) < 10
          then 10 else 0 :=
  have h := block_median_price_window 10 3
    ([(7, [(1, 50)]), (9, [(1, 30), (2, 10)]), (10, [(3, 20)])] : BlockUserPriceMap Nat)
    (by decide) (by decide) (by decide)
  ⟨by decide, h.1, h.2⟩

/-! ## Flush and the merged view -/

section MergedView

variable {P R : Type}

theorem heightsOf_atPair [LinearOrder P] (m : CoinPricePointMap P R) (pair : P)
    (f : BlockUserPriceMap R → BlockUserPriceMap R) (p2 : P) :
    heightsOf (atPair m pair f) p2 = if p2 = pair then f (heightsOf m pair) else heightsOf m p2 := by
  unfold atPair
  by_cases h : p2 = pair
  · simp [heightsOf, StdMap.find_insert, h]
  · simp only [h, if_false]
    unfold heightsOf
    rw [StdMap.find_insert, if_neg h]

/-- A user in the target keeps its price, any other user gets the first price the
incoming list has for it. -/
theorem find_emplaceAll [LinearOrder R] (users : UserPrices R) :
    ∀ (target : UserPrices R) (u : R),
      (∀ x, StdMap.find target u = some x → StdMap.find (emplaceAll target users) u = some x) ∧
      (StdMap.find target u = none →
        StdMap.find (emplaceAll target users) u = StdMap.find users u) := by
  induction users with
  | nil =>
    intro target u
    exact ⟨fun x h => h, fun h => by simpa [emplaceAll, StdMap.find] using h⟩
  | cons a rest ih =>
    obtain ⟨ua, pa⟩ := a
    intro target u
    simp only [emplaceAll]
    have hfe := StdMap.find_emplace target ua pa u
    constructor
    · intro x hx
      apply (ih _ u).1 x
      rw [hfe]
      by_cases h : u = ua
      · subst h
        simp [hx]
      · simp [h, hx]
    · intro hn
      by_cases h : u = ua
      · subst h
        rw [(ih _ u).1 pa (by rw [hfe]; simp [hn])]
        simp [StdMap.find]
      · have h2 : ¬ ua = u := fun e => h e.symm
        rw [(ih _ u).2 (by rw [hfe]; simp [h, hn])]
        simp [StdMap.find, h2]

theorem emplaceAll_ne_nil_of_target [LinearOrder R] (users : UserPrices R) :
    ∀ target : UserPrices R, target ≠ [] → emplaceAll target users ≠ [] := by
  induction users with
  | nil => intro target h; exact h
  | cons a rest ih =>
    intro target _
    exact ih _ (StdMap.emplace_ne_nil target a.1 a.2)

theorem emplaceAll_ne_nil [LinearOrder R] (target users : UserPrices R) (h : users ≠ []) :
    emplaceAll target users ≠ [] := by
  cases users with
  | nil => exact absurd rfl h
  | cons a rest => exact emplaceAll_ne_nil_of_target rest _ (StdMap.emplace_ne_nil target a.1 a.2)

/-- What the innermost loop of `BatchWrite` leaves: other pairs and other heights are
untouched, the height holds the old user prices with the incoming ones emplaced. -/
theorem BatchWriteUsers_find [LinearOrder P] [LinearOrder R] (pair : P) (height : Int)
    (users : UserPrices R) :
    ∀ m : CoinPricePointMap P R,
      (∀ p2, p2 ≠ pair → heightsOf (BatchWriteUsers m pair height users) p2 = heightsOf m p2) ∧
      (∀ h2, h2 ≠ height →
        StdMap.find (heightsOf (BatchWriteUsers m pair height users) pair) h2
          = StdMap.find (heightsOf m pair) h2) ∧
      (users ≠ [] →
        StdMap.find (heightsOf (BatchWriteUsers m pair height users) pair) height
          = some (emplaceAll ((StdMap.find (heightsOf m pair) height).getD []) users)) := by
  induction users with
  | nil =>
    intro m
    exact ⟨fun _ _ => rfl, fun _ _ => rfl, fun h => absurd rfl h⟩
  | cons a rest ih =>
    intro m
    obtain ⟨ih1, ih2, ih3⟩ := ih (atPair m pair (fun hm =>
      StdMap.insert hm height (StdMap.emplace ((StdMap.find hm height).getD []) a.1 a.2)))
    simp only [BatchWriteUsers]
    refine ⟨fun p2 hp => ?_, fun h2 hh => ?_, fun _ => ?_⟩
    · rw [ih1 p2 hp, heightsOf_atPair, if_neg hp]
    · rw [ih2 h2 hh, heightsOf_atPair, if_pos rfl, StdMap.find_insert, if_neg hh]
    · have hstep : StdMap.find (heightsOf (atPair m pair (fun hm =>
          StdMap.insert hm height
            (StdMap.emplace ((StdMap.find hm height).getD []) a.1 a.2))) pair) height
          = some (StdMap.emplace ((StdMap.find (heightsOf m pair) height).getD []) a.1 a.2) := by
        rw [heightsOf_atPair, if_pos rfl, StdMap.find_insert, if_pos rfl]
      cases rest with
      | nil =>
        simp only [BatchWriteUsers, emplaceAll]
        exact hstep
      | cons b rest2 =>
        rw [ih3 (by simp), hstep]
        simp only [Option.getD_some, emplaceAll]

theorem BatchWriteHeights_other [LinearOrder P] [LinearOrder R] (pair : P)
    (src : BlockUserPriceMap R) :
    ∀ (m : CoinPricePointMap P R) (p2 : P), p2 ≠ pair →
      heightsOf (BatchWriteHeights m pair src) p2 = heightsOf m p2 := by
  induction src with
  | nil => intro m p2 _; rfl
  | cons a rest ih =>
    intro m p2 hp
    simp only [BatchWriteHeights]
    rw [ih _ p2 hp]
    by_cases he : a.2.isEmpty = true
    · rw [if_pos he, heightsOf_atPair, if_neg hp]
    · rw [if_neg he]
      exact (BatchWriteUsers_find pair a.1 a.2 m).1 p2 hp

/-- What the loop of `BatchWrite` over the heights of one pair leaves at each height. -/
theorem BatchWriteHeights_find [LinearOrder P] [LinearOrder R] (pair : P)
    (src : BlockUserPriceMap R) (hd : StdMap.Distinct src) :
    ∀ (m : CoinPricePointMap P R) (h2 : Int),
      StdMap.find (heightsOf (BatchWriteHeights m pair src) pair) h2
        = writeHeight (StdMap.find src h2) (StdMap.find (heightsOf m pair) h2) := by
  induction src with
  | nil => intro m h2; rfl
  | cons a rest ih =>
    obtain ⟨h, users⟩ := a
    have hd2 : h ∉ rest.map Prod.fst ∧ StdMap.Distinct rest := by
      simpa [StdMap.Distinct] using hd
    intro m h2
    simp only [BatchWriteHeights]
    rw [ih hd2.2]
    by_cases hh : h2 = h
    · subst hh
      rw [StdMap.find_none_of_not_mem_keys hd2.1]
      simp only [writeHeight, StdMap.find, if_true]
      by_cases he : users.isEmpty = true
      · rw [if_pos he, if_pos he, heightsOf_atPair, if_pos rfl, StdMap.find_erase, if_pos rfl]
      · rw [if_neg he, if_neg he]
        have hne : users ≠ [] := by
          intro e
          rw [e] at he
          simp at he
        exact (BatchWriteUsers_find pair h2 users m).2.2 hne
    · have hh2 : ¬ h = h2 := fun e => hh e.symm
      simp only [StdMap.find, hh2, if_false]
      congr 1
      by_cases he : users.isEmpty = true
      · rw [if_pos he, heightsOf_atPair, if_pos rfl, StdMap.find_erase, if_neg hh]
      · rw [if_neg he]
        exact (BatchWriteUsers_find pair h users m).2.1 h2 hh

theorem BatchWrite_other [LinearOrder P] [LinearOrder R] (pair : P)
    (mapIn : CoinPricePointMap P R) :
    ∀ m : CoinPricePointMap P R, pair ∉ mapIn.map Prod.fst →
      heightsOf (BatchWrite m mapIn) pair = heightsOf m pair := by
  induction mapIn with
  | nil => intro m _; rfl
  | cons a rest ih =>
    intro m hp
    have hp2 : pair ≠ a.1 ∧ pair ∉ rest.map Prod.fst := by
      simpa [not_or] using hp
    simp only [BatchWrite]
    rw [ih _ hp2.2]
    exact BatchWriteHeights_other a.1 _ m pair hp2.1

/-- What `BatchWrite` leaves at each height of a pair, in terms of what the incoming map
and the written map held there. -/
theorem BatchWrite_find [LinearOrder P] [LinearOrder R] (pair : P)
    (mapIn : CoinPricePointMap P R) (hd : StdMap.Distinct mapIn)
    (hdh : StdMap.Distinct (heightsOf mapIn pair)) :
    ∀ (m : CoinPricePointMap P R) (h2 : Int),
      StdMap.find (heightsOf (BatchWrite m mapIn) pair) h2
        = writeHeight (StdMap.find (heightsOf mapIn pair) h2)
            (StdMap.find (heightsOf m pair) h2) := by
  induction mapIn with
  | nil => intro m h2; rfl
  | cons a rest ih =>
    obtain ⟨q, cbp⟩ := a
    have hd2 : q ∉ rest.map Prod.fst ∧ StdMap.Distinct rest := by
      simpa [StdMap.Distinct] using hd
    intro m h2
    simp only [BatchWrite]
    by_cases hq : q = pair
    · subst hq
      have hh : heightsOf ((q, cbp) :: rest) q = cbp.mapBlockUserPrices := by
        simp [heightsOf, StdMap.find]
      rw [hh] at hdh ⊢
      rw [BatchWrite_other q rest _ hd2.1]
      exact BatchWriteHeights_find q cbp.mapBlockUserPrices hdh m h2
    · have hh : heightsOf ((q, cbp) :: rest) pair = heightsOf rest pair := by
        simp [heightsOf, StdMap.find, hq]
      rw [hh] at hdh ⊢
      rw [ih hd2.2 hdh, BatchWriteHeights_other q _ m pair (fun e => hq e.symm)]

/-- What the loop of `GetBlockUserPrices` over one cache leaves in the result: a height
already there stays; an expired height is not added; any other height gets the user
prices of its entry, unless the entry has none. The expired heights are the old ones
and the heights of the entries without user price. -/
theorem mergeHeights_find (items : BlockUserPriceMap R) :
    ∀ (st : List Int × BlockUserPriceMap R) (h : Int),
      StdMap.find (mergeHeights items st).2 h
        = (if (StdMap.find st.2 h).isSome then StdMap.find st.2 h
           else if h ∈ st.1 then none
           else (StdMap.find items h).filter (fun users => !users.isEmpty)) ∧
      (h ∈ (mergeHeights items st).1 ↔
        h ∈ st.1 ∨ ∃ users, (h, users) ∈ items ∧ users.isEmpty = true) := by
  induction items with
  | nil =>
    intro st h
    refine ⟨?_, by simp [mergeHeights]⟩
    simp only [mergeHeights, StdMap.find, Option.filter]
    split <;> [rfl; split] <;> simp_all
  | cons a rest ih =>
    obtain ⟨h0, users0⟩ := a
    intro st h
    simp only [mergeHeights]
    by_cases he : users0.isEmpty = true
    · simp only [he, if_true]
      obtain ⟨ih1, ih2⟩ := ih (h0 :: st.1, st.2) h
      refine ⟨?_, ?_⟩
      · rw [ih1]
        by_cases hs : (StdMap.find st.2 h).isSome = true
        · simp [hs]
        · simp only [hs, Bool.false_eq_true, if_false, List.mem_cons]
          by_cases hm : h ∈ st.1
          · simp [hm]
          · by_cases hh : h = h0
            · subst hh
              simp [hm, StdMap.find, Option.filter, he]
            · have hh2 : ¬ h0 = h := fun e => hh e.symm
              simp [hm, hh, StdMap.find, hh2]
      · rw [ih2]
        constructor
        · rintro (h1 | ⟨u, hu, hue⟩)
          · rcases List.mem_cons.1 h1 with h2 | h2
            · exact Or.inr ⟨users0, by rw [h2]; exact List.mem_cons_self _ _, he⟩
            · exact Or.inl h2
          · exact Or.inr ⟨u, List.mem_cons_of_mem _ hu, hue⟩
        · rintro (h1 | ⟨u, hu, hue⟩)
          · exact Or.inl (List.mem_cons_of_mem _ h1)
          · rcases List.mem_cons.1 hu with h2 | h2
            · simp only [Prod.mk.injEq] at h2
              exact Or.inl (by rw [h2.1]; exact List.mem_cons_self _ _)
            · exact Or.inr ⟨u, h2, hue⟩
    · simp only [he, Bool.false_eq_true, if_false]
      have hmem : ∀ u, (h, u) ∈ (h0, users0) :: rest → u.isEmpty = true → (h, u) ∈ rest := by
        intro u hu hue
        rcases List.mem_cons.1 hu with h2 | h2
        · simp only [Prod.mk.injEq] at h2
          rw [h2.2] at hue
          exact absurd hue he
        · exact h2
      by_cases hskip : (decide (h0 ∈ st.1) || (StdMap.find st.2 h0).isSome) = true
      · simp only [hskip, if_true]
        obtain ⟨ih1, ih2⟩ := ih st h
        refine ⟨?_, ?_⟩
        · rw [ih1]
          by_cases hs : (StdMap.find st.2 h).isSome = true
          · simp [hs]
          · simp only [hs, Bool.false_eq_true, if_false]
            by_cases hm : h ∈ st.1
            · simp [hm]
            · simp only [hm, if_false]
              by_cases hh : h = h0
              · subst hh
                simp only [Bool.or_eq_true, decide_eq_true_eq] at hskip
                rcases hskip with h1 | h1
                · exact absurd h1 hm
                · exact absurd h1 hs
              · have hh2 : ¬ h0 = h := fun e => hh e.symm
                simp [StdMap.find, hh2]
        · rw [ih2]
          constructor
          · rintro (h1 | ⟨u, hu, hue⟩)
            · exact Or.inl h1
            · exact Or.inr ⟨u, List.mem_cons_of_mem _ hu, hue⟩
          · rintro (h1 | ⟨u, hu, hue⟩)
            · exact Or.inl h1
            · exact Or.inr ⟨u, hmem u hu hue, hue⟩
      · simp only [hskip, Bool.false_eq_true, if_false]
        simp only [Bool.or_eq_true, decide_eq_true_eq, not_or] at hskip
        obtain ⟨ih1, ih2⟩ := ih (st.1, StdMap.insert st.2 h0 users0) h
        refine ⟨?_, ?_⟩
        · rw [ih1]
          simp only [StdMap.find_insert]
          by_cases hh : h = h0
          · subst hh
            have hs : (StdMap.find st.2 h).isSome = false := by simpa using hskip.2
            simp [hs, hskip.1, StdMap.find, Option.filter, he]
          · have hh2 : ¬ h0 = h := fun e => hh e.symm
            simp [hh, StdMap.find, hh2]
        · rw [ih2]
          constructor
          · rintro (h1 | ⟨u, hu, hue⟩)
            · exact Or.inl h1
            · exact Or.inr ⟨u, List.mem_cons_of_mem _ hu, hue⟩
          · rintro (h1 | ⟨u, hu, hue⟩)
            · exact Or.inl h1
            · exact Or.inr ⟨u, hmem u hu hue, hue⟩

theorem GetBlockUserPricesFrom_root [DecidableEq P] (m : CoinPricePointMap P R) (pair : P)
    (st : List Int × BlockUserPriceMap R) :
    GetBlockUserPricesFrom (.root m) pair st = mergeHeights (heightsOf m pair) st := by
  unfold GetBlockUserPricesFrom heightsOf
  cases StdMap.find m pair <;> rfl

theorem GetBlockUserPricesFrom_child [DecidableEq P] (m : CoinPricePointMap P R)
    (b : CPricePointMemCache P R) (pair : P) (st : List Int × BlockUserPriceMap R) :
    GetBlockUserPricesFrom (.child m b) pair st
      = GetBlockUserPricesFrom b pair (mergeHeights (heightsOf m pair) st) := by
  rw [GetBlockUserPricesFrom]
  unfold heightsOf
  cases StdMap.find m pair <;> rfl

/-- The merged view of a cache without base: the heights that have user prices. -/
theorem view_root_find [DecidableEq P] (m : CoinPricePointMap P R) (pair : P) (h : Int) :
    StdMap.find (GetBlockUserPrices (.root m) pair) h
      = (StdMap.find (heightsOf m pair) h).filter (fun users => !users.isEmpty) := by
  unfold GetBlockUserPrices
  rw [GetBlockUserPricesFrom_root, (mergeHeights_find _ _ h).1]
  simp [StdMap.find]

/-- The merged view of a child over a cache without base: a height of the child shadows
the same height of the base, with its user prices or, when it has none, as a deletion. -/
theorem view_child_find [DecidableEq P] (m mb : CoinPricePointMap P R) (pair : P) (h : Int) :
    (StdMap.find (heightsOf m pair) h = none →
      StdMap.find (GetBlockUserPrices (.child m (.root mb)) pair) h
        = (StdMap.find (heightsOf mb pair) h).filter (fun users => !users.isEmpty)) ∧
    (∀ users, StdMap.find (heightsOf m pair) h = some users →
      StdMap.find (GetBlockUserPrices (.child m (.root mb)) pair) h
        = if users.isEmpty then none else some users) := by
  unfold GetBlockUserPrices
  rw [GetBlockUserPricesFrom_child, GetBlockUserPricesFrom_root]
  have h1 := mergeHeights_find (heightsOf m pair) ([], []) h
  have h2 := (mergeHeights_find (heightsOf mb pair)
    (mergeHeights (heightsOf m pair) ([], [])) h).1
  simp only [StdMap.find, Option.isSome_none, Bool.false_eq_true, if_false, List.not_mem_nil,
    false_or] at h1
  rw [h2, h1.1]
  constructor
  · intro hn
    have hno : h ∉ (mergeHeights (heightsOf m pair) ([], [])).1 := by
      rw [h1.2]
      rintro ⟨u, hu, _⟩
      have := StdMap.find_isSome_of_mem hu
      rw [hn] at this
      simp at this
    simp [hn, hno, Option.filter]
  · intro users hu
    by_cases he : users.isEmpty = true
    · have hex : h ∈ (mergeHeights (heightsOf m pair) ([], [])).1 :=
        h1.2.mpr ⟨users, StdMap.mem_of_find hu, he⟩
      simp [hu, he, hex, Option.filter]
    · simp [hu, he, Option.filter]

/-- Counterexample to C35 as stated: for the pair `1` at height `5` the base holds the
price `10` of user `1` and the child the price `20` of user `2`. Before the flush the
child returns height `5` with the price of user `2` alone (its height shadows the
height of the base); after the flush the base returns height `5` with both prices
(`BatchWrite` emplaces user by user). -/
theorem flush_changes_merged_view :
    GetBlockUserPrices (.child exampleChild (.root exampleBase)) 1 = [(5, [(2, 20)])] ∧
      ((Flush (.child exampleChild (.root exampleBase))).bind
          CPricePointMemCache.GetBasePtr).map (fun b => GetBlockUserPrices b 1)
        = some [(5, [(1, 10), (2, 20)])] ∧
      ¬ SameBlockUserPrices ([(5, [(1, 10), (2, 20)])] : BlockUserPriceMap Nat)
          [(5, [(2, 20)])] := by
  refine ⟨by decide, by decide, ?_⟩
  intro h
  have h5 := (h 5).2 1
  revert h5
  decide

/-- C35, amended: for every child over a base cache that has no base (the maps of the
child having distinct keys, as every `std::map`) and every coin pair such that, at each
height where the child holds user prices, every user price the base holds is also held
by the child with the same price: `child.Flush()` succeeds, and the map
`base.GetBlockUserPrices(pair)` returns afterwards equals, height by height and user by
user, the map `child.GetBlockUserPrices(pair)` returned immediately before. -/
theorem flush_preserves_merged_view [LinearOrder P] [LinearOrder R]
    (m mb : CoinPricePointMap P R) (pair : P) (hd : StdMap.Distinct m)
    (hdh : StdMap.Distinct (heightsOf m pair))
    (hcompat : ∀ h usersC usersB, StdMap.find (heightsOf m pair) h = some usersC →
      usersC.isEmpty = false → StdMap.find (heightsOf mb pair) h = some usersB →
      ∀ u price, StdMap.find usersB u = some price → StdMap.find usersC u = some price) :
    ∃ mb1, Flush (.child m (.root mb)) = some (.child [] (.root mb1)) ∧
      SameBlockUserPrices (GetBlockUserPrices (.root mb1) pair)
        (GetBlockUserPrices (.child m (.root mb)) pair) := by
  refine ⟨BatchWrite mb m, rfl, fun h => ?_⟩
  rw [view_root_find, BatchWrite_find pair m hd hdh mb h]
  obtain ⟨hv1, hv2⟩ := view_child_find m mb pair h
  cases hc : StdMap.find (heightsOf m pair) h with
  | none =>
    rw [hv1 hc]
    exact ⟨rfl, fun _ => rfl⟩
  | some usersC =>
    rw [hv2 usersC hc]
    by_cases he : usersC.isEmpty = true
    · simp only [writeHeight, he, if_true, Option.filter]
      exact ⟨rfl, fun _ => rfl⟩
    · have hne : usersC ≠ [] := by
        intro e
        rw [e] at he
        simp at he
      have hres := emplaceAll_ne_nil ((StdMap.find (heightsOf mb pair) h).getD []) usersC hne
      have hres2 : (emplaceAll ((StdMap.find (heightsOf mb pair) h).getD []) usersC).isEmpty
          = false := by
        cases hx : emplaceAll ((StdMap.find (heightsOf mb pair) h).getD []) usersC with
        | nil => exact absurd hx hres
        | cons a t => rfl
      simp only [writeHeight, he, Bool.false_eq_true, if_false, Option.filter, hres2,
        Bool.not_false, if_true]
      refine ⟨rfl, fun u => ?_⟩
      simp only [Option.bind]
      obtain ⟨hf1, hf2⟩ := find_emplaceAll usersC
        ((StdMap.find (heightsOf mb pair) h).getD []) u
      cases hb : StdMap.find ((StdMap.find (heightsOf mb pair) h).getD []) u with
      | none => exact hf2 hb
      | some price =>
        rw [hf1 price hb]
        cases hbh : StdMap.find (heightsOf mb pair) h with
        | none =>
          rw [hbh] at hb
          simp [StdMap.find] at hb
        | some usersB =>
          rw [hbh] at hb
          simp only [Option.getD_some] at hb
          exact (hcompat h usersC usersB hc (by simpa using he) hbh u price hb).symm

/-- Witness of C35, amended: the base holds a price at height `5`, the child a price at
height `6` and a deletion mark at height `4`. -/
theorem flush_preserves_merged_view_witness :
    GetBlockUserPrices (.child exampleChildApart (.root exampleBase)) 1
        = [(5, [(1, 10)]), (6, [(2, 20)])] ∧
      ∃ mb1, Flush (.child exampleChildApart (.root exampleBase))
          = some (.child [] (.root mb1)) ∧
        SameBlockUserPrices (GetBlockUserPrices (.root mb1) 1)
          (GetBlockUserPrices (.child exampleChildApart (.root exampleBase)) 1) :=
  ⟨by decide, flush_preserves_merged_view exampleChildApart exampleBase 1
    (by unfold StdMap.Distinct; decide)
    (by unfold StdMap.Distinct; decide)
    (by
      intro h usersC usersB hc hne hb
      have e1 : heightsOf exampleChildApart 1 = [(4, []), (6, [(2, 20)])] := by decide
      have e2 : heightsOf exampleBase 1 = [(5, [(1, 10)])] := by decide
      rw [e1] at hc
      rw [e2] at hb
      by_cases h5 : h = 5
      · subst h5
        have hn : StdMap.find ([(4, []), (6, [(2, 20)])] : BlockUserPriceMap Nat) 5 = none := by
          decide
        rw [hn] at hc
        exact absurd hc (by simp)
      · have : StdMap.find ([(5, [(1, 10)])] : BlockUserPriceMap Nat) h = none := by
          have h5b : ¬ (5 : Int) = h := fun e => h5 e.symm
          simp [StdMap.find, h5, h5b]
        rw [this] at hb
        exact absurd hb (by simp))⟩

end MergedView

end pricefeeddb
